import Mathlib

/-!
# Compact rule-set compiler of text2speech001

A shallow embedding of `make_compact_ruleset.cpp` (the deduplicating blob
compiler for the letter-to-sound rule table) together with theorems about the
blob it produces.

Modelling conventions
* A byte vector (`std::vector<uint8_t>`, `std::string`) is a `List Nat`; every
  store of a narrower machine integer is written with an explicit `%`.
* `size_t` values are unbounded naturals (a vector never reaches `2^64` bytes).
* `std::set` / `std::map` are their sorted sequences of elements, built by
  ordered insertion with the container's comparator `lexLess`.
* A pointer that may be `NULL` is an `Option`; a rule group is the list of the
  `TTSRule` entries stored from the group's pointer on.  Reading past that list
  or dereferencing `NULL` is undefined behaviour and makes the model return
  `none`.
* The pointer array `_rules[27]` is a function from the index to the group; only
  the indices `0..26` are ever read.
* The host is little-endian (a `uint16_t` store writes the low byte first).
-/

namespace TTS

/-! ## Data model (`tts_rules.h`, `make_compact_ruleset.h`) -/

/-- Byte vector, `std::vector<uint8_t>`. -/
abbrev VEC_BYTE := List Nat

/-- Phoneme sequence of a rule: `_phone` holds the `_len` bytes found at the
pointer (each the phoneme code plus one). -/
structure PhonSeq where
  _phone : List Nat
deriving DecidableEq

/-- Number of phoneme bytes, the field `_len`. -/
def PhonSeq._len (p : PhonSeq) : Nat := p._phone.length

/-- One entry of a rule group.  The three context strings are C strings (the
bytes before the terminating NUL) or `NULL`. -/
structure TTSRule where
  _left : Option (List Nat)
  _bracket : Option (List Nat)
  _right : Option (List Nat)
  _phone : PhonSeq
deriving DecidableEq

/-- Deduplicated strings, `std::set<std::string>`, as the ascending sequence. -/
abbrev SET_STR := List (List Nat)
/-- Deduplicated phoneme sequences, `std::set<VEC_BYTE>`. -/
abbrev SET_BLOB := List VEC_BYTE
/-- Index of strings, `std::map<std::string,size_t>`, ascending by key. -/
abbrev MAP_STR_OFFSET := List (List Nat × Nat)
/-- Index of phoneme sequences, `std::map<VEC_BYTE,size_t>`. -/
abbrev MAP_BLOB_OFFSET := List (VEC_BYTE × Nat)

/-! ## Containers -/

/-- Comparator of both containers (`std::less` on `std::string` and on
`std::vector<uint8_t>`): lexicographic comparison of unsigned bytes, a proper
initial segment being smaller. -/
def lexLess : List Nat → List Nat → Bool
  | _, [] => false
  | [], _ :: _ => true
  | a :: as, b :: bs => if a < b then true else if b < a then false else lexLess as bs

/-- Insertion `std::set::insert`: ordered insertion, an equivalent element is
kept and the new one dropped. -/
def setInsert (v : List Nat) : List (List Nat) → List (List Nat)
  | [] => [v]
  | x :: xs =>
    if lexLess v x then v :: x :: xs
    else if lexLess x v then x :: setInsert v xs
    else x :: xs

/-- Insertion `std::map::insert`: ordered by key, an existing key keeps its
value. -/
def mapInsert (kv : List Nat × Nat) : List (List Nat × Nat) → List (List Nat × Nat)
  | [] => [kv]
  | x :: xs =>
    if lexLess kv.1 x.1 then kv :: x :: xs
    else if lexLess x.1 kv.1 then x :: mapInsert kv xs
    else x :: xs

/-- Search `std::map::find`: the value of the entry whose key is equivalent to
`k` under the comparator. -/
def mapFind (k : List Nat) : List (List Nat × Nat) → Option Nat
  | [] => none
  | x :: xs => if !lexLess k x.1 && !lexLess x.1 k then some x.2 else mapFind k xs

/-- Subscript `std::map::operator[]`: the value of `k`; an absent key is first
inserted with the value `0`. -/
def mapIndex (m : List (List Nat × Nat)) (k : List Nat) : Nat × List (List Nat × Nat) :=
  match mapFind k m with
  | some v => (v, m)
  | none => (0, mapInsert (k, 0) m)

/-! ## Byte-level helpers -/

/-- The lambda `[](uint8_t by) { return by - 1; }` stored back into a
`uint8_t`: subtraction of one modulo 256. -/
def unbias (by_ : Nat) : Nat := (by_ + 255) % 256

/-- The two bytes of a `uint16_t` object holding `v`, in memory order. -/
def bytes16 (v : Nat) : List Nat := [v % 256, v / 256 % 256]

/-- Load through a `uint16_t*` pointing at byte `pos` of the vector. -/
def read16 (abyBlob : VEC_BYTE) (pos : Nat) : Nat :=
  abyBlob.getD pos 0 + 256 * abyBlob.getD (pos + 1) 0

/-- Store through a `uint16_t*` pointing at byte `pos` of the vector. -/
def write16 (abyBlob : VEC_BYTE) (pos : Nat) (v : Nat) : VEC_BYTE :=
  (abyBlob.set pos (v % 256)).set (pos + 1) (v / 256 % 256)

/-- Resizing `std::vector::resize(n)`: cut to `n` elements or pad with zero. -/
def resize (abyBlob : VEC_BYTE) (n : Nat) : VEC_BYTE :=
  abyBlob.take n ++ List.replicate (n - abyBlob.length) 0

/-! ## `makeDeDups` -/

/-- The `while (NULL != pRule->_bracket)` loop of `makeDeDups` over one group. -/
def makeDeDups.scan : List TTSRule → SET_STR × SET_BLOB → Option (SET_STR × SET_BLOB)
  | [], _ => none
  | pRule :: rest, (strs, bins) =>
    match pRule._bracket with
    | none => some (strs, bins)
    | some bracket =>
      match pRule._left, pRule._right with
      | some left, some right =>
        let strs := setInsert left strs
        let strs := setInsert bracket strs
        let strs := setInsert right strs
        let abyPhon := pRule._phone._phone.map unbias
        let bins := setInsert abyPhon bins
        makeDeDups.scan rest (strs, bins)
      | _, _ => none

/-- Collect the deduplicated strings and phoneme sequences of all 27 groups. -/
def makeDeDups (_rules : Nat → List TTSRule) (strs : SET_STR) (bins : SET_BLOB) :
    Option (SET_STR × SET_BLOB) :=
  (List.range 27).foldlM (fun acc nIdx => makeDeDups.scan (_rules nIdx) acc) (strs, bins)

/-! ## `makeStringBlob`, `makePhonemeBlob` -/

/-- Append every string of the set, length byte first, and index its offset. -/
def makeStringBlob : VEC_BYTE → SET_STR → MAP_STR_OFFSET → VEC_BYTE × MAP_STR_OFFSET
  | abyBlob, [], strsidx => (abyBlob, strsidx)
  | abyBlob, str :: rest, strsidx =>
    let nIdx := abyBlob.length
    let abyBlob := abyBlob ++ [str.length % 256]
    let abyBlob := abyBlob ++ str
    makeStringBlob abyBlob rest (mapInsert (str, nIdx) strsidx)

/-- Append every phoneme sequence of the set, length byte first, and index its
offset. -/
def makePhonemeBlob : VEC_BYTE → SET_BLOB → MAP_BLOB_OFFSET → VEC_BYTE × MAP_BLOB_OFFSET
  | abyBlob, [], binsidx => (abyBlob, binsidx)
  | abyBlob, bin :: rest, binsidx =>
    let nIdx := abyBlob.length
    let abyBlob := abyBlob ++ [bin.length % 256]
    let abyBlob := if 0 ≠ bin.length then abyBlob ++ bin else abyBlob
    makePhonemeBlob abyBlob rest (mapInsert (bin, nIdx) binsidx)

/-! ## `makeRulesetBlob` -/

/-- The `while (NULL != pRule->_bracket)` loop of `makeRulesetBlob` over one
group: one 8-byte record per rule, holding the four index values. -/
def makeRulesetBlob.scan : List TTSRule → VEC_BYTE × MAP_STR_OFFSET × MAP_BLOB_OFFSET →
    Option (VEC_BYTE × MAP_STR_OFFSET × MAP_BLOB_OFFSET)
  | [], _ => none
  | pRule :: rest, (abyBlob, strsidx, binsidx) =>
    match pRule._bracket with
    | none => some (abyBlob, strsidx, binsidx)
    | some bracket =>
      match pRule._left, pRule._right with
      | some left, some right =>
        let (nLeft, strsidx) := mapIndex strsidx left
        let nIdxLeft := nLeft % 65536
        let (nBracket, strsidx) := mapIndex strsidx bracket
        let nIdxBracket := nBracket % 65536
        let (nRight, strsidx) := mapIndex strsidx right
        let nIdxRight := nRight % 65536
        let phone := pRule._phone._phone.map unbias
        let (nPhoneme, binsidx) := mapIndex binsidx phone
        let nIdxPhoneme := nPhoneme % 65536
        let abyBlob := abyBlob ++ bytes16 nIdxLeft
        let abyBlob := abyBlob ++ bytes16 nIdxBracket
        let abyBlob := abyBlob ++ bytes16 nIdxRight
        let abyBlob := abyBlob ++ bytes16 nIdxPhoneme
        makeRulesetBlob.scan rest (abyBlob, strsidx, binsidx)
      | _, _ => none

/-- The inner `for (nIterVal = 0; nIterVal < 4; ++nIterVal)` loop of the fixup:
`n` values starting at `nIdxRule` get the data offset added. -/
def makeRulesetBlob.fixupVals (nIdxDataOffset : Nat) : Nat → Nat × VEC_BYTE → Nat × VEC_BYTE
  | 0, s => s
  | n + 1, (nIdxRule, abyBlob) =>
    let val := read16 abyBlob nIdxRule
    makeRulesetBlob.fixupVals nIdxDataOffset n
      (nIdxRule + 2, write16 abyBlob nIdxRule ((val + nIdxDataOffset) % 65536))

/-- The outer `for (nIdxRule = nIdxRuleOffset; nIdxRule < nIdxDataOffset; )`
loop of the fixup.  `fuel` bounds the number of tests of the loop condition;
`none` means the bound was too small. -/
def makeRulesetBlob.fixup (nIdxDataOffset : Nat) : Nat → Nat → VEC_BYTE → Option VEC_BYTE
  | 0, _, _ => none
  | fuel + 1, nIdxRule, abyBlob =>
    if nIdxRule < nIdxDataOffset then
      let s := makeRulesetBlob.fixupVals nIdxDataOffset 4 (nIdxRule, abyBlob)
      makeRulesetBlob.fixup nIdxDataOffset fuel s.1 s.2
    else some abyBlob

/-- Assemble the blob: group table, rule records, data blob, then the fixup of
the record values.  The loop variable of the fixup grows at every round and is
bounded by `nIdxDataOffset`, which gives the fuel. -/
def makeRulesetBlob (_rules : Nat → List TTSRule) (abyBlob abyDataBlob : VEC_BYTE)
    (strsidx : MAP_STR_OFFSET) (binsidx : MAP_BLOB_OFFSET) :
    Option (VEC_BYTE × MAP_STR_OFFSET × MAP_BLOB_OFFSET) :=
  let abyBlob := resize abyBlob ((27 + 1) * 2)
  let nIdxRuleOffset := abyBlob.length % 65536
  match (List.range 27).foldlM
      (fun (s : VEC_BYTE × MAP_STR_OFFSET × MAP_BLOB_OFFSET) nIdxGroup =>
        makeRulesetBlob.scan (_rules nIdxGroup)
          (write16 s.1 (nIdxGroup * 2) (s.1.length % 65536), s.2.1, s.2.2))
      (abyBlob, strsidx, binsidx) with
  | none => none
  | some (abyBlob, strsidx, binsidx) =>
    let nIdxDataOffset := abyBlob.length % 65536
    let abyBlob := write16 abyBlob (27 * 2) nIdxDataOffset
    let abyBlob := abyBlob ++ abyDataBlob
    match makeRulesetBlob.fixup nIdxDataOffset (nIdxDataOffset + 1) nIdxRuleOffset abyBlob with
    | none => none
    | some abyBlob => some (abyBlob, strsidx, binsidx)

/-! ### The two stages of `makeRulesetBlob`, and the fixup loop with a log of its stores -/

/-- The layout and append stages of `makeRulesetBlob`, everything in front of
the fixup loop: the blob so far, `nIdxRuleOffset`, `nIdxDataOffset` and the two
indices. -/
def makeRulesetBlob.layout (_rules : Nat → List TTSRule) (abyBlob abyDataBlob : VEC_BYTE)
    (strsidx : MAP_STR_OFFSET) (binsidx : MAP_BLOB_OFFSET) :
    Option (VEC_BYTE × Nat × Nat × MAP_STR_OFFSET × MAP_BLOB_OFFSET) :=
  let abyBlob := resize abyBlob ((27 + 1) * 2)
  let nIdxRuleOffset := abyBlob.length % 65536
  match (List.range 27).foldlM
      (fun (s : VEC_BYTE × MAP_STR_OFFSET × MAP_BLOB_OFFSET) nIdxGroup =>
        makeRulesetBlob.scan (_rules nIdxGroup)
          (write16 s.1 (nIdxGroup * 2) (s.1.length % 65536), s.2.1, s.2.2))
      (abyBlob, strsidx, binsidx) with
  | none => none
  | some (abyBlob, strsidx, binsidx) =>
    let nIdxDataOffset := abyBlob.length % 65536
    let abyBlob := write16 abyBlob (27 * 2) nIdxDataOffset
    let abyBlob := abyBlob ++ abyDataBlob
    some (abyBlob, nIdxRuleOffset, nIdxDataOffset, strsidx, binsidx)

/-- The inner fixup loop with a log of the addresses it stores to. -/
def makeRulesetBlob.fixupValsLog (nIdxDataOffset : Nat) :
    Nat → Nat × VEC_BYTE × List Nat → Nat × VEC_BYTE × List Nat
  | 0, s => s
  | n + 1, (nIdxRule, abyBlob, log) =>
    let val := read16 abyBlob nIdxRule
    makeRulesetBlob.fixupValsLog nIdxDataOffset n
      (nIdxRule + 2, write16 abyBlob nIdxRule ((val + nIdxDataOffset) % 65536),
        log ++ [nIdxRule])

/-- The outer fixup loop with a log of the addresses it stores to. -/
def makeRulesetBlob.fixupLog (nIdxDataOffset : Nat) :
    Nat → Nat → VEC_BYTE → List Nat → Option (VEC_BYTE × List Nat)
  | 0, _, _, _ => none
  | fuel + 1, nIdxRule, abyBlob, log =>
    if nIdxRule < nIdxDataOffset then
      let s := makeRulesetBlob.fixupValsLog nIdxDataOffset 4 (nIdxRule, abyBlob, log)
      makeRulesetBlob.fixupLog nIdxDataOffset fuel s.1 s.2.1 s.2.2
    else some (abyBlob, log)


/-! ## `make_compact_ruleset` -/

/-- Do the whole thing: the blob left in the caller's vector `abyBlob`. -/
def make_compact_ruleset (_rules : Nat → List TTSRule) (abyBlob : VEC_BYTE) : Option VEC_BYTE :=
  match makeDeDups _rules [] [] with
  | none => none
  | some (strs, bins) =>
    let s := makeStringBlob [] strs []
    let p := makePhonemeBlob s.1 bins []
    match makeRulesetBlob _rules abyBlob p.1 s.2 p.2 with
    | none => none
    | some r => some r.1

/-! ## Vocabulary of the specification

The definitions below are not code of the repository: they name what the
claims speak about (the rules of a group, a well-formed table, the consumer's
way of reading the blob) and the closed form of the blob used in the proofs. -/

/-- Strictly ascending under the comparator: the order in which a set is
iterated. -/
def Ascending (s : List (List Nat)) : Prop := s.Pairwise (fun a b => lexLess a b = true)

/-- The rules of a group: the entries in front of the first entry whose
`_bracket` is `NULL`. -/
def groupRules : List TTSRule → List TTSRule
  | [] => []
  | e :: rest =>
    match e._bracket with
    | none => []
    | some _ => e :: groupRules rest

/-- A group the loops can scan without undefined behaviour: it has a sentinel
and every entry in front of it has non-null `_left` and `_right`. -/
def wellFormedGroup : List TTSRule → Bool
  | [] => false
  | e :: rest =>
    match e._bracket with
    | none => true
    | some _ => e._left.isSome && e._right.isSome && wellFormedGroup rest

/-- A rule table all of whose 27 groups are well formed. -/
def WellFormed (_rules : Nat → List TTSRule) : Prop :=
  ∀ g, g < 27 → wellFormedGroup (_rules g) = true

instance (_rules : Nat → List TTSRule) : Decidable (WellFormed _rules) := by
  unfold WellFormed; infer_instance

/-- The rules of the groups `0 .. n-1`, in table order. -/
def rulesUpTo (_rules : Nat → List TTSRule) (n : Nat) : List TTSRule :=
  (List.range n).flatMap (fun g => groupRules (_rules g))

/-- All rules of the table, in table order. -/
def allRules (_rules : Nat → List TTSRule) : List TTSRule := rulesUpTo _rules 27

/-- The left context string of a rule. -/
def TTSRule.left (e : TTSRule) : List Nat := e._left.getD []
/-- The bracket string of a rule. -/
def TTSRule.bracket (e : TTSRule) : List Nat := e._bracket.getD []
/-- The right context string of a rule. -/
def TTSRule.right (e : TTSRule) : List Nat := e._right.getD []
/-- The un-biased phoneme sequence of a rule. -/
def TTSRule.phonemes (e : TTSRule) : List Nat := e._phone._phone.map unbias

/-- Value of field `f` of a rule: left, bracket, right, un-biased phonemes. -/
def TTSRule.value (e : TTSRule) (f : Nat) : List Nat :=
  match f with
  | 0 => e.left
  | 1 => e.bracket
  | 2 => e.right
  | _ => e.phonemes

/-- Every context string and phoneme sequence of the table has at most 255
bytes. -/
def ValuesFit (_rules : Nat → List TTSRule) : Prop :=
  ∀ e ∈ allRules _rules, ∀ f, f < 4 → (e.value f).length ≤ 255

instance (_rules : Nat → List TTSRule) : Decidable (ValuesFit _rules) := by
  unfold ValuesFit; infer_instance

/-- Entry `g` of the group table, as a consumer reads it. -/
def tableEntry (blob : VEC_BYTE) (g : Nat) : Nat := read16 blob (2 * g)

/-- Field `f` of rule `r` of group `g`, as a consumer reads it: the 16-bit
value at `table[g] + r*8 + f*2`. -/
def fieldAt (blob : VEC_BYTE) (g r f : Nat) : Nat :=
  read16 blob (tableEntry blob g + 8 * r + 2 * f)

/-- The length-prefixed value at offset `o`: the length byte `L` at `o` and the
`L` bytes after it. -/
def readValue (blob : VEC_BYTE) (o : Nat) : List Nat :=
  (blob.drop (o + 1)).take (blob.getD o 0)

/-- The rule record at byte address `addr`, decoded as a consumer does: the
four values its four 16-bit fields point to. -/
def decodeRule (blob : VEC_BYTE) (addr : Nat) : List (List Nat) :=
  (List.range 4).map (fun f => readValue blob (read16 blob (addr + 2 * f)))

/-- The records at the byte addresses in `[table[g], table[g+1])`, decoded in
increasing address order. -/
def decodeGroup (blob : VEC_BYTE) (g : Nat) : List (List (List Nat)) :=
  (List.range ((tableEntry blob (g + 1) - tableEntry blob g) / 8)).map
    (fun r => decodeRule blob (tableEntry blob g + 8 * r))

/-- The data blob handed to `makeRulesetBlob` by `make_compact_ruleset`. -/
def dataBlobOf (strs : SET_STR) (bins : SET_BLOB) : VEC_BYTE :=
  (makePhonemeBlob (makeStringBlob [] strs []).1 bins []).1

/-- Concatenation, for each value in turn, of one length byte `L` and the `L`
bytes of the value. -/
def lengthPrefixed (s : List (List Nat)) : List Nat := s.flatMap (fun v => v.length :: v)

/-- The byte string `x` is the left, bracket or right string of some rule. -/
def IsContextString (_rules : Nat → List TTSRule) (x : List Nat) : Prop :=
  ∃ e ∈ allRules _rules, x = e.left ∨ x = e.bracket ∨ x = e.right

/-- The byte string `x` is the un-biased phoneme sequence of some rule. -/
def IsPhonemeSeq (_rules : Nat → List TTSRule) (x : List Nat) : Prop :=
  ∃ e ∈ allRules _rules, x = e.phonemes

/-- The bytes of the blob from `table[27]` to the end are the length-prefixed
distinct context strings in ascending order followed by the length-prefixed
distinct phoneme sequences in ascending order. -/
def DataRegionLayout (_rules : Nat → List TTSRule) (blob : VEC_BYTE) : Prop :=
  ∃ S P, Ascending S ∧ (∀ x, x ∈ S ↔ IsContextString _rules x) ∧
    Ascending P ∧ (∀ x, x ∈ P ↔ IsPhonemeSeq _rules x) ∧
    blob.drop (tableEntry blob 27) = lengthPrefixed S ++ lengthPrefixed P

/-- Parse a byte sequence as consecutive length-prefixed entries (one length
byte `L`, then `L` bytes); `none` when the bytes do not end exactly at the end
of an entry.  `fuel` bounds the number of entries. -/
def parseEntries : Nat → List Nat → Option (List (List Nat))
  | _, [] => some []
  | 0, _ :: _ => none
  | fuel + 1, L :: rest =>
    if L ≤ rest.length then (parseEntries fuel (rest.drop L)).map (fun es => rest.take L :: es)
    else none

/-- The offset recorded for field `f` of a rule in the index built by
`make_compact_ruleset`: the string index for left, bracket and right, the
phoneme index for the un-biased phoneme sequence. -/
def indexLookup (strs : SET_STR) (bins : SET_BLOB) (e : TTSRule) (f : Nat) : Option Nat :=
  if f < 3 then mapFind (e.value f) (makeStringBlob [] strs []).2
  else mapFind e.phonemes (makePhonemeBlob (makeStringBlob [] strs []).1 bins []).2


/-- What one round of the `makeRulesetBlob` loop does to the blob and the two
indices. -/
def rulesetStep (s : VEC_BYTE × MAP_STR_OFFSET × MAP_BLOB_OFFSET) (e : TTSRule) :
    VEC_BYTE × MAP_STR_OFFSET × MAP_BLOB_OFFSET :=
  let l := mapIndex s.2.1 e.left
  let b := mapIndex l.2 e.bracket
  let r := mapIndex b.2 e.right
  let p := mapIndex s.2.2 e.phonemes
  (s.1 ++ bytes16 (l.1 % 65536) ++ bytes16 (b.1 % 65536) ++ bytes16 (r.1 % 65536)
    ++ bytes16 (p.1 % 65536), r.2, p.2)

/-- Every entry is a rule: no pointer of it is null. -/
def OnlyRules (g : List TTSRule) : Prop :=
  ∀ e ∈ g, e._bracket.isSome = true ∧ e._left.isSome = true ∧ e._right.isSome = true


instance (g : List TTSRule) : Decidable (OnlyRules g) := by
  unfold OnlyRules; infer_instance

/-- The contract of the index built by `makeStringBlob` / `makePhonemeBlob` from
the set `vals` on the initial buffer `abyBlob`, for the returned buffer and
index `res`: the index maps the values of the set and nothing else; a value
is mapped to the buffer size at the moment its length byte was appended
(the initial size plus `1 + length` for every value in front of it), and the
buffer holds there the length of the value followed by its bytes. -/
def IndexContract (abyBlob : VEC_BYTE) (vals : List (List Nat))
    (res : VEC_BYTE × List (List Nat × Nat)) : Prop :=
  (∀ v, v ∈ vals ↔ ∃ o, mapFind v res.2 = some o) ∧
  (∀ v o, mapFind v res.2 = some o →
    res.1.getD o 0 = v.length ∧ (res.1.drop (o + 1)).take v.length = v ∧
    ∃ before after, vals = before ++ v :: after ∧
      o = abyBlob.length + (before.map (fun u => 1 + u.length)).sum)

/-! ### Closed form of the blob -/

/-- What one round of the `makeDeDups` loop does to the two sets. -/
def dedupStep (acc : SET_STR × SET_BLOB) (e : TTSRule) : SET_STR × SET_BLOB :=
  (setInsert e.right (setInsert e.bracket (setInsert e.left acc.1)), setInsert e.phonemes acc.2)

/-- The two sets collected from a list of rules, starting from empty sets. -/
def dedupSets (rs : List TTSRule) : SET_STR × SET_BLOB := rs.foldl dedupStep ([], [])

/-- Length-prefixed concatenation of a sequence of values. -/
def encAll (s : List (List Nat)) : List Nat := s.flatMap (fun v => (v.length % 256) :: v)

/-- The index built while appending the values `s` to a buffer of size `base`. -/
def offsets (base : Nat) : List (List Nat) → List (List Nat × Nat)
  | [] => []
  | v :: rest => (v, base) :: offsets (base + (v.length + 1)) rest

/-- Offset of the entry of `s` inside `encAll` of the sequence. -/
def offsetOf (s : List Nat) : List (List Nat) → Nat
  | [] => 0
  | v :: rest => if v = s then 0 else 1 + v.length + offsetOf s rest

/-- The four 16-bit values of a rule record as the layout stage writes them. -/
def fieldsOf (strsidx : MAP_STR_OFFSET) (binsidx : MAP_BLOB_OFFSET) (e : TTSRule) : List Nat :=
  [(mapFind e.left strsidx).getD 0 % 65536, (mapFind e.bracket strsidx).getD 0 % 65536,
   (mapFind e.right strsidx).getD 0 % 65536, (mapFind e.phonemes binsidx).getD 0 % 65536]

/-- Memory image of a sequence of 16-bit values. -/
def recordBytes (r : List Nat) : List Nat := r.flatMap bytes16

/-- Memory image of the records of a list of rules after the layout stage. -/
def recordsOf (strsidx : MAP_STR_OFFSET) (binsidx : MAP_BLOB_OFFSET) (rs : List TTSRule) :
    List Nat :=
  rs.flatMap (fun e => recordBytes (fieldsOf strsidx binsidx e))

/-- Effect of the fixup loop on the records found from byte `nIdxRule` on: a
record gets the data offset added while its address is below that offset. -/
def fixRecs (nIdxDataOffset : Nat) : Nat → List (List Nat) → List (List Nat)
  | _, [] => []
  | nIdxRule, r :: rs =>
    if nIdxRule < nIdxDataOffset then
      r.map (fun v => (v + nIdxDataOffset) % 65536) :: fixRecs nIdxDataOffset (nIdxRule + 8) rs
    else r :: rs

/-- Memory image of the first `n` entries of the group table. -/
def tableUpTo (_rules : Nat → List TTSRule) (n : Nat) : List Nat :=
  (List.range n).flatMap (fun g => bytes16 ((56 + 8 * (rulesUpTo _rules g).length) % 65536))

/-- Every key looked up for the rules `rs` is in the two indices. -/
def KeysIn (strsidx : MAP_STR_OFFSET) (binsidx : MAP_BLOB_OFFSET) (rs : List TTSRule) : Prop :=
  ∀ e ∈ rs, (mapFind e.left strsidx).isSome ∧ (mapFind e.bracket strsidx).isSome ∧
    (mapFind e.right strsidx).isSome ∧ (mapFind e.phonemes binsidx).isSome

/-- A record of the rule region: four values, each a 16-bit number. -/
def IsRecord (r : List Nat) : Prop := r.length = 4 ∧ ∀ v ∈ r, v < 65536

/-- The deduplicated context strings of the table, ascending. -/
def strsOf (_rules : Nat → List TTSRule) : SET_STR := (dedupSets (allRules _rules)).1
/-- The deduplicated un-biased phoneme sequences of the table, ascending. -/
def binsOf (_rules : Nat → List TTSRule) : SET_BLOB := (dedupSets (allRules _rules)).2
/-- The string index of the table. -/
def strsidxOf (_rules : Nat → List TTSRule) : MAP_STR_OFFSET := offsets 0 (strsOf _rules)
/-- The phoneme index of the table. -/
def binsidxOf (_rules : Nat → List TTSRule) : MAP_BLOB_OFFSET :=
  offsets (encAll (strsOf _rules)).length (binsOf _rules)
/-- The data blob of the table: strings, then phoneme sequences. -/
def dataOf (_rules : Nat → List TTSRule) : VEC_BYTE :=
  encAll (strsOf _rules) ++ encAll (binsOf _rules)
/-- The value of `nIdxDataOffset` for the table. -/
def dataOffsetOf (_rules : Nat → List TTSRule) : Nat := (56 + 8 * (allRules _rules).length) % 65536
/-- The rule records of the table after the fixup. -/
def recordValues (_rules : Nat → List TTSRule) : List (List Nat) :=
  fixRecs (dataOffsetOf _rules) 56
    ((allRules _rules).map (fieldsOf (strsidxOf _rules) (binsidxOf _rules)))
/-- Closed form of the blob of a well-formed table. -/
def blobOf (_rules : Nat → List TTSRule) : VEC_BYTE :=
  tableUpTo _rules 28 ++ (recordValues _rules).flatMap recordBytes ++ dataOf _rules

/-- All 16-bit words of the blob in front of the data region. -/
def wordsOf (_rules : Nat → List TTSRule) : List Nat :=
  (List.range 28).map (fun g => (56 + 8 * (rulesUpTo _rules g).length) % 65536)
    ++ (recordValues _rules).flatten

/-- Offset of field `f` of a rule relative to the start of the data blob. -/
def relOffset (_rules : Nat → List TTSRule) (e : TTSRule) (f : Nat) : Nat :=
  if f < 3 then offsetOf (e.value f) (strsOf _rules)
  else (encAll (strsOf _rules)).length + offsetOf e.phonemes (binsOf _rules)

/-! ### Example tables -/

/-- The sentinel entry `{ NULL, NULL, NULL, { NULL, 0 } }`. -/
def sentinel : TTSRule := ⟨none, none, none, ⟨[]⟩⟩

/-- A small table: one rule in group 0, two rules in group 3. -/
def smallTable : Nat → List TTSRule := fun g =>
  if g = 0 then [⟨some [], some [32], some [], ⟨[4, 3]⟩⟩, sentinel]
  else if g = 3 then
    [⟨some [36], some [97], some [36], ⟨[8, 21]⟩⟩, ⟨some [], some [97, 98], some [32], ⟨[]⟩⟩,
      sentinel]
  else [sentinel]

/-- A rule of the large example table. -/
def bigRule : TTSRule := ⟨some [], some [97], some [], ⟨[25]⟩⟩

/-- A large table: group 0 holds 8185 rules, the other groups are empty.  Its
rule records end at byte `56 + 8 * 8185 = 65536`. -/
def bigTable : Nat → List TTSRule := fun g =>
  if g = 0 then List.replicate 8185 bigRule ++ [sentinel] else [sentinel]

/-- A rule whose left context is 256 times the letter `a`. -/
def longRule : TTSRule := ⟨some (List.replicate 256 97), some [98], some [], ⟨[25]⟩⟩

/-- A table with a 256-byte context string: group 0 holds `longRule`, the other
groups are empty. -/
def longTable : Nat → List TTSRule := fun g =>
  if g = 0 then [longRule, sentinel] else [sentinel]


/-- The empty table: every group holds only the sentinel. -/
def emptyTable : Nat → List TTSRule := fun _ => [sentinel]

/-- The single-rule table: group 0 holds the rule with left `""`, bracket
`" "`, right `""` and the phoneme bytes `04 03`; the other groups are empty. -/
def singleRuleTable : Nat → List TTSRule := fun g =>
  if g = 0 then [⟨some [], some [32], some [], ⟨[4, 3]⟩⟩, sentinel] else [sentinel]


/-- A rule sequence without end marker: one rule and no sentinel behind it. -/
def unterminatedGroup : List TTSRule := [⟨some [], some [32], some [], ⟨[4, 3]⟩⟩]

/-- A table whose group 0 has no end marker and nothing stored behind it. -/
def unterminatedTable : Nat → List TTSRule := fun g =>
  if g = 0 then unterminatedGroup else [sentinel]

/-- The same table when the memory behind group 0 holds another rule and then a
null bracket (the start of a neighbouring array, say). -/
def overrunTable : Nat → List TTSRule := fun g =>
  if g = 0 then unterminatedGroup ++ [⟨some [36], some [97], some [36], ⟨[8, 21]⟩⟩, sentinel]
  else [sentinel]

/-- The rules of `smallTable` in another arrangement: other groups, another
order, and one rule twice. -/
def shuffledTable : Nat → List TTSRule := fun g =>
  if g = 1 then
    [⟨some [], some [97, 98], some [32], ⟨[]⟩⟩, ⟨some [], some [32], some [], ⟨[4, 3]⟩⟩,
      ⟨some [], some [97, 98], some [32], ⟨[]⟩⟩, sentinel]
  else if g = 26 then [⟨some [36], some [97], some [36], ⟨[8, 21]⟩⟩, sentinel]
  else [sentinel]

/-- A group whose end marker has a null bracket only, with further entries
stored behind it. -/
def markedGroup : List TTSRule :=
  [⟨some [36], some [97], some [36], ⟨[8, 21]⟩⟩, ⟨some [], some [97, 98], some [32], ⟨[]⟩⟩,
    ⟨some [120], none, some [121], ⟨[9]⟩⟩, ⟨some [122], some [122], some [122], ⟨[7]⟩⟩, sentinel]

/-- A table like `smallTable` whose group 3 is `markedGroup`. -/
def markedTable : Nat → List TTSRule := fun g =>
  if g = 0 then [⟨some [], some [32], some [], ⟨[4, 3]⟩⟩, sentinel]
  else if g = 3 then markedGroup
  else [sentinel]

/-! ## `analyze` (`text2speech001.cpp`) -/

/-- The local variables of `analyze`: the two sets and the seven counters
(`size_t`, taken as unbounded). -/
structure analyze.Locals where
  strs : SET_STR
  bins : SET_BLOB
  nRules : Nat
  nStrs : Nat
  nStrsLen : Nat
  nStrLongest : Nat
  nBins : Nat
  nBinsLen : Nat
  nBinLongest : Nat
deriving DecidableEq

/-- The numbers `analyze` prints, named by their labels in the output. -/
structure analyze.Report where
  Rules : Nat
  strs : Nat
  bins : Nat
  dstrs : Nat
  dbins : Nat
  strlen : Nat
  binlen : Nat
  dstrlen : Nat
  dbinlen : Nat
  strlongest : Nat
  binlongest : Nat
deriving DecidableEq

/-- The `while (NULL != pRule->_bracket)` loop of `analyze` over one group.
The phoneme bytes go into the set as they are in the table (biased). -/
def analyze.scan : List TTSRule → analyze.Locals → Option analyze.Locals
  | [], _ => none
  | pRule :: rest, v =>
    match pRule._bracket with
    | none => some v
    | some bracket =>
      match pRule._left, pRule._right with
      | some left, some right =>
        let nRules := v.nRules + 1
        let nStrs := v.nStrs + 3
        let nBins := v.nBins + 1
        let nStrsLen := v.nStrsLen + (left.length + 1)
        let nStrLongest := if v.nStrLongest < left.length then left.length else v.nStrLongest
        let nStrsLen := nStrsLen + (bracket.length + 1)
        let nStrLongest := if nStrLongest < bracket.length then bracket.length else nStrLongest
        let nStrsLen := nStrsLen + (right.length + 1)
        let nStrLongest := if nStrLongest < right.length then right.length else nStrLongest
        let nBinsLen := v.nBinsLen + (pRule._phone._len + 1)
        let nBinLongest :=
          if v.nBinLongest < pRule._phone._len then pRule._phone._len else v.nBinLongest
        let strs := setInsert left v.strs
        let strs := setInsert bracket strs
        let strs := setInsert right strs
        let bins := setInsert pRule._phone._phone v.bins
        analyze.scan rest
          ⟨strs, bins, nRules, nStrs, nStrsLen, nStrLongest, nBins, nBinsLen, nBinLongest⟩
      | _, _ => none

/-- The statistics `analyze` prints for the table. -/
def analyze (_rules : Nat → List TTSRule) : Option analyze.Report :=
  match (List.range 27).foldlM (fun v nIdxRuleSec => analyze.scan (_rules nIdxRuleSec) v)
      ⟨[], [], 0, 0, 0, 0, 0, 0, 0⟩ with
  | none => none
  | some v =>
    let nDStrsLen := v.strs.foldl (fun n str => n + (str.length + 1)) 0
    let nDBinsLen := v.bins.foldl (fun n bin => n + (bin.length + 1)) 0
    some ⟨v.nRules, v.nStrs, v.nBins, v.strs.length, v.bins.length, v.nStrsLen, v.nBinsLen,
      nDStrsLen, nDBinsLen, v.nStrLongest, v.nBinLongest⟩

/-- One pass of the loop body of `analyze` for a rule with non-null strings. -/
def analyzeStep (v : analyze.Locals) (e : TTSRule) : analyze.Locals :=
  ⟨setInsert e.right (setInsert e.bracket (setInsert e.left v.strs)),
   setInsert e._phone._phone v.bins,
   v.nRules + 1, v.nStrs + 3,
   v.nStrsLen + (e.left.length + 1) + (e.bracket.length + 1) + (e.right.length + 1),
   max (max (max v.nStrLongest e.left.length) e.bracket.length) e.right.length,
   v.nBins + 1, v.nBinsLen + (e._phone._len + 1), max v.nBinLongest e._phone._len⟩

/-- The locals of `analyze` after the scan of a well-formed table. -/
def analyzeLocals (_rules : Nat → List TTSRule) : analyze.Locals :=
  (allRules _rules).foldl analyzeStep ⟨[], [], 0, 0, 0, 0, 0, 0, 0⟩

/-- Every phoneme byte of the table is a byte (`uint8_t`). -/
def PhonemeBytes (_rules : Nat → List TTSRule) : Prop :=
  ∀ e ∈ allRules _rules, ∀ b ∈ e._phone._phone, b < 256

instance (_rules : Nat → List TTSRule) : Decidable (PhonemeBytes _rules) := by
  unfold PhonemeBytes; infer_instance

/-! ## The emission part of `main` (`text2speech001.cpp`) -/

/-- One insertion into `std::cout`: a string, a number (with the base and the
fill character in force and the width set for this insertion), or
`std::endl`. -/
inductive Out where
  | text (s : String)
  | num (base width : Nat) (fill : Char) (n : Nat)
  | endl
deriving DecidableEq

/-- The loop `for (nIter = 0; nIter < 16 && nIdxBlob < abyBlob.size(); ++nIter)`
of `main`; returns `nIdxBlob` and the output. -/
def main.row (abyBlob : VEC_BYTE) : Nat → Nat → Nat → List Out → Option (Nat × List Out)
  | 0, _, _, _ => none
  | fuel + 1, nIter, nIdxBlob, out =>
    if nIter < 16 ∧ nIdxBlob < abyBlob.length then
      main.row abyBlob fuel (nIter + 1) (nIdxBlob + 1)
        (out ++ [Out.text "0x", Out.num 16 2 '0' (abyBlob.getD nIdxBlob 0), Out.text ", "])
    else some (nIdxBlob, out)

/-- The loop `for (nIdxBlob = 0; nIdxBlob < abyBlob.size(); )` of `main`. -/
def main.dump (abyBlob : VEC_BYTE) : Nat → Nat → List Out → Option (List Out)
  | 0, _, _ => none
  | fuel + 1, nIdxBlob, out =>
    if nIdxBlob < abyBlob.length then
      match main.row abyBlob 17 0 nIdxBlob
          (out ++ [Out.text "/*", Out.num 16 4 '0' nIdxBlob, Out.text "*/  "]) with
      | none => none
      | some (nIdxBlob, out) => main.dump abyBlob fuel nIdxBlob (out ++ [Out.endl])
    else some out

/-- The output of `main` from the header guard to the closing brace, for the
blob `abyBlob`.  The sizes are printed in the initial state of the stream
(decimal, no width); `std::hex` and `std::setfill` hold during the dump. -/
def main.emit (abyBlob : VEC_BYTE) : Option (List Out) :=
  let out : List Out :=
    [Out.text "#ifndef __TTS_RULES_COMPACT_H", Out.endl,
     Out.text "#define __TTS_RULES_COMPACT_H", Out.endl, Out.endl,
     Out.text "#ifdef __cplusplus", Out.endl,
     Out.text "extern \"C\" \x7b", Out.endl,
     Out.text "#endif", Out.endl, Out.endl,
     Out.text "#include <stdint.h>", Out.endl, Out.endl,
     Out.text "extern const uint8_t g_abyTTS[", Out.num 10 0 ' ' abyBlob.length, Out.text "];",
     Out.endl, Out.endl,
     Out.text "#ifdef __cplusplus", Out.endl,
     Out.text "\x7d", Out.endl,
     Out.text "#endif", Out.endl, Out.endl,
     Out.text "#endif", Out.endl,
     Out.text "#include \"tts_rules_compact.h\"", Out.endl,
     Out.text "const uint8_t g_abyTTS[", Out.num 10 0 ' ' abyBlob.length, Out.text "] = \x7b",
     Out.endl]
  match main.dump abyBlob (abyBlob.length + 1) 0 out with
  | none => none
  | some out => some (out ++ [Out.text "\x7d;", Out.endl])

/-- The output in front of the dump, for an array of `size` bytes. -/
def emitHead (size : Nat) : List Out :=
  [Out.text "#ifndef __TTS_RULES_COMPACT_H", Out.endl,
   Out.text "#define __TTS_RULES_COMPACT_H", Out.endl, Out.endl,
   Out.text "#ifdef __cplusplus", Out.endl,
   Out.text "extern \"C\" \x7b", Out.endl,
   Out.text "#endif", Out.endl, Out.endl,
   Out.text "#include <stdint.h>", Out.endl, Out.endl,
   Out.text "extern const uint8_t g_abyTTS[", Out.num 10 0 ' ' size, Out.text "];",
   Out.endl, Out.endl,
   Out.text "#ifdef __cplusplus", Out.endl,
   Out.text "\x7d", Out.endl,
   Out.text "#endif", Out.endl, Out.endl,
   Out.text "#endif", Out.endl,
   Out.text "#include \"tts_rules_compact.h\"", Out.endl,
   Out.text "const uint8_t g_abyTTS[", Out.num 10 0 ' ' size, Out.text "] = \x7b",
   Out.endl]

/-- One element of the dump: `0x`, the byte as two hexadecimal digits, and a
comma. -/
def emitElement (b : Nat) : List Out := [Out.text "0x", Out.num 16 2 '0' b, Out.text ", "]

/-- The lines of the dump for the rows of bytes `rows`, the first byte having
the index `idx`: the index as a comment, one element per byte, end of line. -/
def emitRows (idx : Nat) : List (List Nat) → List Out
  | [] => []
  | row :: rest =>
    [Out.text "/*", Out.num 16 4 '0' idx, Out.text "*/  "] ++ row.flatMap emitElement
      ++ [Out.endl] ++ emitRows (idx + row.length) rest

/-! ## The rule table (`tts_rules.h`, `tts_rules.c`) -/

/-- The bytes of a string of ASCII characters. -/
def bytesOf (s : String) : List Nat := s.toList.map Char.toNat

/-- A string literal as a `const char*`: the bytes in front of the terminating
NUL. -/
def cstr (s : String) : Option (List Nat) := some (bytesOf s)

/-- The context string `Anything`. -/
def Anything : String := ""
/-- The context string `Nothing`. -/
def Nothing : String := "$"

/-- The initializer `PHONESEQ(a)`, that is `{ a, sizeof(a)-1 }`. -/
def PHONESEQ (a : List Nat) : PhonSeq := ⟨a⟩
/-- The initializer `Silent`, that is `{ "", 0 }`. -/
def Silent : PhonSeq := ⟨[]⟩

/-! The phoneme codes, each the string of one byte (the code plus one). -/

def PA1 : List Nat := [0x01]
def PA2 : List Nat := [0x02]
def PA3 : List Nat := [0x03]
def PA4 : List Nat := [0x04]
def PA5 : List Nat := [0x05]
def OY : List Nat := [0x06]
def AY : List Nat := [0x07]
def EH : List Nat := [0x08]
def KK3 : List Nat := [0x09]
def PP : List Nat := [0x0a]
def JH : List Nat := [0x0b]
def NN1 : List Nat := [0x0c]
def IH : List Nat := [0x0d]
def TT2 : List Nat := [0x0e]
def RR1 : List Nat := [0x0f]
def AX : List Nat := [0x0f]
def AH : List Nat := [0x10]
def MM : List Nat := [0x11]
def TT1 : List Nat := [0x12]
def DH1 : List Nat := [0x13]
def IY : List Nat := [0x14]
def EY : List Nat := [0x15]
def DD1 : List Nat := [0x16]
def UW1 : List Nat := [0x17]
def AO : List Nat := [0x18]
def AA : List Nat := [0x19]
def YY2 : List Nat := [0x1a]
def AE : List Nat := [0x1b]
def HH1 : List Nat := [0x1c]
def BB1 : List Nat := [0x1d]
def TH : List Nat := [0x1e]
def UH : List Nat := [0x1f]
def UW2 : List Nat := [0x20]
def AW : List Nat := [0x21]
def DD2 : List Nat := [0x22]
def GG3 : List Nat := [0x23]
def VV : List Nat := [0x24]
def GG1 : List Nat := [0x25]
def SH : List Nat := [0x26]
def ZH : List Nat := [0x27]
def RR2 : List Nat := [0x28]
def FF : List Nat := [0x29]
def KK2 : List Nat := [0x2a]
def KK1 : List Nat := [0x2b]
def ZZ : List Nat := [0x2c]
def NG : List Nat := [0x2d]
def LL : List Nat := [0x2e]
def WW : List Nat := [0x2f]
def XR : List Nat := [0x30]
def WH : List Nat := [0x31]
def YY1 : List Nat := [0x32]
def CH : List Nat := [0x33]
def ER1 : List Nat := [0x34]
def ER2 : List Nat := [0x35]
def OW : List Nat := [0x36]
def DH2 : List Nat := [0x37]
def SS : List Nat := [0x38]
def NN2 : List Nat := [0x39]
def HH2 : List Nat := [0x3a]
def OR : List Nat := [0x3b]
def AR : List Nat := [0x3c]
def YR : List Nat := [0x3d]
def GG2 : List Nat := [0x3e]
def EL : List Nat := [0x3f]
def BB2 : List Nat := [0x40]

/-- The group `r_punc`. -/
def r_punc : List TTSRule := [
  ⟨cstr Anything, cstr " ", cstr Anything, PHONESEQ (PA4 ++ PA3)⟩,
  ⟨cstr Anything, cstr "-", cstr Anything, PHONESEQ (PA4)⟩,
  ⟨cstr ".", cstr "'s", cstr Anything, PHONESEQ (ZZ)⟩,
  ⟨cstr "#:.e", cstr "'s", cstr Anything, PHONESEQ (ZZ)⟩,
  ⟨cstr "#", cstr "'s", cstr Anything, PHONESEQ (ZZ)⟩,
  ⟨cstr Anything, cstr "'", cstr Anything, PHONESEQ (PA1)⟩,
  ⟨cstr Anything, cstr ";", cstr Anything, PHONESEQ (PA5)⟩,
  ⟨cstr Anything, cstr ":", cstr Anything, PHONESEQ (PA5)⟩,
  ⟨cstr Anything, cstr ",", cstr Anything, PHONESEQ (PA5)⟩,
  ⟨cstr Anything, cstr ".", cstr "#", Silent⟩,
  ⟨cstr Anything, cstr ".", cstr "^", Silent⟩,
  ⟨cstr Anything, cstr ".", cstr Anything, PHONESEQ (PA5 ++ PA5 ++ PA4)⟩,
  ⟨cstr Anything, cstr "?", cstr Anything, PHONESEQ (PA5 ++ PA5 ++ PA4)⟩,
  ⟨cstr Anything, cstr "!", cstr Anything, PHONESEQ (PA5 ++ PA5 ++ PA4)⟩,
  sentinel]

/-- The group `r_a`. -/
def r_a : List TTSRule := [
  ⟨cstr Nothing, cstr "a", cstr Nothing, PHONESEQ (EH ++ EY)⟩,
  ⟨cstr Anything, cstr "ahead", cstr Anything, PHONESEQ (AX ++ HH1 ++ EH ++ EH ++ DD1)⟩,
  ⟨cstr Anything, cstr "apropos", cstr Anything, PHONESEQ (AE ++ PP ++ ER1 ++ OW ++ PP ++ OW)⟩,
  ⟨cstr Anything, cstr "ass", cstr "h", PHONESEQ (AE ++ AE ++ SS ++ SS)⟩,
  ⟨cstr Anything, cstr "allege", cstr Anything, PHONESEQ (AX ++ LL ++ EH ++ DD2 ++ JH)⟩,
  ⟨cstr Anything, cstr "again", cstr Anything, PHONESEQ (AX ++ GG3 ++ EH ++ EH ++ NN1)⟩,
  ⟨cstr Nothing, cstr "able", cstr Anything, PHONESEQ (EY ++ HH1 ++ BB2 ++ AX ++ LL)⟩,
  ⟨cstr Nothing, cstr "above", cstr Nothing, PHONESEQ (AX ++ BB2 ++ AX ++ AX ++ VV ++ HH1)⟩,
  ⟨cstr Nothing, cstr "acro", cstr ".", PHONESEQ (AE ++ HH1 ++ KK1 ++ ER1 ++ OW)⟩,
  ⟨cstr Nothing, cstr "are", cstr Nothing, PHONESEQ (AA ++ ER2)⟩,
  ⟨cstr Nothing, cstr "ally", cstr Nothing, PHONESEQ (AE ++ AE ++ LL ++ AY)⟩,
  ⟨cstr Anything, cstr "atomic", cstr Anything, PHONESEQ (AX ++ TT2 ++ AA ++ MM ++ PA1 ++ IH ++ KK1)⟩,
  ⟨cstr Anything, cstr "arch", cstr "#v", PHONESEQ (AX ++ AX ++ ER1 ++ PA1 ++ KK1 ++ IH)⟩,
  ⟨cstr Anything, cstr "arch", cstr "#.", PHONESEQ (AX ++ AX ++ ER1 ++ CH ++ IH)⟩,
  ⟨cstr Anything, cstr "arch", cstr "#^", PHONESEQ (AX ++ AX ++ ER1 ++ KK1 ++ PA1 ++ IH)⟩,
  ⟨cstr Anything, cstr "argue", cstr Anything, PHONESEQ (AA ++ ER2 ++ GG1 ++ YY2 ++ UW2)⟩,
  ⟨cstr Nothing, cstr "abb", cstr Anything, PHONESEQ (AX ++ AX ++ BB2)⟩,
  ⟨cstr Nothing, cstr "ab", cstr Anything, PHONESEQ (AE ++ AE ++ BB1 ++ PA2)⟩,
  ⟨cstr Nothing, cstr "an", cstr "#", PHONESEQ (AE ++ NN1)⟩,
  ⟨cstr Nothing, cstr "allo", cstr "t", PHONESEQ (AE ++ LL ++ AA)⟩,
  ⟨cstr Nothing, cstr "allo", cstr "w", PHONESEQ (AE ++ LL ++ AW)⟩,
  ⟨cstr Nothing, cstr "allo", cstr Anything, PHONESEQ (AE ++ LL ++ OW)⟩,
  ⟨cstr Nothing, cstr "ar", cstr "o", PHONESEQ (AX ++ ER2)⟩,
  ⟨cstr "#:", cstr "ally", cstr Anything, PHONESEQ (PA1 ++ AX ++ LL ++ IY)⟩,
  ⟨cstr "^", cstr "able", cstr Anything, PHONESEQ (PA1 ++ EY ++ HH1 ++ BB2 ++ AX ++ LL)⟩,
  ⟨cstr Anything, cstr "able", cstr Anything, PHONESEQ (PA1 ++ AX ++ HH1 ++ BB2 ++ AX ++ LL)⟩,
  ⟨cstr "^", cstr "ance", cstr Anything, PHONESEQ (PA1 ++ AE ++ NN1 ++ SS)⟩,
  ⟨cstr Anything, cstr "air", cstr Anything, PHONESEQ (EY ++ XR)⟩,
  ⟨cstr Anything, cstr "aic", cstr Nothing, PHONESEQ (EY ++ IH ++ KK1)⟩,
  ⟨cstr "#:", cstr "als", cstr Nothing, PHONESEQ (AX ++ LL ++ ZZ)⟩,
  ⟨cstr Anything, cstr "alk", cstr Anything, PHONESEQ (AO ++ AO ++ KK1)⟩,
  ⟨cstr Anything, cstr "arr", cstr Anything, PHONESEQ (AA ++ ER1)⟩,
  ⟨cstr Anything, cstr "ang", cstr "+", PHONESEQ (EY ++ NN1 ++ JH)⟩,
  ⟨cstr (Nothing ++ ":"), cstr "any", cstr Anything, PHONESEQ (EH ++ NN1 ++ IY)⟩,
  ⟨cstr Anything, cstr "ary", cstr Nothing, PHONESEQ (PA1 ++ AX ++ ER2 ++ IY)⟩,
  ⟨cstr "^", cstr "as", cstr "#", PHONESEQ (EY ++ SS)⟩,
  ⟨cstr "#:", cstr "al", cstr Nothing, PHONESEQ (AX ++ LL)⟩,
  ⟨cstr Anything, cstr "al", cstr "^", PHONESEQ (AO ++ LL)⟩,
  ⟨cstr Nothing, cstr "al", cstr "#", PHONESEQ (EH ++ EY ++ LL)⟩,
  ⟨cstr "#:", cstr "ag", cstr "e", PHONESEQ (IH ++ JH)⟩,
  ⟨cstr Anything, cstr "ai", cstr Anything, PHONESEQ (EH ++ EY)⟩,
  ⟨cstr Anything, cstr "ay", cstr Anything, PHONESEQ (EH ++ EY)⟩,
  ⟨cstr Anything, cstr "au", cstr Anything, PHONESEQ (AO ++ AO)⟩,
  ⟨cstr Anything, cstr "aw", cstr Nothing, PHONESEQ (AO ++ AO)⟩,
  ⟨cstr Anything, cstr "aw", cstr "^", PHONESEQ (AO ++ AO)⟩,
  ⟨cstr ":", cstr "ae", cstr Anything, PHONESEQ (EH)⟩,
  ⟨cstr Anything, cstr "a", cstr "tion", PHONESEQ (EY)⟩,
  ⟨cstr "c", cstr "a", cstr "bl", PHONESEQ (EH ++ EY)⟩,
  ⟨cstr "c", cstr "a", cstr "b#", PHONESEQ (AE ++ AE)⟩,
  ⟨cstr "c", cstr "a", cstr "pab", PHONESEQ (EH ++ EY)⟩,
  ⟨cstr "c", cstr "a", cstr "p#", PHONESEQ (AE ++ AE)⟩,
  ⟨cstr "c", cstr "a", cstr "t#^", PHONESEQ (AE ++ AE)⟩,
  ⟨cstr "^^^", cstr "a", cstr Anything, PHONESEQ (EY)⟩,
  ⟨cstr "^.", cstr "a", cstr "^e", PHONESEQ (EY)⟩,
  ⟨cstr "^.", cstr "a", cstr "^i", PHONESEQ (EY)⟩,
  ⟨cstr "^^", cstr "a", cstr Anything, PHONESEQ (AE)⟩,
  ⟨cstr "^", cstr "a", cstr "^##", PHONESEQ (EY)⟩,
  ⟨cstr "^", cstr "a", cstr "^#", PHONESEQ (EY)⟩,
  ⟨cstr "^", cstr "a", cstr "^#", PHONESEQ (EH ++ EY)⟩,
  ⟨cstr Anything, cstr "a", cstr "^%", PHONESEQ (EY)⟩,
  ⟨cstr "#", cstr "a", cstr Nothing, PHONESEQ (AO)⟩,
  ⟨cstr Anything, cstr "a", cstr "wa", PHONESEQ (AX)⟩,
  ⟨cstr Anything, cstr "a", cstr Nothing, PHONESEQ (AX)⟩,
  ⟨cstr Anything, cstr "a", cstr "^+#", PHONESEQ (EY)⟩,
  ⟨cstr Anything, cstr "a", cstr "^+:#", PHONESEQ (AE)⟩,
  ⟨cstr (Nothing ++ ":"), cstr "a", cstr ("^+" ++ Nothing), PHONESEQ (EY)⟩,
  ⟨cstr Anything, cstr "a", cstr Anything, PHONESEQ (AE)⟩,
  sentinel]

/-- The group `r_b`. -/
def r_b : List TTSRule := [
  ⟨cstr "b", cstr "b", cstr Anything, Silent⟩,
  ⟨cstr Anything, cstr "bi", cstr "cycle", PHONESEQ (BB2 ++ AY)⟩,
  ⟨cstr Anything, cstr "bi", cstr "cycle", PHONESEQ (BB2 ++ AY)⟩,
  ⟨cstr Anything, cstr "bbq", cstr Anything, PHONESEQ (BB2 ++ AX ++ AX ++ ER1 ++ BB2 ++ AX ++ KK2 ++ YY2 ++ UW2)⟩,
  ⟨cstr Anything, cstr "barbeque", cstr Anything, PHONESEQ (BB2 ++ AX ++ AX ++ ER1 ++ BB2 ++ AX ++ KK2 ++ YY2 ++ UW2)⟩,
  ⟨cstr Anything, cstr "barbaque", cstr Anything, PHONESEQ (BB2 ++ AX ++ AX ++ ER1 ++ BB2 ++ AX ++ KK2 ++ YY2 ++ UW2)⟩,
  ⟨cstr Anything, cstr "bargain", cstr Anything, PHONESEQ (BB2 ++ AO ++ ER1 ++ GG1 ++ EH ++ NN1)⟩,
  ⟨cstr Anything, cstr "bagel", cstr Anything, PHONESEQ (BB2 ++ EY ++ GG1 ++ EH ++ LL)⟩,
  ⟨cstr Anything, cstr "being", cstr Anything, PHONESEQ (BB2 ++ IY ++ IH ++ NG)⟩,
  ⟨cstr Anything, cstr "bomb", cstr Anything, PHONESEQ (BB2 ++ AA ++ AA ++ MM)⟩,
  ⟨cstr Nothing, cstr "both", cstr Nothing, PHONESEQ (BB2 ++ OW ++ TH)⟩,
  ⟨cstr Anything, cstr "buil", cstr Anything, PHONESEQ (BB2 ++ IH ++ LL)⟩,
  ⟨cstr Nothing, cstr "bus", cstr "y", PHONESEQ (BB2 ++ IH ++ ZZ)⟩,
  ⟨cstr Nothing, cstr "bus", cstr "#", PHONESEQ (BB2 ++ IH ++ ZZ)⟩,
  ⟨cstr Anything, cstr "bye", cstr Anything, PHONESEQ (BB2 ++ AO ++ AY)⟩,
  ⟨cstr Anything, cstr "bear", cstr Nothing, PHONESEQ (BB2 ++ EY ++ ER2)⟩,
  ⟨cstr Anything, cstr "bear", cstr "%", PHONESEQ (BB2 ++ EY ++ ER2)⟩,
  ⟨cstr Anything, cstr "bear", cstr "s", PHONESEQ (BB2 ++ EY ++ ER2)⟩,
  ⟨cstr Anything, cstr "bear", cstr "#", PHONESEQ (BB2 ++ EY ++ ER2)⟩,
  ⟨cstr Nothing, cstr "beau", cstr Anything, PHONESEQ (BB2 ++ OW)⟩,
  ⟨cstr Anything, cstr "ban", cstr "ish", PHONESEQ (BB2 ++ AE ++ AE ++ NN1)⟩,
  ⟨cstr Nothing, cstr "be", cstr "^#", PHONESEQ (BB2 ++ IH)⟩,
  ⟨cstr Nothing, cstr "by", cstr Anything, PHONESEQ (BB2 ++ AO ++ AY)⟩,
  ⟨cstr "y", cstr "be", cstr Nothing, PHONESEQ (BB2 ++ IY)⟩,
  ⟨cstr Nothing, cstr "b", cstr "#", PHONESEQ (BB2)⟩,
  ⟨cstr Anything, cstr "b", cstr Nothing, PHONESEQ (BB1)⟩,
  ⟨cstr Anything, cstr "b", cstr "#", PHONESEQ (BB1)⟩,
  ⟨cstr Anything, cstr "b", cstr "l", PHONESEQ (BB1)⟩,
  ⟨cstr Anything, cstr "b", cstr "r", PHONESEQ (BB1)⟩,
  ⟨cstr Anything, cstr "b", cstr Anything, PHONESEQ (BB2)⟩,
  sentinel]

/-- The group `r_c`. -/
def r_c : List TTSRule := [
  ⟨cstr Anything, cstr "chinese", cstr Anything, PHONESEQ (CH ++ AY ++ NN1 ++ IY ++ SS)⟩,
  ⟨cstr Anything, cstr "country", cstr Anything, PHONESEQ (KK1 ++ AX ++ AX ++ NN1 ++ TT2 ++ ER1 ++ IY)⟩,
  ⟨cstr Anything, cstr "christ", cstr Nothing, PHONESEQ (KK3 ++ ER1 ++ AY ++ SS ++ TT2)⟩,
  ⟨cstr Anything, cstr "chassis", cstr Anything, PHONESEQ (CH ++ AX ++ AX ++ SS ++ IY)⟩,
  ⟨cstr Anything, cstr "closet", cstr Anything, PHONESEQ (KK3 ++ LL ++ AO ++ AO ++ ZZ ++ EH ++ TT2)⟩,
  ⟨cstr Anything, cstr "china", cstr Anything, PHONESEQ (CH ++ AY ++ NN1 ++ AX)⟩,
  ⟨cstr Nothing, cstr "cafe", cstr Nothing, PHONESEQ (KK1 ++ AE ++ FF ++ AE ++ EY)⟩,
  ⟨cstr Anything, cstr "cele", cstr Anything, PHONESEQ (SS ++ EH ++ LL ++ PA1 ++ EH)⟩,
  ⟨cstr Anything, cstr "cycle", cstr Anything, PHONESEQ (SS ++ AY ++ KK3 ++ UH ++ LL)⟩,
  ⟨cstr Anything, cstr "chron", cstr Anything, PHONESEQ (KK1 ++ ER1 ++ AO ++ NN1)⟩,
  ⟨cstr Anything, cstr "crea", cstr "t", PHONESEQ (KK3 ++ ER1 ++ IY ++ EY)⟩,
  ⟨cstr Nothing, cstr "cry", cstr Nothing, PHONESEQ (KK3 ++ ER1 ++ IY)⟩,
  ⟨cstr Nothing, cstr "chry", cstr Anything, PHONESEQ (KK3 ++ ER1 ++ AO ++ AY)⟩,
  ⟨cstr Nothing, cstr "cry", cstr "#", PHONESEQ (KK3 ++ ER1 ++ AO ++ AY)⟩,
  ⟨cstr Nothing, cstr "caveat", cstr ":", PHONESEQ (KK1 ++ AE ++ VV ++ IY ++ AE ++ TT2)⟩,
  ⟨cstr "^", cstr "cuit", cstr Anything, PHONESEQ (KK1 ++ IH ++ TT2)⟩,
  ⟨cstr Anything, cstr "chaic", cstr Anything, PHONESEQ (KK1 ++ EY ++ IH ++ KK1)⟩,
  ⟨cstr Anything, cstr "cation", cstr Anything, PHONESEQ (KK1 ++ EY ++ SH ++ AX ++ NN1)⟩,
  ⟨cstr Nothing, cstr "ch", cstr "aract", PHONESEQ (KK1)⟩,
  ⟨cstr Nothing, cstr "ch", cstr "^", PHONESEQ (KK1)⟩,
  ⟨cstr "^e", cstr "ch", cstr Anything, PHONESEQ (KK1)⟩,
  ⟨cstr Anything, cstr "ch", cstr Anything, PHONESEQ (CH)⟩,
  ⟨cstr (Nothing ++ "s"), cstr "ci", cstr "#", PHONESEQ (SS ++ AY)⟩,
  ⟨cstr Anything, cstr "ci", cstr "a", PHONESEQ (SH)⟩,
  ⟨cstr Anything, cstr "ci", cstr "o", PHONESEQ (SH)⟩,
  ⟨cstr Anything, cstr "ci", cstr "en", PHONESEQ (SH)⟩,
  ⟨cstr Anything, cstr "c", cstr "+", PHONESEQ (SS)⟩,
  ⟨cstr Anything, cstr "ck", cstr Anything, PHONESEQ (KK2)⟩,
  ⟨cstr Anything, cstr "com", cstr "%", PHONESEQ (KK1 ++ AH ++ MM)⟩,
  ⟨cstr Anything, cstr "c", cstr "u", PHONESEQ (KK3)⟩,
  ⟨cstr Anything, cstr "c", cstr "o", PHONESEQ (KK3)⟩,
  ⟨cstr Anything, cstr "c", cstr "a^^", PHONESEQ (KK3)⟩,
  ⟨cstr Anything, cstr "c", cstr "o^^", PHONESEQ (KK3)⟩,
  ⟨cstr Anything, cstr "c", cstr "l", PHONESEQ (KK3)⟩,
  ⟨cstr Anything, cstr "c", cstr "r", PHONESEQ (KK3)⟩,
  ⟨cstr Anything, cstr "c", cstr "a", PHONESEQ (KK1)⟩,
  ⟨cstr Anything, cstr "c", cstr "e", PHONESEQ (KK1)⟩,
  ⟨cstr Anything, cstr "c", cstr "i", PHONESEQ (KK1)⟩,
  ⟨cstr Anything, cstr "c", cstr Nothing, PHONESEQ (KK2)⟩,
  ⟨cstr Anything, cstr "c", cstr Anything, PHONESEQ (KK1)⟩,
  sentinel]

/-- The group `r_d`. -/
def r_d : List TTSRule := [
  ⟨cstr Anything, cstr "dead", cstr Anything, PHONESEQ (DD2 ++ EH ++ EH ++ DD1)⟩,
  ⟨cstr Nothing, cstr "dogged", cstr Anything, PHONESEQ (DD2 ++ AO ++ GG1 ++ PA1 ++ EH ++ DD1)⟩,
  ⟨cstr "#:", cstr "ded", cstr Nothing, PHONESEQ (DD2 ++ IH ++ DD1)⟩,
  ⟨cstr Nothing, cstr "dig", cstr Anything, PHONESEQ (DD2 ++ IH ++ IH ++ GG1)⟩,
  ⟨cstr Nothing, cstr "dry", cstr Nothing, PHONESEQ (DD2 ++ ER1 ++ AO ++ AY)⟩,
  ⟨cstr Nothing, cstr "dry", cstr "#", PHONESEQ (DD2 ++ ER1 ++ AO ++ AY)⟩,
  ⟨cstr Nothing, cstr "de", cstr "^#", PHONESEQ (DD2 ++ IH)⟩,
  ⟨cstr Nothing, cstr "do", cstr Nothing, PHONESEQ (DD2 ++ UW2)⟩,
  ⟨cstr Nothing, cstr "does", cstr Anything, PHONESEQ (DD2 ++ AH ++ ZZ)⟩,
  ⟨cstr Nothing, cstr "doing", cstr Anything, PHONESEQ (UW2 ++ IH ++ NG)⟩,
  ⟨cstr Nothing, cstr "dow", cstr Anything, PHONESEQ (DD2 ++ AW)⟩,
  ⟨cstr Anything, cstr "du", cstr "a", PHONESEQ (JH ++ UW2)⟩,
  ⟨cstr Anything, cstr "dyna", cstr Anything, PHONESEQ (DD2 ++ AY ++ NN1 ++ AX ++ PA1)⟩,
  ⟨cstr Anything, cstr "dyn", cstr "#", PHONESEQ (DD2 ++ AY ++ NN1 ++ PA1)⟩,
  ⟨cstr "d", cstr "d", cstr Anything, Silent⟩,
  ⟨cstr Anything, cstr "d", cstr Nothing, PHONESEQ (DD1)⟩,
  ⟨cstr Nothing, cstr "d", cstr Anything, PHONESEQ (DD2)⟩,
  ⟨cstr Anything, cstr "d", cstr Anything, PHONESEQ (DD2)⟩,
  sentinel]

/-- The group `r_e`. -/
def r_e : List TTSRule := [
  ⟨cstr Nothing, cstr "eye", cstr Anything, PHONESEQ (AA ++ AY)⟩,
  ⟨cstr Anything, cstr "ered", cstr Nothing, PHONESEQ (ER2 ++ DD1)⟩,
  ⟨cstr Nothing, cstr "ego", cstr Anything, PHONESEQ (IY ++ GG1 ++ OW)⟩,
  ⟨cstr Nothing, cstr "err", cstr Anything, PHONESEQ (EH ++ EH ++ ER1)⟩,
  ⟨cstr "^", cstr "err", cstr Anything, PHONESEQ (EH ++ EH ++ ER1)⟩,
  ⟨cstr Anything, cstr "ev", cstr "er", PHONESEQ (EH ++ EH ++ VV ++ HH1)⟩,
  ⟨cstr Anything, cstr "e", cstr "ness", Silent⟩,
  ⟨cstr Anything, cstr "eri", cstr "#", PHONESEQ (IY ++ XR ++ IY)⟩,
  ⟨cstr Anything, cstr "eri", cstr Anything, PHONESEQ (EH ++ ER1 ++ IH)⟩,
  ⟨cstr "#:", cstr "er", cstr "#", PHONESEQ (ER2)⟩,
  ⟨cstr Anything, cstr "er", cstr "#", PHONESEQ (EH ++ EH ++ ER1)⟩,
  ⟨cstr Anything, cstr "er", cstr Anything, PHONESEQ (ER2)⟩,
  ⟨cstr Nothing, cstr "evil", cstr Anything, PHONESEQ (IY ++ VV ++ EH ++ LL)⟩,
  ⟨cstr Nothing, cstr "even", cstr Anything, PHONESEQ (IY ++ VV ++ EH ++ NN1)⟩,
  ⟨cstr "m", cstr "edia", cstr Anything, PHONESEQ (IY ++ DD2 ++ IY ++ AX)⟩,
  ⟨cstr Anything, cstr "ecia", cstr Anything, PHONESEQ (IY ++ SH ++ IY ++ EY)⟩,
  ⟨cstr ":", cstr "eleg", cstr Anything, PHONESEQ (EH ++ LL ++ EH ++ GG1)⟩,
  ⟨cstr "#:", cstr "e", cstr "w", Silent⟩,
  ⟨cstr "t", cstr "ew", cstr Anything, PHONESEQ (UW2)⟩,
  ⟨cstr "s", cstr "ew", cstr Anything, PHONESEQ (UW2)⟩,
  ⟨cstr "r", cstr "ew", cstr Anything, PHONESEQ (UW2)⟩,
  ⟨cstr "d", cstr "ew", cstr Anything, PHONESEQ (UW2)⟩,
  ⟨cstr "l", cstr "ew", cstr Anything, PHONESEQ (UW2)⟩,
  ⟨cstr "z", cstr "ew", cstr Anything, PHONESEQ (UW2)⟩,
  ⟨cstr "n", cstr "ew", cstr Anything, PHONESEQ (UW2)⟩,
  ⟨cstr "j", cstr "ew", cstr Anything, PHONESEQ (UW2)⟩,
  ⟨cstr "th", cstr "ew", cstr Anything, PHONESEQ (UW2)⟩,
  ⟨cstr "ch", cstr "ew", cstr Anything, PHONESEQ (UW2)⟩,
  ⟨cstr "sh", cstr "ew", cstr Anything, PHONESEQ (UW2)⟩,
  ⟨cstr Anything, cstr "ew", cstr Anything, PHONESEQ (YY2 ++ UW2)⟩,
  ⟨cstr Anything, cstr "e", cstr "o", PHONESEQ (IY)⟩,
  ⟨cstr "#:s", cstr "es", cstr Nothing, PHONESEQ (IH ++ ZZ)⟩,
  ⟨cstr "#:c", cstr "es", cstr Nothing, PHONESEQ (IH ++ ZZ)⟩,
  ⟨cstr "#:g", cstr "es", cstr Nothing, PHONESEQ (IH ++ ZZ)⟩,
  ⟨cstr "#:z", cstr "es", cstr Nothing, PHONESEQ (IH ++ ZZ)⟩,
  ⟨cstr "#:x", cstr "es", cstr Nothing, PHONESEQ (IH ++ ZZ)⟩,
  ⟨cstr "#:j", cstr "es", cstr Nothing, PHONESEQ (IH ++ ZZ)⟩,
  ⟨cstr "#:ch", cstr "es", cstr Nothing, PHONESEQ (IH ++ ZZ)⟩,
  ⟨cstr "#:sh", cstr "es", cstr Nothing, PHONESEQ (IH ++ ZZ)⟩,
  ⟨cstr "#:", cstr "e", cstr ("s" ++ Nothing), Silent⟩,
  ⟨cstr "#:", cstr "ely", cstr Nothing, PHONESEQ (LL ++ IY)⟩,
  ⟨cstr "#:", cstr "ement", cstr Anything, PHONESEQ (PA1 ++ MM ++ EH ++ NN1 ++ TT2)⟩,
  ⟨cstr Anything, cstr "eful", cstr Anything, PHONESEQ (PA1 ++ FF ++ UH ++ LL)⟩,
  ⟨cstr Anything, cstr "ee", cstr Anything, PHONESEQ (IY)⟩,
  ⟨cstr Anything, cstr "earn", cstr Anything, PHONESEQ (ER2 ++ NN1)⟩,
  ⟨cstr Nothing, cstr "ear", cstr "^", PHONESEQ (ER2)⟩,
  ⟨cstr "k.", cstr "ead", cstr Anything, PHONESEQ (IY ++ DD2)⟩,
  ⟨cstr "^.", cstr "ead", cstr Anything, PHONESEQ (EH ++ DD2)⟩,
  ⟨cstr "d", cstr "ead", cstr Anything, PHONESEQ (EH ++ DD2)⟩,
  ⟨cstr Anything, cstr "ead", cstr Anything, PHONESEQ (IY ++ DD2)⟩,
  ⟨cstr "#:", cstr "ea", cstr Nothing, PHONESEQ (IY ++ AX)⟩,
  ⟨cstr "#:", cstr "ea", cstr "s", PHONESEQ (IY ++ AX)⟩,
  ⟨cstr Anything, cstr "ea", cstr "su", PHONESEQ (EH)⟩,
  ⟨cstr Anything, cstr "ea", cstr Anything, PHONESEQ (IY)⟩,
  ⟨cstr Anything, cstr "eigh", cstr Anything, PHONESEQ (EY)⟩,
  ⟨cstr "l", cstr "ei", cstr Anything, PHONESEQ (IY)⟩,
  ⟨cstr ".", cstr "ei", cstr Anything, PHONESEQ (EY)⟩,
  ⟨cstr Anything, cstr "ei", cstr "n", PHONESEQ (AY)⟩,
  ⟨cstr Anything, cstr "ei", cstr Anything, PHONESEQ (IY)⟩,
  ⟨cstr Anything, cstr "ey", cstr Anything, PHONESEQ (IY)⟩,
  ⟨cstr Anything, cstr "eu", cstr Anything, PHONESEQ (YY2 ++ UW2)⟩,
  ⟨cstr "#:", cstr "e", cstr ("d" ++ Nothing), Silent⟩,
  ⟨cstr "#s", cstr "e", cstr "^", Silent⟩,
  ⟨cstr ":", cstr "e", cstr "x", PHONESEQ (EH ++ EH)⟩,
  ⟨cstr "#:", cstr "e", cstr Nothing, Silent⟩,
  ⟨cstr "+:", cstr "e", cstr Nothing, Silent⟩,
  ⟨cstr "':^", cstr "e", cstr Nothing, Silent⟩,
  ⟨cstr ":", cstr "equ", cstr Anything, PHONESEQ (IY ++ KK1 ++ WW)⟩,
  ⟨cstr "dg", cstr "e", cstr Anything, Silent⟩,
  ⟨cstr "dh", cstr "e", cstr Anything, PHONESEQ (IY)⟩,
  ⟨cstr (Nothing ++ ":"), cstr "e", cstr Nothing, PHONESEQ (IY)⟩,
  ⟨cstr "#", cstr "ed", cstr Nothing, PHONESEQ (DD1)⟩,
  ⟨cstr Anything, cstr "e", cstr Anything, PHONESEQ (EH)⟩,
  sentinel]

/-- The group `r_f`. -/
def r_f : List TTSRule := [
  ⟨cstr Anything, cstr "fnord", cstr Anything, PHONESEQ (FF ++ NN1 ++ AO ++ OR ++ DD1)⟩,
  ⟨cstr Anything, cstr "four", cstr Anything, PHONESEQ (FF ++ OW ++ ER1)⟩,
  ⟨cstr Anything, cstr "ful", cstr Anything, PHONESEQ (PA1 ++ FF ++ UH ++ LL)⟩,
  ⟨cstr Nothing, cstr "fly", cstr Anything, PHONESEQ (FF ++ LL ++ AO ++ AY)⟩,
  ⟨cstr ".", cstr "fly", cstr Anything, PHONESEQ (FF ++ LL ++ AO ++ AY)⟩,
  ⟨cstr Anything, cstr "fixed", cstr Anything, PHONESEQ (FF ++ IH ++ KK1 ++ SS ++ TT2)⟩,
  ⟨cstr Anything, cstr "five", cstr Anything, PHONESEQ (FF ++ AO ++ AY ++ VV)⟩,
  ⟨cstr Anything, cstr "foot", cstr Anything, PHONESEQ (FF ++ UH ++ UH ++ TT2)⟩,
  ⟨cstr Anything, cstr "f", cstr Anything, PHONESEQ (FF)⟩,
  sentinel]

/-- The group `r_g`. -/
def r_g : List TTSRule := [
  ⟨cstr Anything, cstr "gadget", cstr Anything, PHONESEQ (GG2 ++ AE ++ AE ++ DD1 ++ PA2 ++ JH ++ EH ++ EH ++ TT2)⟩,
  ⟨cstr Anything, cstr "god", cstr Anything, PHONESEQ (GG3 ++ AA ++ AA ++ DD1)⟩,
  ⟨cstr Anything, cstr "get", cstr Anything, PHONESEQ (GG3 ++ EH ++ EH ++ TT2)⟩,
  ⟨cstr Anything, cstr "gen", cstr "^", PHONESEQ (JH ++ EH ++ EH ++ NN1)⟩,
  ⟨cstr Anything, cstr "gen", cstr "#^", PHONESEQ (JH ++ EH ++ EH ++ NN1)⟩,
  ⟨cstr Anything, cstr "gen", cstr Nothing, PHONESEQ (JH ++ EH ++ EH ++ NN1)⟩,
  ⟨cstr Anything, cstr "giv", cstr Anything, PHONESEQ (GG2 ++ IH ++ IH ++ VV ++ HH1)⟩,
  ⟨cstr "su", cstr "gges", cstr Anything, PHONESEQ (GG1 ++ JH ++ EH ++ SS)⟩,
  ⟨cstr Anything, cstr "great", cstr Anything, PHONESEQ (GG2 ++ ER1 ++ EY ++ TT2)⟩,
  ⟨cstr Anything, cstr "good", cstr Anything, PHONESEQ (GG2 ++ UH ++ UH ++ DD1)⟩,
  ⟨cstr Nothing, cstr "gue", cstr Anything, PHONESEQ (GG2 ++ EH)⟩,
  ⟨cstr Anything, cstr "gue", cstr Anything, PHONESEQ (GG3)⟩,
  ⟨cstr "d", cstr "g", cstr Anything, PHONESEQ (JH)⟩,
  ⟨cstr "##", cstr "g", cstr Anything, PHONESEQ (GG1)⟩,
  ⟨cstr Anything, cstr "g", cstr "+", PHONESEQ (JH)⟩,
  ⟨cstr Anything, cstr "gg", cstr Anything, PHONESEQ (GG3 ++ PA1)⟩,
  ⟨cstr "campai", cstr "g", cstr "n", Silent⟩,
  ⟨cstr "arrai", cstr "g", cstr "n", Silent⟩,
  ⟨cstr "ali", cstr "g", cstr "n", Silent⟩,
  ⟨cstr "beni", cstr "g", cstr "n", Silent⟩,
  ⟨cstr "arrai", cstr "g", cstr "n", Silent⟩,
  ⟨cstr Anything, cstr "g", cstr "a", PHONESEQ (GG1)⟩,
  ⟨cstr Anything, cstr "g", cstr "e", PHONESEQ (GG1)⟩,
  ⟨cstr Anything, cstr "g", cstr "i", PHONESEQ (GG1)⟩,
  ⟨cstr Anything, cstr "g", cstr "y", PHONESEQ (GG1)⟩,
  ⟨cstr Anything, cstr "g", cstr "o", PHONESEQ (GG2)⟩,
  ⟨cstr Anything, cstr "g", cstr "u", PHONESEQ (GG2)⟩,
  ⟨cstr Anything, cstr "g", cstr "l", PHONESEQ (GG2)⟩,
  ⟨cstr Anything, cstr "g", cstr "r", PHONESEQ (GG2)⟩,
  ⟨cstr Anything, cstr "g", cstr Nothing, PHONESEQ (GG3)⟩,
  ⟨cstr "n", cstr "g", cstr Anything, PHONESEQ (GG3)⟩,
  ⟨cstr Anything, cstr "g", cstr Anything, PHONESEQ (GG3)⟩,
  sentinel]

/-- The group `r_h`. -/
def r_h : List TTSRule := [
  ⟨cstr Anything, cstr "honor", cstr Anything, PHONESEQ (AO ++ NN1 ++ ER2)⟩,
  ⟨cstr Anything, cstr "heard", cstr Anything, PHONESEQ (HH1 ++ ER2 ++ DD1)⟩,
  ⟨cstr Anything, cstr "height", cstr Anything, PHONESEQ (HH1 ++ AY ++ TT2)⟩,
  ⟨cstr Anything, cstr "honest", cstr Anything, PHONESEQ (AO ++ NN1 ++ EH ++ SS ++ TT2)⟩,
  ⟨cstr Anything, cstr "hood", cstr Anything, PHONESEQ (HH1 ++ UH ++ UH ++ DD1)⟩,
  ⟨cstr "ab", cstr "hor", cstr Anything, PHONESEQ (OW ++ ER2)⟩,
  ⟨cstr Anything, cstr "heavy", cstr Anything, PHONESEQ (HH1 ++ AE ++ VV ++ IY)⟩,
  ⟨cstr Anything, cstr "heart", cstr Anything, PHONESEQ (HH1 ++ AA ++ ER1 ++ TT2)⟩,
  ⟨cstr Anything, cstr "half", cstr Anything, PHONESEQ (HH1 ++ AE ++ AE ++ FF)⟩,
  ⟨cstr Anything, cstr "hive", cstr Anything, PHONESEQ (HH1 ++ AA ++ AY ++ VV)⟩,
  ⟨cstr Anything, cstr "heavi", cstr ":#", PHONESEQ (HH1 ++ AE ++ VV ++ IY)⟩,
  ⟨cstr Nothing, cstr "hav", cstr Anything, PHONESEQ (HH1 ++ AE ++ VV ++ HH1)⟩,
  ⟨cstr Anything, cstr "ha", cstr Nothing, PHONESEQ (HH1 ++ AA ++ AA)⟩,
  ⟨cstr Nothing, cstr "hi", cstr Nothing, PHONESEQ (HH1 ++ AA ++ AY)⟩,
  ⟨cstr Anything, cstr "he", cstr "t", PHONESEQ (HH1 ++ AE)⟩,
  ⟨cstr Anything, cstr "he", cstr "x", PHONESEQ (HH1 ++ AE)⟩,
  ⟨cstr Anything, cstr "hy", cstr Anything, PHONESEQ (HH1 ++ AA ++ AY)⟩,
  ⟨cstr Nothing, cstr "hang", cstr Anything, PHONESEQ (HH1 ++ AE ++ NG)⟩,
  ⟨cstr Nothing, cstr "here", cstr Anything, PHONESEQ (HH1 ++ IY ++ XR)⟩,
  ⟨cstr Nothing, cstr "hour", cstr Anything, PHONESEQ (AW ++ ER2)⟩,
  ⟨cstr Anything, cstr "how", cstr Anything, PHONESEQ (HH1 ++ AW)⟩,
  ⟨cstr Anything, cstr "h", cstr "onor", Silent⟩,
  ⟨cstr Anything, cstr "h", cstr "onest", Silent⟩,
  ⟨cstr Anything, cstr "h", cstr "#", PHONESEQ (HH1)⟩,
  ⟨cstr Anything, cstr "h", cstr Anything, Silent⟩,
  sentinel]

/-- The group `r_i`. -/
def r_i : List TTSRule := [
  ⟨cstr Nothing, cstr "i", cstr Nothing, PHONESEQ (AO ++ AY)⟩,
  ⟨cstr Nothing, cstr "ii", cstr Nothing, PHONESEQ (TT2 ++ UW2)⟩,
  ⟨cstr Nothing, cstr "iii", cstr Nothing, PHONESEQ (TH ++ ER1 ++ IY)⟩,
  ⟨cstr Nothing, cstr "intrigu", cstr "#", PHONESEQ (IH ++ NN1 ++ TT2 ++ ER1 ++ IY ++ GG1)⟩,
  ⟨cstr Nothing, cstr "iso", cstr Anything, PHONESEQ (AY ++ SS ++ OW)⟩,
  ⟨cstr Anything, cstr "ity", cstr Nothing, PHONESEQ (PA1 ++ IH ++ TT2 ++ IY)⟩,
  ⟨cstr Nothing, cstr "in", cstr Anything, PHONESEQ (IH ++ IH ++ NN1)⟩,
  ⟨cstr Nothing, cstr "i", cstr "o", PHONESEQ (AY)⟩,
  ⟨cstr Anything, cstr "ify", cstr Anything, PHONESEQ (PA1 ++ IH ++ FF ++ AY)⟩,
  ⟨cstr Anything, cstr "igh", cstr Anything, PHONESEQ (AY)⟩,
  ⟨cstr Anything, cstr "ild", cstr Anything, PHONESEQ (AY ++ LL ++ DD1)⟩,
  ⟨cstr Anything, cstr "ign", cstr Nothing, PHONESEQ (AY ++ NN1)⟩,
  ⟨cstr Anything, cstr "in", cstr "d", PHONESEQ (AY ++ NN1)⟩,
  ⟨cstr Anything, cstr "ier", cstr Anything, PHONESEQ (IY ++ ER2)⟩,
  ⟨cstr Anything, cstr "idea", cstr Anything, PHONESEQ (AY ++ DD2 ++ IY ++ AX)⟩,
  ⟨cstr Nothing, cstr "idl", cstr Anything, PHONESEQ (AY ++ DD2 ++ AX ++ LL)⟩,
  ⟨cstr Anything, cstr "iron", cstr Anything, PHONESEQ (AA ++ AY ++ ER2 ++ NN1)⟩,
  ⟨cstr Anything, cstr "ible", cstr Anything, PHONESEQ (IH ++ BB1 ++ LL)⟩,
  ⟨cstr "r", cstr "iend", cstr Anything, PHONESEQ (AE ++ NN1 ++ DD1)⟩,
  ⟨cstr Anything, cstr "iend", cstr Anything, PHONESEQ (IY ++ NN1 ++ DD1)⟩,
  ⟨cstr "#:r", cstr "ied", cstr Anything, PHONESEQ (IY ++ DD1)⟩,
  ⟨cstr Anything, cstr "ied", cstr Nothing, PHONESEQ (AY ++ DD1)⟩,
  ⟨cstr Anything, cstr "ien", cstr Anything, PHONESEQ (IY ++ EH ++ NN1)⟩,
  ⟨cstr Anything, cstr "ion", cstr Anything, PHONESEQ (YY2 ++ AX ++ NN1)⟩,
  ⟨cstr "ch", cstr "ine", cstr Anything, PHONESEQ (IY ++ NN1)⟩,
  ⟨cstr "ent", cstr "ice", cstr Anything, PHONESEQ (AY ++ SS)⟩,
  ⟨cstr Anything, cstr "ice", cstr Anything, PHONESEQ (IH ++ SS)⟩,
  ⟨cstr Anything, cstr "iec", cstr "%", PHONESEQ (IY ++ SS ++ SS)⟩,
  ⟨cstr "#.", cstr "ies", cstr Nothing, PHONESEQ (IY ++ ZZ)⟩,
  ⟨cstr Anything, cstr "ies", cstr Nothing, PHONESEQ (AY ++ ZZ)⟩,
  ⟨cstr Anything, cstr "ie", cstr "t", PHONESEQ (AY ++ EH)⟩,
  ⟨cstr Anything, cstr "ie", cstr "^", PHONESEQ (IY)⟩,
  ⟨cstr Anything, cstr "i", cstr "cation", PHONESEQ (IH)⟩,
  ⟨cstr Anything, cstr "ing", cstr Anything, PHONESEQ (IH ++ NG)⟩,
  ⟨cstr Anything, cstr "ign", cstr "^", PHONESEQ (AA ++ AY ++ NN1)⟩,
  ⟨cstr Anything, cstr "ign", cstr "%", PHONESEQ (AA ++ AY ++ NN1)⟩,
  ⟨cstr Anything, cstr "ique", cstr Anything, PHONESEQ (IY ++ KK1)⟩,
  ⟨cstr Anything, cstr "ish", cstr Anything, PHONESEQ (IH ++ SH)⟩,
  ⟨cstr Nothing, cstr "ir", cstr Anything, PHONESEQ (YR)⟩,
  ⟨cstr Anything, cstr "ir", cstr "#", PHONESEQ (AA ++ AY ++ ER1)⟩,
  ⟨cstr Anything, cstr "ir", cstr Anything, PHONESEQ (ER2)⟩,
  ⟨cstr Anything, cstr "iz", cstr "%", PHONESEQ (AA ++ AY ++ ZZ)⟩,
  ⟨cstr Anything, cstr "is", cstr "%", PHONESEQ (AA ++ AY ++ ZZ)⟩,
  ⟨cstr "^ch", cstr "i", cstr ".", PHONESEQ (AA ++ AY)⟩,
  ⟨cstr "^ch", cstr "i", cstr "^", PHONESEQ (IH)⟩,
  ⟨cstr (Nothing ++ "#^"), cstr "i", cstr "^", PHONESEQ (IH)⟩,
  ⟨cstr "^#^", cstr "i", cstr "^", PHONESEQ (IH)⟩,
  ⟨cstr "^#^", cstr "i", cstr "#", PHONESEQ (IY)⟩,
  ⟨cstr ".", cstr "i", cstr Nothing, PHONESEQ (AO ++ AY)⟩,
  ⟨cstr "#^", cstr "i", cstr "^#", PHONESEQ (AY)⟩,
  ⟨cstr Anything, cstr "i", cstr "gue", PHONESEQ (IY)⟩,
  ⟨cstr ".", cstr "i", cstr "ve", PHONESEQ (AA ++ AY)⟩,
  ⟨cstr Anything, cstr "i", cstr "ve", PHONESEQ (IH)⟩,
  ⟨cstr Anything, cstr "i", cstr "^+:#", PHONESEQ (IH)⟩,
  ⟨cstr ".", cstr "i", cstr "o", PHONESEQ (AO ++ AY)⟩,
  ⟨cstr "#^", cstr "i", cstr ("^" ++ Nothing), PHONESEQ (IH)⟩,
  ⟨cstr "#^", cstr "i", cstr "^#^", PHONESEQ (IH)⟩,
  ⟨cstr "#^", cstr "i", cstr "^", PHONESEQ (IY)⟩,
  ⟨cstr "^", cstr "i", cstr "^#", PHONESEQ (AY)⟩,
  ⟨cstr "^", cstr "i", cstr "o", PHONESEQ (IY)⟩,
  ⟨cstr ".", cstr "i", cstr "a", PHONESEQ (AY)⟩,
  ⟨cstr Anything, cstr "i", cstr "a", PHONESEQ (IY)⟩,
  ⟨cstr (Nothing ++ ":"), cstr "i", cstr "%", PHONESEQ (AY)⟩,
  ⟨cstr Anything, cstr "i", cstr "%", PHONESEQ (IY)⟩,
  ⟨cstr ".", cstr "i", cstr ".#", PHONESEQ (AA ++ AY)⟩,
  ⟨cstr Anything, cstr "i", cstr "d%", PHONESEQ (AH ++ AY)⟩,
  ⟨cstr "+^", cstr "i", cstr "^+", PHONESEQ (AH ++ AY)⟩,
  ⟨cstr Anything, cstr "i", cstr "t%", PHONESEQ (AH ++ AY)⟩,
  ⟨cstr "#:^", cstr "i", cstr "^+", PHONESEQ (AH ++ AY)⟩,
  ⟨cstr Anything, cstr "i", cstr "^+", PHONESEQ (AH ++ AY)⟩,
  ⟨cstr ".", cstr "i", cstr ".", PHONESEQ (IH ++ IH)⟩,
  ⟨cstr Anything, cstr "i", cstr "nus", PHONESEQ (AA ++ AY)⟩,
  ⟨cstr Anything, cstr "i", cstr Anything, PHONESEQ (IH)⟩,
  sentinel]

/-- The group `r_j`. -/
def r_j : List TTSRule := [
  ⟨cstr Anything, cstr "japanese", cstr Anything, PHONESEQ (JH ++ AX ++ PP ++ AE ++ AE ++ NN1 ++ IY ++ SS ++ SS)⟩,
  ⟨cstr Anything, cstr "japan", cstr Anything, PHONESEQ (JH ++ AX ++ PP ++ AE ++ AE ++ NN1)⟩,
  ⟨cstr Anything, cstr "july", cstr Anything, PHONESEQ (JH ++ UW2 ++ LL ++ AE ++ AY)⟩,
  ⟨cstr Anything, cstr "jesus", cstr Anything, PHONESEQ (JH ++ IY ++ ZZ ++ AX ++ SS)⟩,
  ⟨cstr Anything, cstr "j", cstr Anything, PHONESEQ (JH)⟩,
  sentinel]

/-- The group `r_k`. -/
def r_k : List TTSRule := [
  ⟨cstr Nothing, cstr "k", cstr "n", Silent⟩,
  ⟨cstr Anything, cstr "k", cstr "u", PHONESEQ (KK3)⟩,
  ⟨cstr Anything, cstr "k", cstr "o", PHONESEQ (KK3)⟩,
  ⟨cstr Anything, cstr "k", cstr "a^^", PHONESEQ (KK3)⟩,
  ⟨cstr Anything, cstr "k", cstr "o^^", PHONESEQ (KK3)⟩,
  ⟨cstr Anything, cstr "k", cstr "l", PHONESEQ (KK3)⟩,
  ⟨cstr Anything, cstr "k", cstr "r", PHONESEQ (KK3)⟩,
  ⟨cstr Anything, cstr "k", cstr "a", PHONESEQ (KK1)⟩,
  ⟨cstr Anything, cstr "k", cstr "e", PHONESEQ (KK1)⟩,
  ⟨cstr Anything, cstr "k", cstr "i", PHONESEQ (KK1)⟩,
  ⟨cstr Anything, cstr "k", cstr Nothing, PHONESEQ (KK2)⟩,
  ⟨cstr Anything, cstr "k", cstr Anything, PHONESEQ (KK1)⟩,
  sentinel]

/-- The group `r_l`. -/
def r_l : List TTSRule := [
  ⟨cstr "l", cstr "l", cstr Anything, Silent⟩,
  ⟨cstr Nothing, cstr "lion", cstr Anything, PHONESEQ (LL ++ AY ++ AX ++ NN1)⟩,
  ⟨cstr Anything, cstr "lead", cstr Anything, PHONESEQ (LL ++ IY ++ DD1)⟩,
  ⟨cstr Anything, cstr "level", cstr Anything, PHONESEQ (LL ++ EH ++ VV ++ AX ++ LL)⟩,
  ⟨cstr Anything, cstr "liber", cstr Anything, PHONESEQ (LL ++ IH ++ BB2 ++ ER2)⟩,
  ⟨cstr Nothing, cstr "lose", cstr Anything, PHONESEQ (LL ++ UW2 ++ ZZ)⟩,
  ⟨cstr Nothing, cstr "liv", cstr Anything, PHONESEQ (LL ++ IH ++ VV)⟩,
  ⟨cstr "^", cstr "liv", cstr Anything, PHONESEQ (LL ++ AY ++ VV)⟩,
  ⟨cstr "#", cstr "liv", cstr Anything, PHONESEQ (LL ++ IH ++ VV)⟩,
  ⟨cstr Anything, cstr "liv", cstr Anything, PHONESEQ (LL ++ AY ++ VV)⟩,
  ⟨cstr Anything, cstr "lo", cstr "c#", PHONESEQ (LL ++ OW)⟩,
  ⟨cstr "#:^", cstr "l", cstr "%", PHONESEQ (LL)⟩,
  ⟨cstr Anything, cstr "ly", cstr Nothing, PHONESEQ (PA1 ++ LL ++ IY)⟩,
  ⟨cstr Anything, cstr "l", cstr Anything, PHONESEQ (LL)⟩,
  sentinel]

/-- The group `r_m`. -/
def r_m : List TTSRule := [
  ⟨cstr "m", cstr "m", cstr Anything, Silent⟩,
  ⟨cstr Nothing, cstr "my", cstr Nothing, PHONESEQ (MM ++ AY)⟩,
  ⟨cstr Nothing, cstr "mary", cstr Nothing, PHONESEQ (MM ++ EY ++ XR ++ IY)⟩,
  ⟨cstr "#", cstr "mary", cstr Nothing, PHONESEQ (PA1 ++ MM ++ EY ++ XR ++ IY)⟩,
  ⟨cstr Anything, cstr "micro", cstr Anything, PHONESEQ (MM ++ AY ++ KK1 ++ ER1 ++ OW)⟩,
  ⟨cstr Anything, cstr "mono", cstr ".", PHONESEQ (MM ++ AA ++ NN1 ++ OW)⟩,
  ⟨cstr Anything, cstr "mono", cstr "^", PHONESEQ (MM ++ AA ++ NN1 ++ AA)⟩,
  ⟨cstr Anything, cstr "mon", cstr "#", PHONESEQ (MM ++ AA ++ AA ++ NN1)⟩,
  ⟨cstr Anything, cstr "mos", cstr Anything, PHONESEQ (MM ++ OW ++ SS)⟩,
  ⟨cstr Anything, cstr "mov", cstr Anything, PHONESEQ (MM ++ UW2 ++ VV ++ HH1)⟩,
  ⟨cstr "th", cstr "m", cstr "#", PHONESEQ (MM)⟩,
  ⟨cstr "th", cstr "m", cstr Nothing, PHONESEQ (IH ++ MM)⟩,
  ⟨cstr Anything, cstr "m", cstr Anything, PHONESEQ (MM)⟩,
  sentinel]

/-- The group `r_n`. -/
def r_n : List TTSRule := [
  ⟨cstr "n", cstr "n", cstr Anything, Silent⟩,
  ⟨cstr Nothing, cstr "now", cstr Nothing, PHONESEQ (NN1 ++ AW)⟩,
  ⟨cstr "#", cstr "ng", cstr "+", PHONESEQ (NN1 ++ JH)⟩,
  ⟨cstr Anything, cstr "ng", cstr "r", PHONESEQ (NG ++ GG1)⟩,
  ⟨cstr Anything, cstr "ng", cstr "#", PHONESEQ (NG ++ GG1)⟩,
  ⟨cstr Anything, cstr "ngl", cstr "%", PHONESEQ (NG ++ GG1 ++ AX ++ LL)⟩,
  ⟨cstr Anything, cstr "ng", cstr Anything, PHONESEQ (NG)⟩,
  ⟨cstr Anything, cstr "nk", cstr Anything, PHONESEQ (NG ++ KK1)⟩,
  ⟨cstr Nothing, cstr "none", cstr Anything, PHONESEQ (NN2 ++ AH ++ NN1)⟩,
  ⟨cstr Nothing, cstr "non", cstr ":", PHONESEQ (NN2 ++ AA ++ AA ++ NN1)⟩,
  ⟨cstr Anything, cstr "nuc", cstr "l", PHONESEQ (NN2 ++ UW1 ++ KK1)⟩,
  ⟨cstr "r", cstr "n", cstr Anything, PHONESEQ (NN1)⟩,
  ⟨cstr Anything, cstr "n", cstr "#r", PHONESEQ (NN1)⟩,
  ⟨cstr Anything, cstr "n", cstr "o", PHONESEQ (NN2)⟩,
  ⟨cstr Anything, cstr "n", cstr Anything, PHONESEQ (NN1)⟩,
  sentinel]

/-- The group `r_o`. -/
def r_o : List TTSRule := [
  ⟨cstr Nothing, cstr "only", cstr Anything, PHONESEQ (OW ++ NN1 ++ LL ++ IY)⟩,
  ⟨cstr Nothing, cstr "once", cstr Anything, PHONESEQ (WW ++ AH ++ NN1 ++ SS)⟩,
  ⟨cstr Nothing, cstr "oh", cstr Nothing, PHONESEQ (OW)⟩,
  ⟨cstr Nothing, cstr "ok", cstr Nothing, PHONESEQ (OW ++ PA3 ++ KK1 ++ EH ++ EY)⟩,
  ⟨cstr Nothing, cstr "okay", cstr Nothing, PHONESEQ (OW ++ PA3 ++ KK1 ++ EH ++ EY)⟩,
  ⟨cstr Nothing, cstr "ohio", cstr Nothing, PHONESEQ (OW ++ HH1 ++ AY ++ OW)⟩,
  ⟨cstr Nothing, cstr "over", cstr Anything, PHONESEQ (OW ++ VV ++ ER2)⟩,
  ⟨cstr Anything, cstr "other", cstr Anything, PHONESEQ (AH ++ DH2 ++ ER2)⟩,
  ⟨cstr Anything, cstr "ohm", cstr Nothing, PHONESEQ (OW ++ MM)⟩,
  ⟨cstr Anything, cstr "origin", cstr Anything, PHONESEQ (OR ++ IH ++ DD2 ++ JH ++ IH ++ NN1)⟩,
  ⟨cstr Anything, cstr "orough", cstr Anything, PHONESEQ (ER2 ++ OW)⟩,
  ⟨cstr Anything, cstr "ought", cstr Anything, PHONESEQ (AO ++ TT2)⟩,
  ⟨cstr Anything, cstr "occu", cstr "p", PHONESEQ (AA ++ KK1 ++ PA1 ++ UW1)⟩,
  ⟨cstr Anything, cstr "ough", cstr Anything, PHONESEQ (AH ++ FF)⟩,
  ⟨cstr Anything, cstr "ore", cstr Anything, PHONESEQ (OW ++ ER1)⟩,
  ⟨cstr "#:", cstr "ors", cstr Nothing, PHONESEQ (ER2 ++ ZZ)⟩,
  ⟨cstr Anything, cstr "orr", cstr Anything, PHONESEQ (AO ++ ER1)⟩,
  ⟨cstr "d", cstr "one", cstr Anything, PHONESEQ (AH ++ NN1)⟩,
  ⟨cstr "^y", cstr "one", cstr Anything, PHONESEQ (WW ++ AH ++ NN1)⟩,
  ⟨cstr Nothing, cstr "one", cstr Anything, PHONESEQ (WW ++ AH ++ NN1)⟩,
  ⟨cstr Anything, cstr "our", cstr Nothing, PHONESEQ (AW ++ ER1)⟩,
  ⟨cstr Anything, cstr "our", cstr "^", PHONESEQ (OR)⟩,
  ⟨cstr Anything, cstr "our", cstr Anything, PHONESEQ (AO ++ AW ++ ER1)⟩,
  ⟨cstr "t", cstr "own", cstr Anything, PHONESEQ (AW ++ NN1)⟩,
  ⟨cstr "br", cstr "own", cstr Anything, PHONESEQ (AW ++ NN1)⟩,
  ⟨cstr "fr", cstr "own", cstr Anything, PHONESEQ (AW ++ NN1)⟩,
  ⟨cstr Anything, cstr "olo", cstr Anything, PHONESEQ (AO ++ AA ++ LL ++ AO)⟩,
  ⟨cstr Anything, cstr "ould", cstr Anything, PHONESEQ (UH ++ DD1)⟩,
  ⟨cstr Anything, cstr "oup", cstr Anything, PHONESEQ (UW2 ++ PP)⟩,
  ⟨cstr Anything, cstr "oing", cstr Anything, PHONESEQ (OW ++ IH ++ NG)⟩,
  ⟨cstr Anything, cstr "omb", cstr "%", PHONESEQ (OW ++ MM)⟩,
  ⟨cstr Anything, cstr "oor", cstr Anything, PHONESEQ (AO ++ ER1)⟩,
  ⟨cstr Anything, cstr "ook", cstr Anything, PHONESEQ (UH ++ KK1)⟩,
  ⟨cstr Anything, cstr "on't", cstr Anything, PHONESEQ (OW ++ NN1 ++ TT2)⟩,
  ⟨cstr Anything, cstr "oss", cstr Nothing, PHONESEQ (AO ++ SS)⟩,
  ⟨cstr Anything, cstr "of", cstr Nothing, PHONESEQ (AX ++ AX ++ VV ++ HH1)⟩,
  ⟨cstr "^", cstr "or", cstr Nothing, PHONESEQ (AO ++ AO ++ ER1)⟩,
  ⟨cstr "#:", cstr "or", cstr Nothing, PHONESEQ (ER2)⟩,
  ⟨cstr Anything, cstr "or", cstr Anything, PHONESEQ (AO ++ AO ++ ER1)⟩,
  ⟨cstr Anything, cstr "ow", cstr Nothing, PHONESEQ (OW)⟩,
  ⟨cstr Anything, cstr "ow", cstr "#", PHONESEQ (OW)⟩,
  ⟨cstr Anything, cstr "ow", cstr ".", PHONESEQ (OW)⟩,
  ⟨cstr Anything, cstr "ow", cstr Anything, PHONESEQ (AW)⟩,
  ⟨cstr (Nothing ++ "l"), cstr "ov", cstr Anything, PHONESEQ (AH ++ VV ++ HH1)⟩,
  ⟨cstr (Nothing ++ "d"), cstr "ov", cstr Anything, PHONESEQ (AH ++ VV ++ HH1)⟩,
  ⟨cstr "gl", cstr "ov", cstr Anything, PHONESEQ (AH ++ VV ++ HH1)⟩,
  ⟨cstr "^", cstr "ov", cstr Anything, PHONESEQ (OW ++ VV ++ HH1)⟩,
  ⟨cstr Anything, cstr "ov", cstr Anything, PHONESEQ (AH ++ VV ++ HH1)⟩,
  ⟨cstr Anything, cstr "ol", cstr "d", PHONESEQ (OW ++ LL)⟩,
  ⟨cstr Nothing, cstr "ou", cstr Anything, PHONESEQ (AW)⟩,
  ⟨cstr "h", cstr "ou", cstr "s#", PHONESEQ (AW)⟩,
  ⟨cstr "ac", cstr "ou", cstr "s", PHONESEQ (UW2)⟩,
  ⟨cstr "^", cstr "ou", cstr "^l", PHONESEQ (AH)⟩,
  ⟨cstr Anything, cstr "ou", cstr Anything, PHONESEQ (AW)⟩,
  ⟨cstr Anything, cstr "oa", cstr Anything, PHONESEQ (OW)⟩,
  ⟨cstr Anything, cstr "oy", cstr Anything, PHONESEQ (OY)⟩,
  ⟨cstr Anything, cstr "oi", cstr Anything, PHONESEQ (OY)⟩,
  ⟨cstr "i", cstr "on", cstr Anything, PHONESEQ (AX ++ AX ++ NN1)⟩,
  ⟨cstr "#:", cstr "on", cstr Nothing, PHONESEQ (AX ++ AX ++ NN1)⟩,
  ⟨cstr "#^", cstr "on", cstr Anything, PHONESEQ (AX ++ AX ++ NN1)⟩,
  ⟨cstr Anything, cstr "of", cstr "^", PHONESEQ (AO ++ FF)⟩,
  ⟨cstr "#:^", cstr "om", cstr Anything, PHONESEQ (AH ++ MM)⟩,
  ⟨cstr Anything, cstr "oo", cstr Anything, PHONESEQ (UW2)⟩,
  ⟨cstr Anything, cstr "ous", cstr Anything, PHONESEQ (AX ++ SS)⟩,
  ⟨cstr "^#^", cstr "o", cstr "^", PHONESEQ (AX)⟩,
  ⟨cstr "^#^", cstr "o", cstr "#", PHONESEQ (OW)⟩,
  ⟨cstr "#", cstr "o", cstr ".", PHONESEQ (OW)⟩,
  ⟨cstr "^", cstr "o", cstr "^#^", PHONESEQ (AX ++ AX)⟩,
  ⟨cstr "^", cstr "o", cstr "^#", PHONESEQ (OW)⟩,
  ⟨cstr Anything, cstr "o", cstr "^%", PHONESEQ (OW)⟩,
  ⟨cstr Anything, cstr "o", cstr "^en", PHONESEQ (OW)⟩,
  ⟨cstr Anything, cstr "o", cstr "^i#", PHONESEQ (OW)⟩,
  ⟨cstr Anything, cstr "o", cstr "e", PHONESEQ (OW)⟩,
  ⟨cstr Anything, cstr "o", cstr Nothing, PHONESEQ (OW)⟩,
  ⟨cstr "c", cstr "o", cstr "n", PHONESEQ (AA)⟩,
  ⟨cstr Anything, cstr "o", cstr "ng", PHONESEQ (AO)⟩,
  ⟨cstr (Nothing ++ ":^"), cstr "o", cstr "n", PHONESEQ (AX)⟩,
  ⟨cstr Anything, cstr "o", cstr ("st" ++ Nothing), PHONESEQ (OW)⟩,
  ⟨cstr Anything, cstr "o", cstr Anything, PHONESEQ (AO)⟩,
  sentinel]

/-- The group `r_p`. -/
def r_p : List TTSRule := [
  ⟨cstr Nothing, cstr "pi", cstr Nothing, PHONESEQ (PP ++ AY)⟩,
  ⟨cstr Anything, cstr "put", cstr Nothing, PHONESEQ (PP ++ UH ++ TT2)⟩,
  ⟨cstr Anything, cstr "prove", cstr Anything, PHONESEQ (PP ++ ER1 ++ UW2 ++ VV)⟩,
  ⟨cstr Anything, cstr "ply", cstr Anything, PHONESEQ (PP ++ LL ++ AY)⟩,
  ⟨cstr "p", cstr "p", cstr Anything, Silent⟩,
  ⟨cstr Anything, cstr "phe", cstr Nothing, PHONESEQ (FF ++ IY)⟩,
  ⟨cstr Anything, cstr "phe", cstr ("s" ++ Nothing), PHONESEQ (FF ++ IY)⟩,
  ⟨cstr Anything, cstr "peop", cstr Anything, PHONESEQ (PP ++ IY ++ PP)⟩,
  ⟨cstr Anything, cstr "pow", cstr Anything, PHONESEQ (PP ++ AW)⟩,
  ⟨cstr Anything, cstr "ph", cstr Anything, PHONESEQ (FF)⟩,
  ⟨cstr Anything, cstr "p", cstr Anything, PHONESEQ (PP)⟩,
  sentinel]

/-- The group `r_q`. -/
def r_q : List TTSRule := [
  ⟨cstr Anything, cstr "quar", cstr Anything, PHONESEQ (KK3 ++ WW ++ AO ++ ER1)⟩,
  ⟨cstr Anything, cstr "que", cstr Nothing, PHONESEQ (KK2)⟩,
  ⟨cstr Anything, cstr "que", cstr "s", PHONESEQ (KK2)⟩,
  ⟨cstr Anything, cstr "qu", cstr Anything, PHONESEQ (KK3 ++ WW)⟩,
  ⟨cstr Anything, cstr "q", cstr Anything, PHONESEQ (KK1)⟩,
  sentinel]

/-- The group `r_r`. -/
def r_r : List TTSRule := [
  ⟨cstr Nothing, cstr "rugged", cstr Anything, PHONESEQ (ER1 ++ AX ++ GG1 ++ PA1 ++ EH ++ DD1)⟩,
  ⟨cstr Nothing, cstr "russia", cstr Anything, PHONESEQ (ER1 ++ AX ++ SH ++ PA1 ++ AX)⟩,
  ⟨cstr Nothing, cstr "reality", cstr Anything, PHONESEQ (ER1 ++ IY ++ AE ++ LL ++ IH ++ TT2 ++ IY)⟩,
  ⟨cstr Anything, cstr "radio", cstr Anything, PHONESEQ (ER1 ++ EY ++ DD2 ++ IY ++ OW)⟩,
  ⟨cstr Anything, cstr "radic", cstr Anything, PHONESEQ (ER1 ++ AE ++ DD2 ++ IH ++ KK1)⟩,
  ⟨cstr Nothing, cstr "re", cstr "^#", PHONESEQ (ER1 ++ IY)⟩,
  ⟨cstr Nothing, cstr "re", cstr "^^#", PHONESEQ (ER1 ++ IY)⟩,
  ⟨cstr Nothing, cstr "re", cstr "^^+", PHONESEQ (ER1 ++ IY)⟩,
  ⟨cstr "^", cstr "r", cstr Anything, PHONESEQ (RR2)⟩,
  ⟨cstr Anything, cstr "r", cstr Anything, PHONESEQ (ER1)⟩,
  sentinel]

/-- The group `r_s`. -/
def r_s : List TTSRule := [
  ⟨cstr Anything, cstr "said", cstr Anything, PHONESEQ (SS ++ EH ++ DD1)⟩,
  ⟨cstr Anything, cstr "secret", cstr Anything, PHONESEQ (SS ++ IY ++ KK1 ++ ER1 ++ EH ++ TT2)⟩,
  ⟨cstr Nothing, cstr "sly", cstr Anything, PHONESEQ (SS ++ LL ++ AY)⟩,
  ⟨cstr Nothing, cstr "satur", cstr Anything, PHONESEQ (SS ++ AE ++ AE ++ TT2 ++ ER2)⟩,
  ⟨cstr Anything, cstr "some", cstr Anything, PHONESEQ (SS ++ AH ++ MM)⟩,
  ⟨cstr Anything, cstr "s", cstr "hon#^", PHONESEQ (SS)⟩,
  ⟨cstr Anything, cstr "sh", cstr Anything, PHONESEQ (SH)⟩,
  ⟨cstr "#", cstr "sur", cstr "#", PHONESEQ (ZH ++ ER2)⟩,
  ⟨cstr Anything, cstr "sur", cstr "#", PHONESEQ (SH ++ ER2)⟩,
  ⟨cstr "#", cstr "su", cstr "#", PHONESEQ (ZH ++ UW2)⟩,
  ⟨cstr "#", cstr "ssu", cstr "#", PHONESEQ (SH ++ UW2)⟩,
  ⟨cstr "#", cstr "sed", cstr Nothing, PHONESEQ (ZZ ++ DD1)⟩,
  ⟨cstr "#", cstr "sion", cstr Anything, PHONESEQ (PA1 ++ ZH ++ AX ++ NN1)⟩,
  ⟨cstr "^", cstr "sion", cstr Anything, PHONESEQ (PA1 ++ SH ++ AX ++ NN1)⟩,
  ⟨cstr "s", cstr "sian", cstr Anything, PHONESEQ (SS ++ SS ++ IY ++ AX ++ NN1)⟩,
  ⟨cstr "#", cstr "sian", cstr Anything, PHONESEQ (PA1 ++ ZH ++ IY ++ AX ++ NN1)⟩,
  ⟨cstr Anything, cstr "sian", cstr Anything, PHONESEQ (PA1 ++ ZH ++ AX ++ NN1)⟩,
  ⟨cstr Nothing, cstr "sch", cstr Anything, PHONESEQ (SS ++ KK1)⟩,
  ⟨cstr "#", cstr "sm", cstr Anything, PHONESEQ (ZZ ++ MM)⟩,
  ⟨cstr "#", cstr "sn", cstr "'", PHONESEQ (ZZ ++ AX ++ NN1)⟩,
  ⟨cstr Nothing, cstr "sky", cstr Anything, PHONESEQ (SS ++ KK1 ++ AY)⟩,
  ⟨cstr "#", cstr "s", cstr "#", PHONESEQ (ZZ)⟩,
  ⟨cstr ".", cstr "s", cstr Nothing, PHONESEQ (ZZ)⟩,
  ⟨cstr "#:.e", cstr "s", cstr Nothing, PHONESEQ (ZZ)⟩,
  ⟨cstr "#:^##", cstr "s", cstr Nothing, PHONESEQ (ZZ)⟩,
  ⟨cstr "#:^#", cstr "s", cstr Nothing, PHONESEQ (SS)⟩,
  ⟨cstr "u", cstr "s", cstr Nothing, PHONESEQ (SS)⟩,
  ⟨cstr (Nothing ++ ":#"), cstr "s", cstr Nothing, PHONESEQ (ZZ)⟩,
  ⟨cstr Anything, cstr "s", cstr "s", Silent⟩,
  ⟨cstr Anything, cstr "s", cstr "c+", Silent⟩,
  ⟨cstr Anything, cstr "s", cstr Anything, PHONESEQ (SS)⟩,
  sentinel]

/-- The group `r_t`. -/
def r_t : List TTSRule := [
  ⟨cstr Nothing, cstr "the", cstr Nothing, PHONESEQ (DH1 ++ IY)⟩,
  ⟨cstr Nothing, cstr "this", cstr Nothing, PHONESEQ (DH2 ++ IH ++ IH ++ SS ++ SS)⟩,
  ⟨cstr Nothing, cstr "than", cstr Nothing, PHONESEQ (DH2 ++ AE ++ AE ++ NN1)⟩,
  ⟨cstr Nothing, cstr "them", cstr Nothing, PHONESEQ (DH2 ++ EH ++ EH ++ MM)⟩,
  ⟨cstr Nothing, cstr "tilde", cstr Nothing, PHONESEQ (TT2 ++ IH ++ LL ++ DD2 ++ AX)⟩,
  ⟨cstr Nothing, cstr "tuesday", cstr Nothing, PHONESEQ (TT2 ++ UW2 ++ ZZ ++ PA2 ++ DD2 ++ EY)⟩,
  ⟨cstr Nothing, cstr "try", cstr Anything, PHONESEQ (TT2 ++ ER1 ++ AY)⟩,
  ⟨cstr Nothing, cstr "thy", cstr Anything, PHONESEQ (DH2 ++ AY)⟩,
  ⟨cstr Nothing, cstr "they", cstr Anything, PHONESEQ (DH2 ++ EH ++ EY)⟩,
  ⟨cstr Nothing, cstr "there", cstr Anything, PHONESEQ (DH2 ++ EH ++ XR)⟩,
  ⟨cstr Nothing, cstr "then", cstr Anything, PHONESEQ (DH2 ++ EH ++ EH ++ NN1)⟩,
  ⟨cstr Nothing, cstr "thus", cstr Anything, PHONESEQ (DH2 ++ AH ++ AH ++ SS)⟩,
  ⟨cstr Anything, cstr "that", cstr Nothing, PHONESEQ (DH2 ++ AE ++ TT2)⟩,
  ⟨cstr Anything, cstr "truly", cstr Anything, PHONESEQ (TT2 ++ ER1 ++ UW2 ++ LL ++ IY)⟩,
  ⟨cstr Anything, cstr "truth", cstr Anything, PHONESEQ (TT2 ++ ER1 ++ UW2 ++ TH)⟩,
  ⟨cstr Anything, cstr "their", cstr Anything, PHONESEQ (DH2 ++ EH ++ IY ++ XR)⟩,
  ⟨cstr Anything, cstr "these", cstr Nothing, PHONESEQ (DH2 ++ IY ++ ZZ)⟩,
  ⟨cstr Anything, cstr "through", cstr Anything, PHONESEQ (TH ++ ER1 ++ UW2)⟩,
  ⟨cstr Anything, cstr "those", cstr Anything, PHONESEQ (DH2 ++ OW ++ ZZ)⟩,
  ⟨cstr Anything, cstr "though", cstr Nothing, PHONESEQ (DH2 ++ OW)⟩,
  ⟨cstr Anything, cstr "tion", cstr Anything, PHONESEQ (PA1 ++ SH ++ AX ++ NN1)⟩,
  ⟨cstr Anything, cstr "tian", cstr Anything, PHONESEQ (PA1 ++ SH ++ AX ++ NN1)⟩,
  ⟨cstr Anything, cstr "tien", cstr Anything, PHONESEQ (SH ++ AX ++ NN1)⟩,
  ⟨cstr Anything, cstr "tear", cstr Nothing, PHONESEQ (TT2 ++ EY ++ ER2)⟩,
  ⟨cstr Anything, cstr "tear", cstr "%", PHONESEQ (TT2 ++ EY ++ ER2)⟩,
  ⟨cstr Anything, cstr "tear", cstr "#", PHONESEQ (TT2 ++ EY ++ ER2)⟩,
  ⟨cstr "#", cstr "t", cstr "ia", PHONESEQ (SH)⟩,
  ⟨cstr ".", cstr "t", cstr "ia", PHONESEQ (SH)⟩,
  ⟨cstr Anything, cstr "ther", cstr Anything, PHONESEQ (DH2 ++ PA2 ++ ER2)⟩,
  ⟨cstr Anything, cstr "to", cstr Nothing, PHONESEQ (TT2 ++ UW2)⟩,
  ⟨cstr "#", cstr "th", cstr Anything, PHONESEQ (TH)⟩,
  ⟨cstr Anything, cstr "th", cstr Anything, PHONESEQ (TH)⟩,
  ⟨cstr "#:", cstr "ted", cstr Nothing, PHONESEQ (PA1 ++ TT2 ++ IH ++ DD1)⟩,
  ⟨cstr Anything, cstr "tur", cstr "#", PHONESEQ (PA1 ++ CH ++ ER2)⟩,
  ⟨cstr Anything, cstr "tur", cstr "^", PHONESEQ (TT2 ++ ER2)⟩,
  ⟨cstr Anything, cstr "tu", cstr "a", PHONESEQ (CH ++ UW2)⟩,
  ⟨cstr Nothing, cstr "two", cstr Anything, PHONESEQ (TT2 ++ UW2)⟩,
  ⟨cstr "t", cstr "t", cstr Anything, Silent⟩,
  ⟨cstr Anything, cstr "t", cstr "s", PHONESEQ (TT1)⟩,
  ⟨cstr Anything, cstr "t", cstr Anything, PHONESEQ (TT2)⟩,
  sentinel]

/-- The group `r_u`. -/
def r_u : List TTSRule := [
  ⟨cstr Nothing, cstr "un", cstr Nothing, PHONESEQ (YY2 ++ UW2 ++ PA3 ++ AE ++ NN1)⟩,
  ⟨cstr Nothing, cstr "usa", cstr Nothing, PHONESEQ (YY2 ++ UW2 ++ PA3 ++ AE ++ SS ++ SS ++ PA3 ++ EH ++ EY)⟩,
  ⟨cstr Nothing, cstr "ussr", cstr Nothing, PHONESEQ (YY2 ++ UW2 ++ PA3 ++ AE ++ SS ++ SS ++ PA3 ++ AE ++ SS ++ SS ++ PA3 ++ AA ++ AR)⟩,
  ⟨cstr Nothing, cstr "u", cstr Nothing, PHONESEQ (YY2 ++ UW1)⟩,
  ⟨cstr Nothing, cstr "un", cstr "i", PHONESEQ (YY2 ++ UW2 ++ NN1)⟩,
  ⟨cstr Nothing, cstr "un", cstr ":", PHONESEQ (AH ++ NN1 ++ PA1)⟩,
  ⟨cstr Nothing, cstr "un", cstr Anything, PHONESEQ (AH ++ NN1)⟩,
  ⟨cstr Nothing, cstr "upon", cstr Anything, PHONESEQ (AX ++ PP ++ AO ++ NN1)⟩,
  ⟨cstr "d", cstr "up", cstr Anything, PHONESEQ (UW2 ++ PP)⟩,
  ⟨cstr "t", cstr "ur", cstr "#", PHONESEQ (UH ++ ER1)⟩,
  ⟨cstr "s", cstr "ur", cstr "#", PHONESEQ (UH ++ ER1)⟩,
  ⟨cstr "r", cstr "ur", cstr "#", PHONESEQ (UH ++ ER1)⟩,
  ⟨cstr "d", cstr "ur", cstr "#", PHONESEQ (UH ++ ER1)⟩,
  ⟨cstr "l", cstr "ur", cstr "#", PHONESEQ (UH ++ ER1)⟩,
  ⟨cstr "z", cstr "ur", cstr "#", PHONESEQ (UH ++ ER1)⟩,
  ⟨cstr "n", cstr "ur", cstr "#", PHONESEQ (UH ++ ER1)⟩,
  ⟨cstr "j", cstr "ur", cstr "#", PHONESEQ (UH ++ ER1)⟩,
  ⟨cstr "th", cstr "ur", cstr "#", PHONESEQ (UH ++ ER1)⟩,
  ⟨cstr "ch", cstr "ur", cstr "#", PHONESEQ (UH ++ ER1)⟩,
  ⟨cstr "sh", cstr "ur", cstr "#", PHONESEQ (UH ++ ER1)⟩,
  ⟨cstr "arg", cstr "u", cstr "#", PHONESEQ (YY2 ++ UW2)⟩,
  ⟨cstr Anything, cstr "ur", cstr "#", PHONESEQ (YY2 ++ UH ++ ER1)⟩,
  ⟨cstr Anything, cstr "ur", cstr Anything, PHONESEQ (ER2)⟩,
  ⟨cstr Anything, cstr "uy", cstr Anything, PHONESEQ (AA ++ AY)⟩,
  ⟨cstr Anything, cstr "u", cstr "^#^", PHONESEQ (YY2 ++ UW2)⟩,
  ⟨cstr Anything, cstr "u", cstr ("^" ++ Nothing), PHONESEQ (AH)⟩,
  ⟨cstr Anything, cstr "u", cstr "%", PHONESEQ (UW2)⟩,
  ⟨cstr (Nothing ++ "g"), cstr "u", cstr "#", Silent⟩,
  ⟨cstr "g", cstr "u", cstr "%", Silent⟩,
  ⟨cstr "g", cstr "u", cstr "#", PHONESEQ (WW)⟩,
  ⟨cstr "#n", cstr "u", cstr Anything, PHONESEQ (YY2 ++ UW2)⟩,
  ⟨cstr "#m", cstr "u", cstr Anything, PHONESEQ (YY2 ++ UW2)⟩,
  ⟨cstr "f", cstr "u", cstr "^^", PHONESEQ (UH)⟩,
  ⟨cstr "b", cstr "u", cstr "^^", PHONESEQ (UH)⟩,
  ⟨cstr "^", cstr "u", cstr "^e", PHONESEQ (YY2 ++ UW2)⟩,
  ⟨cstr "^", cstr "u", cstr "^", PHONESEQ (AX)⟩,
  ⟨cstr Anything, cstr "u", cstr "^^", PHONESEQ (AH)⟩,
  ⟨cstr "t", cstr "u", cstr Anything, PHONESEQ (UW2)⟩,
  ⟨cstr "s", cstr "u", cstr Anything, PHONESEQ (UW2)⟩,
  ⟨cstr "r", cstr "u", cstr Anything, PHONESEQ (UW2)⟩,
  ⟨cstr "d", cstr "u", cstr Anything, PHONESEQ (UW2)⟩,
  ⟨cstr "l", cstr "u", cstr Anything, PHONESEQ (UW2)⟩,
  ⟨cstr "z", cstr "u", cstr Anything, PHONESEQ (UW2)⟩,
  ⟨cstr "n", cstr "u", cstr Anything, PHONESEQ (UW2)⟩,
  ⟨cstr "j", cstr "u", cstr Anything, PHONESEQ (UW2)⟩,
  ⟨cstr "th", cstr "u", cstr Anything, PHONESEQ (UW2)⟩,
  ⟨cstr "ch", cstr "u", cstr Anything, PHONESEQ (UW2)⟩,
  ⟨cstr "sh", cstr "u", cstr Anything, PHONESEQ (UW2)⟩,
  ⟨cstr Anything, cstr "u", cstr Anything, PHONESEQ (YY2 ++ UW2)⟩,
  sentinel]

/-- The group `r_v`. -/
def r_v : List TTSRule := [
  ⟨cstr Anything, cstr "view", cstr Anything, PHONESEQ (VV ++ YY2 ++ UW2)⟩,
  ⟨cstr Nothing, cstr "very", cstr Nothing, PHONESEQ (VV ++ EH ++ ER2 ++ PA1 ++ IY)⟩,
  ⟨cstr Anything, cstr "vary", cstr Anything, PHONESEQ (VV ++ EY ++ PA1 ++ ER1 ++ IY)⟩,
  ⟨cstr Anything, cstr "v", cstr Anything, PHONESEQ (VV)⟩,
  sentinel]

/-- The group `r_w`. -/
def r_w : List TTSRule := [
  ⟨cstr Nothing, cstr "were", cstr Anything, PHONESEQ (WW ++ ER2)⟩,
  ⟨cstr Anything, cstr "weigh", cstr Anything, PHONESEQ (WW ++ EH ++ EY)⟩,
  ⟨cstr Anything, cstr "wood", cstr Anything, PHONESEQ (WW ++ UH ++ UH ++ DD1)⟩,
  ⟨cstr Anything, cstr "wary", cstr Anything, PHONESEQ (WW ++ EH ++ ER2 ++ PA1 ++ IY)⟩,
  ⟨cstr Anything, cstr "where", cstr Anything, PHONESEQ (WW ++ EH ++ ER1)⟩,
  ⟨cstr Anything, cstr "what", cstr Anything, PHONESEQ (WW ++ AA ++ AA ++ TT2)⟩,
  ⟨cstr Anything, cstr "want", cstr Anything, PHONESEQ (WW ++ AA ++ AA ++ NN1 ++ TT2)⟩,
  ⟨cstr Anything, cstr "whol", cstr Anything, PHONESEQ (HH1 ++ OW ++ LL)⟩,
  ⟨cstr Anything, cstr "who", cstr Anything, PHONESEQ (HH1 ++ UW2)⟩,
  ⟨cstr Anything, cstr "why", cstr Anything, PHONESEQ (WW ++ AO ++ AY)⟩,
  ⟨cstr Anything, cstr "wear", cstr Anything, PHONESEQ (WW ++ EY ++ ER2)⟩,
  ⟨cstr Anything, cstr "wea", cstr "th", PHONESEQ (WW ++ EH)⟩,
  ⟨cstr Anything, cstr "wea", cstr "l", PHONESEQ (WW ++ EH)⟩,
  ⟨cstr Anything, cstr "wea", cstr "p", PHONESEQ (WW ++ EH)⟩,
  ⟨cstr Anything, cstr "wa", cstr "s", PHONESEQ (WW ++ AA)⟩,
  ⟨cstr Anything, cstr "wa", cstr "t", PHONESEQ (WW ++ AA)⟩,
  ⟨cstr Anything, cstr "wh", cstr Anything, PHONESEQ (WH)⟩,
  ⟨cstr Anything, cstr "war", cstr Nothing, PHONESEQ (WW ++ AO ++ ER1)⟩,
  ⟨cstr Nothing, cstr "wicked", cstr Anything, PHONESEQ (WW ++ IH ++ KK2 ++ PA1 ++ EH ++ DD1)⟩,
  ⟨cstr "be", cstr "wilder", cstr Anything, PHONESEQ (WW ++ IH ++ LL ++ DD2 ++ ER2)⟩,
  ⟨cstr Nothing, cstr "wilder", cstr "ness", PHONESEQ (WW ++ IH ++ LL ++ DD2 ++ ER2)⟩,
  ⟨cstr Nothing, cstr "wild", cstr "erness", PHONESEQ (WW ++ IH ++ LL ++ DD2)⟩,
  ⟨cstr Nothing, cstr "wily", cstr Nothing, PHONESEQ (WW ++ AY ++ LL ++ IY)⟩,
  ⟨cstr Anything, cstr "wor", cstr "^", PHONESEQ (WW ++ ER2)⟩,
  ⟨cstr Anything, cstr "wr", cstr Anything, PHONESEQ (ER1)⟩,
  ⟨cstr Anything, cstr "w", cstr Anything, PHONESEQ (WW)⟩,
  sentinel]

/-- The group `r_x`. -/
def r_x : List TTSRule := [
  ⟨cstr Anything, cstr "x", cstr Anything, PHONESEQ (KK1 ++ SS)⟩,
  sentinel]

/-- The group `r_y`. -/
def r_y : List TTSRule := [
  ⟨cstr Anything, cstr "young", cstr Anything, PHONESEQ (YY2 ++ AH ++ NG)⟩,
  ⟨cstr Nothing, cstr "your", cstr Anything, PHONESEQ (YY2 ++ UH ++ ER2)⟩,
  ⟨cstr Nothing, cstr "you", cstr Anything, PHONESEQ (YY2 ++ UW2)⟩,
  ⟨cstr Nothing, cstr "yes", cstr Anything, PHONESEQ (YY2 ++ EH ++ SS)⟩,
  ⟨cstr Anything, cstr "yte", cstr Anything, PHONESEQ (AY ++ TT2 ++ PA1)⟩,
  ⟨cstr Anything, cstr "y", cstr Nothing, PHONESEQ (IY)⟩,
  ⟨cstr Anything, cstr "y", cstr Anything, PHONESEQ (IH)⟩,
  ⟨cstr Anything, cstr "y", cstr Anything, PHONESEQ (IH)⟩,
  sentinel]

/-- The group `r_z`. -/
def r_z : List TTSRule := [
  ⟨cstr "z", cstr "z", cstr Anything, Silent⟩,
  ⟨cstr Anything, cstr "z", cstr Anything, PHONESEQ (ZZ)⟩,
  sentinel]

/-- The table `_rules[27]` of `tts_rules.c`, named after its file (`_rules` is
the name of the table as a parameter). -/
def tts_rules : Nat → List TTSRule := fun nIdx =>
  [r_punc,
   r_a, r_b, r_c, r_d, r_e, r_f, r_g, r_h,
   r_i, r_j, r_k, r_l, r_m, r_n, r_o, r_p,
   r_q, r_r, r_s, r_t, r_u, r_v, r_w, r_x,
   r_y, r_z].getD nIdx []

/-! ## Evaluation of the sets of the shipped table -/

/-- Search tree over byte strings, each with its index in the sequence the
tree was built from. -/
inductive STree where
  | leaf
  | node (l : STree) (x : List Nat) (i : Nat) (r : STree)

/-- Balanced search tree of the elements `l` of an ascending sequence, the
first of which has the index `i`. -/
def treeOf : Nat → Nat → List (List Nat) → STree
  | 0, _, _ => STree.leaf
  | fuel + 1, i, l =>
    match l.drop (l.length / 2) with
    | [] => STree.leaf
    | x :: r =>
      STree.node (treeOf fuel i (l.take (l.length / 2))) x (i + l.length / 2)
        (treeOf fuel (i + l.length / 2 + 1) r)

/-- Three-way comparison of byte strings by Boolean tests. -/
def cmpB : List Nat → List Nat → Ordering
  | [], [] => Ordering.eq
  | [], _ :: _ => Ordering.lt
  | _ :: _, [] => Ordering.gt
  | a :: as, b :: bs =>
    match Nat.blt a b with
    | true => Ordering.lt
    | false =>
      match Nat.blt b a with
      | true => Ordering.gt
      | false => cmpB as bs

/-- Search in the tree: the index stored with the string, if it is found. -/
def STree.find (v : List Nat) : STree → Option Nat
  | STree.leaf => none
  | STree.node l x i r =>
    match cmpB v x with
    | Ordering.lt => l.find v
    | Ordering.gt => r.find v
    | Ordering.eq => some i

/-- Search every value in the tree and collect the indices found as a set of
bits; `none` when a value is not found. -/
def seen (t : STree) : List (List Nat) → Nat → Option Nat
  | [], m => some m
  | v :: rest, m =>
    match t.find v with
    | none => none
    | some i => seen t rest (m ||| (1 <<< i))

/-- Adjacent elements ascend. -/
def chainAsc : List (List Nat) → Bool
  | [] => true
  | [_] => true
  | a :: b :: rest => lexLess a b && chainAsc (b :: rest)

/-- Test that the sequence `S` is ascending and that its elements are exactly
the values `vals`: every value is found in the tree of `S`, and every index
of `S` is found for some value. -/
def coversB (S vals : List (List Nat)) : Bool :=
  chainAsc S && (seen (treeOf S.length 0 S) vals 0 == some (2 ^ S.length - 1))

/-- Test that `M` is the greatest length among `vals`. -/
def longestB (vals : List (List Nat)) (M : Nat) : Bool :=
  vals.all (fun v => Nat.ble v.length M) && vals.any (fun v => Nat.beq v.length M)

/-- All context strings of the rules, in table order. -/
def contextStrings (_rules : Nat → List TTSRule) : List (List Nat) :=
  (allRules _rules).flatMap (fun e => [e.left, e.bracket, e.right])

/-- All phoneme sequences of the rules as they stand in the table, in table
order. -/
def phonemeStrings (_rules : Nat → List TTSRule) : List (List Nat) :=
  (allRules _rules).map (fun e => e._phone._phone)

/-- The distinct context strings of `tts_rules`, ascending. -/
def shippedStrs : List (List Nat) := [
  "", " ", "!", "#", "##", "#.", "#:", "#:.e", "#:^", "#:^#", "#:^##", "#:c", "#:ch", "#:g",
  "#:j", "#:r", "#:s", "#:sh", "#:x", "#:z", "#^", "#m", "#n", "#r", "#s", "#v", "$", "$#^", "$:",
  "$:#", "$:^", "$d", "$g", "$l", "$s", "%", "'", "':^", "'s", "+", "+:", "+^", ",", "-", ".",
  ".#", ":", ":#", ";", "?", "^", "^#", "^##", "^#^", "^$", "^%", "^+", "^+#", "^+$", "^+:#",
  "^.", "^^", "^^#", "^^+", "^^^", "^ch", "^e", "^en", "^i", "^i#", "^l", "^y", "a", "a^^", "ab",
  "abb", "able", "above", "ac", "acro", "ae", "ag", "again", "ahead", "ai", "aic", "air", "al",
  "ali", "alk", "allege", "allo", "ally", "als", "an", "ance", "ang", "any", "apropos", "ar",
  "aract", "arch", "are", "arg", "argue", "arr", "arrai", "ary", "as", "ass", "atomic", "au",
  "aw", "ay", "b", "b#", "bagel", "ban", "barbaque", "barbeque", "bargain", "bbq", "be", "bear",
  "beau", "being", "beni", "bi", "bl", "bomb", "both", "br", "buil", "bus", "by", "bye", "c",
  "c#", "c+", "cafe", "campai", "cation", "caveat", "cele", "ch", "chaic", "chassis", "china",
  "chinese", "christ", "chron", "chry", "ci", "ck", "closet", "com", "country", "crea", "cry",
  "cuit", "cycle", "d", "d$", "d%", "de", "dead", "ded", "dg", "dh", "dig", "do", "does",
  "dogged", "doing", "dow", "dry", "du", "dyn", "dyna", "e", "ea", "ead", "ear", "earn", "ecia",
  "ed", "edia", "ee", "eful", "ego", "ei", "eigh", "eleg", "ely", "ement", "en", "ent", "equ",
  "er", "ered", "eri", "erness", "err", "es", "eu", "ev", "even", "evil", "ew", "ey", "eye", "f",
  "five", "fixed", "fly", "fnord", "foot", "four", "fr", "ful", "g", "gadget", "gen", "get", "gg",
  "gges", "giv", "gl", "god", "good", "great", "gue", "h", "ha", "half", "hang", "hav", "he",
  "heard", "heart", "heavi", "heavy", "height", "here", "hi", "hive", "hon#^", "honest", "honor",
  "hood", "hor", "hour", "how", "hy", "i", "ia", "ible", "ice", "idea", "idl", "ie", "iec", "ied",
  "ien", "iend", "ier", "ies", "ify", "igh", "ign", "ii", "iii", "ild", "in", "ine", "ing",
  "intrigu", "ion", "ique", "ir", "iron", "is", "ish", "iso", "ity", "iz", "j", "japan",
  "japanese", "jesus", "july", "k", "k.", "l", "lead", "level", "liber", "lion", "liv", "lo",
  "lose", "ly", "m", "mary", "micro", "mon", "mono", "mos", "mov", "my", "n", "ness", "ng", "ngl",
  "nk", "non", "none", "now", "nuc", "nus", "o", "o^^", "oa", "occu", "of", "oh", "ohio", "ohm",
  "oi", "oing", "ok", "okay", "ol", "olo", "om", "omb", "on", "on't", "once", "one", "onest",
  "only", "onor", "oo", "ook", "oor", "or", "ore", "origin", "orough", "orr", "ors", "oss",
  "other", "ou", "ough", "ought", "ould", "oup", "our", "ous", "ov", "over", "ow", "own", "oy",
  "p", "p#", "pab", "peop", "ph", "phe", "pi", "ply", "pow", "prove", "put", "q", "qu", "quar",
  "que", "r", "radic", "radio", "re", "reality", "rugged", "russia", "s", "s#", "s$", "said",
  "satur", "sch", "secret", "sed", "sh", "sian", "sion", "sky", "sly", "sm", "sn", "some", "ssu",
  "st$", "su", "sur", "t", "t#^", "t%", "tear", "ted", "th", "than", "that", "the", "their",
  "them", "then", "ther", "there", "these", "they", "this", "those", "though", "through", "thus",
  "thy", "tian", "tien", "tilde", "tion", "to", "truly", "truth", "try", "tu", "tuesday", "tur",
  "two", "u", "un", "up", "upon", "ur", "usa", "ussr", "uy", "v", "vary", "ve", "very", "view",
  "w", "wa", "want", "war", "wary", "wea", "wear", "weigh", "were", "wh", "what", "where", "who",
  "whol", "why", "wicked", "wild", "wilder", "wily", "wood", "wor", "wr", "x", "y", "yes", "you",
  "young", "your", "yte", "z"].map bytesOf

/-- The distinct phoneme sequences of `tts_rules` as they stand in the table
(each byte the phoneme code plus one), ascending. -/
def shippedBins : List (List Nat) := [
  [], PA1, PA1 ++ IH ++ TT2 ++ IY, PA1 ++ IH ++ FF ++ AY, PA1 ++ TT2 ++ IH ++ DD1,
  PA1 ++ RR1 ++ HH1 ++ BB2 ++ RR1 ++ LL, PA1 ++ RR1 ++ LL ++ IY, PA1 ++ RR1 ++ ER2 ++ IY,
  PA1 ++ MM ++ EH ++ NN1 ++ TT2, PA1 ++ MM ++ EY ++ XR ++ IY,
  PA1 ++ EY ++ HH1 ++ BB2 ++ RR1 ++ LL, PA1 ++ AE ++ NN1 ++ SS, PA1 ++ SH ++ RR1 ++ NN1,
  PA1 ++ ZH ++ RR1 ++ NN1, PA1 ++ ZH ++ IY ++ RR1 ++ NN1, PA1 ++ FF ++ UH ++ LL, PA1 ++ LL ++ IY,
  PA1 ++ CH ++ ER2, PA4, PA4 ++ PA3, PA5, PA5 ++ PA5 ++ PA4, OY, AY, AY ++ EH, AY ++ NN1,
  AY ++ TT2 ++ PA1, AY ++ DD1, AY ++ DD2 ++ RR1 ++ LL, AY ++ DD2 ++ IY ++ RR1, AY ++ ZZ,
  AY ++ LL ++ DD1, AY ++ SS, AY ++ SS ++ OW, EH, EH ++ EH, EH ++ EH ++ VV ++ HH1, EH ++ EH ++ ER1,
  EH ++ NN1 ++ IY, EH ++ EY, EH ++ EY ++ LL, EH ++ DD2, EH ++ LL ++ EH ++ GG1, EH ++ ER1 ++ IH,
  KK3, KK3 ++ LL ++ AO ++ AO ++ ZZ ++ EH ++ TT2, KK3 ++ WW, KK3 ++ WW ++ AO ++ ER1,
  KK3 ++ ER1 ++ AY ++ SS ++ TT2, KK3 ++ ER1 ++ IY, KK3 ++ ER1 ++ IY ++ EY, KK3 ++ ER1 ++ AO ++ AY,
  PP, PP ++ AY, PP ++ IY ++ PP, PP ++ UH ++ TT2, PP ++ AW, PP ++ LL ++ AY, PP ++ ER1 ++ UW2 ++ VV,
  JH, JH ++ EH ++ EH ++ NN1, JH ++ RR1 ++ PP ++ AE ++ AE ++ NN1,
  JH ++ RR1 ++ PP ++ AE ++ AE ++ NN1 ++ IY ++ SS ++ SS, JH ++ IY ++ ZZ ++ RR1 ++ SS, JH ++ UW2,
  JH ++ UW2 ++ LL ++ AE ++ AY, NN1, NN1 ++ JH, NN1 ++ AW, IH, IH ++ JH,
  IH ++ NN1 ++ TT2 ++ ER1 ++ IY ++ GG1, IH ++ IH, IH ++ IH ++ NN1, IH ++ MM, IH ++ BB1 ++ LL,
  IH ++ SH, IH ++ ZZ, IH ++ NG, IH ++ SS, TT2, TT2 ++ IH ++ LL ++ DD2 ++ RR1, TT2 ++ EY ++ ER2,
  TT2 ++ UW2, TT2 ++ UW2 ++ ZZ ++ PA2 ++ DD2 ++ EY, TT2 ++ ER1 ++ AY, TT2 ++ ER1 ++ UW2 ++ TH,
  TT2 ++ ER1 ++ UW2 ++ LL ++ IY, TT2 ++ ER2, RR1, RR1 ++ PP ++ AO ++ NN1,
  RR1 ++ TT2 ++ AA ++ MM ++ PA1 ++ IH ++ KK1, RR1 ++ RR1, RR1 ++ RR1 ++ NN1,
  RR1 ++ RR1 ++ VV ++ HH1, RR1 ++ RR1 ++ ER1 ++ PA1 ++ KK1 ++ IH,
  RR1 ++ RR1 ++ ER1 ++ KK1 ++ PA1 ++ IH, RR1 ++ RR1 ++ ER1 ++ CH ++ IH, RR1 ++ RR1 ++ BB2,
  RR1 ++ HH1 ++ EH ++ EH ++ DD1, RR1 ++ GG3 ++ EH ++ EH ++ NN1, RR1 ++ LL,
  RR1 ++ LL ++ EH ++ DD2 ++ JH, RR1 ++ LL ++ ZZ, RR1 ++ ER2, RR1 ++ SS,
  RR1 ++ BB2 ++ RR1 ++ RR1 ++ VV ++ HH1, AH, AH ++ AY, AH ++ NN1, AH ++ NN1 ++ PA1, AH ++ MM,
  AH ++ VV ++ HH1, AH ++ FF, AH ++ DH2 ++ ER2, MM, MM ++ AY, MM ++ AY ++ KK1 ++ ER1 ++ OW,
  MM ++ EY ++ XR ++ IY, MM ++ AA ++ NN1 ++ AA, MM ++ AA ++ NN1 ++ OW, MM ++ AA ++ AA ++ NN1,
  MM ++ UW2 ++ VV ++ HH1, MM ++ OW ++ SS, TT1, DH1 ++ IY, IY, IY ++ EH ++ NN1, IY ++ NN1,
  IY ++ NN1 ++ DD1, IY ++ RR1, IY ++ DD1, IY ++ DD2, IY ++ DD2 ++ IY ++ RR1,
  IY ++ VV ++ EH ++ NN1, IY ++ VV ++ EH ++ LL, IY ++ GG1 ++ OW, IY ++ SH ++ IY ++ EY, IY ++ KK1,
  IY ++ KK1 ++ WW, IY ++ ZZ, IY ++ XR ++ IY, IY ++ ER2, IY ++ SS ++ SS, EY, EY ++ NN1 ++ JH,
  EY ++ IH ++ KK1, EY ++ HH1 ++ BB2 ++ RR1 ++ LL, EY ++ XR, EY ++ SS, DD1, AO, AO ++ AY,
  AO ++ NN1 ++ EH ++ SS ++ TT2, AO ++ NN1 ++ ER2, AO ++ TT2, AO ++ AO, AO ++ AO ++ KK1,
  AO ++ AO ++ ER1, AO ++ AA ++ LL ++ AO, AO ++ AW ++ ER1, AO ++ FF, AO ++ LL, AO ++ ER1, AO ++ SS,
  AA, AA ++ AY, AA ++ AY ++ NN1, AA ++ AY ++ ZZ, AA ++ AY ++ ER1, AA ++ AY ++ ER2 ++ NN1,
  AA ++ KK1 ++ PA1 ++ UW1, AA ++ ER1, AA ++ ER2, AA ++ ER2 ++ GG1 ++ YY2 ++ UW2, YY2 ++ EH ++ SS,
  YY2 ++ RR1 ++ NN1, YY2 ++ AH ++ NG, YY2 ++ UW1, YY2 ++ UH ++ ER1, YY2 ++ UH ++ ER2, YY2 ++ UW2,
  YY2 ++ UW2 ++ PA3 ++ AE ++ NN1, YY2 ++ UW2 ++ PA3 ++ AE ++ SS ++ SS ++ PA3 ++ EH ++ EY,
  YY2 ++ UW2 ++ PA3 ++ AE ++ SS ++ SS ++ PA3 ++ AE ++ SS ++ SS ++ PA3 ++ AA ++ AR,
  YY2 ++ UW2 ++ NN1, AE, AE ++ PP ++ ER1 ++ OW ++ PP ++ OW, AE ++ NN1, AE ++ NN1 ++ DD1, AE ++ AE,
  AE ++ AE ++ BB1 ++ PA2, AE ++ AE ++ LL ++ AY, AE ++ AE ++ SS ++ SS,
  AE ++ HH1 ++ KK1 ++ ER1 ++ OW, AE ++ LL ++ AA, AE ++ LL ++ AW, AE ++ LL ++ OW, HH1,
  HH1 ++ AY ++ TT2, HH1 ++ IY ++ XR, HH1 ++ AA ++ AY, HH1 ++ AA ++ AY ++ VV, HH1 ++ AA ++ AA,
  HH1 ++ AA ++ ER1 ++ TT2, HH1 ++ AE, HH1 ++ AE ++ AE ++ FF, HH1 ++ AE ++ VV ++ IY,
  HH1 ++ AE ++ VV ++ HH1, HH1 ++ AE ++ NG, HH1 ++ UH ++ UH ++ DD1, HH1 ++ UW2, HH1 ++ AW,
  HH1 ++ ER2 ++ DD1, HH1 ++ OW ++ LL, BB1, TH, TH ++ ER1 ++ IY, TH ++ ER1 ++ UW2, UH, UH ++ DD1,
  UH ++ KK1, UH ++ ER1, UW2, UW2 ++ PP, UW2 ++ IH ++ NG, AW, AW ++ NN1, AW ++ ER1, AW ++ ER2, DD2,
  DD2 ++ AY ++ NN1 ++ PA1, DD2 ++ AY ++ NN1 ++ RR1 ++ PA1, DD2 ++ EH ++ EH ++ DD1, DD2 ++ IH,
  DD2 ++ IH ++ IH ++ GG1, DD2 ++ IH ++ DD1, DD2 ++ AH ++ ZZ, DD2 ++ AO ++ GG1 ++ PA1 ++ EH ++ DD1,
  DD2 ++ UW2, DD2 ++ AW, DD2 ++ ER1 ++ AO ++ AY, GG3, GG3 ++ PA1, GG3 ++ EH ++ EH ++ TT2,
  GG3 ++ AA ++ AA ++ DD1, VV, VV ++ EH ++ ER2 ++ PA1 ++ IY, VV ++ EY ++ PA1 ++ ER1 ++ IY,
  VV ++ YY2 ++ UW2, GG1, GG1 ++ JH ++ EH ++ SS, SH, SH ++ RR1 ++ NN1, SH ++ UW2, SH ++ ER2,
  ZH ++ UW2, ZH ++ ER2, RR2, FF, FF ++ NN1 ++ AO ++ OR ++ DD1, FF ++ IH ++ KK1 ++ SS ++ TT2,
  FF ++ IY, FF ++ AO ++ AY ++ VV, FF ++ UH ++ UH ++ TT2, FF ++ LL ++ AO ++ AY, FF ++ OW ++ ER1,
  KK2, KK1, KK1 ++ IH ++ TT2, KK1 ++ RR1 ++ RR1 ++ NN1 ++ TT2 ++ ER1 ++ IY, KK1 ++ AH ++ MM,
  KK1 ++ EY ++ IH ++ KK1, KK1 ++ EY ++ SH ++ RR1 ++ NN1, KK1 ++ AE ++ VV ++ IY ++ AE ++ TT2,
  KK1 ++ AE ++ FF ++ AE ++ EY, KK1 ++ ER1 ++ AO ++ NN1, KK1 ++ SS, ZZ, ZZ ++ RR1 ++ NN1, ZZ ++ MM,
  ZZ ++ DD1, NG, NG ++ GG1, NG ++ GG1 ++ RR1 ++ LL, NG ++ KK1, LL, LL ++ AY ++ RR1 ++ NN1,
  LL ++ AY ++ VV, LL ++ EH ++ VV ++ RR1 ++ LL, LL ++ IH ++ VV, LL ++ IH ++ BB2 ++ ER2, LL ++ IY,
  LL ++ IY ++ DD1, LL ++ UW2 ++ ZZ, LL ++ OW, WW, WW ++ AY ++ LL ++ IY, WW ++ EH, WW ++ EH ++ EY,
  WW ++ EH ++ ER1, WW ++ EH ++ ER2 ++ PA1 ++ IY, WW ++ IH ++ KK2 ++ PA1 ++ EH ++ DD1,
  WW ++ IH ++ LL ++ DD2, WW ++ IH ++ LL ++ DD2 ++ ER2, WW ++ AH ++ NN1, WW ++ AH ++ NN1 ++ SS,
  WW ++ EY ++ ER2, WW ++ AO ++ AY, WW ++ AO ++ ER1, WW ++ AA, WW ++ AA ++ AA ++ NN1 ++ TT2,
  WW ++ AA ++ AA ++ TT2, WW ++ UH ++ UH ++ DD1, WW ++ ER2, WH, CH, CH ++ AY ++ NN1 ++ RR1,
  CH ++ AY ++ NN1 ++ IY ++ SS, CH ++ RR1 ++ RR1 ++ SS ++ IY, CH ++ UW2, ER1,
  ER1 ++ RR1 ++ GG1 ++ PA1 ++ EH ++ DD1, ER1 ++ RR1 ++ SH ++ PA1 ++ RR1, ER1 ++ IY,
  ER1 ++ IY ++ AE ++ LL ++ IH ++ TT2 ++ IY, ER1 ++ EY ++ DD2 ++ IY ++ OW,
  ER1 ++ AE ++ DD2 ++ IH ++ KK1, ER2, ER2 ++ NN1, ER2 ++ DD1, ER2 ++ ZZ, ER2 ++ OW, OW,
  OW ++ PA3 ++ KK1 ++ EH ++ EY, OW ++ NN1 ++ TT2, OW ++ NN1 ++ LL ++ IY, OW ++ IH ++ NG, OW ++ MM,
  OW ++ HH1 ++ AY ++ OW, OW ++ VV ++ HH1, OW ++ VV ++ ER2, OW ++ LL, OW ++ ER1, OW ++ ER2,
  DH2 ++ PA2 ++ ER2, DH2 ++ AY, DH2 ++ EH ++ EH ++ NN1, DH2 ++ EH ++ EH ++ MM,
  DH2 ++ EH ++ IY ++ XR, DH2 ++ EH ++ EY, DH2 ++ EH ++ XR, DH2 ++ IH ++ IH ++ SS ++ SS,
  DH2 ++ AH ++ AH ++ SS, DH2 ++ IY ++ ZZ, DH2 ++ AE ++ TT2, DH2 ++ AE ++ AE ++ NN1, DH2 ++ OW,
  DH2 ++ OW ++ ZZ, SS, SS ++ AY, SS ++ AY ++ KK3 ++ UH ++ LL, SS ++ EH ++ DD1,
  SS ++ EH ++ LL ++ PA1 ++ EH, SS ++ AH ++ MM, SS ++ IY ++ KK1 ++ ER1 ++ EH ++ TT2,
  SS ++ AE ++ AE ++ TT2 ++ ER2, SS ++ KK1, SS ++ KK1 ++ AY, SS ++ LL ++ AY,
  SS ++ SS ++ IY ++ RR1 ++ NN1, NN2, NN2 ++ AH ++ NN1, NN2 ++ UW1 ++ KK1, NN2 ++ AA ++ AA ++ NN1,
  OR, OR ++ IH ++ DD2 ++ JH ++ IH ++ NN1, YR, GG2, GG2 ++ EH, GG2 ++ IH ++ IH ++ VV ++ HH1,
  GG2 ++ AE ++ AE ++ DD1 ++ PA2 ++ JH ++ EH ++ EH ++ TT2, GG2 ++ UH ++ UH ++ DD1,
  GG2 ++ ER1 ++ EY ++ TT2, BB2, BB2 ++ AY, BB2 ++ IH, BB2 ++ IH ++ ZZ, BB2 ++ IH ++ LL,
  BB2 ++ RR1 ++ RR1 ++ ER1 ++ BB2 ++ RR1 ++ KK2 ++ YY2 ++ UW2, BB2 ++ IY, BB2 ++ IY ++ IH ++ NG,
  BB2 ++ EY ++ GG1 ++ EH ++ LL, BB2 ++ EY ++ ER2, BB2 ++ AO ++ AY,
  BB2 ++ AO ++ ER1 ++ GG1 ++ EH ++ NN1, BB2 ++ AA ++ AA ++ MM, BB2 ++ AE ++ AE ++ NN1, BB2 ++ OW,
  BB2 ++ OW ++ TH]

/-! # Theorems -/

/-! ## The comparator and the containers -/

theorem lexLess_irrefl (a : List Nat) : lexLess a a = false := by
  induction a with
  | nil => rfl
  | cons x xs ih => simp [lexLess, ih]

theorem lexLess_trans : ∀ (a b c : List Nat), lexLess a b = true → lexLess b c = true →
    lexLess a c = true
  | _, [], _, h, _ => by simp [lexLess] at h
  | _, _ :: _, [], _, h => by simp [lexLess] at h
  | [], _ :: _, _ :: _, _, _ => by simp [lexLess]
  | x :: xs, y :: ys, z :: zs, h1, h2 => by
    simp only [lexLess] at h1 h2 ⊢
    split_ifs at h1 h2 ⊢ <;> first
      | rfl
      | omega
      | exact lexLess_trans xs ys zs h1 h2

theorem lexLess_total : ∀ (a b : List Nat), lexLess a b = false → lexLess b a = false → a = b
  | [], [], _, _ => rfl
  | [], _ :: _, h, _ => by simp [lexLess] at h
  | _ :: _, [], _, h => by simp [lexLess] at h
  | x :: xs, y :: ys, h1, h2 => by
    simp only [lexLess] at h1 h2
    split_ifs at h1 h2
    have hxy : x = y := by omega
    rw [hxy, lexLess_total xs ys h1 h2]

theorem lexLess_asymm (a b : List Nat) (h : lexLess a b = true) : lexLess b a = false := by
  cases hba : lexLess b a with
  | false => rfl
  | true => have := lexLess_trans a b a h hba; simp [lexLess_irrefl] at this

theorem lexLess_iff_lex (a b : List Nat) :
    lexLess a b = true ↔ List.Lex (fun x y : Nat => x < y) a b := by
  induction a generalizing b with
  | nil =>
    cases b with
    | nil => simp [lexLess]
    | cons y ys => simp [lexLess, List.Lex.nil]
  | cons x xs ih =>
    cases b with
    | nil => simp [lexLess]
    | cons y ys =>
      simp only [lexLess]
      constructor
      · intro h
        split_ifs at h with h1 h2
        · exact List.Lex.rel h1
        · have : x = y := by omega
          subst this
          exact List.Lex.cons ((ih ys).1 h)
      · intro h
        cases h with
        | rel h1 => simp [h1]
        | cons h1 =>
          simp only [Nat.lt_irrefl, if_false]
          exact (ih ys).2 h1

theorem mem_setInsert (v x : List Nat) (s : List (List Nat)) :
    x ∈ setInsert v s ↔ x = v ∨ x ∈ s := by
  induction s with
  | nil => simp [setInsert]
  | cons y ys ih =>
    simp only [setInsert]
    split_ifs with h1 h2
    · simp
    · simp [ih]; tauto
    · have : v = y := lexLess_total v y (by simpa using h1) (by simpa using h2)
      subst this; simp

theorem ascending_setInsert (v : List Nat) (s : List (List Nat)) (hs : Ascending s) :
    Ascending (setInsert v s) := by
  unfold Ascending at *
  induction s with
  | nil => simp [setInsert]
  | cons y ys ih =>
    simp only [setInsert]
    rw [List.pairwise_cons] at hs
    split_ifs with h1 h2
    · refine List.Pairwise.cons ?_ (List.Pairwise.cons hs.1 hs.2)
      intro a ha
      rcases List.mem_cons.1 ha with rfl | ha
      · exact h1
      · exact lexLess_trans _ _ _ h1 (hs.1 a ha)
    · refine List.Pairwise.cons ?_ (ih hs.2)
      intro a ha
      rcases (mem_setInsert v a ys).1 ha with rfl | ha
      · exact h2
      · exact hs.1 a ha
    · exact List.Pairwise.cons hs.1 hs.2

theorem Ascending.nodup {s : List (List Nat)} (hs : Ascending s) : s.Nodup := by
  unfold Ascending at hs
  refine List.Pairwise.imp ?_ hs
  intro a b h e
  subst e
  simp [lexLess_irrefl] at h

theorem ascending_ext (S T : List (List Nat)) (hS : Ascending S) (hT : Ascending T)
    (h : ∀ x, x ∈ S ↔ x ∈ T) : S = T := by
  haveI : IsAntisymm (List Nat) (fun a b => lexLess a b = true) :=
    ⟨fun a b h1 h2 => by have := lexLess_asymm a b h1; simp [h2] at this⟩
  exact List.eq_of_perm_of_sorted ((List.perm_ext_iff_of_nodup hS.nodup hT.nodup).2 h) hS hT

theorem mapInsert_append (kv : List Nat × Nat) (m : List (List Nat × Nat))
    (h : ∀ x ∈ m, lexLess x.1 kv.1 = true) : mapInsert kv m = m ++ [kv] := by
  induction m with
  | nil => rfl
  | cons x xs ih =>
    have hx := h x (List.mem_cons_self _ _)
    simp only [mapInsert, lexLess_asymm _ _ hx, hx]
    simp [ih (fun y hy => h y (List.mem_cons_of_mem _ hy))]

theorem mapIndex_found (m : List (List Nat × Nat)) (k : List Nat) (h : (mapFind k m).isSome) :
    mapIndex m k = ((mapFind k m).getD 0, m) := by
  unfold mapIndex
  cases hk : mapFind k m with
  | none => simp [hk] at h
  | some v => rfl

/-! ## `makeDeDups` collects the two sets -/

theorem scan_dedups (g : List TTSRule) (hg : wellFormedGroup g = true) (acc : SET_STR × SET_BLOB) :
    makeDeDups.scan g acc = some ((groupRules g).foldl dedupStep acc) := by
  induction g generalizing acc with
  | nil => simp [wellFormedGroup] at hg
  | cons e rest ih =>
    obtain ⟨strs, bins⟩ := acc
    obtain ⟨l, b, r, p⟩ := e
    cases b with
    | none => simp [makeDeDups.scan, groupRules]
    | some b =>
      cases l with
      | none => simp [wellFormedGroup] at hg
      | some l =>
        cases r with
        | none => simp [wellFormedGroup] at hg
        | some r =>
          simp only [wellFormedGroup, Option.isSome_some, Bool.true_and] at hg
          simp only [makeDeDups.scan, groupRules, List.foldl_cons]
          rw [ih hg]
          rfl

theorem foldlM_range_some {σ : Type} (f : σ → Nat → Option σ) (F : σ → Nat → σ) (gs : List Nat)
    (h : ∀ g ∈ gs, ∀ s, f s g = some (F s g)) (s : σ) :
    gs.foldlM f s = some (gs.foldl F s) := by
  induction gs generalizing s with
  | nil => rfl
  | cons g gs ih =>
    simp only [List.foldlM_cons, List.foldl_cons]
    rw [h g (List.mem_cons_self _ _)]
    exact ih (fun g hg => h g (List.mem_cons_of_mem _ hg)) _

theorem foldl_groups (_rules : Nat → List TTSRule) (gs : List Nat) (acc : SET_STR × SET_BLOB) :
    gs.foldl (fun acc g => (groupRules (_rules g)).foldl dedupStep acc) acc
      = (gs.flatMap (fun g => groupRules (_rules g))).foldl dedupStep acc := by
  induction gs generalizing acc with
  | nil => rfl
  | cons g gs ih => simp [List.foldl_append, ih]

theorem makeDeDups_eq (_rules : Nat → List TTSRule) (h : WellFormed _rules)
    (strs : SET_STR) (bins : SET_BLOB) :
    makeDeDups _rules strs bins = some ((allRules _rules).foldl dedupStep (strs, bins)) := by
  unfold makeDeDups allRules rulesUpTo
  rw [foldlM_range_some _ (fun acc g => (groupRules (_rules g)).foldl dedupStep acc)]
  · rw [foldl_groups]
  · intro g hg s
    exact scan_dedups _ (h g (List.mem_range.1 hg)) s

theorem mem_dedup_strs (rs : List TTSRule) (acc : SET_STR × SET_BLOB) (x : List Nat) :
    x ∈ (rs.foldl dedupStep acc).1 ↔
      x ∈ acc.1 ∨ ∃ e ∈ rs, x = e.left ∨ x = e.bracket ∨ x = e.right := by
  induction rs generalizing acc with
  | nil => simp
  | cons e rs ih =>
    simp only [List.foldl_cons, ih, dedupStep, mem_setInsert, List.mem_cons, exists_eq_or_imp]
    generalize (∃ a ∈ rs, x = a.left ∨ x = a.bracket ∨ x = a.right) = Q
    tauto

theorem mem_dedup_bins (rs : List TTSRule) (acc : SET_STR × SET_BLOB) (x : List Nat) :
    x ∈ (rs.foldl dedupStep acc).2 ↔ x ∈ acc.2 ∨ ∃ e ∈ rs, x = e.phonemes := by
  induction rs generalizing acc with
  | nil => simp
  | cons e rs ih =>
    simp only [List.foldl_cons, ih, dedupStep, mem_setInsert, List.mem_cons, exists_eq_or_imp]
    generalize (∃ a ∈ rs, x = a.phonemes) = Q
    tauto

theorem ascending_dedup (rs : List TTSRule) (acc : SET_STR × SET_BLOB)
    (h1 : Ascending acc.1) (h2 : Ascending acc.2) :
    Ascending (rs.foldl dedupStep acc).1 ∧ Ascending (rs.foldl dedupStep acc).2 := by
  induction rs generalizing acc with
  | nil => exact ⟨h1, h2⟩
  | cons e rs ih =>
    simp only [List.foldl_cons]
    apply ih
    · exact ascending_setInsert _ _ (ascending_setInsert _ _ (ascending_setInsert _ _ h1))
    · exact ascending_setInsert _ _ h2

theorem ascending_strsOf (_rules : Nat → List TTSRule) : Ascending (strsOf _rules) :=
  (ascending_dedup _ ([], []) List.Pairwise.nil List.Pairwise.nil).1

theorem ascending_binsOf (_rules : Nat → List TTSRule) : Ascending (binsOf _rules) :=
  (ascending_dedup _ ([], []) List.Pairwise.nil List.Pairwise.nil).2

theorem mem_strsOf (_rules : Nat → List TTSRule) (x : List Nat) :
    x ∈ strsOf _rules ↔ ∃ e ∈ allRules _rules, x = e.left ∨ x = e.bracket ∨ x = e.right := by
  simp [strsOf, dedupSets, mem_dedup_strs]

theorem mem_binsOf (_rules : Nat → List TTSRule) (x : List Nat) :
    x ∈ binsOf _rules ↔ ∃ e ∈ allRules _rules, x = e.phonemes := by
  simp [binsOf, dedupSets, mem_dedup_bins]

theorem groupRules_some (g : List TTSRule) (hg : wellFormedGroup g = true) (e : TTSRule)
    (he : e ∈ groupRules g) :
    e._left = some e.left ∧ e._bracket = some e.bracket ∧ e._right = some e.right := by
  induction g with
  | nil => simp [groupRules] at he
  | cons x rest ih =>
    obtain ⟨l, b, r, p⟩ := x
    cases b with
    | none => simp [groupRules] at he
    | some b =>
      cases l with
      | none => simp [wellFormedGroup] at hg
      | some l =>
        cases r with
        | none => simp [wellFormedGroup] at hg
        | some r =>
          simp only [wellFormedGroup, Option.isSome_some, Bool.true_and] at hg
          simp only [groupRules, List.mem_cons] at he
          rcases he with rfl | he
          · simp [TTSRule.left, TTSRule.bracket, TTSRule.right]
          · exact ih hg he

/-! ## `makeStringBlob` and `makePhonemeBlob` build the data blob and the indices -/

theorem makePhonemeBlob_eq_makeStringBlob (abyBlob : VEC_BYTE) (bins : SET_BLOB)
    (binsidx : MAP_BLOB_OFFSET) :
    makePhonemeBlob abyBlob bins binsidx = makeStringBlob abyBlob bins binsidx := by
  induction bins generalizing abyBlob binsidx with
  | nil => rfl
  | cons b rest ih =>
    simp only [makePhonemeBlob, makeStringBlob]
    rw [ih]
    cases b with
    | nil => simp
    | cons x xs => simp

theorem mem_offsets (base : Nat) (s : List (List Nat)) (x : List Nat × Nat)
    (h : x ∈ offsets base s) : x.1 ∈ s := by
  induction s generalizing base with
  | nil => simp [offsets] at h
  | cons v rest ih =>
    simp only [offsets, List.mem_cons] at h
    rcases h with rfl | h
    · simp
    · exact List.mem_cons_of_mem _ (ih _ h)

theorem makeStringBlob_fst (abyBlob : VEC_BYTE) (strs : SET_STR) (strsidx : MAP_STR_OFFSET) :
    (makeStringBlob abyBlob strs strsidx).1 = abyBlob ++ encAll strs := by
  induction strs generalizing abyBlob strsidx with
  | nil => simp [makeStringBlob, encAll]
  | cons s rest ih =>
    simp only [makeStringBlob]
    rw [ih]
    simp [encAll]

theorem makeStringBlob_snd (abyBlob : VEC_BYTE) (strs : SET_STR) (strsidx : MAP_STR_OFFSET)
    (hs : Ascending strs) (hi : ∀ x ∈ strsidx, ∀ s ∈ strs, lexLess x.1 s = true) :
    (makeStringBlob abyBlob strs strsidx).2 = strsidx ++ offsets abyBlob.length strs := by
  induction strs generalizing abyBlob strsidx with
  | nil => simp [makeStringBlob, offsets]
  | cons s rest ih =>
    simp only [makeStringBlob]
    unfold Ascending at hs
    rw [List.pairwise_cons] at hs
    rw [mapInsert_append _ _ (fun x hx => hi x hx s (List.mem_cons_self _ _))]
    rw [ih _ _ hs.2]
    · simp [offsets, Nat.add_assoc, Nat.add_comm 1]
    · intro x hx t ht
      rcases List.mem_append.1 hx with hx | hx
      · exact hi x hx t (List.mem_cons_of_mem _ ht)
      · simp only [List.mem_singleton] at hx
        subst hx
        exact hs.1 t ht

theorem mapFind_offsets (base : Nat) (strs : List (List Nat)) (s : List Nat) (h : s ∈ strs) :
    mapFind s (offsets base strs) = some (base + offsetOf s strs) := by
  induction strs generalizing base with
  | nil => simp at h
  | cons v rest ih =>
    simp only [offsets, mapFind, offsetOf]
    by_cases hv : v = s
    · subst hv; simp [lexLess_irrefl]
    · have hne : (!lexLess s v && !lexLess v s) = false := by
        cases h1 : lexLess s v <;> cases h2 : lexLess v s <;> simp
        exact hv (lexLess_total v s h2 h1)
      rw [hne]
      simp only [hv, if_false, Bool.false_eq_true]
      rcases List.mem_cons.1 h with rfl | h
      · exact absurd rfl hv
      · rw [ih _ h]; congr 1; omega

theorem mapFind_offsets_none (base : Nat) (strs : List (List Nat)) (s : List Nat) (h : s ∉ strs) :
    mapFind s (offsets base strs) = none := by
  induction strs generalizing base with
  | nil => rfl
  | cons v rest ih =>
    simp only [List.mem_cons, not_or] at h
    simp only [offsets, mapFind]
    have hne : (!lexLess s v && !lexLess v s) = false := by
      cases h1 : lexLess s v <;> cases h2 : lexLess v s <;> simp
      exact h.1 (lexLess_total v s h2 h1).symm
    rw [hne]
    simpa using ih _ h.2

theorem mapFind_offsets_some (base : Nat) (strs : List (List Nat)) (v : List Nat) (o : Nat)
    (h : mapFind v (offsets base strs) = some o) : v ∈ strs ∧ o = base + offsetOf v strs := by
  by_cases hv : v ∈ strs
  · rw [mapFind_offsets base strs v hv] at h
    exact ⟨hv, (Option.some.inj h).symm⟩
  · rw [mapFind_offsets_none base strs v hv] at h
    simp at h

theorem encAll_drop (strs : List (List Nat)) (s : List Nat) (h : s ∈ strs) :
    ∃ post, (encAll strs).drop (offsetOf s strs) = (s.length % 256) :: s ++ post := by
  induction strs with
  | nil => simp at h
  | cons v rest ih =>
    simp only [offsetOf]
    by_cases hv : v = s
    · subst hv
      exact ⟨encAll rest, by simp [encAll]⟩
    · rcases List.mem_cons.1 h with rfl | h
      · exact absurd rfl hv
      · obtain ⟨post, hp⟩ := ih h
        refine ⟨post, ?_⟩
        simp only [hv, if_false]
        have : encAll (v :: rest) = ((v.length % 256) :: v) ++ encAll rest := by simp [encAll]
        rw [this, List.drop_append_eq_append_drop]
        have h1 : List.drop (1 + v.length + offsetOf s rest) ((v.length % 256) :: v) = [] := by
          apply List.drop_eq_nil_of_le; simp; omega
        rw [h1]
        simp only [List.length_cons, List.nil_append]
        rw [← hp]; congr 1; omega

theorem offsetOf_lt (strs : List (List Nat)) (s : List Nat) (h : s ∈ strs) :
    offsetOf s strs + (1 + s.length) ≤ (encAll strs).length := by
  obtain ⟨post, hp⟩ := encAll_drop strs s h
  have := congrArg List.length hp
  simp at this
  omega

theorem offsetOf_lt_of_lexLess (strs : List (List Nat)) (hs : Ascending strs) (v1 v2 : List Nat)
    (h1 : v1 ∈ strs) (h2 : v2 ∈ strs) (h : lexLess v1 v2 = true) :
    offsetOf v1 strs < offsetOf v2 strs := by
  induction strs with
  | nil => simp at h1
  | cons v rest ih =>
    unfold Ascending at hs
    rw [List.pairwise_cons] at hs
    have hne : v1 ≠ v2 := by
      intro e; subst e; simp [lexLess_irrefl] at h
    simp only [offsetOf]
    by_cases e1 : v = v1
    · subst e1
      rw [if_pos rfl, if_neg hne]
      omega
    · rw [if_neg e1]
      have h1r : v1 ∈ rest := by
        rcases List.mem_cons.1 h1 with e | e
        · exact absurd e.symm e1
        · exact e
      by_cases e2 : v = v2
      · subst e2
        have := lexLess_asymm _ _ (hs.1 v1 h1r)
        rw [h] at this
        simp at this
      · rw [if_neg e2]
        have h2r : v2 ∈ rest := by
          rcases List.mem_cons.1 h2 with e | e
          · exact absurd e.symm e2
          · exact e
        have := ih hs.2 h1r h2r
        omega

theorem offsets_mono (base : Nat) (strs : List (List Nat)) (hs : Ascending strs)
    (v1 v2 : List Nat) (o1 o2 : Nat) (h1 : mapFind v1 (offsets base strs) = some o1)
    (h2 : mapFind v2 (offsets base strs) = some o2) (h : lexLess v1 v2 = true) : o1 < o2 := by
  obtain ⟨m1, rfl⟩ := mapFind_offsets_some base strs v1 o1 h1
  obtain ⟨m2, rfl⟩ := mapFind_offsets_some base strs v2 o2 h2
  have := offsetOf_lt_of_lexLess strs hs v1 v2 m1 m2 h
  omega

theorem dataBlobOf_eq (strs : SET_STR) (bins : SET_BLOB) :
    dataBlobOf strs bins = encAll strs ++ encAll bins := by
  unfold dataBlobOf
  rw [makePhonemeBlob_eq_makeStringBlob, makeStringBlob_fst, makeStringBlob_fst, List.nil_append]

theorem keysIn_of (_rules : Nat → List TTSRule) :
    KeysIn (strsidxOf _rules) (binsidxOf _rules) (allRules _rules) := by
  intro e he
  refine ⟨?_, ?_, ?_, ?_⟩
  · rw [strsidxOf, mapFind_offsets _ _ _ ((mem_strsOf _ _).2 ⟨e, he, Or.inl rfl⟩)]; rfl
  · rw [strsidxOf, mapFind_offsets _ _ _ ((mem_strsOf _ _).2 ⟨e, he, Or.inr (Or.inl rfl)⟩)]; rfl
  · rw [strsidxOf, mapFind_offsets _ _ _ ((mem_strsOf _ _).2 ⟨e, he, Or.inr (Or.inr rfl)⟩)]; rfl
  · rw [binsidxOf, mapFind_offsets _ _ _ ((mem_binsOf _ _).2 ⟨e, he, rfl⟩)]; rfl

/-! ## Bytes and 16-bit words -/

theorem length_bytes16 (v : Nat) : (bytes16 v).length = 2 := rfl

theorem length_recordBytes (r : List Nat) : (recordBytes r).length = 2 * r.length := by
  induction r with
  | nil => rfl
  | cons v vs ih =>
    have : recordBytes (v :: vs) = bytes16 v ++ recordBytes vs := by simp [recordBytes]
    rw [this, List.length_append, ih, length_bytes16, List.length_cons]; omega

theorem length_flatMap_const {α β : Type} (f : α → List β) (k : Nat) (l : List α)
    (h : ∀ x ∈ l, (f x).length = k) : (l.flatMap f).length = k * l.length := by
  induction l with
  | nil => simp
  | cons x xs ih =>
    rw [List.flatMap_cons, List.length_append, h x (List.mem_cons_self _ _),
      ih (fun y hy => h y (List.mem_cons_of_mem _ hy)), List.length_cons]
    rw [Nat.mul_succ]; omega

theorem recordBytes_append (a b : List Nat) :
    recordBytes (a ++ b) = recordBytes a ++ recordBytes b := by
  simp [recordBytes]

theorem flatMap_recordBytes (recs : List (List Nat)) :
    recs.flatMap recordBytes = recordBytes recs.flatten := by
  induction recs with
  | nil => rfl
  | cons r rs ih => simp [List.flatMap_cons, recordBytes_append, ih]

theorem read16_append (A X : List Nat) (v : Nat) (hv : v < 65536) :
    read16 (A ++ bytes16 v ++ X) A.length = v := by
  have e : A ++ bytes16 v ++ X = A ++ (v % 256 :: v / 256 % 256 :: X) := by simp [bytes16]
  rw [e]
  simp only [read16]
  rw [List.getD_append_right _ _ _ _ (Nat.le_refl _), List.getD_append_right _ _ _ _ (by omega)]
  simp only [Nat.sub_self, Nat.add_sub_cancel_left]
  simp only [List.getD_cons_zero, List.getD_cons_succ]
  omega

theorem write16_append (A Q : List Nat) (v : Nat) (hQ : 2 ≤ Q.length) :
    write16 (A ++ Q) A.length v = A ++ bytes16 v ++ Q.drop 2 := by
  match Q, hQ with
  | a :: b :: X, _ =>
    simp only [write16, bytes16]
    rw [List.set_append_right _ _ (Nat.le_refl _), List.set_append_right _ _ (by omega)]
    simp

theorem read16_words (words : List Nat) (hw : ∀ w ∈ words, w < 65536) (C : List Nat) (k : Nat)
    (hk : k < words.length) :
    read16 (recordBytes words ++ C) (2 * k) = words.getD k 0 := by
  induction words generalizing k with
  | nil => simp at hk
  | cons w ws ih =>
    have e : recordBytes (w :: ws) ++ C = [] ++ bytes16 w ++ (recordBytes ws ++ C) := by
      simp [recordBytes]
    cases k with
    | zero =>
      rw [e]
      exact read16_append [] _ w (hw w (List.mem_cons_self _ _))
    | succ k =>
      have hk2 : k < ws.length := by simpa using hk
      have := ih (fun x hx => hw x (List.mem_cons_of_mem _ hx)) k hk2
      rw [List.getD_cons_succ, ← this]
      have e2 : recordBytes (w :: ws) ++ C = w % 256 :: w / 256 % 256 :: (recordBytes ws ++ C) := by
        simp [recordBytes, bytes16]
      rw [e2]
      simp only [read16]
      have h1 : 2 * (k + 1) = (2 * k + 1) + 1 := by omega
      have h2 : 2 * (k + 1) + 1 = (2 * k + 1 + 1) + 1 := by omega
      rw [h2, List.getD_cons_succ, List.getD_cons_succ, h1, List.getD_cons_succ,
        List.getD_cons_succ]

theorem getD_flatten4 (l : List (List Nat)) (h : ∀ x ∈ l, x.length = 4) (j f : Nat)
    (hf : f < 4) :
    l.flatten.getD (4 * j + f) 0 = (l.getD j []).getD f 0 := by
  induction l generalizing j with
  | nil => simp
  | cons x xs ih =>
    have hx := h x (List.mem_cons_self _ _)
    rw [List.flatten_cons]
    cases j with
    | zero =>
      simp only [Nat.mul_zero, Nat.zero_add, List.getD_cons_zero]
      rw [List.getD_append _ _ _ _ (by omega)]
    | succ j =>
      rw [List.getD_append_right _ _ _ _ (by omega), List.getD_cons_succ,
        ← ih (fun y hy => h y (List.mem_cons_of_mem _ hy))]
      congr 1
      omega

theorem length_flatten4 (l : List (List Nat)) (h : ∀ x ∈ l, x.length = 4) :
    l.flatten.length = 4 * l.length := by
  induction l with
  | nil => rfl
  | cons x xs ih =>
    rw [List.flatten_cons, List.length_append, h x (List.mem_cons_self _ _),
      ih (fun y hy => h y (List.mem_cons_of_mem _ hy)), List.length_cons]
    omega

theorem length_resize (v : VEC_BYTE) (n : Nat) : (resize v n).length = n := by
  simp only [resize, List.length_append, List.length_take, List.length_replicate]
  omega

theorem mem_of_getElem? {α : Type} (l : List α) (i : Nat) (x : α) (h : l[i]? = some x) : x ∈ l := by
  rcases List.getElem?_eq_some.1 h with ⟨h1, h2⟩
  rw [← h2]; exact List.getElem_mem _

/-! ## `makeRulesetBlob`: layout stage -/

theorem scan_ruleset (g : List TTSRule) (hg : wellFormedGroup g = true)
    (abyBlob : VEC_BYTE) (strsidx : MAP_STR_OFFSET) (binsidx : MAP_BLOB_OFFSET)
    (hk : KeysIn strsidx binsidx (groupRules g)) :
    makeRulesetBlob.scan g (abyBlob, strsidx, binsidx) =
      some (abyBlob ++ (groupRules g).flatMap (fun e => recordBytes (fieldsOf strsidx binsidx e)),
        strsidx, binsidx) := by
  induction g generalizing abyBlob with
  | nil => simp [wellFormedGroup] at hg
  | cons e rest ih =>
    obtain ⟨l, b, r, p⟩ := e
    cases b with
    | none => simp [makeRulesetBlob.scan, groupRules]
    | some b =>
      cases l with
      | none => simp [wellFormedGroup] at hg
      | some l =>
        cases r with
        | none => simp [wellFormedGroup] at hg
        | some r =>
          simp only [wellFormedGroup, Option.isSome_some, Bool.true_and] at hg
          have hk0 := hk ⟨some l, some b, some r, p⟩ (by simp [groupRules])
          simp only [TTSRule.left, TTSRule.bracket, TTSRule.right, TTSRule.phonemes,
            Option.getD_some] at hk0
          have hk1 : KeysIn strsidx binsidx (groupRules rest) :=
            fun e he => hk e (by simp [groupRules, he])
          simp only [makeRulesetBlob.scan, groupRules]
          rw [mapIndex_found _ _ hk0.1]
          simp only []
          rw [mapIndex_found _ _ hk0.2.1]
          simp only []
          rw [mapIndex_found _ _ hk0.2.2.1]
          simp only []
          rw [mapIndex_found _ _ hk0.2.2.2]
          simp only []
          rw [ih hg _ hk1]
          simp [recordBytes, fieldsOf, TTSRule.left, TTSRule.bracket, TTSRule.right,
            TTSRule.phonemes]

theorem length_recordsOf (strsidx : MAP_STR_OFFSET) (binsidx : MAP_BLOB_OFFSET)
    (rs : List TTSRule) : (recordsOf strsidx binsidx rs).length = 8 * rs.length :=
  length_flatMap_const _ 8 rs (fun e _ => by rw [length_recordBytes]; rfl)

theorem length_tableUpTo (_rules : Nat → List TTSRule) (n : Nat) :
    (tableUpTo _rules n).length = 2 * n := by
  unfold tableUpTo
  rw [length_flatMap_const _ 2 _ (fun g _ => length_bytes16 _), List.length_range]

theorem rulesUpTo_succ (_rules : Nat → List TTSRule) (n : Nat) :
    rulesUpTo _rules (n + 1) = rulesUpTo _rules n ++ groupRules (_rules n) := by
  simp [rulesUpTo, List.range_succ]

theorem tableUpTo_succ (_rules : Nat → List TTSRule) (n : Nat) :
    tableUpTo _rules (n + 1) = tableUpTo _rules n ++
      bytes16 ((56 + 8 * (rulesUpTo _rules n).length) % 65536) := by
  simp [tableUpTo, List.range_succ]

theorem recordsOf_append (strsidx : MAP_STR_OFFSET) (binsidx : MAP_BLOB_OFFSET)
    (a b : List TTSRule) :
    recordsOf strsidx binsidx (a ++ b) = recordsOf strsidx binsidx a ++ recordsOf strsidx binsidx b := by
  simp [recordsOf]

theorem KeysIn.mono {strsidx : MAP_STR_OFFSET} {binsidx : MAP_BLOB_OFFSET} {a b : List TTSRule}
    (h : KeysIn strsidx binsidx b) (hab : ∀ e ∈ a, e ∈ b) : KeysIn strsidx binsidx a :=
  fun e he => h e (hab e he)

theorem mem_rulesUpTo (_rules : Nat → List TTSRule) (n g : Nat) (hg : g < n) (e : TTSRule)
    (he : e ∈ groupRules (_rules g)) : e ∈ rulesUpTo _rules n := by
  simp only [rulesUpTo, List.mem_flatMap, List.mem_range]
  exact ⟨g, hg, he⟩

theorem rulesUpTo_split (_rules : Nat → List TTSRule) (n g : Nat) (hg : g < n) :
    ∃ X, rulesUpTo _rules n = rulesUpTo _rules g ++ groupRules (_rules g) ++ X := by
  induction n with
  | zero => omega
  | succ n ih =>
    rw [rulesUpTo_succ]
    by_cases h : g = n
    · subst h; exact ⟨[], by simp⟩
    · obtain ⟨X, hX⟩ := ih (by omega)
      exact ⟨X ++ groupRules (_rules n), by rw [hX]; simp⟩

theorem rulesUpTo_length_le (_rules : Nat → List TTSRule) (n g : Nat) (hg : g ≤ n) :
    (rulesUpTo _rules g).length ≤ (rulesUpTo _rules n).length := by
  rcases Nat.lt_or_ge g n with h | h
  · obtain ⟨X, hX⟩ := rulesUpTo_split _rules n g h
    rw [hX]; simp only [List.length_append]; omega
  · have : g = n := by omega
    subst this; exact Nat.le_refl _

theorem rulesUpTo_first (_rules : Nat → List TTSRule)
    (h : ∀ g, 0 < g → groupRules (_rules g) = []) (n : Nat) :
    rulesUpTo _rules (n + 1) = groupRules (_rules 0) := by
  induction n with
  | zero => rw [rulesUpTo_succ]; rfl
  | succ n ih => rw [rulesUpTo_succ, ih, h (n + 1) (by omega), List.append_nil]

theorem allRules_get (_rules : Nat → List TTSRule) (g r : Nat) (hg : g < 27) (e : TTSRule)
    (he : (groupRules (_rules g))[r]? = some e) :
    (allRules _rules)[(rulesUpTo _rules g).length + r]? = some e := by
  obtain ⟨X, hX⟩ := rulesUpTo_split _rules 27 g hg
  have hr : r < (groupRules (_rules g)).length := by
    rcases List.getElem?_eq_some.1 he with ⟨h, _⟩; exact h
  unfold allRules
  rw [hX, List.append_assoc, List.getElem?_append_right (by omega), Nat.add_sub_cancel_left,
    List.getElem?_append_left hr]
  exact he

theorem layout_loop (_rules : Nat → List TTSRule) (h : WellFormed _rules)
    (T0 : VEC_BYTE) (hT : T0.length = 56) (strsidx : MAP_STR_OFFSET) (binsidx : MAP_BLOB_OFFSET)
    (hk : KeysIn strsidx binsidx (allRules _rules)) (n : Nat) (hn : n ≤ 27) :
    (List.range n).foldlM
      (fun (s : VEC_BYTE × MAP_STR_OFFSET × MAP_BLOB_OFFSET) nIdxGroup =>
        makeRulesetBlob.scan (_rules nIdxGroup)
          (write16 s.1 (nIdxGroup * 2) (s.1.length % 65536), s.2.1, s.2.2))
      (T0, strsidx, binsidx)
    = some (tableUpTo _rules n ++ T0.drop (2 * n) ++ recordsOf strsidx binsidx (rulesUpTo _rules n),
        strsidx, binsidx) := by
  induction n with
  | zero => simp [tableUpTo, rulesUpTo, recordsOf]
  | succ n ih =>
    rw [List.range_succ, List.foldlM_append, ih (by omega)]
    simp only [List.foldlM_cons, List.foldlM_nil, Option.some_bind, Option.bind_eq_bind]
    have hlen : (tableUpTo _rules n ++ T0.drop (2 * n)
        ++ recordsOf strsidx binsidx (rulesUpTo _rules n)).length
        = 56 + 8 * (rulesUpTo _rules n).length := by
      simp only [List.length_append, length_tableUpTo, List.length_drop, length_recordsOf, hT]
      omega
    rw [hlen]
    have hw : write16 (tableUpTo _rules n ++ T0.drop (2 * n)
        ++ recordsOf strsidx binsidx (rulesUpTo _rules n)) (n * 2)
        ((56 + 8 * (rulesUpTo _rules n).length) % 65536)
        = tableUpTo _rules (n + 1) ++ T0.drop (2 * (n + 1))
          ++ recordsOf strsidx binsidx (rulesUpTo _rules n) := by
      have hp : n * 2 = (tableUpTo _rules n).length := by rw [length_tableUpTo]; omega
      rw [List.append_assoc, hp, write16_append _ _ _ (by simp [hT]; omega)]
      rw [tableUpTo_succ, List.drop_append_of_le_length (by simp [hT]; omega), List.drop_drop]
      simp only [List.append_assoc]
      congr 3
    rw [hw, scan_ruleset _ (h n (by omega)) _ _ _
      (hk.mono (fun e he => mem_rulesUpTo _rules 27 n (by omega) e he))]
    simp only [Option.some_bind, Option.some.injEq, Prod.mk.injEq, and_true]
    rw [rulesUpTo_succ, recordsOf_append]
    simp only [recordsOf, List.append_assoc]
    rfl

/-! ## `makeRulesetBlob`: fixup stage -/

theorem fixupVals_eq (D : Nat) (vs : List Nat) (hv : ∀ v ∈ vs, v < 65536) (A C : List Nat) :
    makeRulesetBlob.fixupVals D vs.length (A.length, A ++ recordBytes vs ++ C)
      = (A.length + 2 * vs.length,
          A ++ recordBytes (vs.map (fun v => (v + D) % 65536)) ++ C) := by
  induction vs generalizing A with
  | nil => simp [makeRulesetBlob.fixupVals, recordBytes]
  | cons v vs ih =>
    have e1 : A ++ recordBytes (v :: vs) ++ C = A ++ bytes16 v ++ (recordBytes vs ++ C) := by
      simp [recordBytes]
    simp only [List.length_cons, makeRulesetBlob.fixupVals]
    rw [e1, read16_append _ _ _ (hv v (List.mem_cons_self _ _))]
    rw [List.append_assoc, write16_append _ _ _ (by simp [length_bytes16])]
    have e2 : List.drop 2 (bytes16 v ++ (recordBytes vs ++ C)) = recordBytes vs ++ C := by
      simp [bytes16]
    rw [e2]
    have e3 : A.length + 2 = (A ++ bytes16 ((v + D) % 65536)).length := by
      simp [length_bytes16]
    rw [e3, ← List.append_assoc, ih (fun x hx => hv x (List.mem_cons_of_mem _ hx))]
    simp only [List.length_append, length_bytes16, List.map_cons, Prod.mk.injEq]
    constructor
    · omega
    · simp [recordBytes]

theorem fixup_eq (D : Nat) (recs : List (List Nat)) (hr : ∀ r ∈ recs, IsRecord r)
    (A C : List Nat) (fuel : Nat) (hf1 : 1 ≤ fuel) (hf : D + 1 ≤ fuel + A.length)
    (hD : D ≤ A.length + 8 * recs.length) :
    makeRulesetBlob.fixup D fuel A.length (A ++ recs.flatMap recordBytes ++ C)
      = some (A ++ (fixRecs D A.length recs).flatMap recordBytes ++ C) := by
  induction recs generalizing A fuel with
  | nil =>
    obtain ⟨f, rfl⟩ : ∃ f, fuel = f + 1 := ⟨fuel - 1, by omega⟩
    simp only [List.length_nil, Nat.mul_zero, Nat.add_zero] at hD
    simp [makeRulesetBlob.fixup, fixRecs, Nat.not_lt.2 hD]
  | cons r rs ih =>
    obtain ⟨f, rfl⟩ : ∃ f, fuel = f + 1 := ⟨fuel - 1, by omega⟩
    simp only [makeRulesetBlob.fixup, fixRecs]
    by_cases hc : A.length < D
    · simp only [hc, if_true]
      obtain ⟨h4, hv⟩ := hr r (List.mem_cons_self _ _)
      have e1 : A ++ (r :: rs).flatMap recordBytes ++ C
          = A ++ recordBytes r ++ (rs.flatMap recordBytes ++ C) := by simp
      have hfv := fixupVals_eq D r hv A (rs.flatMap recordBytes ++ C)
      rw [h4] at hfv
      rw [e1, hfv]
      simp only []
      have e3 : A.length + 2 * 4 = (A ++ recordBytes (r.map (fun v => (v + D) % 65536))).length := by
        rw [List.length_append, length_recordBytes, List.length_map, h4]
      have e4 : A.length + 8 = (A ++ recordBytes (r.map (fun v => (v + D) % 65536))).length := by
        rw [← e3]
      rw [e3, ← List.append_assoc, ih (fun x hx => hr x (List.mem_cons_of_mem _ hx))]
      · simp
      · omega
      · rw [← e4]; omega
      · rw [← e4]; simp only [List.length_cons] at hD; omega
    · simp [hc]

theorem fixRecs_all (D : Nat) (i : Nat) (recs : List (List Nat)) (h : D = i + 8 * recs.length) :
    fixRecs D i recs = recs.map (fun r => r.map (fun v => (v + D) % 65536)) := by
  induction recs generalizing i with
  | nil => rfl
  | cons r rs ih =>
    simp only [List.length_cons] at h
    simp only [fixRecs, List.map_cons]
    rw [if_pos (by omega), ih (i + 8) (by omega)]

theorem length_fixRecs (D i : Nat) (recs : List (List Nat)) :
    (fixRecs D i recs).length = recs.length := by
  induction recs generalizing i with
  | nil => rfl
  | cons r rs ih =>
    simp only [fixRecs]
    split_ifs <;> simp [ih]

theorem isRecord_fieldsOf (strsidx : MAP_STR_OFFSET) (binsidx : MAP_BLOB_OFFSET) (e : TTSRule) :
    IsRecord (fieldsOf strsidx binsidx e) := by
  refine ⟨rfl, ?_⟩
  intro v hv
  simp only [fieldsOf, List.mem_cons, List.mem_singleton, List.not_mem_nil, or_false] at hv
  rcases hv with rfl | rfl | rfl | rfl <;> exact Nat.mod_lt _ (by decide)

theorem isRecord_fixRecs (D i : Nat) (recs : List (List Nat)) (h : ∀ r ∈ recs, IsRecord r) :
    ∀ r ∈ fixRecs D i recs, IsRecord r := by
  induction recs generalizing i with
  | nil => simp [fixRecs]
  | cons r rs ih =>
    simp only [fixRecs]
    split_ifs
    · intro x hx
      rcases List.mem_cons.1 hx with rfl | hx
      · refine ⟨by rw [List.length_map]; exact (h r (List.mem_cons_self _ _)).1, ?_⟩
        intro v hv
        obtain ⟨w, _, rfl⟩ := List.mem_map.1 hv
        exact Nat.mod_lt _ (by decide)
      · exact ih (i + 8) (fun y hy => h y (List.mem_cons_of_mem _ hy)) x hx
    · exact h

/-! ## The closed form of the blob -/

theorem makeRulesetBlob_eq (_rules : Nat → List TTSRule) (h : WellFormed _rules)
    (abyBlob abyDataBlob : VEC_BYTE) (strsidx : MAP_STR_OFFSET) (binsidx : MAP_BLOB_OFFSET)
    (hk : KeysIn strsidx binsidx (allRules _rules)) :
    makeRulesetBlob _rules abyBlob abyDataBlob strsidx binsidx
      = some (tableUpTo _rules 28 ++
          (fixRecs (dataOffsetOf _rules) 56
            ((allRules _rules).map (fieldsOf strsidx binsidx))).flatMap recordBytes ++ abyDataBlob,
          strsidx, binsidx) := by
  unfold makeRulesetBlob
  simp only []
  rw [layout_loop _rules h _ (length_resize _ _) strsidx binsidx hk 27 (Nat.le_refl _)]
  simp only []
  have hd : List.drop (2 * 27) (resize abyBlob ((27 + 1) * 2)) = List.drop 54 (resize abyBlob 56) := rfl
  have hlen : (tableUpTo _rules 27 ++ List.drop 54 (resize abyBlob 56)
      ++ recordsOf strsidx binsidx (rulesUpTo _rules 27)).length
      = 56 + 8 * (allRules _rules).length := by
    simp only [List.length_append, length_tableUpTo, List.length_drop, length_recordsOf,
      length_resize, allRules]
  rw [hd, hlen]
  have hw : write16 (tableUpTo _rules 27 ++ List.drop 54 (resize abyBlob 56)
      ++ recordsOf strsidx binsidx (rulesUpTo _rules 27)) (27 * 2)
      ((56 + 8 * (allRules _rules).length) % 65536)
      = tableUpTo _rules 28 ++ recordsOf strsidx binsidx (allRules _rules) := by
    have hp : 27 * 2 = (tableUpTo _rules 27).length := by rw [length_tableUpTo]
    rw [List.append_assoc, hp, write16_append _ _ _ (by simp [length_resize])]
    rw [tableUpTo_succ _rules 27, List.drop_append_of_le_length (by simp [length_resize]),
      List.drop_drop]
    rw [List.drop_eq_nil_of_le (by simp [length_resize])]
    simp [allRules]
  rw [hw]
  have hT : (tableUpTo _rules 28).length = 56 := by rw [length_tableUpTo]
  have hro : (resize abyBlob ((27 + 1) * 2)).length % 65536 = (tableUpTo _rules 28).length := by
    rw [length_resize, hT]
  have hrec : recordsOf strsidx binsidx (allRules _rules)
      = ((allRules _rules).map (fieldsOf strsidx binsidx)).flatMap recordBytes := by
    simp [recordsOf, List.flatMap_map]
  rw [hro, hrec, fixup_eq]
  · simp only [hT, dataOffsetOf]
  · intro r hr
    obtain ⟨e, _, rfl⟩ := List.mem_map.1 hr
    exact isRecord_fieldsOf _ _ e
  · omega
  · omega
  · rw [hT, List.length_map]
    exact Nat.mod_le _ _

theorem make_compact_ruleset_eq (_rules : Nat → List TTSRule) (h : WellFormed _rules)
    (abyBlob : VEC_BYTE) : make_compact_ruleset _rules abyBlob = some (blobOf _rules) := by
  unfold make_compact_ruleset
  rw [makeDeDups_eq _rules h]
  simp only [makePhonemeBlob_eq_makeStringBlob, makeStringBlob_fst, List.nil_append]
  have h1 : (makeStringBlob [] (List.foldl dedupStep ([], []) (allRules _rules)).1 []).2
      = strsidxOf _rules := by
    have := makeStringBlob_snd [] (strsOf _rules) [] (ascending_strsOf _rules) (by simp)
    exact this
  have h2 : (makeStringBlob (encAll (List.foldl dedupStep ([], []) (allRules _rules)).1)
      (List.foldl dedupStep ([], []) (allRules _rules)).2 []).2 = binsidxOf _rules := by
    have := makeStringBlob_snd (encAll (strsOf _rules)) (binsOf _rules) []
      (ascending_binsOf _rules) (by simp)
    exact this
  rw [h1, h2, makeRulesetBlob_eq _rules h _ _ _ _ (keysIn_of _rules)]
  rfl

theorem isRecord_recordValues (_rules : Nat → List TTSRule) :
    ∀ r ∈ recordValues _rules, IsRecord r := by
  apply isRecord_fixRecs
  intro r hr
  obtain ⟨e, _, rfl⟩ := List.mem_map.1 hr
  exact isRecord_fieldsOf _ _ e

theorem length_recordValues (_rules : Nat → List TTSRule) :
    (recordValues _rules).length = (allRules _rules).length := by
  simp [recordValues, length_fixRecs]

theorem blobOf_words (_rules : Nat → List TTSRule) :
    blobOf _rules = recordBytes (wordsOf _rules) ++ dataOf _rules := by
  unfold blobOf wordsOf
  rw [recordBytes_append, flatMap_recordBytes]
  congr 2

theorem length_wordsOf (_rules : Nat → List TTSRule) :
    (wordsOf _rules).length = 28 + 4 * (allRules _rules).length := by
  unfold wordsOf
  rw [List.length_append, List.length_map, List.length_range,
    length_flatten4 _ (fun r hr => (isRecord_recordValues _rules r hr).1), length_recordValues]

theorem wordsOf_lt (_rules : Nat → List TTSRule) : ∀ w ∈ wordsOf _rules, w < 65536 := by
  intro w hw
  unfold wordsOf at hw
  rcases List.mem_append.1 hw with hw | hw
  · obtain ⟨g, _, rfl⟩ := List.mem_map.1 hw
    exact Nat.mod_lt _ (by decide)
  · obtain ⟨r, hr, hwr⟩ := List.mem_flatten.1 hw
    exact (isRecord_recordValues _rules r hr).2 w hwr

theorem length_blobOf (_rules : Nat → List TTSRule) :
    (blobOf _rules).length = 56 + 8 * (allRules _rules).length + (dataOf _rules).length := by
  rw [blobOf_words, List.length_append, length_recordBytes, length_wordsOf]
  omega

theorem blobOf_split (_rules : Nat → List TTSRule) :
    ∃ P, blobOf _rules = P ++ dataOf _rules ∧ P.length = 56 + 8 * (allRules _rules).length :=
  ⟨recordBytes (wordsOf _rules), blobOf_words _rules, by
    rw [length_recordBytes, length_wordsOf]; omega⟩

theorem blobOf_drop_data (_rules : Nat → List TTSRule) :
    (blobOf _rules).drop (56 + 8 * (allRules _rules).length) = dataOf _rules := by
  obtain ⟨P, hP, hPl⟩ := blobOf_split _rules
  rw [hP, ← hPl, List.drop_left]

/-- Table entry `g` of the closed form: the true offset modulo `2^16`. -/
theorem tableEntry_blobOf (_rules : Nat → List TTSRule) (g : Nat) (hg : g < 28) :
    read16 (blobOf _rules) (2 * g) = (56 + 8 * (rulesUpTo _rules g).length) % 65536 := by
  rw [blobOf_words, read16_words _ (wordsOf_lt _rules) _ g (by rw [length_wordsOf]; omega)]
  unfold wordsOf
  rw [List.getD_append _ _ _ _ (by simpa using hg)]
  rw [List.getD_eq_getElem?_getD, List.getElem?_map, List.getElem?_range hg]
  rfl

/-- Table entries of the closed form when the blob fits 16 bits. -/
theorem tableEntry_exact (_rules : Nat → List TTSRule)
    (hN : 56 + 8 * (allRules _rules).length < 65536) (g : Nat) (hg : g < 28) :
    tableEntry (blobOf _rules) g = 56 + 8 * (rulesUpTo _rules g).length := by
  unfold tableEntry
  rw [tableEntry_blobOf _rules g hg]
  have := rulesUpTo_length_le _rules 27 g (by omega)
  unfold allRules at hN
  exact Nat.mod_eq_of_lt (by omega)

theorem tableEntry_mono (_rules : Nat → List TTSRule)
    (hN : 56 + 8 * (allRules _rules).length < 65536) (g g2 : Nat) (h : g ≤ g2) (h2 : g2 ≤ 27) :
    tableEntry (blobOf _rules) g ≤ tableEntry (blobOf _rules) g2 := by
  rw [tableEntry_exact _rules hN g (by omega), tableEntry_exact _rules hN g2 (by omega)]
  have := rulesUpTo_length_le _rules g2 g h
  omega

theorem fieldsOf_getD (_rules : Nat → List TTSRule) (e : TTSRule) (he : e ∈ allRules _rules)
    (f : Nat) (hf : f < 4) :
    (fieldsOf (strsidxOf _rules) (binsidxOf _rules) e).getD f 0 = relOffset _rules e f % 65536 := by
  have h0 := mapFind_offsets 0 _ _ ((mem_strsOf _rules _).2 ⟨e, he, Or.inl rfl⟩)
  have h1 := mapFind_offsets 0 _ _ ((mem_strsOf _rules _).2 ⟨e, he, Or.inr (Or.inl rfl)⟩)
  have h2 := mapFind_offsets 0 _ _ ((mem_strsOf _rules _).2 ⟨e, he, Or.inr (Or.inr rfl)⟩)
  have h3 := mapFind_offsets (encAll (strsOf _rules)).length _ _
    ((mem_binsOf _rules _).2 ⟨e, he, rfl⟩)
  simp only [fieldsOf, strsidxOf, binsidxOf, h0, h1, h2, h3, Option.getD_some, Nat.zero_add]
  match f, hf with
  | 0, _ => simp [relOffset, TTSRule.value]
  | 1, _ => simp [relOffset, TTSRule.value]
  | 2, _ => simp [relOffset, TTSRule.value]
  | 3, _ => simp [relOffset, TTSRule.value]

/-- Record field `f` of rule number `j` of the closed form, when the rule
region ends below `2^16`. -/
theorem field_blobOf (_rules : Nat → List TTSRule) (hN : 56 + 8 * (allRules _rules).length < 65536)
    (j f : Nat) (e : TTSRule) (he : (allRules _rules)[j]? = some e) (hf : f < 4) :
    read16 (blobOf _rules) (56 + 8 * j + 2 * f)
      = (relOffset _rules e f % 65536 + (56 + 8 * (allRules _rules).length)) % 65536 := by
  have hj : j < (allRules _rules).length := by
    rcases List.getElem?_eq_some.1 he with ⟨h, _⟩; exact h
  have hmem : e ∈ allRules _rules := by
    rcases List.getElem?_eq_some.1 he with ⟨h, h2⟩; rw [← h2]; exact List.getElem_mem _
  have e1 : 56 + 8 * j + 2 * f = 2 * (28 + (4 * j + f)) := by omega
  rw [e1, blobOf_words, read16_words _ (wordsOf_lt _rules) _ _ (by rw [length_wordsOf]; omega)]
  unfold wordsOf
  rw [List.getD_append_right _ _ _ _ (by simp), List.length_map, List.length_range,
    Nat.add_sub_cancel_left,
    getD_flatten4 _ (fun r hr => (isRecord_recordValues _rules r hr).1) j f hf]
  have hD : dataOffsetOf _rules = 56 + 8 * (allRules _rules).length := by
    unfold dataOffsetOf; exact Nat.mod_eq_of_lt hN
  unfold recordValues
  rw [fixRecs_all _ _ _ (by rw [List.length_map, hD]), hD]
  rw [List.getD_eq_getElem?_getD, List.getD_eq_getElem?_getD, List.getElem?_map,
    List.getElem?_map, he]
  simp only [Option.map_some', Option.getD_some]
  rw [List.getElem?_map]
  have hlen : f < (fieldsOf (strsidxOf _rules) (binsidxOf _rules) e).length := hf
  rw [List.getElem?_eq_getElem hlen]
  simp only [Option.map_some', Option.getD_some]
  have := fieldsOf_getD _rules e hmem f hf
  rw [List.getD_eq_getElem?_getD, List.getElem?_eq_getElem hlen] at this
  simp only [Option.getD_some] at this
  rw [this]

theorem mem_value (_rules : Nat → List TTSRule) (e : TTSRule) (he : e ∈ allRules _rules) (f : Nat) :
    (f < 3 → e.value f ∈ strsOf _rules) ∧ (¬ f < 3 → e.value f ∈ binsOf _rules) := by
  constructor
  · intro hf
    rw [mem_strsOf]
    refine ⟨e, he, ?_⟩
    match f, hf with
    | 0, _ => exact Or.inl rfl
    | 1, _ => exact Or.inr (Or.inl rfl)
    | 2, _ => exact Or.inr (Or.inr rfl)
  · intro hf
    rw [mem_binsOf]
    refine ⟨e, he, ?_⟩
    match f, hf with
    | n + 3, _ => rfl

theorem value_phonemes (e : TTSRule) (f : Nat) (hf : ¬ f < 3) : e.value f = e.phonemes := by
  match f, hf with
  | n + 3, _ => rfl

/-- The data blob holds, at the relative offset of a field, the length byte of
its value followed by the value. -/
theorem dataOf_drop (_rules : Nat → List TTSRule) (e : TTSRule) (he : e ∈ allRules _rules)
    (f : Nat) :
    ∃ post, (dataOf _rules).drop (relOffset _rules e f)
      = ((e.value f).length % 256) :: e.value f ++ post := by
  unfold dataOf relOffset
  by_cases hf : f < 3
  · obtain ⟨post, hp⟩ := encAll_drop _ _ ((mem_value _rules e he f).1 hf)
    have hle := offsetOf_lt _ _ ((mem_value _rules e he f).1 hf)
    refine ⟨post ++ encAll (binsOf _rules), ?_⟩
    rw [if_pos hf, List.drop_append_of_le_length (by omega), hp]
    simp
  · obtain ⟨post, hp⟩ := encAll_drop _ _ ((mem_value _rules e he f).2 hf)
    refine ⟨post, ?_⟩
    rw [if_neg hf, List.drop_append_eq_append_drop, List.drop_eq_nil_of_le (by omega)]
    rw [Nat.add_sub_cancel_left, List.nil_append, ← value_phonemes e f hf]
    exact hp

theorem relOffset_lt (_rules : Nat → List TTSRule) (e : TTSRule) (he : e ∈ allRules _rules)
    (f : Nat) : relOffset _rules e f + (1 + (e.value f).length) ≤ (dataOf _rules).length := by
  obtain ⟨post, hp⟩ := dataOf_drop _rules e he f
  have := congrArg List.length hp
  simp at this
  omega

theorem readValue_append (P data : List Nat) (off : Nat) (v post : List Nat)
    (hd : data.drop off = (v.length % 256) :: v ++ post) (hv : v.length ≤ 255) :
    readValue (P ++ data) (P.length + off) = v := by
  have hlt : off < data.length := by
    by_contra hc
    rw [List.drop_eq_nil_of_le (by omega)] at hd
    simp at hd
  have h1 : (P ++ data).drop (P.length + off) = (v.length % 256) :: v ++ post := by
    rw [List.drop_append_eq_append_drop, List.drop_eq_nil_of_le (by omega),
      Nat.add_sub_cancel_left, List.nil_append, hd]
  unfold readValue
  have h2 : (P ++ data).getD (P.length + off) 0 = v.length := by
    rw [List.getD_eq_getElem?_getD, ← List.head?_drop, h1]
    simp only [List.cons_append, List.head?_cons, Option.getD_some]
    exact Nat.mod_eq_of_lt (by omega)
  have h3 : (P ++ data).drop (P.length + off + 1) = v ++ post := by
    rw [← List.drop_drop, h1]
    simp
  rw [h2, h3, List.take_left']
  rfl

/-- Record fields of the closed form when the blob fits 16 bits: the data
offset plus the relative offset of the value. -/
theorem fieldAt_exact (_rules : Nat → List TTSRule) (hlen : (blobOf _rules).length ≤ 65535)
    (g r f : Nat) (e : TTSRule) (hg : g < 27) (he : (groupRules (_rules g))[r]? = some e)
    (hf : f < 4) :
    fieldAt (blobOf _rules) g r f = 56 + 8 * (allRules _rules).length + relOffset _rules e f := by
  have hlen2 := length_blobOf _rules
  have hN : 56 + 8 * (allRules _rules).length < 65536 := by omega
  have hget := allRules_get _rules g r hg e he
  have hmem : e ∈ allRules _rules := mem_of_getElem? _ _ _ hget
  unfold fieldAt
  rw [tableEntry_exact _rules hN g (by omega)]
  have hr := relOffset_lt _rules e hmem f
  have hb : 56 + 8 * (rulesUpTo _rules g).length + 8 * r + 2 * f
      = 56 + 8 * ((rulesUpTo _rules g).length + r) + 2 * f := by omega
  rw [hb, field_blobOf _rules hN _ f e hget hf]
  rw [Nat.mod_eq_of_lt (by omega : relOffset _rules e f < 65536)]
  rw [Nat.mod_eq_of_lt (by omega)]
  omega

/-- Reading the value a record field points to gives the field's value. -/
theorem readValue_fieldAt (_rules : Nat → List TTSRule) (hfit : ValuesFit _rules)
    (hlen : (blobOf _rules).length ≤ 65535)
    (g r f : Nat) (e : TTSRule) (hg : g < 27) (he : (groupRules (_rules g))[r]? = some e)
    (hf : f < 4) :
    readValue (blobOf _rules) (fieldAt (blobOf _rules) g r f) = e.value f := by
  have hmem : e ∈ allRules _rules := mem_of_getElem? _ _ _ (allRules_get _rules g r hg e he)
  obtain ⟨P, hP, hPl⟩ := blobOf_split _rules
  obtain ⟨post, hpost⟩ := dataOf_drop _rules e hmem f
  rw [fieldAt_exact _rules hlen g r f e hg he hf, ← hPl, hP]
  exact readValue_append P _ _ _ post hpost (hfit e hmem f hf)

theorem blobOf_contains_value (_rules : Nat → List TTSRule) (e : TTSRule)
    (he : e ∈ allRules _rules) (f : Nat) :
    ∃ pre post, blobOf _rules = pre ++ ((e.value f).length % 256 :: e.value f) ++ post ∧
      56 + 8 * (allRules _rules).length ≤ pre.length := by
  obtain ⟨P, hP, hPl⟩ := blobOf_split _rules
  obtain ⟨post, hpost⟩ := dataOf_drop _rules e he f
  refine ⟨P ++ (dataOf _rules).take (relOffset _rules e f), post, ?_, ?_⟩
  · rw [hP]
    simp only [List.append_assoc]
    rw [← hpost, List.take_append_drop]
  · rw [List.length_append, hPl]; omega

theorem encAll_eq_lengthPrefixed (S : List (List Nat)) (h : ∀ x ∈ S, x.length ≤ 255) :
    encAll S = lengthPrefixed S := by
  induction S with
  | nil => rfl
  | cons v rest ih =>
    have hv := h v (List.mem_cons_self _ _)
    simp only [encAll, lengthPrefixed, List.flatMap_cons] at ih ⊢
    rw [ih (fun x hx => h x (List.mem_cons_of_mem _ hx)), Nat.mod_eq_of_lt (by omega)]

theorem strsOf_fit (_rules : Nat → List TTSRule) (hfit : ValuesFit _rules) :
    ∀ x ∈ strsOf _rules, x.length ≤ 255 := by
  intro x hx
  obtain ⟨e, he, h⟩ := (mem_strsOf _rules x).1 hx
  rcases h with rfl | rfl | rfl
  · exact hfit e he 0 (by omega)
  · exact hfit e he 1 (by omega)
  · exact hfit e he 2 (by omega)

theorem binsOf_fit (_rules : Nat → List TTSRule) (hfit : ValuesFit _rules) :
    ∀ x ∈ binsOf _rules, x.length ≤ 255 := by
  intro x hx
  obtain ⟨e, he, rfl⟩ := (mem_binsOf _rules x).1 hx
  exact hfit e he 3 (by omega)

theorem dataOf_eq_lengthPrefixed (_rules : Nat → List TTSRule) (hfit : ValuesFit _rules) :
    dataOf _rules = lengthPrefixed (strsOf _rules) ++ lengthPrefixed (binsOf _rules) := by
  unfold dataOf
  rw [encAll_eq_lengthPrefixed _ (strsOf_fit _rules hfit),
    encAll_eq_lengthPrefixed _ (binsOf_fit _rules hfit)]

/-- With values of at most 255 bytes the layout property says that the blob
holds the data blob from `table[27]` on. -/
theorem dataRegionLayout_iff (_rules : Nat → List TTSRule) (hfit : ValuesFit _rules)
    (blob : VEC_BYTE) :
    DataRegionLayout _rules blob ↔ blob.drop (tableEntry blob 27) = dataOf _rules := by
  rw [dataOf_eq_lengthPrefixed _rules hfit]
  constructor
  · rintro ⟨S, P, hS, hSm, hP, hPm, h⟩
    have e1 : S = strsOf _rules :=
      ascending_ext S _ hS (ascending_strsOf _rules)
        (fun x => (hSm x).trans (mem_strsOf _rules x).symm)
    have e2 : P = binsOf _rules :=
      ascending_ext P _ hP (ascending_binsOf _rules)
        (fun x => (hPm x).trans (mem_binsOf _rules x).symm)
    rw [← e1, ← e2]; exact h
  · intro h
    exact ⟨strsOf _rules, binsOf _rules, ascending_strsOf _rules, mem_strsOf _rules,
      ascending_binsOf _rules, mem_binsOf _rules, h⟩

theorem parseEntries_lengthPrefixed (S : List (List Nat)) (fuel : Nat) (hf : S.length ≤ fuel) :
    parseEntries fuel (lengthPrefixed S) = some S := by
  induction S generalizing fuel with
  | nil => cases fuel <;> rfl
  | cons v rest ih =>
    obtain ⟨f, rfl⟩ : ∃ f, fuel = f + 1 := ⟨fuel - 1, by simp at hf; omega⟩
    have e : lengthPrefixed (v :: rest) = v.length :: (v ++ lengthPrefixed rest) := by
      simp [lengthPrefixed]
    rw [e]
    simp only [parseEntries, List.length_append, Nat.le_add_right, if_true, List.drop_left,
      List.take_left]
    rw [ih f (by simpa using hf)]
    rfl

theorem length_le_lengthPrefixed (S : List (List Nat)) : S.length ≤ (lengthPrefixed S).length := by
  induction S with
  | nil => simp
  | cons v rest ih =>
    have e : lengthPrefixed (v :: rest) = v.length :: (v ++ lengthPrefixed rest) := by
      simp [lengthPrefixed]
    rw [e]; simp only [List.length_cons, List.length_append]; omega

theorem lengthPrefixed_append (S P : List (List Nat)) :
    lengthPrefixed (S ++ P) = lengthPrefixed S ++ lengthPrefixed P := by
  simp [lengthPrefixed]

theorem length_eq_card (S l : List (List Nat)) (hS : S.Nodup) (h : ∀ x, x ∈ S ↔ x ∈ l) :
    S.length = l.toFinset.card := by
  rw [← List.toFinset_card_of_nodup hS]
  congr 1
  ext x
  simp [h]

/-! ## The example tables -/

/-- The blob of `smallTable` is far below the size limit. -/
theorem smallTable_blob_length (blob : VEC_BYTE)
    (hb : make_compact_ruleset smallTable [] = some blob) : blob.length ≤ 65535 := by
  have e : (make_compact_ruleset smallTable []).map (fun b => decide (b.length ≤ 65535))
      = some true := by decide
  rw [hb] at e
  simpa using e

theorem groupRules_replicate (n : Nat) (r : TTSRule) (hr : r._bracket.isSome = true) :
    groupRules (List.replicate n r ++ [sentinel]) = List.replicate n r := by
  obtain ⟨l, b, rt, p⟩ := r
  cases b with
  | none => simp at hr
  | some b =>
    induction n with
    | zero => rfl
    | succ n ih =>
      simp only [List.replicate_succ, List.cons_append, groupRules]
      exact congrArg _ ih

theorem wellFormedGroup_replicate (n : Nat) (r : TTSRule) (hb : r._bracket.isSome = true)
    (hl : r._left.isSome = true) (hr : r._right.isSome = true) :
    wellFormedGroup (List.replicate n r ++ [sentinel]) = true := by
  obtain ⟨l, b, rt, p⟩ := r
  cases b with
  | none => simp at hb
  | some b =>
    simp only [] at hl hr
    induction n with
    | zero => rfl
    | succ n ih =>
      simp only [List.replicate_succ, List.cons_append, wellFormedGroup, hl, hr, Bool.true_and]
      exact ih

theorem allRules_bigTable : allRules bigTable = List.replicate 8185 bigRule := by
  unfold allRules
  rw [rulesUpTo_first bigTable (fun g hg => by
    have : g ≠ 0 := by omega
    simp [bigTable, this, groupRules, sentinel]) 26]
  exact groupRules_replicate 8185 bigRule rfl

theorem wellFormed_bigTable : WellFormed bigTable := by
  intro g _
  by_cases h : g = 0
  · subst h
    exact wellFormedGroup_replicate 8185 bigRule rfl rfl rfl
  · simp [bigTable, h, wellFormedGroup, sentinel]

theorem valuesFit_bigTable : ValuesFit bigTable := by
  intro e he f hf
  rw [allRules_bigTable] at he
  rw [List.eq_of_mem_replicate he]
  match f, hf with
  | 0, _ => decide
  | 1, _ => decide
  | 2, _ => decide
  | 3, _ => decide

theorem length_allRules_bigTable : (rulesUpTo bigTable 27).length = 8185 := by
  have h := allRules_bigTable
  unfold allRules at h
  rw [h, List.length_replicate]

theorem count_allRules_bigTable : (allRules bigTable).length = 8185 :=
  length_allRules_bigTable

theorem tableEntry_bigTable : tableEntry (blobOf bigTable) 27 = 0 := by
  unfold tableEntry
  rw [tableEntry_blobOf bigTable 27 (by omega), length_allRules_bigTable]

theorem length_blobOf_bigTable : 65535 < (blobOf bigTable).length := by
  have h := length_blobOf bigTable
  rw [count_allRules_bigTable] at h
  omega

theorem recordsEnd_bigTable : 56 + 8 * (allRules bigTable).length = 65536 := by
  rw [count_allRules_bigTable]

set_option maxRecDepth 100000 in
theorem wellFormed_longTable : WellFormed longTable := by decide

set_option maxRecDepth 100000 in
theorem allRules_longTable : allRules longTable = [longRule] := by decide

theorem length_left_longRule : longRule.left.length = 256 :=
  List.length_replicate 256 97

set_option maxRecDepth 100000 in
/-- The blob of `longTable`, evaluated: 326 bytes; the left field of the rule
is 65, the byte there is 0 and the 256 bytes after it are the string. -/
theorem longTable_eval :
    (make_compact_ruleset longTable []).map
      (fun blob => (blob.length, fieldAt blob 0 0 0, blob.getD (fieldAt blob 0 0 0) 1,
        decide ((blob.drop (fieldAt blob 0 0 0 + 1)).take 256 = List.replicate 256 97)))
      = some (326, 65, 0, true) := by
  decide

/-! ## Claims C1 to C10 -/

/-- Claim C1. Round trip: when every value is at most 255 bytes long and the
blob is at most 65,535 bytes long, following the four 16-bit fields of rule `r`
of group `g` (found at `table[g] + 8*r + 2*f`) and reading the length byte and
the bytes after it gives back the rule's left, bracket and right strings and
its un-biased phoneme sequence. -/
theorem C1_round_trip (_rules : Nat → List TTSRule) (abyBlob : VEC_BYTE)
    (hwf : WellFormed _rules) (hfit : ValuesFit _rules) :
    ∃ blob, make_compact_ruleset _rules abyBlob = some blob ∧
      (blob.length ≤ 65535 → ∀ g r e, g < 27 → (groupRules (_rules g))[r]? = some e →
        some (readValue blob (fieldAt blob g r 0)) = e._left ∧
        some (readValue blob (fieldAt blob g r 1)) = e._bracket ∧
        some (readValue blob (fieldAt blob g r 2)) = e._right ∧
        readValue blob (fieldAt blob g r 3) = e._phone._phone.map unbias) := by
  refine ⟨blobOf _rules, make_compact_ruleset_eq _rules hwf abyBlob, ?_⟩
  intro hlen g r e hg he
  have key := fun f hf => readValue_fieldAt _rules hfit hlen g r f e hg he hf
  obtain ⟨h1, h2, h3⟩ := groupRules_some _ (hwf g hg) e (mem_of_getElem? _ _ _ he)
  refine ⟨?_, ?_, ?_, ?_⟩
  · rw [key 0 (by omega), h1]; rfl
  · rw [key 1 (by omega), h2]; rfl
  · rw [key 2 (by omega), h3]; rfl
  · rw [key 3 (by omega)]; rfl

/-- Witness of C1 on `smallTable`: the table is well formed, its values fit, the
blob is below the size limit and every field reads back. -/
theorem C1_round_trip_witness :
    WellFormed smallTable ∧ ValuesFit smallTable ∧
    ∃ blob, make_compact_ruleset smallTable [] = some blob ∧ blob.length ≤ 65535 ∧
      ∀ g r e, g < 27 → (groupRules (smallTable g))[r]? = some e →
        some (readValue blob (fieldAt blob g r 0)) = e._left ∧
        some (readValue blob (fieldAt blob g r 1)) = e._bracket ∧
        some (readValue blob (fieldAt blob g r 2)) = e._right ∧
        readValue blob (fieldAt blob g r 3) = e._phone._phone.map unbias := by
  refine ⟨by decide, by decide, ?_⟩
  obtain ⟨blob, hb, h⟩ := C1_round_trip smallTable [] (by decide) (by decide)
  exact ⟨blob, hb, smallTable_blob_length blob hb, h (smallTable_blob_length blob hb)⟩

/-- Claim C2. Group partitioning and order: under the size preconditions the
address ranges `[table[g], table[g+1])` of the 27 groups follow each other
without overlap from byte 56 to the end of the rule records, and the records
of range `g`, decoded in increasing address order, are exactly the rules of
input group `g` in their original order; so no record of another group lies
in the range and no record of group `g` lies outside it. -/
theorem C2_group_partition (_rules : Nat → List TTSRule) (abyBlob : VEC_BYTE)
    (hwf : WellFormed _rules) (hfit : ValuesFit _rules) :
    ∃ blob, make_compact_ruleset _rules abyBlob = some blob ∧
      (blob.length ≤ 65535 →
        tableEntry blob 0 = 56 ∧
        tableEntry blob 27 = 56 + 8 * (allRules _rules).length ∧
        (∀ g g2, g ≤ g2 → g2 ≤ 27 → tableEntry blob g ≤ tableEntry blob g2) ∧
        ∀ g, g < 27 →
          decodeGroup blob g
            = (groupRules (_rules g)).map (fun e => [e.left, e.bracket, e.right, e.phonemes])) := by
  refine ⟨blobOf _rules, make_compact_ruleset_eq _rules hwf abyBlob, ?_⟩
  intro hlen
  have hlen2 := length_blobOf _rules
  have hN : 56 + 8 * (allRules _rules).length < 65536 := by omega
  refine ⟨tableEntry_exact _rules hN 0 (by omega), tableEntry_exact _rules hN 27 (by omega),
    tableEntry_mono _rules hN, ?_⟩
  intro g hg
  have hcount : (tableEntry (blobOf _rules) (g + 1) - tableEntry (blobOf _rules) g) / 8
      = (groupRules (_rules g)).length := by
    rw [tableEntry_exact _rules hN g (by omega), tableEntry_exact _rules hN (g + 1) (by omega),
      rulesUpTo_succ, List.length_append]
    omega
  unfold decodeGroup
  rw [hcount]
  apply List.ext_getElem?
  intro r
  rw [List.getElem?_map, List.getElem?_map]
  by_cases hr : r < (groupRules (_rules g)).length
  · rw [List.getElem?_range hr, List.getElem?_eq_getElem hr]
    simp only [Option.map_some', Option.some.injEq]
    have he : (groupRules (_rules g))[r]? = some (groupRules (_rules g))[r] :=
      List.getElem?_eq_getElem hr
    have key := fun f hf =>
      readValue_fieldAt _rules hfit hlen g r f _ hg he hf
    unfold fieldAt at key
    simp only [decodeRule, List.range_succ, List.range_zero, List.nil_append, List.map_cons,
      List.map_nil, List.cons_append]
    rw [key 0 (by omega), key 1 (by omega), key 2 (by omega), key 3 (by omega)]
    rfl
  · rw [List.getElem?_eq_none (by simpa using hr), List.getElem?_eq_none (by omega)]
    rfl

/-- Witness of C2 on `smallTable`. -/
theorem C2_group_partition_witness :
    WellFormed smallTable ∧ ValuesFit smallTable ∧
    ∃ blob, make_compact_ruleset smallTable [] = some blob ∧ blob.length ≤ 65535 ∧
      tableEntry blob 0 = 56 ∧
      tableEntry blob 27 = 56 + 8 * (allRules smallTable).length ∧
      (∀ g g2, g ≤ g2 → g2 ≤ 27 → tableEntry blob g ≤ tableEntry blob g2) ∧
      ∀ g, g < 27 →
        decodeGroup blob g
          = (groupRules (smallTable g)).map (fun e => [e.left, e.bracket, e.right, e.phonemes]) := by
  refine ⟨by decide, by decide, ?_⟩
  obtain ⟨blob, hb, h⟩ := C2_group_partition smallTable [] (by decide) (by decide)
  exact ⟨blob, hb, smallTable_blob_length blob hb, h (smallTable_blob_length blob hb)⟩

/-- Claim C3. Group length: when the blob is at most 65,535 bytes long, for each
of the 27 groups `table[g+1] - table[g]` is a non-negative multiple of 8 and
divided by 8 it is the number of rules of the group. -/
theorem C3_group_length (_rules : Nat → List TTSRule) (abyBlob : VEC_BYTE)
    (hwf : WellFormed _rules) :
    ∃ blob, make_compact_ruleset _rules abyBlob = some blob ∧
      (blob.length ≤ 65535 → ∀ g, g < 27 →
        tableEntry blob g ≤ tableEntry blob (g + 1) ∧
        (tableEntry blob (g + 1) - tableEntry blob g) % 8 = 0 ∧
        (tableEntry blob (g + 1) - tableEntry blob g) / 8 = (groupRules (_rules g)).length) := by
  refine ⟨blobOf _rules, make_compact_ruleset_eq _rules hwf abyBlob, ?_⟩
  intro hlen g hg
  have hlen2 := length_blobOf _rules
  have hN : 56 + 8 * (allRules _rules).length < 65536 := by omega
  rw [tableEntry_exact _rules hN g (by omega), tableEntry_exact _rules hN (g + 1) (by omega),
    rulesUpTo_succ, List.length_append]
  omega

/-- Witness of C3 on `smallTable`. -/
theorem C3_group_length_witness :
    WellFormed smallTable ∧
    ∃ blob, make_compact_ruleset smallTable [] = some blob ∧ blob.length ≤ 65535 ∧
      ∀ g, g < 27 →
        tableEntry blob g ≤ tableEntry blob (g + 1) ∧
        (tableEntry blob (g + 1) - tableEntry blob g) % 8 = 0 ∧
        (tableEntry blob (g + 1) - tableEntry blob g) / 8 = (groupRules (smallTable g)).length := by
  refine ⟨by decide, ?_⟩
  obtain ⟨blob, hb, h⟩ := C3_group_length smallTable [] (by decide)
  exact ⟨blob, hb, smallTable_blob_length blob hb, h (smallTable_blob_length blob hb)⟩

/-- Claim C4. Offset table contents: when the blob is at most 65,535 bytes
long, entry 0 is 56, entry `g` is 56 plus 8 times the number of rules in the
groups before `g`, and entry 27 is 56 plus 8 times the number of all rules,
the offset from which on the blob holds the data blob built by
`makeStringBlob` and `makePhonemeBlob`. -/
theorem C4_offset_table (_rules : Nat → List TTSRule) (abyBlob : VEC_BYTE)
    (hwf : WellFormed _rules) :
    ∃ blob strs bins, make_compact_ruleset _rules abyBlob = some blob ∧
      makeDeDups _rules [] [] = some (strs, bins) ∧
      (blob.length ≤ 65535 →
        tableEntry blob 0 = 56 ∧
        (∀ g, g ≤ 27 → tableEntry blob g = 56 + 8 * (rulesUpTo _rules g).length) ∧
        tableEntry blob 27 = 56 + 8 * (allRules _rules).length ∧
        tableEntry blob 27 ≤ blob.length ∧
        blob.drop (tableEntry blob 27) = dataBlobOf strs bins) := by
  refine ⟨blobOf _rules, strsOf _rules, binsOf _rules,
    make_compact_ruleset_eq _rules hwf abyBlob, makeDeDups_eq _rules hwf [] [], ?_⟩
  intro hlen
  have hlen2 := length_blobOf _rules
  have hN : 56 + 8 * (allRules _rules).length < 65536 := by omega
  have h27 : tableEntry (blobOf _rules) 27 = 56 + 8 * (allRules _rules).length :=
    tableEntry_exact _rules hN 27 (by omega)
  refine ⟨?_, fun g hg => tableEntry_exact _rules hN g (by omega), h27, by omega, ?_⟩
  · rw [tableEntry_exact _rules hN 0 (by omega)]; rfl
  · rw [h27, blobOf_drop_data, dataBlobOf_eq]; rfl

/-- Witness of C4 on `smallTable`. -/
theorem C4_offset_table_witness :
    WellFormed smallTable ∧
    ∃ blob strs bins, make_compact_ruleset smallTable [] = some blob ∧
      makeDeDups smallTable [] [] = some (strs, bins) ∧ blob.length ≤ 65535 ∧
      tableEntry blob 0 = 56 ∧
      (∀ g, g ≤ 27 → tableEntry blob g = 56 + 8 * (rulesUpTo smallTable g).length) ∧
      tableEntry blob 27 = 56 + 8 * (allRules smallTable).length ∧
      tableEntry blob 27 ≤ blob.length ∧
      blob.drop (tableEntry blob 27) = dataBlobOf strs bins := by
  refine ⟨by decide, ?_⟩
  obtain ⟨blob, strs, bins, hb, hd, h⟩ := C4_offset_table smallTable [] (by decide)
  exact ⟨blob, strs, bins, hb, hd, smallTable_blob_length blob hb,
    h (smallTable_blob_length blob hb)⟩

/-- Counterexample to C5 as stated: `bigTable` has values of at most one byte,
yet `table[27]` is 0 (the true offset 65536 wrapped), so the bytes from
`table[27]` on are the whole blob and not the data region. -/
theorem C5_counterexample :
    WellFormed bigTable ∧ ValuesFit bigTable ∧
    ∃ blob, make_compact_ruleset bigTable [] = some blob ∧ tableEntry blob 27 = 0 ∧
      ¬ DataRegionLayout bigTable blob := by
  refine ⟨wellFormed_bigTable, valuesFit_bigTable, blobOf bigTable,
    make_compact_ruleset_eq bigTable wellFormed_bigTable [], tableEntry_bigTable, ?_⟩
  rw [dataRegionLayout_iff bigTable valuesFit_bigTable, tableEntry_bigTable, List.drop_zero]
  intro h
  have := length_blobOf bigTable
  rw [h] at this
  omega

/-- Claim C5, amended. Data region layout: when every value is at most 255
bytes long and the rule records end at or below byte 65,535 (as they do
whenever the blob is at most 65,535 bytes long), the bytes of the blob from
`table[27]` to the end are exactly the length-prefixed distinct context
strings in ascending order followed by the length-prefixed distinct un-biased
phoneme sequences in ascending order. -/
theorem C5_data_region (_rules : Nat → List TTSRule) (abyBlob : VEC_BYTE)
    (hwf : WellFormed _rules) (hfit : ValuesFit _rules)
    (hN : 56 + 8 * (allRules _rules).length ≤ 65535) :
    ∃ blob, make_compact_ruleset _rules abyBlob = some blob ∧ DataRegionLayout _rules blob := by
  refine ⟨blobOf _rules, make_compact_ruleset_eq _rules hwf abyBlob, ?_⟩
  rw [dataRegionLayout_iff _rules hfit, tableEntry_exact _rules (by omega) 27 (by omega)]
  exact blobOf_drop_data _rules

/-- Witness of the amended C5 on `smallTable`. -/
theorem C5_data_region_witness :
    WellFormed smallTable ∧ ValuesFit smallTable ∧ 56 + 8 * (allRules smallTable).length ≤ 65535 ∧
    ∃ blob, make_compact_ruleset smallTable [7, 7] = some blob ∧
      DataRegionLayout smallTable blob :=
  ⟨by decide, by decide, by decide,
    C5_data_region smallTable [7, 7] (by decide) (by decide) (by decide)⟩

/-- Claim C6. Shared storage: when the blob is at most 65,535 bytes long, any
two context fields (left, bracket or right, of any two rules) whose strings
are equal hold the same offset, and any two rules whose phoneme sequences are
equal hold the same phoneme offset. -/
theorem C6_shared_storage (_rules : Nat → List TTSRule) (abyBlob : VEC_BYTE)
    (hwf : WellFormed _rules) :
    ∃ blob, make_compact_ruleset _rules abyBlob = some blob ∧
      (blob.length ≤ 65535 → ∀ g1 r1 e1 g2 r2 e2, g1 < 27 → g2 < 27 →
        (groupRules (_rules g1))[r1]? = some e1 → (groupRules (_rules g2))[r2]? = some e2 →
        (∀ f1 f2, f1 < 3 → f2 < 3 → e1.value f1 = e2.value f2 →
          fieldAt blob g1 r1 f1 = fieldAt blob g2 r2 f2) ∧
        (e1.phonemes = e2.phonemes → fieldAt blob g1 r1 3 = fieldAt blob g2 r2 3)) := by
  refine ⟨blobOf _rules, make_compact_ruleset_eq _rules hwf abyBlob, ?_⟩
  intro hlen g1 r1 e1 g2 r2 e2 hg1 hg2 he1 he2
  constructor
  · intro f1 f2 hf1 hf2 hv
    rw [fieldAt_exact _rules hlen g1 r1 f1 e1 hg1 he1 (by omega),
      fieldAt_exact _rules hlen g2 r2 f2 e2 hg2 he2 (by omega)]
    simp only [relOffset, hf1, hf2, if_true, hv]
  · intro hv
    rw [fieldAt_exact _rules hlen g1 r1 3 e1 hg1 he1 (by omega),
      fieldAt_exact _rules hlen g2 r2 3 e2 hg2 he2 (by omega)]
    simp [relOffset, hv]

/-- Witness of C6 on `smallTable`. -/
theorem C6_shared_storage_witness :
    WellFormed smallTable ∧
    ∃ blob, make_compact_ruleset smallTable [] = some blob ∧ blob.length ≤ 65535 ∧
      ∀ g1 r1 e1 g2 r2 e2, g1 < 27 → g2 < 27 →
        (groupRules (smallTable g1))[r1]? = some e1 →
        (groupRules (smallTable g2))[r2]? = some e2 →
        (∀ f1 f2, f1 < 3 → f2 < 3 → e1.value f1 = e2.value f2 →
          fieldAt blob g1 r1 f1 = fieldAt blob g2 r2 f2) ∧
        (e1.phonemes = e2.phonemes → fieldAt blob g1 r1 3 = fieldAt blob g2 r2 3) := by
  refine ⟨by decide, ?_⟩
  obtain ⟨blob, hb, h⟩ := C6_shared_storage smallTable [] (by decide)
  exact ⟨blob, hb, smallTable_blob_length blob hb, h (smallTable_blob_length blob hb)⟩

/-- Claim C7. Dedup cardinality: when every value is at most 255 bytes long,
parsing the data region (the bytes after the last rule record) as consecutive
length-prefixed entries ends exactly at the end of the blob; the entries are
the context strings of the table, each once, followed by its phoneme
sequences, each once, so the two parts have as many entries as the set of all
left, bracket and right values and the set of all phoneme sequences have
elements. -/
theorem C7_dedup_cardinality (_rules : Nat → List TTSRule) (abyBlob : VEC_BYTE)
    (hwf : WellFormed _rules) (hfit : ValuesFit _rules) :
    ∃ blob S P, make_compact_ruleset _rules abyBlob = some blob ∧
      56 + 8 * (allRules _rules).length ≤ blob.length ∧
      parseEntries (blob.length + 1) (blob.drop (56 + 8 * (allRules _rules).length))
        = some (S ++ P) ∧
      (∀ x, x ∈ S ↔ IsContextString _rules x) ∧
      S.length
        = ((allRules _rules).flatMap (fun e => [e.left, e.bracket, e.right])).toFinset.card ∧
      (∀ x, x ∈ P ↔ IsPhonemeSeq _rules x) ∧
      P.length = ((allRules _rules).map (fun e => e.phonemes)).toFinset.card := by
  refine ⟨blobOf _rules, strsOf _rules, binsOf _rules,
    make_compact_ruleset_eq _rules hwf abyBlob, ?_, ?_, mem_strsOf _rules, ?_,
    mem_binsOf _rules, ?_⟩
  · rw [length_blobOf]; omega
  · rw [blobOf_drop_data, dataOf_eq_lengthPrefixed _rules hfit, ← lengthPrefixed_append]
    apply parseEntries_lengthPrefixed
    have h1 := length_le_lengthPrefixed (strsOf _rules ++ binsOf _rules)
    rw [lengthPrefixed_append, ← dataOf_eq_lengthPrefixed _rules hfit] at h1
    have h2 := length_blobOf _rules
    omega
  · apply length_eq_card _ _ (ascending_strsOf _rules).nodup
    intro x
    rw [mem_strsOf]
    simp only [List.mem_flatMap, List.mem_cons, List.mem_singleton, List.not_mem_nil, or_false]
  · apply length_eq_card _ _ (ascending_binsOf _rules).nodup
    intro x
    rw [mem_binsOf]
    simp only [List.mem_map]
    constructor
    · rintro ⟨e, he, rfl⟩; exact ⟨e, he, rfl⟩
    · rintro ⟨e, he, rfl⟩; exact ⟨e, he, rfl⟩

/-- Witness of C7 on `smallTable`. -/
theorem C7_dedup_cardinality_witness :
    WellFormed smallTable ∧ ValuesFit smallTable ∧
    ∃ blob S P, make_compact_ruleset smallTable [] = some blob ∧
      56 + 8 * (allRules smallTable).length ≤ blob.length ∧
      parseEntries (blob.length + 1) (blob.drop (56 + 8 * (allRules smallTable).length))
        = some (S ++ P) ∧
      (∀ x, x ∈ S ↔ IsContextString smallTable x) ∧
      S.length
        = ((allRules smallTable).flatMap (fun e => [e.left, e.bracket, e.right])).toFinset.card ∧
      (∀ x, x ∈ P ↔ IsPhonemeSeq smallTable x) ∧
      P.length = ((allRules smallTable).map (fun e => e.phonemes)).toFinset.card :=
  ⟨by decide, by decide, C7_dedup_cardinality smallTable [] (by decide) (by decide)⟩

/-- Claim C8. Canonical order: for every table the data region (the bytes after
the last rule record) is the data blob, which stores the strings of the string
set and then the sequences of the phoneme set in iteration order; both sets are
strictly ascending under the comparator, which is the lexicographic order of
the byte values (a proper initial segment first); and in both indices a
smaller value has a smaller offset. -/
theorem C8_canonical_order (_rules : Nat → List TTSRule) (abyBlob : VEC_BYTE)
    (hwf : WellFormed _rules) :
    ∃ blob strs bins, make_compact_ruleset _rules abyBlob = some blob ∧
      makeDeDups _rules [] [] = some (strs, bins) ∧
      blob.drop (56 + 8 * (allRules _rules).length) = dataBlobOf strs bins ∧
      dataBlobOf strs bins = encAll strs ++ encAll bins ∧
      strs.Pairwise (fun a b => lexLess a b = true) ∧
      bins.Pairwise (fun a b => lexLess a b = true) ∧
      (∀ a b, lexLess a b = true ↔ List.Lex (fun x y : Nat => x < y) a b) ∧
      (∀ v1 v2 o1 o2, mapFind v1 (makeStringBlob [] strs []).2 = some o1 →
        mapFind v2 (makeStringBlob [] strs []).2 = some o2 → lexLess v1 v2 = true → o1 < o2) ∧
      (∀ v1 v2 o1 o2,
        mapFind v1 (makePhonemeBlob (makeStringBlob [] strs []).1 bins []).2 = some o1 →
        mapFind v2 (makePhonemeBlob (makeStringBlob [] strs []).1 bins []).2 = some o2 →
        lexLess v1 v2 = true → o1 < o2) := by
  refine ⟨blobOf _rules, strsOf _rules, binsOf _rules,
    make_compact_ruleset_eq _rules hwf abyBlob, makeDeDups_eq _rules hwf [] [], ?_,
    dataBlobOf_eq _ _, ascending_strsOf _rules, ascending_binsOf _rules, lexLess_iff_lex, ?_, ?_⟩
  · rw [blobOf_drop_data, dataBlobOf_eq]; rfl
  · intro v1 v2 o1 o2 h1 h2 h
    rw [makeStringBlob_snd _ _ _ (ascending_strsOf _rules) (by simp)] at h1 h2
    exact offsets_mono _ _ (ascending_strsOf _rules) v1 v2 o1 o2 h1 h2 h
  · intro v1 v2 o1 o2 h1 h2 h
    rw [makePhonemeBlob_eq_makeStringBlob,
      makeStringBlob_snd _ _ _ (ascending_binsOf _rules) (by simp)] at h1 h2
    exact offsets_mono _ _ (ascending_binsOf _rules) v1 v2 o1 o2 h1 h2 h

/-- Witness of C8 on `smallTable`. -/
theorem C8_canonical_order_witness :
    WellFormed smallTable ∧
    ∃ blob strs bins, make_compact_ruleset smallTable [] = some blob ∧
      makeDeDups smallTable [] [] = some (strs, bins) ∧
      blob.drop (56 + 8 * (allRules smallTable).length) = dataBlobOf strs bins ∧
      dataBlobOf strs bins = encAll strs ++ encAll bins ∧
      strs.Pairwise (fun a b => lexLess a b = true) ∧
      bins.Pairwise (fun a b => lexLess a b = true) ∧
      (∀ a b, lexLess a b = true ↔ List.Lex (fun x y : Nat => x < y) a b) ∧
      (∀ v1 v2 o1 o2, mapFind v1 (makeStringBlob [] strs []).2 = some o1 →
        mapFind v2 (makeStringBlob [] strs []).2 = some o2 → lexLess v1 v2 = true → o1 < o2) ∧
      (∀ v1 v2 o1 o2,
        mapFind v1 (makePhonemeBlob (makeStringBlob [] strs []).1 bins []).2 = some o1 →
        mapFind v2 (makePhonemeBlob (makeStringBlob [] strs []).1 bins []).2 = some o2 →
        lexLess v1 v2 = true → o1 < o2) :=
  ⟨by decide, C8_canonical_order smallTable [] (by decide)⟩

/-- Counterexample to C9 as stated: the table `longTable` contains a 256-byte
context string, yet compilation is not rejected: it returns a blob of 326
bytes in which the length byte of that string is 0 (256 wrapped modulo 256),
followed by all 256 bytes of the string. -/
theorem C9_counterexample :
    WellFormed longTable ∧
    (∃ e ∈ allRules longTable, e.left.length = 256) ∧
    ∃ blob, make_compact_ruleset longTable [] = some blob ∧ blob.length = 326 ∧
      blob.getD (fieldAt blob 0 0 0) 1 = 0 ∧
      (blob.drop (fieldAt blob 0 0 0 + 1)).take 256 = List.replicate 256 97 := by
  refine ⟨wellFormed_longTable, ⟨longRule, ?_, length_left_longRule⟩, ?_⟩
  · rw [allRules_longTable]; exact List.mem_singleton.2 rfl
  · have h := longTable_eval
    cases hb : make_compact_ruleset longTable [] with
    | none => rw [hb] at h; cases h
    | some blob =>
      rw [hb] at h
      simp only [Option.map_some', Option.some.injEq, Prod.mk.injEq, decide_eq_true_eq] at h
      exact ⟨blob, rfl, h.1, h.2.2.1, h.2.2.2⟩

/-- Claim C9, amended. No length check: for every rule table, also one that
contains a context string or phoneme sequence longer than 255 bytes,
compilation is not rejected but produces a blob; its data region stores every
value in full (never truncated) after one length byte, which is the length
modulo 256 (so it is wrapped for a longer value). -/
theorem C9_value_too_long (_rules : Nat → List TTSRule) (abyBlob : VEC_BYTE)
    (hwf : WellFormed _rules) :
    ∃ blob, make_compact_ruleset _rules abyBlob = some blob ∧
      ∀ e ∈ allRules _rules, ∀ f, f < 4 →
        ∃ pre post, blob = pre ++ ((e.value f).length % 256 :: e.value f) ++ post ∧
          56 + 8 * (allRules _rules).length ≤ pre.length :=
  ⟨blobOf _rules, make_compact_ruleset_eq _rules hwf abyBlob,
    fun e he f _ => blobOf_contains_value _rules e he f⟩

/-- Witness of the amended C9 on `longTable`, the table with a 256-byte
string. -/
theorem C9_value_too_long_witness :
    WellFormed longTable ∧
    ∃ blob, make_compact_ruleset longTable [] = some blob ∧
      ∀ e ∈ allRules longTable, ∀ f, f < 4 →
        ∃ pre post, blob = pre ++ ((e.value f).length % 256 :: e.value f) ++ post ∧
          56 + 8 * (allRules longTable).length ≤ pre.length :=
  ⟨wellFormed_longTable, C9_value_too_long longTable [] wellFormed_longTable⟩

/-- Counterexample to C10 as stated: the blob of `bigTable` is longer than
65,535 bytes, yet compilation returns it, and table entry 27 holds 0, the true
offset 65,536 of the data region wrapped modulo 65,536. -/
theorem C10_counterexample :
    WellFormed bigTable ∧
    ∃ blob, make_compact_ruleset bigTable [] = some blob ∧ 65535 < blob.length ∧
      56 + 8 * (allRules bigTable).length = 65536 ∧ tableEntry blob 27 = 0 :=
  ⟨wellFormed_bigTable, blobOf bigTable,
    make_compact_ruleset_eq bigTable wellFormed_bigTable [], length_blobOf_bigTable,
    recordsEnd_bigTable, tableEntry_bigTable⟩

/-- Claim C10, amended. No size check: for every rule table compilation
produces a blob of `56 + 8 * N` bytes plus the data blob, also when that is
more than 65,535 bytes; every entry of the group table holds the true offset
modulo 65,536; and when the rule records end at or below byte 65,535 every
record field holds the index offset of its value plus `table[27]`, modulo
65,536. -/
theorem C10_blob_too_large (_rules : Nat → List TTSRule) (abyBlob : VEC_BYTE)
    (hwf : WellFormed _rules) :
    ∃ blob strs bins, make_compact_ruleset _rules abyBlob = some blob ∧
      makeDeDups _rules [] [] = some (strs, bins) ∧
      blob.length = 56 + 8 * (allRules _rules).length + (dataBlobOf strs bins).length ∧
      (∀ g, g ≤ 27 → tableEntry blob g = (56 + 8 * (rulesUpTo _rules g).length) % 65536) ∧
      (56 + 8 * (allRules _rules).length ≤ 65535 →
        ∀ g r e, g < 27 → (groupRules (_rules g))[r]? = some e →
          (∀ f o, f < 3 → mapFind (e.value f) (makeStringBlob [] strs []).2 = some o →
            fieldAt blob g r f = (o + tableEntry blob 27) % 65536) ∧
          (∀ o, mapFind e.phonemes (makePhonemeBlob (makeStringBlob [] strs []).1 bins []).2
              = some o →
            fieldAt blob g r 3 = (o + tableEntry blob 27) % 65536)) := by
  refine ⟨blobOf _rules, strsOf _rules, binsOf _rules,
    make_compact_ruleset_eq _rules hwf abyBlob, makeDeDups_eq _rules hwf [] [], ?_, ?_, ?_⟩
  · rw [length_blobOf, dataBlobOf_eq]; rfl
  · intro g hg
    exact tableEntry_blobOf _rules g (by omega)
  · intro hN g r e hg he
    have hget := allRules_get _rules g r hg e he
    have h27 := tableEntry_exact _rules (by omega) 27 (by omega)
    have key : ∀ f, f < 4 → fieldAt (blobOf _rules) g r f
        = (relOffset _rules e f + tableEntry (blobOf _rules) 27) % 65536 := by
      intro f hf
      unfold fieldAt
      rw [tableEntry_exact _rules (by omega) g (by omega), h27]
      have hb : 56 + 8 * (rulesUpTo _rules g).length + 8 * r + 2 * f
          = 56 + 8 * ((rulesUpTo _rules g).length + r) + 2 * f := by omega
      rw [hb, field_blobOf _rules (by omega) _ f e hget hf]
      show _ = (relOffset _rules e f + (56 + 8 * (allRules _rules).length)) % 65536
      omega
    constructor
    · intro f o hf ho
      rw [makeStringBlob_snd _ _ _ (ascending_strsOf _rules) (by simp)] at ho
      obtain ⟨_, rfl⟩ := mapFind_offsets_some _ _ _ _ ho
      rw [key f (by omega)]
      simp [relOffset, hf]
    · intro o ho
      rw [makePhonemeBlob_eq_makeStringBlob,
        makeStringBlob_snd _ _ _ (ascending_binsOf _rules) (by simp)] at ho
      obtain ⟨_, rfl⟩ := mapFind_offsets_some _ _ _ _ ho
      rw [key 3 (by omega), makeStringBlob_fst]
      simp [relOffset]

/-- Witness of the amended C10 on `bigTable`, whose blob exceeds 65,535
bytes. -/
theorem C10_blob_too_large_witness :
    WellFormed bigTable ∧
    ∃ blob strs bins, make_compact_ruleset bigTable [] = some blob ∧
      makeDeDups bigTable [] [] = some (strs, bins) ∧
      blob.length = 56 + 8 * (allRules bigTable).length + (dataBlobOf strs bins).length ∧
      (∀ g, g ≤ 27 → tableEntry blob g = (56 + 8 * (rulesUpTo bigTable g).length) % 65536) ∧
      (56 + 8 * (allRules bigTable).length ≤ 65535 →
        ∀ g r e, g < 27 → (groupRules (bigTable g))[r]? = some e →
          (∀ f o, f < 3 → mapFind (e.value f) (makeStringBlob [] strs []).2 = some o →
            fieldAt blob g r f = (o + tableEntry blob 27) % 65536) ∧
          (∀ o, mapFind e.phonemes (makePhonemeBlob (makeStringBlob [] strs []).1 bins []).2
              = some o →
            fieldAt blob g r 3 = (o + tableEntry blob 27) % 65536)) :=
  ⟨wellFormed_bigTable, C10_blob_too_large bigTable [] wellFormed_bigTable⟩

/-! ## Further facts used by the claims C11 to C20 -/

theorem rulesUpTo_congr (t1 t2 : Nat → List TTSRule) (n : Nat)
    (h : ∀ g, g < n → groupRules (t1 g) = groupRules (t2 g)) :
    rulesUpTo t1 n = rulesUpTo t2 n := by
  induction n with
  | zero => rfl
  | succ n ih =>
    rw [rulesUpTo_succ, rulesUpTo_succ, ih (fun g hg => h g (by omega)), h n (by omega)]

/-- The closed form of the blob depends on the table only through the rules of
its 27 groups. -/
theorem blobOf_congr (t1 t2 : Nat → List TTSRule)
    (h : ∀ g, g < 27 → groupRules (t1 g) = groupRules (t2 g)) : blobOf t1 = blobOf t2 := by
  have hall : allRules t1 = allRules t2 := rulesUpTo_congr t1 t2 27 h
  have htab : tableUpTo t1 28 = tableUpTo t2 28 := by
    unfold tableUpTo
    apply List.flatMap_congr
    intro g hg
    rw [rulesUpTo_congr t1 t2 g (fun i hi => h i (by have := List.mem_range.1 hg; omega))]
  unfold blobOf recordValues dataOffsetOf strsidxOf binsidxOf dataOf strsOf binsOf
  rw [hall, htab]

theorem indexLookup_eq (_rules : Nat → List TTSRule) (e : TTSRule) (he : e ∈ allRules _rules)
    (f : Nat) :
    indexLookup (strsOf _rules) (binsOf _rules) e f = some (relOffset _rules e f) := by
  unfold indexLookup relOffset
  by_cases hf : f < 3
  · rw [if_pos hf, if_pos hf, makeStringBlob_snd _ _ _ (ascending_strsOf _rules) (by simp),
      List.nil_append, mapFind_offsets _ _ _ ((mem_value _rules e he f).1 hf)]
    simp
  · rw [if_neg hf, if_neg hf, makePhonemeBlob_eq_makeStringBlob,
      makeStringBlob_snd _ _ _ (ascending_binsOf _rules) (by simp), List.nil_append,
      makeStringBlob_fst, List.nil_append]
    have := (mem_value _rules e he f).2 hf
    rw [value_phonemes e f hf] at this
    rw [mapFind_offsets _ _ _ this]

theorem getD_fixRecs (D : Nat) (recs : List (List Nat)) (i j : Nat) :
    (fixRecs D i recs).getD j []
      = if i + 8 * j < D then (recs.getD j []).map (fun v => (v + D) % 65536)
        else recs.getD j [] := by
  induction recs generalizing i j with
  | nil => simp [fixRecs]
  | cons r rs ih =>
    simp only [fixRecs]
    by_cases hi : i < D
    · rw [if_pos hi]
      cases j with
      | zero => simp [hi]
      | succ j =>
        rw [List.getD_cons_succ, List.getD_cons_succ, ih (i + 8) j]
        have e : i + 8 + 8 * j = i + 8 * (j + 1) := by omega
        rw [e]
    · rw [if_neg hi, if_neg (by omega)]

/-- Record field `f` of rule number `j` of the closed form, for every table:
the index offset as a 16-bit value, with the data offset added when the fixup
loop reached the record. -/
theorem field_general (_rules : Nat → List TTSRule) (j f : Nat) (e : TTSRule)
    (he : (allRules _rules)[j]? = some e) (hf : f < 4) :
    (wordsOf _rules).getD (28 + (4 * j + f)) 0
      = if 56 + 8 * j < dataOffsetOf _rules then
          (relOffset _rules e f % 65536 + dataOffsetOf _rules) % 65536
        else relOffset _rules e f % 65536 := by
  have hmem : e ∈ allRules _rules := mem_of_getElem? _ _ _ he
  unfold wordsOf
  rw [List.getD_append_right _ _ _ _ (by simp), List.length_map, List.length_range,
    Nat.add_sub_cancel_left,
    getD_flatten4 _ (fun r hr => (isRecord_recordValues _rules r hr).1) j f hf]
  unfold recordValues
  rw [getD_fixRecs]
  have hrec : ((allRules _rules).map (fieldsOf (strsidxOf _rules) (binsidxOf _rules))).getD j []
      = fieldsOf (strsidxOf _rules) (binsidxOf _rules) e := by
    rw [List.getD_eq_getElem?_getD, List.getElem?_map, he]; rfl
  rw [hrec]
  have hfo := fieldsOf_getD _rules e hmem f hf
  have hlen : f < (fieldsOf (strsidxOf _rules) (binsidxOf _rules) e).length := hf
  split_ifs with hc
  · rw [List.getD_eq_getElem?_getD, List.getElem?_map, List.getElem?_eq_getElem hlen]
    rw [List.getD_eq_getElem?_getD, List.getElem?_eq_getElem hlen] at hfo
    simp only [Option.getD_some, Option.map_some'] at hfo ⊢
    rw [hfo]
  · exact hfo

theorem getD_recordBytes (words : List Nat) (C : List Nat) (k : Nat) (hk : k < words.length) :
    (recordBytes words ++ C).getD (2 * k) 0 = words.getD k 0 % 256 ∧
    (recordBytes words ++ C).getD (2 * k + 1) 0 = words.getD k 0 / 256 % 256 := by
  induction words generalizing k with
  | nil => simp at hk
  | cons w ws ih =>
    have e2 : recordBytes (w :: ws) ++ C = w % 256 :: w / 256 % 256 :: (recordBytes ws ++ C) := by
      simp [recordBytes, bytes16]
    rw [e2]
    cases k with
    | zero => simp
    | succ k =>
      have hk2 : k < ws.length := by simpa using hk
      have h1 : 2 * (k + 1) = (2 * k + 1) + 1 := by omega
      have h2 : 2 * (k + 1) + 1 = (2 * k + 1 + 1) + 1 := by omega
      rw [h2, h1, List.getD_cons_succ, List.getD_cons_succ, List.getD_cons_succ,
        List.getD_cons_succ, List.getD_cons_succ]
      exact ih k hk2

/-- The two bytes of word `k` of the closed form. -/
theorem bytes_blobOf (_rules : Nat → List TTSRule) (k : Nat)
    (hk : k < 28 + 4 * (allRules _rules).length) :
    (blobOf _rules).getD (2 * k) 0 = (wordsOf _rules).getD k 0 % 256 ∧
    (blobOf _rules).getD (2 * k + 1) 0 = (wordsOf _rules).getD k 0 / 256 := by
  rw [blobOf_words]
  have h := getD_recordBytes (wordsOf _rules) (dataOf _rules) k (by rw [length_wordsOf]; exact hk)
  refine ⟨h.1, ?_⟩
  rw [h.2]
  have hlt : (wordsOf _rules).getD k 0 < 65536 := by
    rw [List.getD_eq_getElem?_getD,
      List.getElem?_eq_getElem (by rw [length_wordsOf]; exact hk)]
    exact wordsOf_lt _rules _ (List.getElem_mem _)
  exact Nat.mod_eq_of_lt (by omega)

theorem tableWord (_rules : Nat → List TTSRule) (g : Nat) (hg : g < 28) :
    (wordsOf _rules).getD g 0 = (56 + 8 * (rulesUpTo _rules g).length) % 65536 := by
  unfold wordsOf
  rw [List.getD_append _ _ _ _ (by simpa using hg)]
  rw [List.getD_eq_getElem?_getD, List.getElem?_map, List.getElem?_range hg]
  rfl

theorem read16_field_general (_rules : Nat → List TTSRule) (j f : Nat) (e : TTSRule)
    (he : (allRules _rules)[j]? = some e) (hf : f < 4) :
    read16 (blobOf _rules) (56 + 8 * j + 2 * f)
      = if 56 + 8 * j < dataOffsetOf _rules then
          (relOffset _rules e f % 65536 + dataOffsetOf _rules) % 65536
        else relOffset _rules e f % 65536 := by
  have hj : j < (allRules _rules).length := by
    rcases List.getElem?_eq_some.1 he with ⟨h, _⟩; exact h
  have e1 : 56 + 8 * j + 2 * f = 2 * (28 + (4 * j + f)) := by omega
  rw [e1, blobOf_words, read16_words _ (wordsOf_lt _rules) _ _ (by rw [length_wordsOf]; omega)]
  exact field_general _rules j f e he hf

theorem unbias_int (b : Nat) : ((unbias b : Nat) : Int) = ((b : Int) - 1) % 256 := by
  unfold unbias
  omega

theorem allRules_some (_rules : Nat → List TTSRule) (hwf : WellFormed _rules) (e : TTSRule)
    (he : e ∈ allRules _rules) :
    e._left = some e.left ∧ e._bracket = some e.bracket ∧ e._right = some e.right := by
  simp only [allRules, rulesUpTo, List.mem_flatMap, List.mem_range] at he
  obtain ⟨g, hg, hm⟩ := he
  exact groupRules_some _ (hwf g hg) e hm

theorem scan_dedups_append (g behind : List TTSRule) (hg : OnlyRules g)
    (acc : SET_STR × SET_BLOB) :
    makeDeDups.scan (g ++ behind) acc = makeDeDups.scan behind (g.foldl dedupStep acc) := by
  induction g generalizing acc with
  | nil => rfl
  | cons e rest ih =>
    obtain ⟨strs, bins⟩ := acc
    have h0 := hg e (List.mem_cons_self _ _)
    obtain ⟨l, b, r, p⟩ := e
    cases b with
    | none => simp at h0
    | some b =>
      cases l with
      | none => simp at h0
      | some l =>
        cases r with
        | none => simp at h0
        | some r =>
          simp only [List.cons_append, makeDeDups.scan, List.foldl_cons]
          exact ih (fun x hx => hg x (List.mem_cons_of_mem _ hx)) _

theorem scan_ruleset_append (g behind : List TTSRule) (hg : OnlyRules g)
    (s : VEC_BYTE × MAP_STR_OFFSET × MAP_BLOB_OFFSET) :
    makeRulesetBlob.scan (g ++ behind) s = makeRulesetBlob.scan behind (g.foldl rulesetStep s) := by
  induction g generalizing s with
  | nil => rfl
  | cons e rest ih =>
    obtain ⟨blob, sidx, bidx⟩ := s
    have h0 := hg e (List.mem_cons_self _ _)
    obtain ⟨l, b, r, p⟩ := e
    cases b with
    | none => simp at h0
    | some b =>
      cases l with
      | none => simp at h0
      | some l =>
        cases r with
        | none => simp at h0
        | some r =>
          simp only [List.cons_append, makeRulesetBlob.scan, List.foldl_cons]
          exact ih (fun x hx => hg x (List.mem_cons_of_mem _ hx)) _

theorem scan_dedups_none (g : List TTSRule) (hg : ∀ e ∈ g, e._bracket ≠ none)
    (acc : SET_STR × SET_BLOB) : makeDeDups.scan g acc = none := by
  induction g generalizing acc with
  | nil => rfl
  | cons e rest ih =>
    obtain ⟨strs, bins⟩ := acc
    have h0 := hg e (List.mem_cons_self _ _)
    obtain ⟨l, b, r, p⟩ := e
    cases b with
    | none => simp at h0
    | some b =>
      cases l with
      | none => simp [makeDeDups.scan]
      | some l =>
        cases r with
        | none => simp [makeDeDups.scan]
        | some r =>
          simp only [makeDeDups.scan]
          exact ih (fun x hx => hg x (List.mem_cons_of_mem _ hx)) _

theorem foldlM_none_of_mem {σ : Type} (f : σ → Nat → Option σ) (i : Nat)
    (hf : ∀ s, f s i = none) (gs : List Nat) (hi : i ∈ gs) (s : σ) :
    gs.foldlM f s = none := by
  induction gs generalizing s with
  | nil => simp at hi
  | cons g gs ih =>
    simp only [List.foldlM_cons]
    by_cases hgi : g = i
    · subst hgi; rw [hf]; rfl
    · have hi2 : i ∈ gs := by
        rcases List.mem_cons.1 hi with h | h
        · exact absurd h.symm hgi
        · exact h
      cases hfs : f s g with
      | none => rfl
      | some s2 => exact ih hi2 s2

/-- The function `makeRulesetBlob` is its layout stage followed by the fixup
loop. -/
theorem makeRulesetBlob_stages (_rules : Nat → List TTSRule) (abyBlob abyDataBlob : VEC_BYTE)
    (strsidx : MAP_STR_OFFSET) (binsidx : MAP_BLOB_OFFSET) :
    makeRulesetBlob _rules abyBlob abyDataBlob strsidx binsidx
      = match makeRulesetBlob.layout _rules abyBlob abyDataBlob strsidx binsidx with
        | none => none
        | some (pre, nIdxRuleOffset, nIdxDataOffset, strsidx2, binsidx2) =>
          match makeRulesetBlob.fixup nIdxDataOffset (nIdxDataOffset + 1) nIdxRuleOffset pre with
          | none => none
          | some post => some (post, strsidx2, binsidx2) := by
  unfold makeRulesetBlob makeRulesetBlob.layout
  simp only []
  cases (List.range 27).foldlM
      (fun (s : VEC_BYTE × MAP_STR_OFFSET × MAP_BLOB_OFFSET) nIdxGroup =>
        makeRulesetBlob.scan (_rules nIdxGroup)
          (write16 s.1 (nIdxGroup * 2) (s.1.length % 65536), s.2.1, s.2.2))
      (resize abyBlob ((27 + 1) * 2), strsidx, binsidx) with
  | none => rfl
  | some s => rfl

/-- The log does not change what the loops do to the blob. -/
theorem fixupValsLog_eq (D n : Nat) (i : Nat) (b : VEC_BYTE) (log : List Nat) :
    makeRulesetBlob.fixupValsLog D n (i, b, log)
      = ((makeRulesetBlob.fixupVals D n (i, b)).1, (makeRulesetBlob.fixupVals D n (i, b)).2,
          log ++ (List.range n).map (fun k => i + 2 * k)) := by
  induction n generalizing i b log with
  | zero => simp [makeRulesetBlob.fixupValsLog, makeRulesetBlob.fixupVals]
  | succ n ih =>
    simp only [makeRulesetBlob.fixupValsLog, makeRulesetBlob.fixupVals]
    rw [ih]
    simp only [Prod.mk.injEq, true_and, List.append_assoc, List.append_cancel_left_eq]
    rw [List.range_succ_eq_map, List.map_cons, List.map_map]
    simp only [Nat.mul_zero, Nat.add_zero, List.singleton_append, List.cons.injEq, true_and]
    apply List.map_congr_left
    intro k _
    simp only [Function.comp, Nat.succ_eq_add_one]
    omega

theorem fixupVals_fst (D n : Nat) (i : Nat) (b : VEC_BYTE) :
    (makeRulesetBlob.fixupVals D n (i, b)).1 = i + 2 * n := by
  induction n generalizing i b with
  | zero => rfl
  | succ n ih =>
    simp only [makeRulesetBlob.fixupVals]
    rw [ih]; omega

theorem fixupLog_eq (D n : Nat) (i : Nat) (b : VEC_BYTE) (log : List Nat) (fuel : Nat)
    (hD : D = i + 8 * n) (hf : n + 1 ≤ fuel) :
    makeRulesetBlob.fixupLog D fuel i b log
      = (makeRulesetBlob.fixup D fuel i b).map
          (fun post => (post, log ++ (List.range (4 * n)).map (fun k => i + 2 * k))) := by
  induction n generalizing i b log fuel with
  | zero =>
    obtain ⟨f, rfl⟩ : ∃ f, fuel = f + 1 := ⟨fuel - 1, by omega⟩
    simp [makeRulesetBlob.fixupLog, makeRulesetBlob.fixup, hD]
  | succ n ih =>
    obtain ⟨f, rfl⟩ : ∃ f, fuel = f + 1 := ⟨fuel - 1, by omega⟩
    simp only [makeRulesetBlob.fixupLog, makeRulesetBlob.fixup]
    rw [if_pos (by omega), if_pos (by omega), fixupValsLog_eq]
    simp only []
    rw [fixupVals_fst, ih (i + 2 * 4) _ _ f (by omega) (by omega)]
    congr 1
    funext post
    simp only [Prod.mk.injEq, true_and, List.append_assoc, List.append_cancel_left_eq]
    have e : 4 * (n + 1) = 4 + 4 * n := by omega
    rw [e, List.range_add, List.map_append, List.map_map]
    congr 1
    apply List.map_congr_left
    intro k _
    simp only [Function.comp]
    omega

theorem layout_eq (_rules : Nat → List TTSRule) (h : WellFormed _rules)
    (abyBlob abyDataBlob : VEC_BYTE) (strsidx : MAP_STR_OFFSET) (binsidx : MAP_BLOB_OFFSET)
    (hk : KeysIn strsidx binsidx (allRules _rules)) :
    makeRulesetBlob.layout _rules abyBlob abyDataBlob strsidx binsidx
      = some (tableUpTo _rules 28 ++ recordsOf strsidx binsidx (allRules _rules) ++ abyDataBlob,
          56, dataOffsetOf _rules, strsidx, binsidx) := by
  unfold makeRulesetBlob.layout
  simp only []
  rw [layout_loop _rules h _ (length_resize _ _) strsidx binsidx hk 27 (Nat.le_refl _)]
  simp only []
  have hd : List.drop (2 * 27) (resize abyBlob ((27 + 1) * 2)) = List.drop 54 (resize abyBlob 56) := rfl
  have hlen : (tableUpTo _rules 27 ++ List.drop 54 (resize abyBlob 56)
      ++ recordsOf strsidx binsidx (rulesUpTo _rules 27)).length
      = 56 + 8 * (allRules _rules).length := by
    simp only [List.length_append, length_tableUpTo, List.length_drop, length_recordsOf,
      length_resize, allRules]
  rw [hd, hlen]
  have hw : write16 (tableUpTo _rules 27 ++ List.drop 54 (resize abyBlob 56)
      ++ recordsOf strsidx binsidx (rulesUpTo _rules 27)) (27 * 2)
      ((56 + 8 * (allRules _rules).length) % 65536)
      = tableUpTo _rules 28 ++ recordsOf strsidx binsidx (allRules _rules) := by
    have hp : 27 * 2 = (tableUpTo _rules 27).length := by rw [length_tableUpTo]
    rw [List.append_assoc, hp, write16_append _ _ _ (by simp [length_resize])]
    rw [tableUpTo_succ _rules 27, List.drop_append_of_le_length (by simp [length_resize]),
      List.drop_drop]
    rw [List.drop_eq_nil_of_le (by simp [length_resize])]
    simp [allRules]
  rw [hw, length_resize]
  rfl

theorem fixupLog_fst (D fuel : Nat) (i : Nat) (b : VEC_BYTE) (log : List Nat) :
    (makeRulesetBlob.fixupLog D fuel i b log).map Prod.fst = makeRulesetBlob.fixup D fuel i b := by
  induction fuel generalizing i b log with
  | zero => rfl
  | succ f ih =>
    simp only [makeRulesetBlob.fixupLog, makeRulesetBlob.fixup]
    by_cases hc : i < D
    · rw [if_pos hc, if_pos hc, fixupValsLog_eq]
      exact ih _ _ _
    · rw [if_neg hc, if_neg hc]; rfl

theorem tableUpTo_words (_rules : Nat → List TTSRule) (n : Nat) :
    tableUpTo _rules n
      = recordBytes ((List.range n).map
          (fun g => (56 + 8 * (rulesUpTo _rules g).length) % 65536)) := by
  simp [tableUpTo, recordBytes, List.flatMap_map]

/-- Reading word `28 + k` of a blob made of 28 table words, the words `W` and
a tail. -/
theorem read16_behind_table (Tw W C : List Nat) (hT : Tw.length = 28)
    (hTw : ∀ w ∈ Tw, w < 65536) (hW : ∀ w ∈ W, w < 65536) (k : Nat) (hk : k < W.length) :
    read16 (recordBytes Tw ++ recordBytes W ++ C) (56 + 2 * k) = W.getD k 0 := by
  have e1 : 56 + 2 * k = 2 * (28 + k) := by omega
  rw [← recordBytes_append, e1, read16_words (Tw ++ W) (by
    intro w hw
    rcases List.mem_append.1 hw with h | h
    · exact hTw w h
    · exact hW w h) C (28 + k) (by rw [List.length_append]; omega)]
  rw [List.getD_append_right _ _ _ _ (by omega), hT, Nat.add_sub_cancel_left]

theorem offsetOf_split (vals : List (List Nat)) (v : List Nat) (h : v ∈ vals) :
    ∃ before after, vals = before ++ v :: after ∧
      offsetOf v vals = (before.map (fun u => 1 + u.length)).sum := by
  induction vals with
  | nil => simp at h
  | cons x rest ih =>
    by_cases hx : x = v
    · subst hx
      exact ⟨[], rest, rfl, by simp [offsetOf]⟩
    · have hr : v ∈ rest := by
        rcases List.mem_cons.1 h with e | e
        · exact absurd e.symm hx
        · exact e
      obtain ⟨before, after, h1, h2⟩ := ih hr
      refine ⟨x :: before, after, by rw [h1]; rfl, ?_⟩
      simp only [offsetOf, hx, if_false, List.map_cons, List.sum_cons, h2]

theorem entry_at (P data : List Nat) (off : Nat) (v post : List Nat)
    (hd : data.drop off = (v.length % 256) :: v ++ post) :
    (P ++ data).getD (P.length + off) 0 = v.length % 256 ∧
    ((P ++ data).drop (P.length + off + 1)).take v.length = v := by
  have hlt : off < data.length := by
    by_contra hc
    rw [List.drop_eq_nil_of_le (by omega)] at hd
    simp at hd
  have h1 : (P ++ data).drop (P.length + off) = (v.length % 256) :: v ++ post := by
    rw [List.drop_append_eq_append_drop, List.drop_eq_nil_of_le (by omega),
      Nat.add_sub_cancel_left, List.nil_append, hd]
  constructor
  · rw [List.getD_eq_getElem?_getD, ← List.head?_drop, h1]
    rfl
  · have h3 : (P ++ data).drop (P.length + off + 1) = v ++ post := by
      rw [← List.drop_drop, h1]
      simp
    rw [h3, List.take_left']
    rfl

theorem indexContract_makeStringBlob (abyBlob : VEC_BYTE) (vals : List (List Nat))
    (hs : Ascending vals) (hfit : ∀ v ∈ vals, v.length ≤ 255) :
    IndexContract abyBlob vals (makeStringBlob abyBlob vals []) := by
  have hidx : (makeStringBlob abyBlob vals []).2 = offsets abyBlob.length vals := by
    rw [makeStringBlob_snd _ _ _ hs (by simp), List.nil_append]
  have hbuf := makeStringBlob_fst abyBlob vals []
  constructor
  · intro v
    rw [hidx]
    constructor
    · intro hv
      exact ⟨_, mapFind_offsets _ _ _ hv⟩
    · rintro ⟨o, ho⟩
      exact (mapFind_offsets_some _ _ _ _ ho).1
  · intro v o ho
    rw [hidx] at ho
    obtain ⟨hv, rfl⟩ := mapFind_offsets_some _ _ _ _ ho
    obtain ⟨post, hpost⟩ := encAll_drop vals v hv
    have he := entry_at abyBlob (encAll vals) (offsetOf v vals) v post hpost
    rw [hbuf]
    refine ⟨?_, he.2, ?_⟩
    · rw [he.1]; exact Nat.mod_eq_of_lt (by have := hfit v hv; omega)
    · obtain ⟨before, after, h1, h2⟩ := offsetOf_split vals v hv
      exact ⟨before, after, h1, by rw [h2]⟩

theorem length_encAll (s : List (List Nat)) :
    (encAll s).length = (s.map (fun x => 1 + x.length)).sum := by
  induction s with
  | nil => rfl
  | cons v rest ih =>
    have e : encAll (v :: rest) = (v.length % 256 :: v) ++ encAll rest := by simp [encAll]
    rw [e, List.length_append, ih]
    simp only [List.length_cons, List.map_cons, List.sum_cons]
    omega

/-- The function `make_compact_ruleset` unfolded once the sets are known. -/
theorem make_compact_ruleset_unfold (_rules : Nat → List TTSRule) (abyBlob : VEC_BYTE)
    (strs : SET_STR) (bins : SET_BLOB) (h : makeDeDups _rules [] [] = some (strs, bins)) :
    make_compact_ruleset _rules abyBlob
      = (makeRulesetBlob _rules abyBlob
          (makePhonemeBlob (makeStringBlob [] strs []).1 bins []).1
          (makeStringBlob [] strs []).2
          (makePhonemeBlob (makeStringBlob [] strs []).1 bins []).2).map (fun r => r.1) := by
  unfold make_compact_ruleset
  rw [h]
  simp only []
  cases makeRulesetBlob _rules abyBlob
    (makePhonemeBlob (makeStringBlob [] strs []).1 bins []).1
    (makeStringBlob [] strs []).2
    (makePhonemeBlob (makeStringBlob [] strs []).1 bins []).2 <;> rfl

/-- The blob `makeRulesetBlob` returns for `smallTable` is below the size
limit. -/
theorem smallTable_ruleset_length (post : VEC_BYTE)
    (h : makeRulesetBlob smallTable [] (dataOf smallTable) (strsidxOf smallTable)
      (binsidxOf smallTable) = some (post, strsidxOf smallTable, binsidxOf smallTable)) :
    post.length ≤ 65535 := by
  have e : (makeRulesetBlob smallTable [] (dataOf smallTable) (strsidxOf smallTable)
      (binsidxOf smallTable)).map (fun r => decide (r.1.length ≤ 65535)) = some true := by
    decide
  rw [h] at e
  simpa using e

/-! ## Claims C11 to C20 -/

/-- Claim C11. Empty table: for the table whose 27 groups hold only the
sentinel the blob is exactly 56 bytes long: the 28 entries of the offset
table, each equal to 56, and nothing else (no rule record, empty data
region), whatever the output vector held before. -/
theorem C11_empty_table (abyBlob : VEC_BYTE) :
    ∃ blob, make_compact_ruleset emptyTable abyBlob = some blob ∧
      blob.length = 56 ∧
      blob = (List.replicate 28 [56, 0]).flatten ∧
      (∀ g, g < 28 → tableEntry blob g = 56) ∧
      (∀ g, g < 27 → (tableEntry blob (g + 1) - tableEntry blob g) / 8 = 0) ∧
      blob.drop (tableEntry blob 27) = [] := by
  have hb : blobOf emptyTable = (List.replicate 28 [56, 0]).flatten := by decide
  refine ⟨blobOf emptyTable, make_compact_ruleset_eq emptyTable (by decide) abyBlob, ?_⟩
  rw [hb]
  decide

/-- Claim C12. Single-rule scenario: for the table whose only rule is
left `""`, bracket `" "`, right `""`, phoneme bytes `04 03` in group 0, the
string set is `{"", " "}`, the phoneme set is `{[3, 2]}`, the data region is
the six bytes `00 01 20 02 03 02`, and the left and right fields of the one
record hold the same offset. -/
theorem C12_single_rule (abyBlob : VEC_BYTE) :
    makeDeDups singleRuleTable [] [] = some ([[], [32]], [[3, 2]]) ∧
    ∃ blob, make_compact_ruleset singleRuleTable abyBlob = some blob ∧
      (tableEntry blob 1 - tableEntry blob 0) / 8 = 1 ∧
      blob.drop (tableEntry blob 27) = [0, 1, 32, 2, 3, 2] ∧
      fieldAt blob 0 0 0 = fieldAt blob 0 0 2 ∧
      readValue blob (fieldAt blob 0 0 0) = [] ∧
      readValue blob (fieldAt blob 0 0 1) = [32] ∧
      readValue blob (fieldAt blob 0 0 2) = [] ∧
      readValue blob (fieldAt blob 0 0 3) = [3, 2] := by
  refine ⟨by decide, blobOf singleRuleTable,
    make_compact_ruleset_eq singleRuleTable (by decide) abyBlob, ?_⟩
  have hb : blobOf singleRuleTable
      = [56, 0] ++ (List.replicate 27 [64, 0]).flatten
        ++ [64, 0, 65, 0, 64, 0, 67, 0] ++ [0, 1, 32, 2, 3, 2] := by decide
  rw [hb]
  decide

/-- Claim C13. Determinism: the blob is a function of the rule table alone.
Two runs on tables with the same rules in each of the 27 groups (in
particular two runs on the same table) return the same blob, whatever the
output vector held before each run and whatever is stored behind the
sentinels. -/
theorem C13_determinism (t1 t2 : Nat → List TTSRule) (abyBlob1 abyBlob2 : VEC_BYTE)
    (h1 : WellFormed t1) (h2 : WellFormed t2)
    (h : ∀ g, g < 27 → groupRules (t1 g) = groupRules (t2 g)) :
    ∃ blob, make_compact_ruleset t1 abyBlob1 = some blob ∧
      make_compact_ruleset t2 abyBlob2 = some blob :=
  ⟨blobOf t1, make_compact_ruleset_eq t1 h1 abyBlob1, by
    rw [blobOf_congr t1 t2 h]; exact make_compact_ruleset_eq t2 h2 abyBlob2⟩

/-- Witness of C13: two runs on `smallTable`, the second on a vector that
already holds a blob. -/
theorem C13_determinism_witness :
    WellFormed smallTable ∧ (∀ g, g < 27 → groupRules (smallTable g) = groupRules (smallTable g)) ∧
    ∃ blob, make_compact_ruleset smallTable [] = some blob ∧
      make_compact_ruleset smallTable (List.replicate 90 255) = some blob :=
  ⟨by decide, fun _ _ => rfl,
    C13_determinism smallTable smallTable [] (List.replicate 90 255) (by decide) (by decide)
      (fun _ _ => rfl)⟩

/-- Claim C14. Little-endian encoding: each of the 28 entries of the offset
table and each of the four fields of every rule record is stored as two
bytes, the value modulo 256 at the lower address and the value divided by 256
at the next address.  The value of entry `g` is the offset of group `g` as a
16-bit number; the value of a record field is the index offset of the field's
value as a 16-bit number, with the data offset added by the fixup when the
loop reached the record. -/
theorem C14_little_endian (_rules : Nat → List TTSRule) (abyBlob : VEC_BYTE)
    (hwf : WellFormed _rules) :
    ∃ blob strs bins, make_compact_ruleset _rules abyBlob = some blob ∧
      makeDeDups _rules [] [] = some (strs, bins) ∧
      (∀ g, g < 28 →
        blob.getD (2 * g) 0 = (56 + 8 * (rulesUpTo _rules g).length) % 65536 % 256 ∧
        blob.getD (2 * g + 1) 0 = (56 + 8 * (rulesUpTo _rules g).length) % 65536 / 256) ∧
      (∀ j e f, (allRules _rules)[j]? = some e → f < 4 →
        ∃ o v, indexLookup strs bins e f = some o ∧
          v = (if 56 + 8 * j < (56 + 8 * (allRules _rules).length) % 65536 then
                (o % 65536 + (56 + 8 * (allRules _rules).length) % 65536) % 65536
              else o % 65536) ∧
          blob.getD (56 + 8 * j + 2 * f) 0 = v % 256 ∧
          blob.getD (56 + 8 * j + 2 * f + 1) 0 = v / 256) := by
  refine ⟨blobOf _rules, strsOf _rules, binsOf _rules,
    make_compact_ruleset_eq _rules hwf abyBlob, makeDeDups_eq _rules hwf [] [], ?_, ?_⟩
  · intro g hg
    have h := bytes_blobOf _rules g (by omega)
    rw [tableWord _rules g hg] at h
    exact h
  · intro j e f he hf
    have hj : j < (allRules _rules).length := by
      rcases List.getElem?_eq_some.1 he with ⟨h, _⟩; exact h
    have hmem : e ∈ allRules _rules := mem_of_getElem? _ _ _ he
    refine ⟨relOffset _rules e f, _, indexLookup_eq _rules e hmem f, rfl, ?_⟩
    have h := bytes_blobOf _rules (28 + (4 * j + f)) (by omega)
    rw [field_general _rules j f e he hf] at h
    have e1 : 2 * (28 + (4 * j + f)) = 56 + 8 * j + 2 * f := by omega
    rw [e1] at h
    exact h

/-- Witness of C14 on `smallTable`. -/
theorem C14_little_endian_witness :
    WellFormed smallTable ∧
    ∃ blob strs bins, make_compact_ruleset smallTable [] = some blob ∧
      makeDeDups smallTable [] [] = some (strs, bins) ∧
      (∀ g, g < 28 →
        blob.getD (2 * g) 0 = (56 + 8 * (rulesUpTo smallTable g).length) % 65536 % 256 ∧
        blob.getD (2 * g + 1) 0 = (56 + 8 * (rulesUpTo smallTable g).length) % 65536 / 256) ∧
      (∀ j e f, (allRules smallTable)[j]? = some e → f < 4 →
        ∃ o v, indexLookup strs bins e f = some o ∧
          v = (if 56 + 8 * j < (56 + 8 * (allRules smallTable).length) % 65536 then
                (o % 65536 + (56 + 8 * (allRules smallTable).length) % 65536) % 65536
              else o % 65536) ∧
          blob.getD (56 + 8 * j + 2 * f) 0 = v % 256 ∧
          blob.getD (56 + 8 * j + 2 * f + 1) 0 = v / 256) :=
  ⟨by decide, C14_little_endian smallTable [] (by decide)⟩

/-- Claim C15. Bias removal: the phoneme sequences collected by `makeDeDups`
are exactly the rules' source phoneme bytes with one subtracted modulo 256
from every byte (same length, byte by byte; a source byte in 1..255 becomes
the code 0..254, the empty sequence stays empty); the key `makeRulesetBlob`
looks up for the phoneme field of a record is this same sequence; the
sequence is what the blob stores.  The context strings are collected and
stored byte for byte. -/
theorem C15_bias_removal (_rules : Nat → List TTSRule) (abyBlob : VEC_BYTE)
    (hwf : WellFormed _rules) :
    ∃ blob strs bins, make_compact_ruleset _rules abyBlob = some blob ∧
      makeDeDups _rules [] [] = some (strs, bins) ∧
      (∀ b : Nat, ((unbias b : Nat) : Int) = ((b : Int) - 1) % 256) ∧
      (∀ b : Nat, 1 ≤ b → b ≤ 255 → unbias b = b - 1) ∧
      (∀ p, p ∈ bins ↔ ∃ e ∈ allRules _rules, p = e._phone._phone.map unbias) ∧
      (∀ s, s ∈ strs ↔
        ∃ e ∈ allRules _rules, e._left = some s ∨ e._bracket = some s ∨ e._right = some s) ∧
      (∀ j e, (allRules _rules)[j]? = some e →
        (e._phone._phone.map unbias).length = e._phone._len ∧
        (∀ i : Nat, (e._phone._phone.map unbias)[i]? = (e._phone._phone[i]?).map unbias) ∧
        (∃ o, mapFind (e._phone._phone.map unbias)
              (makePhonemeBlob (makeStringBlob [] strs []).1 bins []).2 = some o ∧
          read16 blob (56 + 8 * j + 2 * 3)
            = if 56 + 8 * j < (56 + 8 * (allRules _rules).length) % 65536 then
                (o % 65536 + (56 + 8 * (allRules _rules).length) % 65536) % 65536
              else o % 65536) ∧
        (∃ pre post, blob = pre ++
            ((e._phone._phone.map unbias).length % 256 :: e._phone._phone.map unbias) ++ post ∧
          56 + 8 * (allRules _rules).length ≤ pre.length) ∧
        (∀ s, e._left = some s ∨ e._bracket = some s ∨ e._right = some s →
          ∃ pre post, blob = pre ++ (s.length % 256 :: s) ++ post ∧
            56 + 8 * (allRules _rules).length ≤ pre.length)) := by
  refine ⟨blobOf _rules, strsOf _rules, binsOf _rules,
    make_compact_ruleset_eq _rules hwf abyBlob, makeDeDups_eq _rules hwf [] [], unbias_int,
    ?_, mem_binsOf _rules, ?_, ?_⟩
  · intro b h1 h2
    unfold unbias; omega
  · intro s
    rw [mem_strsOf]
    constructor
    · rintro ⟨e, he, h⟩
      obtain ⟨h1, h2, h3⟩ := allRules_some _rules hwf e he
      refine ⟨e, he, ?_⟩
      rcases h with rfl | rfl | rfl
      · exact Or.inl h1
      · exact Or.inr (Or.inl h2)
      · exact Or.inr (Or.inr h3)
    · rintro ⟨e, he, h⟩
      refine ⟨e, he, ?_⟩
      rcases h with h | h | h
      · exact Or.inl (by simp [TTSRule.left, h])
      · exact Or.inr (Or.inl (by simp [TTSRule.bracket, h]))
      · exact Or.inr (Or.inr (by simp [TTSRule.right, h]))
  · intro j e he
    have hmem : e ∈ allRules _rules := mem_of_getElem? _ _ _ he
    refine ⟨by simp [PhonSeq._len], fun i => List.getElem?_map _ _ _, ?_, ?_, ?_⟩
    · have hl := indexLookup_eq _rules e hmem 3
      simp only [indexLookup, Nat.lt_irrefl, if_false] at hl
      exact ⟨relOffset _rules e 3, hl, read16_field_general _rules j 3 e he (by omega)⟩
    · exact blobOf_contains_value _rules e hmem 3
    · intro s hs
      obtain ⟨h1, h2, h3⟩ := allRules_some _rules hwf e hmem
      rcases hs with h | h | h
      · have : s = e.value 0 := by simp [TTSRule.value, TTSRule.left, h]
        rw [this]; exact blobOf_contains_value _rules e hmem 0
      · have : s = e.value 1 := by simp [TTSRule.value, TTSRule.bracket, h]
        rw [this]; exact blobOf_contains_value _rules e hmem 1
      · have : s = e.value 2 := by simp [TTSRule.value, TTSRule.right, h]
        rw [this]; exact blobOf_contains_value _rules e hmem 2

/-- Witness of C15 on `smallTable`, which has an empty and a non-empty phoneme
sequence. -/
theorem C15_bias_removal_witness :
    WellFormed smallTable ∧
    ∃ blob strs bins, make_compact_ruleset smallTable [] = some blob ∧
      makeDeDups smallTable [] [] = some (strs, bins) ∧
      (∀ b : Nat, ((unbias b : Nat) : Int) = ((b : Int) - 1) % 256) ∧
      (∀ b : Nat, 1 ≤ b → b ≤ 255 → unbias b = b - 1) ∧
      (∀ p, p ∈ bins ↔ ∃ e ∈ allRules smallTable, p = e._phone._phone.map unbias) ∧
      (∀ s, s ∈ strs ↔
        ∃ e ∈ allRules smallTable, e._left = some s ∨ e._bracket = some s ∨ e._right = some s) ∧
      (∀ j e, (allRules smallTable)[j]? = some e →
        (e._phone._phone.map unbias).length = e._phone._len ∧
        (∀ i : Nat, (e._phone._phone.map unbias)[i]? = (e._phone._phone[i]?).map unbias) ∧
        (∃ o, mapFind (e._phone._phone.map unbias)
              (makePhonemeBlob (makeStringBlob [] strs []).1 bins []).2 = some o ∧
          read16 blob (56 + 8 * j + 2 * 3)
            = if 56 + 8 * j < (56 + 8 * (allRules smallTable).length) % 65536 then
                (o % 65536 + (56 + 8 * (allRules smallTable).length) % 65536) % 65536
              else o % 65536) ∧
        (∃ pre post, blob = pre ++
            ((e._phone._phone.map unbias).length % 256 :: e._phone._phone.map unbias) ++ post ∧
          56 + 8 * (allRules smallTable).length ≤ pre.length) ∧
        (∀ s, e._left = some s ∨ e._bracket = some s ∨ e._right = some s →
          ∃ pre post, blob = pre ++ (s.length % 256 :: s) ++ post ∧
            56 + 8 * (allRules smallTable).length ≤ pre.length)) :=
  ⟨by decide, C15_bias_removal smallTable [] (by decide)⟩

/-- Counterexample to C16 as stated: group 0 of `unterminatedTable` and of
`overrunTable` is a rule sequence of one rule without end marker.  Nothing is
detected: when a rule and a null bracket happen to be stored behind the
group, compilation returns a blob in which group 0 has two records (the loop
ran past the end of the group), and when nothing is stored behind it the
outcome is undefined. -/
theorem C16_counterexample :
    (∀ e ∈ unterminatedGroup, e._bracket ≠ none) ∧
    unterminatedTable 0 = unterminatedGroup ∧
    (∃ behind, overrunTable 0 = unterminatedGroup ++ behind) ∧
    (∃ blob, make_compact_ruleset overrunTable [] = some blob ∧
      (tableEntry blob 1 - tableEntry blob 0) / 8 = 2) ∧
    make_compact_ruleset unterminatedTable [] = none := by
  refine ⟨by decide, rfl, ⟨_, rfl⟩, ?_, by decide⟩
  have h : (make_compact_ruleset overrunTable []).map
      (fun blob => (tableEntry blob 1 - tableEntry blob 0) / 8) = some 2 := by decide
  cases hb : make_compact_ruleset overrunTable [] with
  | none => rw [hb] at h; cases h
  | some blob =>
    rw [hb] at h
    exact ⟨blob, rfl, Option.some.inj h⟩

/-- Claim C16, amended. No MalformedTable check: the compiler has no bounds
check and no error value.  For a rule sequence without end marker the loops
of `makeDeDups` and `makeRulesetBlob` walk over all its entries and go on
with whatever is stored behind it; the outcome is decided by that memory, and
it is undefined (`none`) when the table ends there: so it is for every table
one of whose 27 groups has no end marker. -/
theorem C16_malformed_table (g : List TTSRule) (hg : OnlyRules g) :
    (∀ behind acc,
      makeDeDups.scan (g ++ behind) acc = makeDeDups.scan behind (g.foldl dedupStep acc)) ∧
    (∀ behind s,
      makeRulesetBlob.scan (g ++ behind) s
        = makeRulesetBlob.scan behind (g.foldl rulesetStep s)) ∧
    (∀ acc, makeDeDups.scan g acc = none) ∧
    (∀ s, makeRulesetBlob.scan g s = none) ∧
    (∀ (_rules : Nat → List TTSRule) (i : Nat) (abyBlob : VEC_BYTE), i < 27 →
      (∀ e ∈ _rules i, e._bracket ≠ none) → make_compact_ruleset _rules abyBlob = none) := by
  refine ⟨fun behind acc => scan_dedups_append g behind hg acc,
    fun behind s => scan_ruleset_append g behind hg s, ?_, ?_, ?_⟩
  · intro acc
    have := scan_dedups_append g [] hg acc
    rw [List.append_nil] at this
    rw [this]; rfl
  · intro s
    have := scan_ruleset_append g [] hg s
    rw [List.append_nil] at this
    rw [this]; rfl
  · intro _rules i abyBlob hi hno
    unfold make_compact_ruleset makeDeDups
    rw [foldlM_none_of_mem _ i (fun s => scan_dedups_none _ hno s) _ (List.mem_range.2 hi)]

/-- Witness of the amended C16 on `unterminatedGroup`. -/
theorem C16_malformed_table_witness :
    OnlyRules unterminatedGroup ∧
    (∀ behind acc,
      makeDeDups.scan (unterminatedGroup ++ behind) acc
        = makeDeDups.scan behind (unterminatedGroup.foldl dedupStep acc)) ∧
    (∀ behind s,
      makeRulesetBlob.scan (unterminatedGroup ++ behind) s
        = makeRulesetBlob.scan behind (unterminatedGroup.foldl rulesetStep s)) ∧
    (∀ acc, makeDeDups.scan unterminatedGroup acc = none) ∧
    (∀ s, makeRulesetBlob.scan unterminatedGroup s = none) ∧
    (∀ (_rules : Nat → List TTSRule) (i : Nat) (abyBlob : VEC_BYTE), i < 27 →
      (∀ e ∈ _rules i, e._bracket ≠ none) → make_compact_ruleset _rules abyBlob = none) :=
  ⟨by decide, C16_malformed_table unterminatedGroup (by decide)⟩

/-- Claim C17. Fixup frame: in `makeRulesetBlob`, when the blob is at most
65,535 bytes long, the fixup loop stores to each of the `4 * N` 16-bit fields
of the rule records exactly once and to no other address; it adds the data
offset `table[27]` to each field and leaves every byte of the offset table
and every byte of the appended data region as it was, so the data region is
the data blob passed in. -/
theorem C17_fixup_frame (_rules : Nat → List TTSRule) (abyBlob abyDataBlob : VEC_BYTE)
    (strsidx : MAP_STR_OFFSET) (binsidx : MAP_BLOB_OFFSET) (hwf : WellFormed _rules)
    (hk : KeysIn strsidx binsidx (allRules _rules)) :
    ∃ pre post log nIdxDataOffset,
      makeRulesetBlob.layout _rules abyBlob abyDataBlob strsidx binsidx
        = some (pre, 56, nIdxDataOffset, strsidx, binsidx) ∧
      makeRulesetBlob.fixupLog nIdxDataOffset (nIdxDataOffset + 1) 56 pre [] = some (post, log) ∧
      makeRulesetBlob.fixup nIdxDataOffset (nIdxDataOffset + 1) 56 pre = some post ∧
      makeRulesetBlob _rules abyBlob abyDataBlob strsidx binsidx
        = some (post, strsidx, binsidx) ∧
      (post.length ≤ 65535 →
        nIdxDataOffset = 56 + 8 * (allRules _rules).length ∧
        tableEntry post 27 = nIdxDataOffset ∧
        log = (List.range (4 * (allRules _rules).length)).map (fun k => 56 + 2 * k) ∧
        (∀ k, k < 4 * (allRules _rules).length →
          read16 post (56 + 2 * k) = (read16 pre (56 + 2 * k) + nIdxDataOffset) % 65536 ∧
          read16 post (56 + 2 * k) ≠ read16 pre (56 + 2 * k)) ∧
        post.length = pre.length ∧
        post.take 56 = pre.take 56 ∧
        post.drop nIdxDataOffset = pre.drop nIdxDataOffset ∧
        post.drop nIdxDataOffset = abyDataBlob) := by
  have hlay := layout_eq _rules hwf abyBlob abyDataBlob strsidx binsidx hk
  have hres := makeRulesetBlob_eq _rules hwf abyBlob abyDataBlob strsidx binsidx hk
  have hst := makeRulesetBlob_stages _rules abyBlob abyDataBlob strsidx binsidx
  rw [hlay, hres] at hst
  simp only [] at hst
  generalize hpre : tableUpTo _rules 28 ++ recordsOf strsidx binsidx (allRules _rules)
    ++ abyDataBlob = pre at hlay hst
  generalize hpost : tableUpTo _rules 28 ++
    (fixRecs (dataOffsetOf _rules) 56
      ((allRules _rules).map (fieldsOf strsidx binsidx))).flatMap recordBytes ++ abyDataBlob
    = post at hres hst
  have hfix : makeRulesetBlob.fixup (dataOffsetOf _rules) (dataOffsetOf _rules + 1) 56 pre
      = some post := by
    cases hf : makeRulesetBlob.fixup (dataOffsetOf _rules) (dataOffsetOf _rules + 1) 56 pre with
    | none => rw [hf] at hst; cases hst
    | some p =>
      rw [hf] at hst
      simp only [Option.some.injEq, Prod.mk.injEq, and_true] at hst
      rw [hst]
  have hlf := fixupLog_fst (dataOffsetOf _rules) (dataOffsetOf _rules + 1) 56 pre []
  rw [hfix] at hlf
  cases hlog : makeRulesetBlob.fixupLog (dataOffsetOf _rules) (dataOffsetOf _rules + 1) 56 pre []
    with
  | none => rw [hlog] at hlf; cases hlf
  | some pl =>
    obtain ⟨p, log⟩ := pl
    rw [hlog] at hlf
    simp only [Option.map_some', Option.some.injEq] at hlf
    subst hlf
    refine ⟨pre, p, log, dataOffsetOf _rules, hlay, hlog, hfix, hres, ?_⟩
    intro hsz
    -- the sizes
    have hrecs : ∀ r ∈ (allRules _rules).map (fieldsOf strsidx binsidx), IsRecord r := by
      intro r hr
      obtain ⟨e, _, rfl⟩ := List.mem_map.1 hr
      exact isRecord_fieldsOf _ _ e
    have hlenpost : p.length = 56 + 8 * (allRules _rules).length + abyDataBlob.length := by
      rw [← hpost, flatMap_recordBytes]
      simp only [List.length_append, length_tableUpTo, length_recordBytes]
      rw [length_flatten4 _ (fun r hr => (isRecord_fixRecs _ _ _ hrecs r hr).1),
        length_fixRecs, List.length_map]
      omega
    have hD : dataOffsetOf _rules = 56 + 8 * (allRules _rules).length := by
      unfold dataOffsetOf; exact Nat.mod_eq_of_lt (by omega)
    -- the two blobs as words
    have hvals : ∀ w ∈ ((allRules _rules).map (fieldsOf strsidx binsidx)).flatten, w < 65536 := by
      intro w hw
      obtain ⟨r, hr, hwr⟩ := List.mem_flatten.1 hw
      exact (hrecs r hr).2 w hwr
    have hvlen : (((allRules _rules).map (fieldsOf strsidx binsidx)).flatten).length
        = 4 * (allRules _rules).length := by
      rw [length_flatten4 _ (fun r hr => (hrecs r hr).1), List.length_map]
    have hpre2 : pre = recordBytes ((List.range 28).map
          (fun g => (56 + 8 * (rulesUpTo _rules g).length) % 65536))
        ++ recordBytes (((allRules _rules).map (fieldsOf strsidx binsidx)).flatten)
        ++ abyDataBlob := by
      rw [← hpre, tableUpTo_words, ← flatMap_recordBytes]
      simp [recordsOf, List.flatMap_map]
    have hpost2 : p = recordBytes ((List.range 28).map
          (fun g => (56 + 8 * (rulesUpTo _rules g).length) % 65536))
        ++ recordBytes ((((allRules _rules).map (fieldsOf strsidx binsidx)).flatten).map
            (fun v => (v + dataOffsetOf _rules) % 65536))
        ++ abyDataBlob := by
      rw [← hpost, tableUpTo_words, fixRecs_all _ _ _ (by rw [List.length_map, hD]),
        flatMap_recordBytes, List.map_flatten]
    have hTl : ((List.range 28).map
        (fun g => (56 + 8 * (rulesUpTo _rules g).length) % 65536)).length = 28 := by simp
    have hTw : ∀ w ∈ (List.range 28).map
        (fun g => (56 + 8 * (rulesUpTo _rules g).length) % 65536), w < 65536 := by
      intro w hw
      obtain ⟨g, _, rfl⟩ := List.mem_map.1 hw
      exact Nat.mod_lt _ (by decide)
    refine ⟨hD, ?_, ?_, ?_, ?_, ?_, ?_, ?_⟩
    · -- table[27]
      unfold tableEntry
      rw [hpost2, List.append_assoc, read16_words _ hTw _ 27 (by simp)]
      rw [List.getD_eq_getElem?_getD, List.getElem?_map, List.getElem?_range (by omega)]
      rfl
    · -- the log
      have h := fixupLog_eq (dataOffsetOf _rules) (allRules _rules).length 56 pre []
        (dataOffsetOf _rules + 1) hD (by omega)
      rw [hlog, hfix] at h
      simp only [Option.map_some', Option.some.injEq, Prod.mk.injEq, true_and,
        List.nil_append] at h
      exact h
    · -- every field gets the offset added
      intro k hk
      have h1 : read16 pre (56 + 2 * k)
          = (((allRules _rules).map (fieldsOf strsidx binsidx)).flatten).getD k 0 := by
        rw [hpre2]
        exact read16_behind_table _ _ _ hTl hTw hvals k (by omega)
      have h2 : read16 p (56 + 2 * k)
          = ((((allRules _rules).map (fieldsOf strsidx binsidx)).flatten).map
              (fun v => (v + dataOffsetOf _rules) % 65536)).getD k 0 := by
        rw [hpost2]
        refine read16_behind_table _ _ _ hTl hTw ?_ k (by rw [List.length_map]; omega)
        intro w hw
        obtain ⟨v, _, rfl⟩ := List.mem_map.1 hw
        exact Nat.mod_lt _ (by decide)
      have hklt : k < (((allRules _rules).map (fieldsOf strsidx binsidx)).flatten).length := by
        omega
      rw [List.getD_eq_getElem?_getD, List.getElem?_map, List.getElem?_eq_getElem hklt] at h2
      rw [List.getD_eq_getElem?_getD, List.getElem?_eq_getElem hklt] at h1
      simp only [Option.map_some', Option.getD_some] at h1 h2
      have hv := hvals _ (List.getElem_mem hklt)
      rw [h1, h2]
      constructor
      · rfl
      · omega
    · rw [hpre2, hpost2]
      simp only [List.length_append, length_recordBytes, List.length_map]
    · rw [hpre2, hpost2, List.append_assoc, List.append_assoc,
        List.take_left' (by rw [length_recordBytes, hTl]),
        List.take_left' (by rw [length_recordBytes, hTl])]
    · have l1 : (recordBytes ((List.range 28).map
          (fun g => (56 + 8 * (rulesUpTo _rules g).length) % 65536))
          ++ recordBytes (((allRules _rules).map (fieldsOf strsidx binsidx)).flatten)).length
          = dataOffsetOf _rules := by
        rw [List.length_append, length_recordBytes, length_recordBytes, hTl, hvlen, hD]; omega
      have l2 : (recordBytes ((List.range 28).map
          (fun g => (56 + 8 * (rulesUpTo _rules g).length) % 65536))
          ++ recordBytes ((((allRules _rules).map (fieldsOf strsidx binsidx)).flatten).map
            (fun v => (v + dataOffsetOf _rules) % 65536))).length = dataOffsetOf _rules := by
        rw [List.length_append, length_recordBytes, length_recordBytes, hTl, List.length_map,
          hvlen, hD]; omega
      rw [hpre2, hpost2, List.drop_left' l1, List.drop_left' l2]
    · have l2 : (recordBytes ((List.range 28).map
          (fun g => (56 + 8 * (rulesUpTo _rules g).length) % 65536))
          ++ recordBytes ((((allRules _rules).map (fieldsOf strsidx binsidx)).flatten).map
            (fun v => (v + dataOffsetOf _rules) % 65536))).length = dataOffsetOf _rules := by
        rw [List.length_append, length_recordBytes, length_recordBytes, hTl, List.length_map,
          hvlen, hD]; omega
      rw [hpost2, List.drop_left' l2]

/-- Witness of C17: `makeRulesetBlob` on `smallTable` with its data blob and
indices. -/
theorem C17_fixup_frame_witness :
    WellFormed smallTable ∧
    KeysIn (strsidxOf smallTable) (binsidxOf smallTable) (allRules smallTable) ∧
    ∃ pre post log nIdxDataOffset,
      makeRulesetBlob.layout smallTable [] (dataOf smallTable) (strsidxOf smallTable)
          (binsidxOf smallTable)
        = some (pre, 56, nIdxDataOffset, strsidxOf smallTable, binsidxOf smallTable) ∧
      makeRulesetBlob.fixupLog nIdxDataOffset (nIdxDataOffset + 1) 56 pre [] = some (post, log) ∧
      makeRulesetBlob.fixup nIdxDataOffset (nIdxDataOffset + 1) 56 pre = some post ∧
      makeRulesetBlob smallTable [] (dataOf smallTable) (strsidxOf smallTable)
          (binsidxOf smallTable)
        = some (post, strsidxOf smallTable, binsidxOf smallTable) ∧
      post.length ≤ 65535 ∧
      nIdxDataOffset = 56 + 8 * (allRules smallTable).length ∧
      tableEntry post 27 = nIdxDataOffset ∧
      log = (List.range (4 * (allRules smallTable).length)).map (fun k => 56 + 2 * k) ∧
      (∀ k, k < 4 * (allRules smallTable).length →
        read16 post (56 + 2 * k) = (read16 pre (56 + 2 * k) + nIdxDataOffset) % 65536 ∧
        read16 post (56 + 2 * k) ≠ read16 pre (56 + 2 * k)) ∧
      post.length = pre.length ∧
      post.take 56 = pre.take 56 ∧
      post.drop nIdxDataOffset = pre.drop nIdxDataOffset ∧
      post.drop nIdxDataOffset = dataOf smallTable := by
  refine ⟨by decide, keysIn_of smallTable, ?_⟩
  obtain ⟨pre, post, log, D, h1, h2, h3, h4, h5⟩ :=
    C17_fixup_frame smallTable [] (dataOf smallTable) (strsidxOf smallTable)
      (binsidxOf smallTable) (by decide) (keysIn_of smallTable)
  exact ⟨pre, post, log, D, h1, h2, h3, h4, smallTable_ruleset_length post h4,
    h5 (smallTable_ruleset_length post h4)⟩

/-- Claim C18. Absolute offsets: when the blob is at most 65,535 bytes long,
each of the four fields of every rule record holds exactly, with no
wrap-around, the offset recorded for its value in the string index (left,
bracket, right) or in the phoneme index (un-biased phoneme sequence) plus
`table[27]`. -/
theorem C18_absolute_offsets (_rules : Nat → List TTSRule) (abyBlob : VEC_BYTE)
    (hwf : WellFormed _rules) :
    ∃ blob strs bins, make_compact_ruleset _rules abyBlob = some blob ∧
      makeDeDups _rules [] [] = some (strs, bins) ∧
      (blob.length ≤ 65535 → ∀ g r e f, g < 27 → (groupRules (_rules g))[r]? = some e → f < 4 →
        ∃ o, indexLookup strs bins e f = some o ∧
          fieldAt blob g r f = o + tableEntry blob 27 ∧ o + tableEntry blob 27 < 65536) := by
  refine ⟨blobOf _rules, strsOf _rules, binsOf _rules,
    make_compact_ruleset_eq _rules hwf abyBlob, makeDeDups_eq _rules hwf [] [], ?_⟩
  intro hlen g r e f hg he hf
  have hmem : e ∈ allRules _rules := mem_of_getElem? _ _ _ (allRules_get _rules g r hg e he)
  have hlen2 := length_blobOf _rules
  have h27 := tableEntry_exact _rules (by omega) 27 (by omega)
  have hrel := relOffset_lt _rules e hmem f
  refine ⟨relOffset _rules e f, indexLookup_eq _rules e hmem f, ?_, ?_⟩
  · rw [fieldAt_exact _rules hlen g r f e hg he hf, h27]
    show _ = relOffset _rules e f + (56 + 8 * (allRules _rules).length)
    omega
  · rw [h27]
    show relOffset _rules e f + (56 + 8 * (allRules _rules).length) < 65536
    omega

/-- Witness of C18 on `smallTable`. -/
theorem C18_absolute_offsets_witness :
    WellFormed smallTable ∧
    ∃ blob strs bins, make_compact_ruleset smallTable [] = some blob ∧
      makeDeDups smallTable [] [] = some (strs, bins) ∧ blob.length ≤ 65535 ∧
      ∀ g r e f, g < 27 → (groupRules (smallTable g))[r]? = some e → f < 4 →
        ∃ o, indexLookup strs bins e f = some o ∧
          fieldAt blob g r f = o + tableEntry blob 27 ∧ o + tableEntry blob 27 < 65536 := by
  refine ⟨by decide, ?_⟩
  obtain ⟨blob, strs, bins, hb, hd, h⟩ := C18_absolute_offsets smallTable [] (by decide)
  exact ⟨blob, strs, bins, hb, hd, smallTable_blob_length blob hb,
    h (smallTable_blob_length blob hb)⟩

/-- Claim C19. Index contract: for every set of values of at most 255 bytes
each (a set is iterated in ascending order) and every initial buffer, the
index returned by `makeStringBlob`, and likewise the one returned by
`makePhonemeBlob`, maps every value of the set and nothing else; the offset
of a value is the buffer size when its length byte was appended, and the
buffer holds at that offset the length of the value and then its bytes. -/
theorem C19_index_contract (abyBlob : VEC_BYTE) (vals : List (List Nat))
    (hs : vals.Pairwise (fun a b => lexLess a b = true)) (hfit : ∀ v ∈ vals, v.length ≤ 255) :
    IndexContract abyBlob vals (makeStringBlob abyBlob vals []) ∧
    IndexContract abyBlob vals (makePhonemeBlob abyBlob vals []) := by
  refine ⟨indexContract_makeStringBlob abyBlob vals hs hfit, ?_⟩
  rw [makePhonemeBlob_eq_makeStringBlob]
  exact indexContract_makeStringBlob abyBlob vals hs hfit

/-- Witness of C19: the set `{"", " ", "ab"}` appended to a buffer of three
bytes. -/
theorem C19_index_contract_witness :
    [[], [32], [97, 98]].Pairwise (fun a b => lexLess a b = true) ∧
    (∀ v ∈ [[], [32], [97, 98]], v.length ≤ 255) ∧
    IndexContract [9, 9, 9] [[], [32], [97, 98]]
      (makeStringBlob [9, 9, 9] [[], [32], [97, 98]] []) ∧
    IndexContract [9, 9, 9] [[], [32], [97, 98]]
      (makePhonemeBlob [9, 9, 9] [[], [32], [97, 98]] []) :=
  ⟨by decide, by decide, C19_index_contract [9, 9, 9] [[], [32], [97, 98]] (by decide) (by decide)⟩

/-- Claim C20. Shared address space: in `make_compact_ruleset` the buffer
returned by `makePhonemeBlob` starts with the buffer `makeStringBlob` filled,
unchanged; every offset in the phoneme index is at least the size of that
string part; and the smallest phoneme sequence has the offset equal to the
sum of `1 + length` over the distinct strings. -/
theorem C20_shared_address_space (_rules : Nat → List TTSRule) (abyBlob : VEC_BYTE)
    (hwf : WellFormed _rules) :
    ∃ strs bins, makeDeDups _rules [] [] = some (strs, bins) ∧
      make_compact_ruleset _rules abyBlob
        = (makeRulesetBlob _rules abyBlob
            (makePhonemeBlob (makeStringBlob [] strs []).1 bins []).1
            (makeStringBlob [] strs []).2
            (makePhonemeBlob (makeStringBlob [] strs []).1 bins []).2).map (fun r => r.1) ∧
      (makePhonemeBlob (makeStringBlob [] strs []).1 bins []).1.take
          (makeStringBlob [] strs []).1.length = (makeStringBlob [] strs []).1 ∧
      (makeStringBlob [] strs []).1.length = (strs.map (fun x => 1 + x.length)).sum ∧
      (∀ v o, mapFind v (makePhonemeBlob (makeStringBlob [] strs []).1 bins []).2 = some o →
        (makeStringBlob [] strs []).1.length ≤ o) ∧
      (∀ first rest, bins = first :: rest →
        (∀ b ∈ rest, lexLess first b = true) ∧
        mapFind first (makePhonemeBlob (makeStringBlob [] strs []).1 bins []).2
          = some ((strs.map (fun x => 1 + x.length)).sum)) := by
  refine ⟨strsOf _rules, binsOf _rules, makeDeDups_eq _rules hwf [] [], ?_, ?_, ?_, ?_, ?_⟩
  · exact make_compact_ruleset_unfold _rules abyBlob _ _ (makeDeDups_eq _rules hwf [] [])
  · rw [makePhonemeBlob_eq_makeStringBlob, makeStringBlob_fst _ (binsOf _rules),
      List.take_left' rfl]
  · rw [makeStringBlob_fst, List.nil_append, length_encAll]
  · intro v o ho
    rw [makePhonemeBlob_eq_makeStringBlob,
      makeStringBlob_snd _ _ _ (ascending_binsOf _rules) (by simp), List.nil_append] at ho
    obtain ⟨_, rfl⟩ := mapFind_offsets_some _ _ _ _ ho
    omega
  · intro first rest hb
    have hasc := ascending_binsOf _rules
    unfold Ascending at hasc
    rw [hb, List.pairwise_cons] at hasc
    refine ⟨hasc.1, ?_⟩
    rw [makePhonemeBlob_eq_makeStringBlob,
      makeStringBlob_snd _ _ _ (ascending_binsOf _rules) (by simp), List.nil_append,
      mapFind_offsets _ _ _ (by rw [hb]; exact List.mem_cons_self _ _), hb]
    simp only [offsetOf, if_true, Nat.add_zero]
    rw [makeStringBlob_fst, List.nil_append, length_encAll]

/-- Witness of C20 on `smallTable`. -/
theorem C20_shared_address_space_witness :
    WellFormed smallTable ∧
    ∃ strs bins, makeDeDups smallTable [] [] = some (strs, bins) ∧
      make_compact_ruleset smallTable []
        = (makeRulesetBlob smallTable []
            (makePhonemeBlob (makeStringBlob [] strs []).1 bins []).1
            (makeStringBlob [] strs []).2
            (makePhonemeBlob (makeStringBlob [] strs []).1 bins []).2).map (fun r => r.1) ∧
      (makePhonemeBlob (makeStringBlob [] strs []).1 bins []).1.take
          (makeStringBlob [] strs []).1.length = (makeStringBlob [] strs []).1 ∧
      (makeStringBlob [] strs []).1.length = (strs.map (fun x => 1 + x.length)).sum ∧
      (∀ v o, mapFind v (makePhonemeBlob (makeStringBlob [] strs []).1 bins []).2 = some o →
        (makeStringBlob [] strs []).1.length ≤ o) ∧
      (∀ first rest, bins = first :: rest →
        (∀ b ∈ rest, lexLess first b = true) ∧
        mapFind first (makePhonemeBlob (makeStringBlob [] strs []).1 bins []).2
          = some ((strs.map (fun x => 1 + x.length)).sum)) :=
  ⟨by decide, C20_shared_address_space smallTable [] (by decide)⟩


/-! ## Further facts used by the claims C21 to C30 -/

/-! ### Sets, indices and offsets -/

theorem mem_allRules_iff (_rules : Nat → List TTSRule) (e : TTSRule) :
    e ∈ allRules _rules ↔ ∃ g, g < 27 ∧ e ∈ groupRules (_rules g) := by
  simp only [allRules, rulesUpTo, List.mem_flatMap, List.mem_range]

theorem length_mapInsert_of_none (kv : List Nat × Nat) (m : List (List Nat × Nat))
    (h : mapFind kv.1 m = none) : (mapInsert kv m).length = m.length + 1 := by
  induction m with
  | nil => rfl
  | cons x xs ih =>
    simp only [mapFind] at h
    simp only [mapInsert]
    cases h1 : lexLess kv.1 x.1 <;> cases h2 : lexLess x.1 kv.1 <;>
      simp only [h1, h2, Bool.not_false, Bool.not_true, Bool.and_self, Bool.and_false,
        Bool.false_and, if_true, if_false, Bool.false_eq_true] at h ⊢
    · simp at h
    · simp [ih h]
    · simp
    · simp

theorem offsetOf_inj (vals : List (List Nat)) (v1 v2 : List Nat) (h1 : v1 ∈ vals)
    (h2 : v2 ∈ vals) (h : offsetOf v1 vals = offsetOf v2 vals) : v1 = v2 := by
  induction vals with
  | nil => simp at h1
  | cons v rest ih =>
    simp only [offsetOf] at h
    by_cases e1 : v = v1 <;> by_cases e2 : v = v2
    · rw [← e1, ← e2]
    · rw [if_pos e1, if_neg e2] at h; omega
    · rw [if_neg e1, if_pos e2] at h; omega
    · rw [if_neg e1, if_neg e2] at h
      have m1 : v1 ∈ rest := by
        rcases List.mem_cons.1 h1 with h | h
        · exact absurd h.symm e1
        · exact h
      have m2 : v2 ∈ rest := by
        rcases List.mem_cons.1 h2 with h | h
        · exact absurd h.symm e2
        · exact h
      exact ih m1 m2 (by omega)

theorem strsidx_eq (_rules : Nat → List TTSRule) :
    (makeStringBlob [] (strsOf _rules) []).2 = strsidxOf _rules := by
  rw [makeStringBlob_snd _ _ _ (ascending_strsOf _rules) (by simp)]; rfl

theorem binsidx_eq (_rules : Nat → List TTSRule) :
    (makePhonemeBlob (makeStringBlob [] (strsOf _rules) []).1 (binsOf _rules) []).2
      = binsidxOf _rules := by
  rw [makePhonemeBlob_eq_makeStringBlob,
    makeStringBlob_snd _ _ _ (ascending_binsOf _rules) (by simp), makeStringBlob_fst]
  rfl

theorem mapFind_offsets_inj (base : Nat) (vals : List (List Nat)) (v1 v2 : List Nat) (o : Nat)
    (h1 : mapFind v1 (offsets base vals) = some o) (h2 : mapFind v2 (offsets base vals) = some o) :
    v1 = v2 := by
  obtain ⟨m1, e1⟩ := mapFind_offsets_some base vals v1 o h1
  obtain ⟨m2, e2⟩ := mapFind_offsets_some base vals v2 o h2
  exact offsetOf_inj vals v1 v2 m1 m2 (by omega)

theorem lexLess_nil_right (a : List Nat) : lexLess a [] = false := by
  cases a <;> rfl

theorem ascending_head_nil (S : List (List Nat)) (hS : Ascending S) (h : [] ∈ S) :
    ∃ rest, S = [] :: rest := by
  cases S with
  | nil => simp at h
  | cons x rest =>
    rcases List.mem_cons.1 h with h | h
    · exact ⟨rest, by rw [← h]⟩
    · have := (List.pairwise_cons.1 hS).1 [] h
      rw [lexLess_nil_right] at this
      exact absurd this (by simp)

theorem length_lengthPrefixed (s : List (List Nat)) :
    (lengthPrefixed s).length = (s.map (fun x => 1 + x.length)).sum := by
  induction s with
  | nil => rfl
  | cons v rest ih =>
    simp only [lengthPrefixed, List.flatMap_cons, List.length_append, List.length_cons,
      List.map_cons, List.sum_cons] at ih ⊢
    rw [ih]; omega

/-- Relative offset of a field as the length of the entries in front of it. -/
theorem relOffset_split (_rules : Nat → List TTSRule) (e : TTSRule) (he : e ∈ allRules _rules)
    (f : Nat) :
    ∃ before after, strsOf _rules ++ binsOf _rules = before ++ e.value f :: after ∧
      relOffset _rules e f = (lengthPrefixed before).length := by
  by_cases h3 : f < 3
  · obtain ⟨before, after, hsp, hoff⟩ := offsetOf_split (strsOf _rules) (e.value f)
      ((mem_value _rules e he f).1 h3)
    refine ⟨before, after ++ binsOf _rules, ?_, ?_⟩
    · rw [hsp]; simp
    · rw [length_lengthPrefixed, ← hoff]; simp [relOffset, h3]
  · obtain ⟨before, after, hsp, hoff⟩ := offsetOf_split (binsOf _rules) (e.value f)
      ((mem_value _rules e he f).2 h3)
    refine ⟨strsOf _rules ++ before, after, ?_, ?_⟩
    · rw [hsp]; simp
    · rw [lengthPrefixed_append, List.length_append, length_lengthPrefixed,
        length_lengthPrefixed, ← hoff, ← length_encAll, value_phonemes e f h3]
      simp [relOffset, h3]

/-! ### `analyze` -/

theorem max_eq_ite (a b : Nat) : (if a < b then b else a) = max a b := by
  split_ifs with h
  · exact (Nat.max_eq_right (by omega)).symm
  · exact (Nat.max_eq_left (by omega)).symm

theorem scan_analyze (g : List TTSRule) (hg : wellFormedGroup g = true) (v : analyze.Locals) :
    analyze.scan g v = some ((groupRules g).foldl analyzeStep v) := by
  induction g generalizing v with
  | nil => simp [wellFormedGroup] at hg
  | cons e rest ih =>
    obtain ⟨l, b, r, p⟩ := e
    cases b with
    | none => simp [analyze.scan, groupRules]
    | some b =>
      cases l with
      | none => simp [wellFormedGroup] at hg
      | some l =>
        cases r with
        | none => simp [wellFormedGroup] at hg
        | some r =>
          simp only [wellFormedGroup, Option.isSome_some, Bool.true_and] at hg
          simp only [analyze.scan, groupRules, List.foldl_cons]
          rw [ih hg]
          simp only [max_eq_ite]
          rfl

theorem foldl_flatMap_groups {σ : Type} (step : σ → TTSRule → σ) (_rules : Nat → List TTSRule)
    (gs : List Nat) (acc : σ) :
    gs.foldl (fun acc g => (groupRules (_rules g)).foldl step acc) acc
      = (gs.flatMap (fun g => groupRules (_rules g))).foldl step acc := by
  induction gs generalizing acc with
  | nil => rfl
  | cons g gs ih => simp [List.foldl_append, ih]

theorem analyze_scan_eq (_rules : Nat → List TTSRule) (h : WellFormed _rules) :
    (List.range 27).foldlM (fun v nIdxRuleSec => analyze.scan (_rules nIdxRuleSec) v)
      ⟨[], [], 0, 0, 0, 0, 0, 0, 0⟩ = some (analyzeLocals _rules) := by
  unfold analyzeLocals allRules rulesUpTo
  rw [foldlM_range_some _ (fun acc g => (groupRules (_rules g)).foldl analyzeStep acc)]
  · rw [foldl_flatMap_groups]
  · intro g hg s
    exact scan_analyze _ (h g (List.mem_range.1 hg)) s

theorem foldl_add_sum (l : List (List Nat)) (n : Nat) :
    l.foldl (fun n x => n + (x.length + 1)) n = n + (l.map (fun x => 1 + x.length)).sum := by
  induction l generalizing n with
  | nil => simp
  | cons x xs ih =>
    simp only [List.foldl_cons, List.map_cons, List.sum_cons, ih]
    omega

theorem analyze_eq (_rules : Nat → List TTSRule) (h : WellFormed _rules) :
    analyze _rules = some
      ⟨(analyzeLocals _rules).nRules, (analyzeLocals _rules).nStrs, (analyzeLocals _rules).nBins,
       (analyzeLocals _rules).strs.length, (analyzeLocals _rules).bins.length,
       (analyzeLocals _rules).nStrsLen, (analyzeLocals _rules).nBinsLen,
       ((analyzeLocals _rules).strs.map (fun x => 1 + x.length)).sum,
       ((analyzeLocals _rules).bins.map (fun x => 1 + x.length)).sum,
       (analyzeLocals _rules).nStrLongest, (analyzeLocals _rules).nBinLongest⟩ := by
  unfold analyze
  rw [analyze_scan_eq _rules h]
  simp only [foldl_add_sum, Nat.zero_add]

theorem analyze_strs (rs : List TTSRule) (v : analyze.Locals) (acc : SET_STR × SET_BLOB)
    (h : v.strs = acc.1) : (rs.foldl analyzeStep v).strs = (rs.foldl dedupStep acc).1 := by
  induction rs generalizing v acc with
  | nil => exact h
  | cons e rs ih =>
    simp only [List.foldl_cons]
    apply ih
    simp [analyzeStep, dedupStep, h]

theorem mem_analyze_bins (rs : List TTSRule) (v : analyze.Locals) (x : List Nat) :
    x ∈ (rs.foldl analyzeStep v).bins ↔ x ∈ v.bins ∨ ∃ e ∈ rs, x = e._phone._phone := by
  induction rs generalizing v with
  | nil => simp
  | cons e rs ih =>
    simp only [List.foldl_cons, ih, analyzeStep, mem_setInsert, List.mem_cons, exists_eq_or_imp]
    generalize (∃ a ∈ rs, x = a._phone._phone) = Q
    tauto

theorem ascending_analyze_bins (rs : List TTSRule) (v : analyze.Locals) (h : Ascending v.bins) :
    Ascending (rs.foldl analyzeStep v).bins := by
  induction rs generalizing v with
  | nil => exact h
  | cons e rs ih =>
    simp only [List.foldl_cons]
    exact ih _ (ascending_setInsert _ _ h)

theorem unbias_inj (a b : Nat) (ha : a < 256) (hb : b < 256) (h : unbias a = unbias b) :
    a = b := by
  unfold unbias at h; omega

theorem map_unbias_inj : ∀ (l1 l2 : List Nat), (∀ b ∈ l1, b < 256) → (∀ b ∈ l2, b < 256) →
    l1.map unbias = l2.map unbias → l1 = l2
  | [], [], _, _, _ => rfl
  | [], _ :: _, _, _, h => by simp at h
  | _ :: _, [], _, _, h => by simp at h
  | a :: as, b :: bs, h1, h2, h => by
    simp only [List.map_cons, List.cons.injEq] at h
    rw [unbias_inj a b (h1 a (by simp)) (h2 b (by simp)) h.1,
      map_unbias_inj as bs (fun x hx => h1 x (by simp [hx])) (fun x hx => h2 x (by simp [hx])) h.2]

/-- The phoneme set of the compiler is, up to order, the phoneme set of
`analyze` with each sequence un-biased. -/
theorem binsOf_perm (_rules : Nat → List TTSRule) (hb : PhonemeBytes _rules) :
    (binsOf _rules).Perm ((analyzeLocals _rules).bins.map (List.map unbias)) := by
  have hA : Ascending (analyzeLocals _rules).bins :=
    ascending_analyze_bins _ _ (by simp [Ascending])
  have hmem : ∀ x, x ∈ (analyzeLocals _rules).bins ↔ ∃ e ∈ allRules _rules, x = e._phone._phone := by
    intro x
    unfold analyzeLocals
    rw [mem_analyze_bins]; simp
  have hnd : ((analyzeLocals _rules).bins.map (List.map unbias)).Nodup := by
    refine List.Nodup.map_on ?_ hA.nodup
    intro x hx y hy hxy
    obtain ⟨e1, he1, rfl⟩ := (hmem x).1 hx
    obtain ⟨e2, he2, rfl⟩ := (hmem y).1 hy
    exact map_unbias_inj _ _ (hb e1 he1) (hb e2 he2) hxy
  refine (List.perm_ext_iff_of_nodup (ascending_binsOf _rules).nodup hnd).2 ?_
  intro x
  rw [mem_binsOf, List.mem_map]
  constructor
  · rintro ⟨e, he, rfl⟩
    exact ⟨e._phone._phone, (hmem _).2 ⟨e, he, rfl⟩, rfl⟩
  · rintro ⟨y, hy, rfl⟩
    obtain ⟨e, he, rfl⟩ := (hmem y).1 hy
    exact ⟨e, he, rfl⟩

theorem analyze_dbins (_rules : Nat → List TTSRule) (hb : PhonemeBytes _rules) :
    (analyzeLocals _rules).bins.length = (binsOf _rules).length ∧
    ((analyzeLocals _rules).bins.map (fun x => 1 + x.length)).sum
      = ((binsOf _rules).map (fun x => 1 + x.length)).sum := by
  have hp := binsOf_perm _rules hb
  refine ⟨by rw [hp.length_eq, List.length_map], ?_⟩
  rw [(hp.map (fun x => 1 + x.length)).sum_eq, List.map_map]
  congr 1
  apply List.map_congr_left
  intro x _
  simp

theorem analyze_dstrs (_rules : Nat → List TTSRule) :
    (analyzeLocals _rules).strs = strsOf _rules :=
  analyze_strs _ _ ([], []) rfl

/-! ### The emission part of `main` -/

theorem take_append_drop_length (n : Nat) (D : List Nat) :
    D.take n ++ D.drop (D.take n).length = D := by
  rw [List.length_take]
  rcases Nat.le_total n D.length with h | h
  · rw [Nat.min_eq_left h]; exact List.take_append_drop n D
  · rw [Nat.min_eq_right h, List.take_of_length_le h, List.drop_length]; simp

theorem row_eq (abyBlob : VEC_BYTE) (fuel nIter nIdxBlob : Nat) (out : List Out)
    (hf : 16 - nIter < fuel) :
    main.row abyBlob fuel nIter nIdxBlob out
      = some (nIdxBlob + ((abyBlob.drop nIdxBlob).take (16 - nIter)).length,
          out ++ ((abyBlob.drop nIdxBlob).take (16 - nIter)).flatMap emitElement) := by
  induction fuel generalizing nIter nIdxBlob out with
  | zero => omega
  | succ fuel ih =>
    simp only [main.row]
    split_ifs with h
    · rw [ih (nIter + 1) (nIdxBlob + 1) _ (by omega)]
      have h16 : 16 - nIter = (16 - (nIter + 1)) + 1 := by omega
      have hd : abyBlob.drop nIdxBlob = abyBlob.getD nIdxBlob 0 :: abyBlob.drop (nIdxBlob + 1) := by
        rw [List.getD_eq_getElem?_getD, List.getElem?_eq_getElem h.2]
        simp
      rw [h16, hd, List.take_succ_cons]
      simp [emitElement, Nat.add_assoc, Nat.add_comm 1]
    · have h0 : (abyBlob.drop nIdxBlob).take (16 - nIter) = [] := by
        by_cases h1 : nIter < 16
        · have : abyBlob.length ≤ nIdxBlob := by
            by_contra hc; exact h ⟨h1, by omega⟩
          rw [List.drop_of_length_le this]; simp
        · have : 16 - nIter = 0 := by omega
          rw [this]; rfl
      rw [h0]; simp

theorem dump_eq (abyBlob : VEC_BYTE) (fuel nIdxBlob : Nat) (out : List Out)
    (hf : abyBlob.length - nIdxBlob < fuel) :
    ∃ rows : List (List Nat), rows.flatten = abyBlob.drop nIdxBlob ∧
      (∀ row ∈ rows, 0 < row.length ∧ row.length ≤ 16) ∧
      main.dump abyBlob fuel nIdxBlob out = some (out ++ emitRows nIdxBlob rows) := by
  induction fuel generalizing nIdxBlob out with
  | zero => omega
  | succ fuel ih =>
    simp only [main.dump]
    split_ifs with h
    · rw [row_eq abyBlob 17 0 nIdxBlob _ (by omega)]
      simp only [Nat.sub_zero]
      have hl : ((abyBlob.drop nIdxBlob).take 16).length = min 16 (abyBlob.length - nIdxBlob) := by
        simp
      obtain ⟨rows, h1, h2, h3⟩ := ih (nIdxBlob + ((abyBlob.drop nIdxBlob).take 16).length)
        ((out ++ [Out.text "/*", Out.num 16 4 '0' nIdxBlob, Out.text "*/  "]
          ++ ((abyBlob.drop nIdxBlob).take 16).flatMap emitElement) ++ [Out.endl])
        (by rw [hl]; omega)
      refine ⟨(abyBlob.drop nIdxBlob).take 16 :: rows, ?_, ?_, ?_⟩
      · rw [List.flatten_cons, h1, ← List.drop_drop]
        exact take_append_drop_length 16 _
      · intro row hrow
        rcases List.mem_cons.1 hrow with e | hm
        · rw [e, hl]; omega
        · exact h2 row hm
      · rw [h3]; simp [emitRows, List.append_assoc]
    · refine ⟨[], ?_, by simp, by simp [emitRows]⟩
      rw [List.drop_of_length_le (by omega)]; rfl

theorem emit_eq (abyBlob : VEC_BYTE) :
    ∃ rows : List (List Nat), rows.flatten = abyBlob ∧
      (∀ row ∈ rows, 0 < row.length ∧ row.length ≤ 16) ∧
      main.emit abyBlob = some (emitHead abyBlob.length ++ emitRows 0 rows
        ++ [Out.text "\x7d;", Out.endl]) := by
  obtain ⟨rows, h1, h2, h3⟩ := dump_eq abyBlob (abyBlob.length + 1) 0 (emitHead abyBlob.length)
    (by omega)
  refine ⟨rows, by simpa using h1, h2, ?_⟩
  unfold main.emit
  simp only []
  have : main.dump abyBlob (abyBlob.length + 1) 0 (emitHead abyBlob.length)
      = some (emitHead abyBlob.length ++ emitRows 0 rows) := h3
  unfold emitHead at this
  rw [this]
  rfl

theorem count_emitRows (idx : Nat) (rows : List (List Nat)) :
    (emitRows idx rows).count (Out.text "0x") = rows.flatten.length := by
  induction rows generalizing idx with
  | nil => rfl
  | cons row rest ih =>
    have hrow : (row.flatMap emitElement).count (Out.text "0x") = row.length := by
      induction row with
      | nil => rfl
      | cons b bs ihb =>
        rw [List.flatMap_cons, List.count_append, ihb]
        simp [emitElement, List.count_cons, Nat.add_comm]
    simp only [emitRows, List.count_append, ih, hrow, List.flatten_cons, List.length_append]
    simp [List.count_cons]

/-! ### Two evaluations of the models -/

theorem analyze_example : analyze smallTable = some ⟨3, 9, 3, 5, 3, 16, 7, 10, 7, 2, 2⟩ := by
  decide

theorem emit_example :
    main.emit [56, 0, 255] = some (emitHead 3 ++
      [Out.text "/*", Out.num 16 4 '0' 0, Out.text "*/  ",
       Out.text "0x", Out.num 16 2 '0' 56, Out.text ", ",
       Out.text "0x", Out.num 16 2 '0' 0, Out.text ", ",
       Out.text "0x", Out.num 16 2 '0' 255, Out.text ", ", Out.endl,
       Out.text "\x7d;", Out.endl]) := by
  rfl

/-! ### The sets of the shipped table -/

theorem cmpB_eq : ∀ (a b : List Nat), cmpB a b = Ordering.eq → a = b
  | [], [], _ => rfl
  | [], _ :: _, h => by simp [cmpB] at h
  | _ :: _, [], h => by simp [cmpB] at h
  | a :: as, b :: bs, h => by
    simp only [cmpB] at h
    cases h1 : Nat.blt a b with
    | true => rw [h1] at h; simp at h
    | false =>
      rw [h1] at h
      cases h2 : Nat.blt b a with
      | true => rw [h2] at h; simp at h
      | false =>
        rw [h2] at h
        have e1 : ¬ a < b := by
          intro hlt; rw [← Nat.blt_eq] at hlt; rw [h1] at hlt; exact absurd hlt (by simp)
        have e2 : ¬ b < a := by
          intro hlt; rw [← Nat.blt_eq] at hlt; rw [h2] at hlt; exact absurd hlt (by simp)
        have e : a = b := by omega
        rw [e, cmpB_eq as bs h]

theorem find_treeOf (fuel : Nat) : ∀ (i : Nat) (l : List (List Nat)) (v : List Nat) (j : Nat),
    (treeOf fuel i l).find v = some j → i ≤ j ∧ l[j - i]? = some v := by
  induction fuel with
  | zero => intro i l v j h; simp [treeOf, STree.find] at h
  | succ fuel ih =>
    intro i l v j h
    simp only [treeOf] at h
    cases hd : l.drop (l.length / 2) with
    | nil => rw [hd] at h; simp [STree.find] at h
    | cons x r =>
      rw [hd] at h
      simp only [STree.find] at h
      have hx : l[l.length / 2]? = some x := by
        have := List.getElem?_drop l (l.length / 2) 0
        rw [hd] at this
        simpa using this.symm
      have hr : ∀ m : Nat, r[m]? = l[l.length / 2 + 1 + m]? := by
        intro m
        have := List.getElem?_drop l (l.length / 2) (m + 1)
        rw [hd] at this
        rw [show l.length / 2 + 1 + m = l.length / 2 + (m + 1) by omega, ← this]
        simp
      cases hc : cmpB v x with
      | lt =>
        rw [hc] at h
        obtain ⟨h1, h2⟩ := ih i _ v j h
        refine ⟨h1, ?_⟩
        rw [List.getElem?_take] at h2
        split_ifs at h2 with hlt
        · exact h2
      | gt =>
        rw [hc] at h
        obtain ⟨h1, h2⟩ := ih _ _ v j h
        refine ⟨by omega, ?_⟩
        rw [hr] at h2
        rw [← h2]
        congr 1
        omega
      | eq =>
        rw [hc] at h
        have hj : i + l.length / 2 = j := by simpa using h
        refine ⟨by omega, ?_⟩
        rw [cmpB_eq v x hc, ← hj, hx.symm]
        congr 1
        omega

theorem seen_spec (t : STree) (vals : List (List Nat)) : ∀ (m M : Nat),
    seen t vals m = some M →
    (∀ v ∈ vals, ∃ j, t.find v = some j) ∧
    (∀ j, M.testBit j = true → m.testBit j = true ∨ ∃ v ∈ vals, t.find v = some j) := by
  induction vals with
  | nil =>
    intro m M h
    simp only [seen, Option.some.injEq] at h
    subst h
    exact ⟨by simp, fun j hj => Or.inl hj⟩
  | cons v rest ih =>
    intro m M h
    simp only [seen] at h
    cases hf : t.find v with
    | none => rw [hf] at h; simp at h
    | some i =>
      rw [hf] at h
      obtain ⟨h1, h2⟩ := ih _ _ h
      refine ⟨?_, ?_⟩
      · intro w hw
        rcases List.mem_cons.1 hw with e | hm
        · exact ⟨i, by rw [e, hf]⟩
        · exact h1 w hm
      · intro j hj
        rcases h2 j hj with hb | ⟨w, hw, hfw⟩
        · rw [Nat.testBit_or, Bool.or_eq_true] at hb
          rcases hb with hb | hb
          · exact Or.inl hb
          · rw [Nat.one_shiftLeft, Nat.testBit_two_pow] at hb
            have : i = j := by simpa using hb
            exact Or.inr ⟨v, List.mem_cons_self _ _, by rw [hf, this]⟩
        · exact Or.inr ⟨w, List.mem_cons_of_mem _ hw, hfw⟩

theorem chainAsc_ascending : ∀ (S : List (List Nat)), chainAsc S = true → Ascending S
  | [], _ => List.Pairwise.nil
  | [a], _ => by simp [Ascending]
  | a :: b :: rest, h => by
    simp only [chainAsc, Bool.and_eq_true] at h
    have ih := chainAsc_ascending (b :: rest) h.2
    unfold Ascending at ih ⊢
    refine List.Pairwise.cons ?_ ih
    intro x hx
    rcases List.mem_cons.1 hx with e | hm
    · rw [e]; exact h.1
    · exact lexLess_trans a b x h.1 ((List.pairwise_cons.1 ih).1 x hm)

theorem coversB_spec (S vals : List (List Nat)) (h : coversB S vals = true) :
    Ascending S ∧ ∀ v, v ∈ S ↔ v ∈ vals := by
  simp only [coversB, Bool.and_eq_true, beq_iff_eq] at h
  obtain ⟨h1, h2⟩ := seen_spec _ _ _ _ h.2
  refine ⟨chainAsc_ascending S h.1, fun v => ⟨?_, ?_⟩⟩
  · intro hv
    obtain ⟨j, hj, hget⟩ := List.getElem_of_mem hv
    have hbit : (2 ^ S.length - 1).testBit j = true := by
      rw [Nat.testBit_two_pow_sub_one]; simpa using hj
    rcases h2 j hbit with hb | ⟨w, hw, hfw⟩
    · simp at hb
    · have := (find_treeOf _ 0 S w j hfw).2
      rw [Nat.sub_zero, List.getElem?_eq_getElem hj, hget] at this
      rw [Option.some.inj this]; exact hw
  · intro hv
    obtain ⟨j, hj⟩ := h1 v hv
    have := (find_treeOf _ 0 S v j hj).2
    exact mem_of_getElem? _ _ _ this

theorem mem_contextStrings (_rules : Nat → List TTSRule) (x : List Nat) :
    x ∈ contextStrings _rules ↔ ∃ e ∈ allRules _rules, x = e.left ∨ x = e.bracket ∨ x = e.right := by
  simp [contextStrings, List.mem_flatMap]

theorem strsOf_of_covers (_rules : Nat → List TTSRule) (S : List (List Nat))
    (h : coversB S (contextStrings _rules) = true) : strsOf _rules = S := by
  obtain ⟨h1, h2⟩ := coversB_spec _ _ h
  refine ascending_ext _ _ (ascending_strsOf _rules) h1 (fun x => ?_)
  rw [mem_strsOf, h2, mem_contextStrings]

theorem analyze_bins_of_covers (_rules : Nat → List TTSRule) (B : List (List Nat))
    (h : coversB B (phonemeStrings _rules) = true) : (analyzeLocals _rules).bins = B := by
  obtain ⟨h1, h2⟩ := coversB_spec _ _ h
  refine ascending_ext _ _ (ascending_analyze_bins _ _ (by simp [Ascending])) h1 (fun x => ?_)
  unfold analyzeLocals
  rw [mem_analyze_bins, h2]
  simp [phonemeStrings, eq_comm]

theorem foldl_max_spec (ns : List Nat) : ∀ (m : Nat),
    m ≤ ns.foldl max m ∧ (∀ n ∈ ns, n ≤ ns.foldl max m) ∧
    (ns.foldl max m = m ∨ ns.foldl max m ∈ ns) := by
  induction ns with
  | nil => intro m; simp
  | cons a rest ih =>
    intro m
    obtain ⟨h1, h2, h3⟩ := ih (max m a)
    simp only [List.foldl_cons, List.mem_cons]
    refine ⟨by omega, ?_, ?_⟩
    · intro n hn
      rcases hn with e | hm
      · omega
      · exact h2 n hm
    · rcases h3 with e | hm
      · rcases Nat.le_total m a with hle | hle
        · right; left; rw [e]; exact Nat.max_eq_right hle
        · left; rw [e]; exact Nat.max_eq_left hle
      · exact Or.inr (Or.inr hm)

theorem longest_of_check (vals : List (List Nat)) (M : Nat) (h : longestB vals M = true) :
    (vals.map List.length).foldl max 0 = M := by
  simp only [longestB, Bool.and_eq_true, List.all_eq_true, List.any_eq_true, Nat.ble_eq,
    Nat.beq_eq] at h
  obtain ⟨hall, v, hv, hM⟩ := h
  obtain ⟨_, h2, h3⟩ := foldl_max_spec (vals.map List.length) 0
  have hge : M ≤ (vals.map List.length).foldl max 0 := by
    rw [← hM]; exact h2 _ (List.mem_map_of_mem _ hv)
  rcases h3 with e | hm
  · omega
  · obtain ⟨w, hw, hlen⟩ := List.mem_map.1 hm
    have := hall w hw
    omega

theorem analyze_strLongest (rs : List TTSRule) : ∀ (v : analyze.Locals),
    (rs.foldl analyzeStep v).nStrLongest
      = ((rs.flatMap (fun e => [e.left, e.bracket, e.right])).map List.length).foldl max
          v.nStrLongest := by
  induction rs with
  | nil => intro v; rfl
  | cons e rest ih =>
    intro v
    rw [List.foldl_cons, ih]
    simp [analyzeStep, List.flatMap_cons]

theorem analyze_binLongest (rs : List TTSRule) : ∀ (v : analyze.Locals),
    (rs.foldl analyzeStep v).nBinLongest
      = ((rs.map (fun e => e._phone._phone)).map List.length).foldl max v.nBinLongest := by
  induction rs with
  | nil => intro v; rfl
  | cons e rest ih =>
    intro v
    rw [List.foldl_cons, ih]
    simp [analyzeStep, PhonSeq._len]

theorem analyze_nRules (rs : List TTSRule) : ∀ (v : analyze.Locals),
    (rs.foldl analyzeStep v).nRules = v.nRules + rs.length := by
  induction rs with
  | nil => intro v; rfl
  | cons e rest ih =>
    intro v
    rw [List.foldl_cons, ih]
    simp [analyzeStep]; omega

theorem analyzeLocals_nRules (_rules : Nat → List TTSRule) :
    (analyzeLocals _rules).nRules = (allRules _rules).length := by
  unfold analyzeLocals
  rw [analyze_nRules]
  simp

theorem analyzeLocals_strLongest (_rules : Nat → List TTSRule) (M : Nat)
    (h : longestB (contextStrings _rules) M = true) : (analyzeLocals _rules).nStrLongest = M := by
  unfold analyzeLocals
  rw [analyze_strLongest]
  exact longest_of_check _ _ h

theorem analyzeLocals_binLongest (_rules : Nat → List TTSRule) (M : Nat)
    (h : longestB (phonemeStrings _rules) M = true) : (analyzeLocals _rules).nBinLongest = M := by
  unfold analyzeLocals
  rw [analyze_binLongest]
  exact longest_of_check _ _ h

theorem shipped_strs_check : coversB shippedStrs (contextStrings tts_rules) = true := by decide!

theorem shipped_bins_check : coversB shippedBins (phonemeStrings tts_rules) = true := by decide!

theorem shipped_longest_check : longestB (contextStrings tts_rules) 8 = true ∧
    longestB (phonemeStrings tts_rules) 13 = true := by decide!

theorem shipped_sizes : shippedStrs.length = 485 ∧ shippedBins.length = 400 ∧
    (shippedStrs.map (fun x => 1 + x.length)).sum = 2035 ∧
    (shippedBins.map (fun x => 1 + x.length)).sum = 1646 := by decide!

theorem shipped_counters : (analyzeLocals tts_rules).nRules = 706 ∧
    (analyzeLocals tts_rules).nStrs = 2118 ∧ (analyzeLocals tts_rules).nBins = 706 ∧
    (analyzeLocals tts_rules).nStrsLen = 4901 ∧ (analyzeLocals tts_rules).nBinsLen = 2394 := by
  decide!

theorem shipped_wellFormed : WellFormed tts_rules ∧ PhonemeBytes tts_rules ∧
    ValuesFit tts_rules := by decide!

theorem report_eq {a1 a2 a3 a4 a5 a6 a7 a8 a9 a10 a11 b1 b2 b3 b4 b5 b6 b7 b8 b9 b10 b11 : Nat}
    (h1 : a1 = b1) (h2 : a2 = b2) (h3 : a3 = b3) (h4 : a4 = b4) (h5 : a5 = b5) (h6 : a6 = b6)
    (h7 : a7 = b7) (h8 : a8 = b8) (h9 : a9 = b9) (h10 : a10 = b10) (h11 : a11 = b11) :
    (some ⟨a1, a2, a3, a4, a5, a6, a7, a8, a9, a10, a11⟩ : Option analyze.Report)
      = some ⟨b1, b2, b3, b4, b5, b6, b7, b8, b9, b10, b11⟩ := by
  subst h1 h2 h3 h4 h5 h6 h7 h8 h9 h10 h11
  rfl

theorem blob_size {a b : Nat} (ha : a = 2035) (hb : b = 1646) :
    56 + 8 * 706 + (a + b) = 9385 := by
  subst ha hb; rfl

/-- The statistics of the shipped table: what `analyze` prints, and the sizes
of the sets and of the blob of the compiler. -/
theorem shipped_statistics :
    analyze tts_rules = some ⟨706, 2118, 706, 485, 400, 4901, 2394, 2035, 1646, 8, 13⟩ ∧
    (allRules tts_rules).length = 706 ∧
    (strsOf tts_rules).length = 485 ∧ (binsOf tts_rules).length = 400 ∧
    ((strsOf tts_rules).map (fun x => 1 + x.length)).sum = 2035 ∧
    ((binsOf tts_rules).map (fun x => 1 + x.length)).sum = 1646 ∧
    (blobOf tts_rules).length = 9385 := by
  obtain ⟨hwf, hpb, _⟩ := shipped_wellFormed
  obtain ⟨c1, c2, c3, c4, c5⟩ := shipped_counters
  obtain ⟨z1, z2, z3, z4⟩ := shipped_sizes
  have hs : strsOf tts_rules = shippedStrs := strsOf_of_covers _ _ shipped_strs_check
  have hs2 : (analyzeLocals tts_rules).strs = shippedStrs := (analyze_dstrs _).trans hs
  have hb : (analyzeLocals tts_rules).bins = shippedBins :=
    analyze_bins_of_covers _ _ shipped_bins_check
  have hd := analyze_dbins tts_rules hpb
  have l1 : (analyzeLocals tts_rules).nStrLongest = 8 :=
    analyzeLocals_strLongest _ _ shipped_longest_check.1
  have l2 : (analyzeLocals tts_rules).nBinLongest = 13 :=
    analyzeLocals_binLongest _ _ shipped_longest_check.2
  have hN : (allRules tts_rules).length = 706 :=
    (analyzeLocals_nRules tts_rules).symm.trans c1
  have hbl : (binsOf tts_rules).length = 400 := hd.1.symm.trans (hb.symm ▸ z2)
  have hbs : ((binsOf tts_rules).map (fun x => 1 + x.length)).sum = 1646 :=
    hd.2.symm.trans (hb.symm ▸ z4)
  have hsl : (strsOf tts_rules).length = 485 := hs.symm ▸ z1
  have hss : ((strsOf tts_rules).map (fun x => 1 + x.length)).sum = 2035 := hs.symm ▸ z3
  refine ⟨?_, hN, hsl, hbl, hss, hbs, ?_⟩
  · rw [analyze_eq _ hwf]
    exact report_eq c1 c2 c3 (hs2.symm ▸ z1) (hb.symm ▸ z2) c4 c5 (hs2.symm ▸ z3)
      (hb.symm ▸ z4) l1 l2
  · have hl := length_blobOf tts_rules
    have hdl : (dataOf tts_rules).length = ((strsOf tts_rules).map (fun x => 1 + x.length)).sum
        + ((binsOf tts_rules).map (fun x => 1 + x.length)).sum := by
      rw [dataOf, List.length_append, length_encAll, length_encAll]
    rw [hl, hdl, hN]
    exact blob_size hss hbs

theorem longest_bound (vals : List (List Nat)) (M : Nat) (h : longestB vals M = true) :
    ∀ v ∈ vals, v.length ≤ M := by
  simp only [longestB, Bool.and_eq_true, List.all_eq_true, Nat.ble_eq] at h
  exact h.1

/-- No context string of the shipped table has more than 8 bytes and no
phoneme sequence more than 13. -/
theorem shipped_longest :
    (∀ s ∈ strsOf tts_rules, s.length ≤ 8) ∧ (∀ p ∈ binsOf tts_rules, p.length ≤ 13) := by
  refine ⟨?_, ?_⟩
  · intro s hs
    exact longest_bound _ _ shipped_longest_check.1 s
      ((mem_contextStrings tts_rules s).2 ((mem_strsOf tts_rules s).1 hs))
  · intro p hp
    obtain ⟨e, he, rfl⟩ := (mem_binsOf tts_rules p).1 hp
    have := longest_bound _ _ shipped_longest_check.2 e._phone._phone
      (List.mem_map_of_mem _ he)
    simpa [TTSRule.phonemes] using this

theorem makeDeDups_sets (_rules : Nat → List TTSRule) (hwf : WellFormed _rules) :
    makeDeDups _rules [] [] = some (strsOf _rules, binsOf _rules) :=
  makeDeDups_eq _rules hwf [] []

/-! ## Claims C21 to C30 -/

/-- Claim C21. Deduplicator contract: started with empty sets, `makeDeDups`
returns a string set that holds `s` exactly when `s` is the left, bracket or
right string of some rule of some group, and a phoneme set that holds `p`
exactly when `p` is the un-biased phoneme sequence of some rule; both sets
hold every value once. -/
theorem C21_deduplicator_contract (_rules : Nat → List TTSRule) (hwf : WellFormed _rules) :
    ∃ strs bins, makeDeDups _rules [] [] = some (strs, bins) ∧
      (∀ s, s ∈ strs ↔ ∃ g, g < 27 ∧ ∃ e ∈ groupRules (_rules g),
        e._left = some s ∨ e._bracket = some s ∨ e._right = some s) ∧
      (∀ p, p ∈ bins ↔ ∃ g, g < 27 ∧ ∃ e ∈ groupRules (_rules g),
        p = e._phone._phone.map unbias) ∧
      strs.Nodup ∧ bins.Nodup := by
  refine ⟨strsOf _rules, binsOf _rules, makeDeDups_eq _rules hwf [] [], ?_, ?_,
    (ascending_strsOf _rules).nodup, (ascending_binsOf _rules).nodup⟩
  · intro s
    rw [mem_strsOf]
    constructor
    · rintro ⟨e, he, h⟩
      obtain ⟨g, hg, hm⟩ := (mem_allRules_iff _rules e).1 he
      obtain ⟨h1, h2, h3⟩ := groupRules_some _ (hwf g hg) e hm
      refine ⟨g, hg, e, hm, ?_⟩
      rcases h with rfl | rfl | rfl
      · exact Or.inl h1
      · exact Or.inr (Or.inl h2)
      · exact Or.inr (Or.inr h3)
    · rintro ⟨g, hg, e, hm, h⟩
      refine ⟨e, (mem_allRules_iff _rules e).2 ⟨g, hg, hm⟩, ?_⟩
      rcases h with h | h | h
      · exact Or.inl (by simp [TTSRule.left, h])
      · exact Or.inr (Or.inl (by simp [TTSRule.bracket, h]))
      · exact Or.inr (Or.inr (by simp [TTSRule.right, h]))
  · intro p
    rw [mem_binsOf]
    constructor
    · rintro ⟨e, he, h⟩
      obtain ⟨g, hg, hm⟩ := (mem_allRules_iff _rules e).1 he
      exact ⟨g, hg, e, hm, h⟩
    · rintro ⟨g, hg, e, hm, h⟩
      exact ⟨e, (mem_allRules_iff _rules e).2 ⟨g, hg, hm⟩, h⟩

/-- Witness of C21 on `smallTable`. -/
theorem C21_deduplicator_contract_witness :
    WellFormed smallTable ∧
    ∃ strs bins, makeDeDups smallTable [] [] = some (strs, bins) ∧
      (∀ s, s ∈ strs ↔ ∃ g, g < 27 ∧ ∃ e ∈ groupRules (smallTable g),
        e._left = some s ∨ e._bracket = some s ∨ e._right = some s) ∧
      (∀ p, p ∈ bins ↔ ∃ g, g < 27 ∧ ∃ e ∈ groupRules (smallTable g),
        p = e._phone._phone.map unbias) ∧
      strs.Nodup ∧ bins.Nodup :=
  ⟨by decide, C21_deduplicator_contract smallTable (by decide)⟩

/-- Claim C22. Diagnostic agreement: for a table whose phoneme bytes are
bytes, `analyze` returns its statistics, and they agree with the output of
the compiler: `dstrs` is the number of string entries of the data region,
`dbins` (counted on the biased bytes) is the number of phoneme entries
(built from the un-biased bytes), `dstrlen` and `dbinlen` are the byte
lengths of the string part and of the phoneme part, and `dstrlen + dbinlen`
is the byte length of the data region. -/
theorem C22_diagnostic_agreement (_rules : Nat → List TTSRule) (abyBlob : VEC_BYTE)
    (hwf : WellFormed _rules) (hbytes : PhonemeBytes _rules) :
    ∃ rep blob strs bins, analyze _rules = some rep ∧
      make_compact_ruleset _rules abyBlob = some blob ∧
      makeDeDups _rules [] [] = some (strs, bins) ∧
      blob.drop ((28 + 4 * (allRules _rules).length) * 2) = encAll strs ++ encAll bins ∧
      rep.dstrs = strs.length ∧ rep.dbins = bins.length ∧
      rep.dstrlen = (encAll strs).length ∧ rep.dbinlen = (encAll bins).length ∧
      rep.dstrlen + rep.dbinlen
        = (blob.drop ((28 + 4 * (allRules _rules).length) * 2)).length := by
  have hd := analyze_dbins _rules hbytes
  have hs := analyze_dstrs _rules
  have e : (28 + 4 * (allRules _rules).length) * 2 = 56 + 8 * (allRules _rules).length := by
    omega
  refine ⟨_, blobOf _rules, strsOf _rules, binsOf _rules, analyze_eq _rules hwf,
    make_compact_ruleset_eq _rules hwf abyBlob, makeDeDups_eq _rules hwf [] [], ?_, ?_, ?_, ?_,
    ?_, ?_⟩
  · rw [e, blobOf_drop_data]; rfl
  · show (analyzeLocals _rules).strs.length = _
    rw [hs]
  · exact hd.1
  · show ((analyzeLocals _rules).strs.map (fun x => 1 + x.length)).sum = _
    rw [hs, length_encAll]
  · show ((analyzeLocals _rules).bins.map (fun x => 1 + x.length)).sum = _
    rw [hd.2, length_encAll]
  · show ((analyzeLocals _rules).strs.map (fun x => 1 + x.length)).sum
      + ((analyzeLocals _rules).bins.map (fun x => 1 + x.length)).sum = _
    rw [e, blobOf_drop_data, dataOf, List.length_append, length_encAll, length_encAll, hs, hd.2]

/-- Witness of C22 on `smallTable`. -/
theorem C22_diagnostic_agreement_witness :
    WellFormed smallTable ∧ PhonemeBytes smallTable ∧
    ∃ rep blob strs bins, analyze smallTable = some rep ∧
      make_compact_ruleset smallTable [] = some blob ∧
      makeDeDups smallTable [] [] = some (strs, bins) ∧
      blob.drop ((28 + 4 * (allRules smallTable).length) * 2) = encAll strs ++ encAll bins ∧
      rep.dstrs = strs.length ∧ rep.dbins = bins.length ∧
      rep.dstrlen = (encAll strs).length ∧ rep.dbinlen = (encAll bins).length ∧
      rep.dstrlen + rep.dbinlen
        = (blob.drop ((28 + 4 * (allRules smallTable).length) * 2)).length :=
  ⟨by decide, by decide, C22_diagnostic_agreement smallTable [] (by decide) (by decide)⟩

/-- Claim C23. Blob size: for a table with `N` rules the blob has exactly
`(28 + 4 * N) * 2` bytes plus the data region, whose length is the sum of
`1 + length` over the distinct context strings plus the same sum over the
distinct un-biased phoneme sequences, whatever the lengths of the values. -/
theorem C23_blob_size (_rules : Nat → List TTSRule) (abyBlob : VEC_BYTE)
    (hwf : WellFormed _rules) :
    ∃ blob strs bins, make_compact_ruleset _rules abyBlob = some blob ∧
      makeDeDups _rules [] [] = some (strs, bins) ∧
      strs.Nodup ∧ (∀ s, s ∈ strs ↔ IsContextString _rules s) ∧
      bins.Nodup ∧ (∀ p, p ∈ bins ↔ IsPhonemeSeq _rules p) ∧
      (blob.drop ((28 + 4 * (allRules _rules).length) * 2)).length
        = (strs.map (fun x => 1 + x.length)).sum + (bins.map (fun x => 1 + x.length)).sum ∧
      blob.length = (28 + 4 * (allRules _rules).length) * 2
        + ((strs.map (fun x => 1 + x.length)).sum + (bins.map (fun x => 1 + x.length)).sum) := by
  refine ⟨blobOf _rules, strsOf _rules, binsOf _rules,
    make_compact_ruleset_eq _rules hwf abyBlob, makeDeDups_eq _rules hwf [] [],
    (ascending_strsOf _rules).nodup, mem_strsOf _rules,
    (ascending_binsOf _rules).nodup, mem_binsOf _rules, ?_, ?_⟩
  · have e : (28 + 4 * (allRules _rules).length) * 2 = 56 + 8 * (allRules _rules).length := by
      omega
    rw [e, blobOf_drop_data, dataOf, List.length_append, length_encAll, length_encAll]
  · have e : (28 + 4 * (allRules _rules).length) * 2 = 56 + 8 * (allRules _rules).length := by
      omega
    rw [length_blobOf, dataOf, List.length_append, length_encAll, length_encAll, e]

/-- Witness of C23 on `longTable`, which has a value of 256 bytes. -/
theorem C23_blob_size_witness :
    WellFormed longTable ∧
    ∃ blob strs bins, make_compact_ruleset longTable [] = some blob ∧
      makeDeDups longTable [] [] = some (strs, bins) ∧
      strs.Nodup ∧ (∀ s, s ∈ strs ↔ IsContextString longTable s) ∧
      bins.Nodup ∧ (∀ p, p ∈ bins ↔ IsPhonemeSeq longTable p) ∧
      (blob.drop ((28 + 4 * (allRules longTable).length) * 2)).length
        = (strs.map (fun x => 1 + x.length)).sum + (bins.map (fun x => 1 + x.length)).sum ∧
      blob.length = (28 + 4 * (allRules longTable).length) * 2
        + ((strs.map (fun x => 1 + x.length)).sum + (bins.map (fun x => 1 + x.length)).sum) :=
  ⟨wellFormed_longTable, C23_blob_size longTable [] wellFormed_longTable⟩

/-- Counterexample to C24 as stated: for the table of `tts_rules.c`, `analyze`
counts 485 distinct context strings (not 484) whose lengths plus one sum to
2035 (not 2033), and the blob has 9385 bytes (not 9383). -/
theorem C24_counterexample :
    ∃ rep blob, analyze tts_rules = some rep ∧ make_compact_ruleset tts_rules [] = some blob ∧
      rep.dstrs = 485 ∧ rep.dstrs ≠ 484 ∧ rep.dstrlen = 2035 ∧ rep.dstrlen ≠ 2033 ∧
      blob.length = 9385 ∧ blob.length ≠ 9383 := by
  obtain ⟨h1, _, _, _, _, _, h7⟩ := shipped_statistics
  refine ⟨_, blobOf tts_rules, h1, make_compact_ruleset_eq _ shipped_wellFormed.1 [], rfl,
    by decide, rfl, by decide, h7, ?_⟩
  rw [h7]; decide

/-- Claim C24, with the numbers of the table as it stands. Shipped table
statistics: the table of `tts_rules.c` is well formed and has 706 rules;
`analyze` prints 706 rules, 2118 strings, 706 phoneme sequences, 485 distinct
strings, 400 distinct phoneme sequences, raw lengths 4901 and 2394,
deduplicated lengths 2035 and 1646, longest string 8 and longest phoneme
sequence 13; the sets of the compiler have 485 and 400 elements, whose
lengths plus one sum to 2035 and 1646, no string has more than 8 bytes and no
phoneme sequence more than 13, so no value exceeds 255 bytes; the blob has
`56 + 8 * 706 + 2035 + 1646 = 9385` bytes, within the limit of 65,535. -/
theorem C24_shipped_table :
    WellFormed tts_rules ∧ ValuesFit tts_rules ∧
    analyze tts_rules = some ⟨706, 2118, 706, 485, 400, 4901, 2394, 2035, 1646, 8, 13⟩ ∧
    ∃ blob strs bins, make_compact_ruleset tts_rules [] = some blob ∧
      makeDeDups tts_rules [] [] = some (strs, bins) ∧
      (allRules tts_rules).length = 706 ∧ strs.length = 485 ∧ bins.length = 400 ∧
      (strs.map (fun x => 1 + x.length)).sum = 2035 ∧
      (bins.map (fun x => 1 + x.length)).sum = 1646 ∧
      (∀ s ∈ strs, s.length ≤ 8) ∧ (∀ p ∈ bins, p.length ≤ 13) ∧
      blob.length = 56 + 8 * 706 + 2035 + 1646 ∧ blob.length = 9385 ∧ blob.length ≤ 65535 := by
  obtain ⟨h1, h2, h3, h4, h5, h6, h7⟩ := shipped_statistics
  obtain ⟨hwf, _, hfit⟩ := shipped_wellFormed
  exact ⟨hwf, hfit, h1, blobOf tts_rules, strsOf tts_rules, binsOf tts_rules,
    make_compact_ruleset_eq _ hwf [], makeDeDups_sets _ hwf, h2, h3, h4, h5, h6,
    shipped_longest.1, shipped_longest.2, h7, h7, by rw [h7]; decide⟩

/-- Claim C25. Emission count: for every blob the emission part of `main`
returns; the array is declared with the length of the blob as its size, in
the header and in the definition; the dump consists of lines, each an index
comment followed by one `0x..` element per byte of a row and an end of line,
where the rows have at most 16 bytes each and are the blob cut into
consecutive pieces; so the output has exactly one element per byte of the
blob, in the order of the blob. -/
theorem C25_emission_count (abyBlob : VEC_BYTE) :
    ∃ (rows : List (List Nat)) (out : List Out), main.emit abyBlob = some out ∧
      out = emitHead abyBlob.length ++ emitRows 0 rows ++ [Out.text "\x7d;", Out.endl] ∧
      rows.flatten = abyBlob ∧ (∀ row ∈ rows, 0 < row.length ∧ row.length ≤ 16) ∧
      out.count (Out.text "0x") = abyBlob.length := by
  obtain ⟨rows, h1, h2, h3⟩ := emit_eq abyBlob
  refine ⟨rows, _, h3, rfl, h1, h2, ?_⟩
  rw [List.count_append, List.count_append, count_emitRows, h1]
  simp [emitHead, List.count_cons]

/-- Claim C26. Lookups never miss: in `make_compact_ruleset` every key that
`makeRulesetBlob` looks up (left, bracket and right of each rule in the
string index, the un-biased phoneme sequence in the phoneme index) is found,
being a member of the set collected by `makeDeDups` and indexed by
`makeStringBlob` / `makePhonemeBlob`; the subscript returns the indexed
offset and leaves the index as it is, so `makeRulesetBlob` returns both
indices unchanged.  (A lookup of an absent key would return 0 and enlarge the
index.) -/
theorem C26_lookups_never_miss (_rules : Nat → List TTSRule) (abyBlob : VEC_BYTE)
    (hwf : WellFormed _rules) :
    ∃ strs bins blob, makeDeDups _rules [] [] = some (strs, bins) ∧
      makeRulesetBlob _rules abyBlob
          (makePhonemeBlob (makeStringBlob [] strs []).1 bins []).1
          (makeStringBlob [] strs []).2
          (makePhonemeBlob (makeStringBlob [] strs []).1 bins []).2
        = some (blob, (makeStringBlob [] strs []).2,
            (makePhonemeBlob (makeStringBlob [] strs []).1 bins []).2) ∧
      make_compact_ruleset _rules abyBlob = some blob ∧
      (∀ e ∈ allRules _rules, ∀ f, f < 4 →
        (if f < 3 then e.value f ∈ strs else e.value f ∈ bins) ∧
        ∃ o, indexLookup strs bins e f = some o ∧
          (if f < 3 then mapIndex (makeStringBlob [] strs []).2 (e.value f)
              = (o, (makeStringBlob [] strs []).2)
           else mapIndex (makePhonemeBlob (makeStringBlob [] strs []).1 bins []).2 (e.value f)
              = (o, (makePhonemeBlob (makeStringBlob [] strs []).1 bins []).2))) ∧
      (∀ (m : List (List Nat × Nat)) (k : List Nat), mapFind k m = none →
        mapIndex m k = (0, mapInsert (k, 0) m) ∧ (mapIndex m k).2.length = m.length + 1) := by
  have hs : (makeStringBlob [] (strsOf _rules) []).2 = strsidxOf _rules := by
    rw [makeStringBlob_snd _ _ _ (ascending_strsOf _rules) (by simp)]; rfl
  have hp : (makePhonemeBlob (makeStringBlob [] (strsOf _rules) []).1 (binsOf _rules) []).2
      = binsidxOf _rules := by
    rw [makePhonemeBlob_eq_makeStringBlob,
      makeStringBlob_snd _ _ _ (ascending_binsOf _rules) (by simp), makeStringBlob_fst]
    rfl
  have hres := makeRulesetBlob_eq _rules hwf abyBlob
    (makePhonemeBlob (makeStringBlob [] (strsOf _rules) []).1 (binsOf _rules) []).1
    (strsidxOf _rules) (binsidxOf _rules) (keysIn_of _rules)
  have hd : (makePhonemeBlob (makeStringBlob [] (strsOf _rules) []).1 (binsOf _rules) []).1
      = dataOf _rules := dataBlobOf_eq (strsOf _rules) (binsOf _rules)
  refine ⟨strsOf _rules, binsOf _rules, blobOf _rules, makeDeDups_eq _rules hwf [] [],
    ?_, make_compact_ruleset_eq _rules hwf abyBlob, ?_, ?_⟩
  · rw [hs, hp, hres, hd]; rfl
  · intro e he f hf
    have hl := indexLookup_eq _rules e he f
    by_cases h3 : f < 3
    · simp only [h3, if_true]
      refine ⟨(mem_value _rules e he f).1 h3, relOffset _rules e f, hl, ?_⟩
      simp only [indexLookup, h3, if_true] at hl
      rw [mapIndex_found _ _ (by rw [hl]; rfl), hl]; rfl
    · simp only [h3, if_false]
      refine ⟨(mem_value _rules e he f).2 h3, relOffset _rules e f, hl, ?_⟩
      simp only [indexLookup, h3, if_false] at hl
      rw [value_phonemes e f h3]
      rw [mapIndex_found _ _ (by rw [hl]; rfl), hl]; rfl
  · intro m k hk
    have h1 : mapIndex m k = (0, mapInsert (k, 0) m) := by
      unfold mapIndex; rw [hk]
    exact ⟨h1, by rw [h1]; exact length_mapInsert_of_none (k, 0) m hk⟩

/-- Witness of C26 on `smallTable`. -/
theorem C26_lookups_never_miss_witness :
    WellFormed smallTable ∧
    ∃ strs bins blob, makeDeDups smallTable [] [] = some (strs, bins) ∧
      makeRulesetBlob smallTable []
          (makePhonemeBlob (makeStringBlob [] strs []).1 bins []).1
          (makeStringBlob [] strs []).2
          (makePhonemeBlob (makeStringBlob [] strs []).1 bins []).2
        = some (blob, (makeStringBlob [] strs []).2,
            (makePhonemeBlob (makeStringBlob [] strs []).1 bins []).2) ∧
      make_compact_ruleset smallTable [] = some blob ∧
      (∀ e ∈ allRules smallTable, ∀ f, f < 4 →
        (if f < 3 then e.value f ∈ strs else e.value f ∈ bins) ∧
        ∃ o, indexLookup strs bins e f = some o ∧
          (if f < 3 then mapIndex (makeStringBlob [] strs []).2 (e.value f)
              = (o, (makeStringBlob [] strs []).2)
           else mapIndex (makePhonemeBlob (makeStringBlob [] strs []).1 bins []).2 (e.value f)
              = (o, (makePhonemeBlob (makeStringBlob [] strs []).1 bins []).2))) ∧
      (∀ (m : List (List Nat × Nat)) (k : List Nat), mapFind k m = none →
        mapIndex m k = (0, mapInsert (k, 0) m) ∧ (mapIndex m k).2.length = m.length + 1) :=
  ⟨by decide, C26_lookups_never_miss smallTable [] (by decide)⟩

/-- Claim C27. Distinct values, distinct offsets: both value-to-offset
indices are injective, and when the blob is at most 65,535 bytes long two
context fields (left, bracket, right) holding the same offset have the same
string, two phoneme fields holding the same offset have the same un-biased
phoneme sequence. -/
theorem C27_distinct_offsets (_rules : Nat → List TTSRule) (abyBlob : VEC_BYTE)
    (hwf : WellFormed _rules) :
    ∃ blob strs bins, make_compact_ruleset _rules abyBlob = some blob ∧
      makeDeDups _rules [] [] = some (strs, bins) ∧
      (∀ v1 v2 o, mapFind v1 (makeStringBlob [] strs []).2 = some o →
        mapFind v2 (makeStringBlob [] strs []).2 = some o → v1 = v2) ∧
      (∀ v1 v2 o,
        mapFind v1 (makePhonemeBlob (makeStringBlob [] strs []).1 bins []).2 = some o →
        mapFind v2 (makePhonemeBlob (makeStringBlob [] strs []).1 bins []).2 = some o →
        v1 = v2) ∧
      (blob.length ≤ 65535 → ∀ g1 r1 e1 f1 g2 r2 e2 f2, g1 < 27 →
        (groupRules (_rules g1))[r1]? = some e1 → g2 < 27 →
        (groupRules (_rules g2))[r2]? = some e2 →
        (f1 < 3 ∧ f2 < 3) ∨ (f1 = 3 ∧ f2 = 3) →
        fieldAt blob g1 r1 f1 = fieldAt blob g2 r2 f2 → e1.value f1 = e2.value f2) := by
  refine ⟨blobOf _rules, strsOf _rules, binsOf _rules,
    make_compact_ruleset_eq _rules hwf abyBlob, makeDeDups_eq _rules hwf [] [], ?_, ?_, ?_⟩
  · rw [strsidx_eq]
    exact fun v1 v2 o => mapFind_offsets_inj 0 _ v1 v2 o
  · rw [binsidx_eq]
    exact fun v1 v2 o => mapFind_offsets_inj _ _ v1 v2 o
  · intro hlen g1 r1 e1 f1 g2 r2 e2 f2 hg1 he1 hg2 he2 hf heq
    have hm1 : e1 ∈ allRules _rules := mem_of_getElem? _ _ _ (allRules_get _rules g1 r1 hg1 e1 he1)
    have hm2 : e2 ∈ allRules _rules := mem_of_getElem? _ _ _ (allRules_get _rules g2 r2 hg2 e2 he2)
    rw [fieldAt_exact _rules hlen g1 r1 f1 e1 hg1 he1 (by omega),
      fieldAt_exact _rules hlen g2 r2 f2 e2 hg2 he2 (by omega)] at heq
    rcases hf with ⟨h1, h2⟩ | ⟨h1, h2⟩
    · have hr : offsetOf (e1.value f1) (strsOf _rules) = offsetOf (e2.value f2) (strsOf _rules) := by
        simp only [relOffset, h1, h2, if_true] at heq; omega
      exact offsetOf_inj _ _ _ ((mem_value _rules e1 hm1 f1).1 h1)
        ((mem_value _rules e2 hm2 f2).1 h2) hr
    · have n1 : ¬ f1 < 3 := by omega
      have n2 : ¬ f2 < 3 := by omega
      have hr : offsetOf e1.phonemes (binsOf _rules) = offsetOf e2.phonemes (binsOf _rules) := by
        simp only [relOffset, n1, n2, if_false] at heq; omega
      rw [value_phonemes e1 f1 n1, value_phonemes e2 f2 n2]
      have m1 := (mem_value _rules e1 hm1 f1).2 n1
      have m2 := (mem_value _rules e2 hm2 f2).2 n2
      rw [value_phonemes e1 f1 n1] at m1
      rw [value_phonemes e2 f2 n2] at m2
      exact offsetOf_inj _ _ _ m1 m2 hr

/-- Witness of C27 on `smallTable`. -/
theorem C27_distinct_offsets_witness :
    WellFormed smallTable ∧
    ∃ blob strs bins, make_compact_ruleset smallTable [] = some blob ∧
      makeDeDups smallTable [] [] = some (strs, bins) ∧
      (∀ v1 v2 o, mapFind v1 (makeStringBlob [] strs []).2 = some o →
        mapFind v2 (makeStringBlob [] strs []).2 = some o → v1 = v2) ∧
      (∀ v1 v2 o,
        mapFind v1 (makePhonemeBlob (makeStringBlob [] strs []).1 bins []).2 = some o →
        mapFind v2 (makePhonemeBlob (makeStringBlob [] strs []).1 bins []).2 = some o →
        v1 = v2) ∧
      blob.length ≤ 65535 ∧
      ∀ g1 r1 e1 f1 g2 r2 e2 f2, g1 < 27 →
        (groupRules (smallTable g1))[r1]? = some e1 → g2 < 27 →
        (groupRules (smallTable g2))[r2]? = some e2 →
        (f1 < 3 ∧ f2 < 3) ∨ (f1 = 3 ∧ f2 = 3) →
        fieldAt blob g1 r1 f1 = fieldAt blob g2 r2 f2 → e1.value f1 = e2.value f2 := by
  refine ⟨by decide, ?_⟩
  obtain ⟨blob, strs, bins, hb, hd, h1, h2, h⟩ := C27_distinct_offsets smallTable [] (by decide)
  exact ⟨blob, strs, bins, hb, hd, h1, h2, smallTable_blob_length blob hb,
    h (smallTable_blob_length blob hb)⟩

/-- Claim C28. Pointers stay in bounds: when every value has at most 255
bytes and the blob is at most 65,535 bytes long, each of the four fields of
every rule record holds an offset `o` with `table[27] ≤ o < blob length`; the
entries of the data region split into the entries in front of the value of
the field, that value, and the entries behind it, and `o` is `table[27]` plus
the byte length of the entries in front, so `o` is the offset of the length
byte of an entry; the length byte is the length of the value and
`o + 1 + blob[o] ≤ blob length`. -/
theorem C28_pointers_in_bounds (_rules : Nat → List TTSRule) (abyBlob : VEC_BYTE)
    (hwf : WellFormed _rules) :
    ∃ blob strs bins, make_compact_ruleset _rules abyBlob = some blob ∧
      makeDeDups _rules [] [] = some (strs, bins) ∧
      (ValuesFit _rules → blob.length ≤ 65535 →
        ∀ g r e f, g < 27 → (groupRules (_rules g))[r]? = some e → f < 4 →
          tableEntry blob 27 ≤ fieldAt blob g r f ∧ fieldAt blob g r f < blob.length ∧
          (∃ before after, strs ++ bins = before ++ e.value f :: after ∧
            blob.drop (tableEntry blob 27)
              = lengthPrefixed before ++ lengthPrefixed (e.value f :: after) ∧
            fieldAt blob g r f = tableEntry blob 27 + (lengthPrefixed before).length) ∧
          blob.getD (fieldAt blob g r f) 0 = (e.value f).length ∧
          fieldAt blob g r f + 1 + blob.getD (fieldAt blob g r f) 0 ≤ blob.length) := by
  refine ⟨blobOf _rules, strsOf _rules, binsOf _rules,
    make_compact_ruleset_eq _rules hwf abyBlob, makeDeDups_eq _rules hwf [] [], ?_⟩
  intro hfit hlen g r e f hg he hf
  have hmem : e ∈ allRules _rules := mem_of_getElem? _ _ _ (allRules_get _rules g r hg e he)
  have hlen2 := length_blobOf _rules
  have h27 := tableEntry_exact _rules (by omega) 27 (by omega)
  have h27b : tableEntry (blobOf _rules) 27 = 56 + 8 * (allRules _rules).length := h27
  have hrel := relOffset_lt _rules e hmem f
  have hfld := fieldAt_exact _rules hlen g r f e hg he hf
  have hvl : (e.value f).length ≤ 255 := hfit e hmem f hf
  obtain ⟨post, hpost⟩ := dataOf_drop _rules e hmem f
  obtain ⟨P, hP, hPl⟩ := blobOf_split _rules
  have hent := entry_at P (dataOf _rules) (relOffset _rules e f) (e.value f) post hpost
  have hbyte : (blobOf _rules).getD (fieldAt (blobOf _rules) g r f) 0 = (e.value f).length := by
    rw [hfld, ← hPl, ← hP] at *
    rw [hent.1]; exact Nat.mod_eq_of_lt (by omega)
  obtain ⟨before, after, hsp, hoff⟩ := relOffset_split _rules e hmem f
  refine ⟨by omega, by omega, ⟨before, after, hsp, ?_, by omega⟩, hbyte, by omega⟩
  rw [h27b, blobOf_drop_data, dataOf_eq_lengthPrefixed _rules hfit, ← lengthPrefixed_append, hsp,
    lengthPrefixed_append]

/-- Witness of C28 on `smallTable`. -/
theorem C28_pointers_in_bounds_witness :
    WellFormed smallTable ∧ ValuesFit smallTable ∧
    ∃ blob strs bins, make_compact_ruleset smallTable [] = some blob ∧
      makeDeDups smallTable [] [] = some (strs, bins) ∧ blob.length ≤ 65535 ∧
      ∀ g r e f, g < 27 → (groupRules (smallTable g))[r]? = some e → f < 4 →
        tableEntry blob 27 ≤ fieldAt blob g r f ∧ fieldAt blob g r f < blob.length ∧
        (∃ before after, strs ++ bins = before ++ e.value f :: after ∧
          blob.drop (tableEntry blob 27)
            = lengthPrefixed before ++ lengthPrefixed (e.value f :: after) ∧
          fieldAt blob g r f = tableEntry blob 27 + (lengthPrefixed before).length) ∧
        blob.getD (fieldAt blob g r f) 0 = (e.value f).length ∧
        fieldAt blob g r f + 1 + blob.getD (fieldAt blob g r f) 0 ≤ blob.length := by
  refine ⟨by decide, by decide, ?_⟩
  obtain ⟨blob, strs, bins, hb, hd, h⟩ := C28_pointers_in_bounds smallTable [] (by decide)
  exact ⟨blob, strs, bins, hb, hd, smallTable_blob_length blob hb,
    h (by decide) (smallTable_blob_length blob hb)⟩

/-- Claim C29. Kind separation: when the blob is at most 65,535 bytes long,
with `S` the byte length of the string part of the data region (the region
starts with the `S` bytes written by `makeStringBlob`), every left, bracket
and right field holds an offset in `[table[27], table[27] + S)` and every
phoneme field an offset in `[table[27] + S, blob length)`; so no context
field and phoneme field hold the same offset, whatever their bytes. -/
theorem C29_kind_separation (_rules : Nat → List TTSRule) (abyBlob : VEC_BYTE)
    (hwf : WellFormed _rules) :
    ∃ blob strs bins, make_compact_ruleset _rules abyBlob = some blob ∧
      makeDeDups _rules [] [] = some (strs, bins) ∧
      (blob.length ≤ 65535 →
        (blob.drop (tableEntry blob 27)).take (makeStringBlob [] strs []).1.length
          = (makeStringBlob [] strs []).1 ∧
        (∀ g r e f, g < 27 → (groupRules (_rules g))[r]? = some e → f < 3 →
          tableEntry blob 27 ≤ fieldAt blob g r f ∧
          fieldAt blob g r f < tableEntry blob 27 + (makeStringBlob [] strs []).1.length) ∧
        (∀ g r e, g < 27 → (groupRules (_rules g))[r]? = some e →
          tableEntry blob 27 + (makeStringBlob [] strs []).1.length ≤ fieldAt blob g r 3 ∧
          fieldAt blob g r 3 < blob.length) ∧
        (∀ g1 r1 e1 f1 g2 r2 e2, g1 < 27 → (groupRules (_rules g1))[r1]? = some e1 → f1 < 3 →
          g2 < 27 → (groupRules (_rules g2))[r2]? = some e2 →
          fieldAt blob g1 r1 f1 ≠ fieldAt blob g2 r2 3)) := by
  refine ⟨blobOf _rules, strsOf _rules, binsOf _rules,
    make_compact_ruleset_eq _rules hwf abyBlob, makeDeDups_eq _rules hwf [] [], ?_⟩
  intro hlen
  have hlen2 := length_blobOf _rules
  have h27 : tableEntry (blobOf _rules) 27 = 56 + 8 * (allRules _rules).length :=
    tableEntry_exact _rules (by omega) 27 (by omega)
  have hS : (makeStringBlob [] (strsOf _rules) []).1 = encAll (strsOf _rules) := by
    rw [makeStringBlob_fst, List.nil_append]
  have hctx : ∀ g r e f, g < 27 → (groupRules (_rules g))[r]? = some e → f < 3 →
      tableEntry (blobOf _rules) 27 ≤ fieldAt (blobOf _rules) g r f ∧
      fieldAt (blobOf _rules) g r f
        < tableEntry (blobOf _rules) 27 + (encAll (strsOf _rules)).length := by
    intro g r e f hg he hf
    have hmem : e ∈ allRules _rules := mem_of_getElem? _ _ _ (allRules_get _rules g r hg e he)
    have := offsetOf_lt (strsOf _rules) (e.value f) ((mem_value _rules e hmem f).1 hf)
    rw [fieldAt_exact _rules hlen g r f e hg he (by omega), h27]
    simp only [relOffset, hf, if_true]
    omega
  have hph : ∀ g r e, g < 27 → (groupRules (_rules g))[r]? = some e →
      tableEntry (blobOf _rules) 27 + (encAll (strsOf _rules)).length
        ≤ fieldAt (blobOf _rules) g r 3 ∧
      fieldAt (blobOf _rules) g r 3 < (blobOf _rules).length := by
    intro g r e hg he
    have hmem : e ∈ allRules _rules := mem_of_getElem? _ _ _ (allRules_get _rules g r hg e he)
    have := relOffset_lt _rules e hmem 3
    rw [fieldAt_exact _rules hlen g r 3 e hg he (by omega), h27]
    have h3 : relOffset _rules e 3
        = (encAll (strsOf _rules)).length + offsetOf e.phonemes (binsOf _rules) := by
      simp [relOffset]
    omega
  rw [hS]
  refine ⟨?_, hctx, hph, ?_⟩
  · rw [h27, blobOf_drop_data, dataOf, List.take_left' rfl]
  · intro g1 r1 e1 f1 g2 r2 e2 hg1 he1 hf1 hg2 he2 heq
    have a := hctx g1 r1 e1 f1 hg1 he1 hf1
    have b := hph g2 r2 e2 hg2 he2
    omega

/-- Witness of C29 on `smallTable`. -/
theorem C29_kind_separation_witness :
    WellFormed smallTable ∧
    ∃ blob strs bins, make_compact_ruleset smallTable [] = some blob ∧
      makeDeDups smallTable [] [] = some (strs, bins) ∧ blob.length ≤ 65535 ∧
      (blob.drop (tableEntry blob 27)).take (makeStringBlob [] strs []).1.length
        = (makeStringBlob [] strs []).1 ∧
      (∀ g r e f, g < 27 → (groupRules (smallTable g))[r]? = some e → f < 3 →
        tableEntry blob 27 ≤ fieldAt blob g r f ∧
        fieldAt blob g r f < tableEntry blob 27 + (makeStringBlob [] strs []).1.length) ∧
      (∀ g r e, g < 27 → (groupRules (smallTable g))[r]? = some e →
        tableEntry blob 27 + (makeStringBlob [] strs []).1.length ≤ fieldAt blob g r 3 ∧
        fieldAt blob g r 3 < blob.length) ∧
      (∀ g1 r1 e1 f1 g2 r2 e2, g1 < 27 → (groupRules (smallTable g1))[r1]? = some e1 → f1 < 3 →
        g2 < 27 → (groupRules (smallTable g2))[r2]? = some e2 →
        fieldAt blob g1 r1 f1 ≠ fieldAt blob g2 r2 3) := by
  refine ⟨by decide, ?_⟩
  obtain ⟨blob, strs, bins, hb, hd, h⟩ := C29_kind_separation smallTable [] (by decide)
  exact ⟨blob, strs, bins, hb, hd, smallTable_blob_length blob hb,
    h (smallTable_blob_length blob hb)⟩

/-- Claim C30. Empty string comes first: when the blob is at most 65,535
bytes long and some left, bracket or right field of some rule is the empty
string, the empty string is the first string of the set and the first entry
of the data region, the byte at `table[27]` is 0, and every context field
whose string is empty holds exactly `table[27]`. -/
theorem C30_empty_string_first (_rules : Nat → List TTSRule) (abyBlob : VEC_BYTE)
    (hwf : WellFormed _rules) :
    ∃ blob strs bins, make_compact_ruleset _rules abyBlob = some blob ∧
      makeDeDups _rules [] [] = some (strs, bins) ∧
      (blob.length ≤ 65535 →
        (∃ (g r : Nat) (e : TTSRule) (f : Nat), g < 27 ∧ (groupRules (_rules g))[r]? = some e ∧ f < 3 ∧ e.value f = []) →
        (∃ rest, strs = [] :: rest ∧
          blob.drop (tableEntry blob 27)
            = 0 :: (makePhonemeBlob (makeStringBlob [] rest []).1 bins []).1) ∧
        blob.getD (tableEntry blob 27) 0 = 0 ∧
        ∀ g r e f, g < 27 → (groupRules (_rules g))[r]? = some e → f < 3 → e.value f = [] →
          fieldAt blob g r f = tableEntry blob 27) := by
  refine ⟨blobOf _rules, strsOf _rules, binsOf _rules,
    make_compact_ruleset_eq _rules hwf abyBlob, makeDeDups_eq _rules hwf [] [], ?_⟩
  rintro hlen ⟨g0, r0, e0, f0, hg0, he0, hf0, hv0⟩
  have hlen2 := length_blobOf _rules
  have h27 : tableEntry (blobOf _rules) 27 = 56 + 8 * (allRules _rules).length :=
    tableEntry_exact _rules (by omega) 27 (by omega)
  have hmem0 : e0 ∈ allRules _rules :=
    mem_of_getElem? _ _ _ (allRules_get _rules g0 r0 hg0 e0 he0)
  have hnil : [] ∈ strsOf _rules := by
    have := (mem_value _rules e0 hmem0 f0).1 hf0
    rwa [hv0] at this
  obtain ⟨rest, hrest⟩ := ascending_head_nil _ (ascending_strsOf _rules) hnil
  have hdrop : (blobOf _rules).drop (tableEntry (blobOf _rules) 27)
      = 0 :: (makePhonemeBlob (makeStringBlob [] rest []).1 (binsOf _rules) []).1 := by
    rw [h27, blobOf_drop_data, dataOf, hrest]
    have := dataBlobOf_eq rest (binsOf _rules)
    unfold dataBlobOf at this
    rw [this]
    simp [encAll]
  refine ⟨⟨rest, hrest, hdrop⟩, ?_, ?_⟩
  · have h1 : (blobOf _rules).getD (tableEntry (blobOf _rules) 27) 0
        = ((blobOf _rules).drop (tableEntry (blobOf _rules) 27)).getD 0 0 := by
      simp [List.getD_eq_getElem?_getD, List.getElem?_drop]
    rw [h1, hdrop]; rfl
  · intro g r e f hg he hf hv
    rw [fieldAt_exact _rules hlen g r f e hg he (by omega), h27]
    simp only [relOffset, hf, if_true, hv, hrest, offsetOf]
    simp

/-- Witness of C30 on `smallTable`, whose first rule has an empty left
string. -/
theorem C30_empty_string_first_witness :
    WellFormed smallTable ∧
    ∃ blob strs bins, make_compact_ruleset smallTable [] = some blob ∧
      makeDeDups smallTable [] [] = some (strs, bins) ∧ blob.length ≤ 65535 ∧
      (∃ (g r : Nat) (e : TTSRule) (f : Nat), g < 27 ∧ (groupRules (smallTable g))[r]? = some e ∧ f < 3 ∧ e.value f = []) ∧
      (∃ rest, strs = [] :: rest ∧
        blob.drop (tableEntry blob 27)
          = 0 :: (makePhonemeBlob (makeStringBlob [] rest []).1 bins []).1) ∧
      blob.getD (tableEntry blob 27) 0 = 0 ∧
      ∀ g r e f, g < 27 → (groupRules (smallTable g))[r]? = some e → f < 3 → e.value f = [] →
        fieldAt blob g r f = tableEntry blob 27 := by
  refine ⟨by decide, ?_⟩
  obtain ⟨blob, strs, bins, hb, hd, h⟩ := C30_empty_string_first smallTable [] (by decide)
  have hex : ∃ (g r : Nat) (e : TTSRule) (f : Nat), g < 27 ∧ (groupRules (smallTable g))[r]? = some e ∧ f < 3 ∧
      e.value f = [] :=
    ⟨0, 0, ⟨some [], some [32], some [], ⟨[4, 3]⟩⟩, 0, by decide, by decide, by decide, by decide⟩
  exact ⟨blob, strs, bins, hb, hd, smallTable_blob_length blob hb, hex,
    h (smallTable_blob_length blob hb) hex⟩

/-! ## Further facts used by the claims C31 to C34 -/

theorem strsOf_eq_of_same (t1 t2 : Nat → List TTSRule)
    (hs : ∀ x, IsContextString t1 x ↔ IsContextString t2 x) : strsOf t1 = strsOf t2 :=
  ascending_ext _ _ (ascending_strsOf t1) (ascending_strsOf t2)
    (fun x => (mem_strsOf t1 x).trans ((hs x).trans (mem_strsOf t2 x).symm))

theorem binsOf_eq_of_same (t1 t2 : Nat → List TTSRule)
    (hp : ∀ x, IsPhonemeSeq t1 x ↔ IsPhonemeSeq t2 x) : binsOf t1 = binsOf t2 :=
  ascending_ext _ _ (ascending_binsOf t1) (ascending_binsOf t2)
    (fun x => (mem_binsOf t1 x).trans ((hp x).trans (mem_binsOf t2 x).symm))

theorem relOffset_eq_of_same (t1 t2 : Nat → List TTSRule) (hs : strsOf t1 = strsOf t2)
    (hb : binsOf t1 = binsOf t2) (e1 e2 : TTSRule) (f1 f2 : Nat)
    (hf : (f1 < 3 ∧ f2 < 3) ∨ (¬ f1 < 3 ∧ ¬ f2 < 3)) (hv : e1.value f1 = e2.value f2) :
    relOffset t1 e1 f1 = relOffset t2 e2 f2 := by
  rcases hf with ⟨a, b⟩ | ⟨a, b⟩
  · simp only [relOffset, a, b, if_true, hs, hv]
  · rw [value_phonemes e1 f1 a, value_phonemes e2 f2 b] at hv
    simp only [relOffset, a, b, if_false, hs, hb, hv]

theorem shuffledTable_blob_length (blob : VEC_BYTE)
    (hb : make_compact_ruleset shuffledTable [] = some blob) : blob.length ≤ 65535 := by
  have e : (make_compact_ruleset shuffledTable []).map (fun b => decide (b.length ≤ 65535))
      = some true := by decide
  rw [hb] at e
  simpa using e

theorem shuffledTable_sets :
    strsOf smallTable = strsOf shuffledTable ∧ binsOf smallTable = binsOf shuffledTable := by
  decide

theorem scan_dedups_ill (g : List TTSRule) (hg : wellFormedGroup g = false)
    (acc : SET_STR × SET_BLOB) : makeDeDups.scan g acc = none := by
  induction g generalizing acc with
  | nil => rfl
  | cons e rest ih =>
    obtain ⟨strs, bins⟩ := acc
    obtain ⟨l, b, r, p⟩ := e
    cases b with
    | none => simp [wellFormedGroup] at hg
    | some b =>
      cases l with
      | none => simp [makeDeDups.scan]
      | some l =>
        cases r with
        | none => simp [makeDeDups.scan]
        | some r =>
          simp only [wellFormedGroup, Option.isSome_some, Bool.true_and] at hg
          simp only [makeDeDups.scan]
          exact ih hg _

theorem make_compact_ruleset_ill (_rules : Nat → List TTSRule) (h : ¬ WellFormed _rules)
    (abyBlob : VEC_BYTE) : make_compact_ruleset _rules abyBlob = none := by
  unfold WellFormed at h
  push_neg at h
  obtain ⟨g, hg, hw⟩ := h
  have hw2 : wellFormedGroup (_rules g) = false := by simpa using hw
  unfold make_compact_ruleset makeDeDups
  rw [foldlM_none_of_mem _ g (fun s => scan_dedups_ill _ hw2 s) _ (List.mem_range.2 hg)]

theorem getD_append_cons (a : List Nat) (x : Nat) (b : List Nat) :
    (a ++ x :: b).getD a.length 0 = x := by
  rw [List.getD_eq_getElem?_getD, List.getElem?_append_right (Nat.le_refl _)]
  simp

theorem groupRules_marked (pre : List TTSRule) (s : TTSRule) (post : List TTSRule)
    (hpre : ∀ e ∈ pre, e._bracket.isSome = true) (hs : s._bracket = none) :
    groupRules (pre ++ s :: post) = pre := by
  induction pre with
  | nil => simp [groupRules, hs]
  | cons e rest ih =>
    have he := hpre e (List.mem_cons_self _ _)
    obtain ⟨b, hb⟩ := Option.isSome_iff_exists.1 he
    simp only [List.cons_append, groupRules, hb]
    exact congrArg _ (ih (fun x hx => hpre x (List.mem_cons_of_mem _ hx)))

theorem wellFormedGroup_marked (pre : List TTSRule) (s : TTSRule) (post : List TTSRule)
    (hpre : OnlyRules pre) (hs : s._bracket = none) :
    wellFormedGroup (pre ++ s :: post) = true := by
  induction pre with
  | nil => simp [wellFormedGroup, hs]
  | cons e rest ih =>
    obtain ⟨hb, hl, hr⟩ := hpre e (List.mem_cons_self _ _)
    obtain ⟨b, hb2⟩ := Option.isSome_iff_exists.1 hb
    simp only [List.cons_append, wellFormedGroup, hb2, hl, hr, Bool.true_and]
    exact ih (fun x hx => hpre x (List.mem_cons_of_mem _ hx))

theorem scan_dedups_marker (s : TTSRule) (post : List TTSRule) (hs : s._bracket = none)
    (acc : SET_STR × SET_BLOB) : makeDeDups.scan (s :: post) acc = some acc := by
  obtain ⟨strs, bins⟩ := acc
  simp [makeDeDups.scan, hs]

theorem scan_ruleset_marker (s : TTSRule) (post : List TTSRule) (hs : s._bracket = none)
    (st : VEC_BYTE × MAP_STR_OFFSET × MAP_BLOB_OFFSET) :
    makeRulesetBlob.scan (s :: post) st = some st := by
  obtain ⟨a, b, c⟩ := st
  simp [makeRulesetBlob.scan, hs]

/-! ## Claims C31 to C34 -/

/-- Claim C31. Data region depends only on the value sets: for two tables
with the same context strings and the same un-biased phoneme sequences,
`makeDeDups` returns the same two sets, the data regions of the two blobs
(the bytes behind the rule records) are equal, a value has the same offset in
the indices of both runs, and when both blobs are at most 65,535 bytes long
two fields of the same kind with the same value hold the same offset relative
to `table[27]`. -/
theorem C31_data_region_of_value_sets (t1 t2 : Nat → List TTSRule) (abyBlob1 abyBlob2 : VEC_BYTE)
    (h1 : WellFormed t1) (h2 : WellFormed t2)
    (hs : ∀ x, IsContextString t1 x ↔ IsContextString t2 x)
    (hp : ∀ x, IsPhonemeSeq t1 x ↔ IsPhonemeSeq t2 x) :
    ∃ blob1 blob2 strs bins, make_compact_ruleset t1 abyBlob1 = some blob1 ∧
      make_compact_ruleset t2 abyBlob2 = some blob2 ∧
      makeDeDups t1 [] [] = some (strs, bins) ∧ makeDeDups t2 [] [] = some (strs, bins) ∧
      blob1.drop (56 + 8 * (allRules t1).length) = blob2.drop (56 + 8 * (allRules t2).length) ∧
      blob1.drop (56 + 8 * (allRules t1).length)
        = (makePhonemeBlob (makeStringBlob [] strs []).1 bins []).1 ∧
      (∀ e1 e2 f1 f2, e1 ∈ allRules t1 → e2 ∈ allRules t2 →
        (f1 < 3 ∧ f2 < 3) ∨ (¬ f1 < 3 ∧ ¬ f2 < 3) → e1.value f1 = e2.value f2 →
        ∃ o, indexLookup strs bins e1 f1 = some o ∧ indexLookup strs bins e2 f2 = some o) ∧
      (blob1.length ≤ 65535 → blob2.length ≤ 65535 →
        ∀ g1 r1 e1 f1 g2 r2 e2 f2, g1 < 27 → (groupRules (t1 g1))[r1]? = some e1 → f1 < 4 →
          g2 < 27 → (groupRules (t2 g2))[r2]? = some e2 → f2 < 4 →
          (f1 < 3 ∧ f2 < 3) ∨ (¬ f1 < 3 ∧ ¬ f2 < 3) → e1.value f1 = e2.value f2 →
          tableEntry blob1 27 ≤ fieldAt blob1 g1 r1 f1 ∧
          tableEntry blob2 27 ≤ fieldAt blob2 g2 r2 f2 ∧
          fieldAt blob1 g1 r1 f1 - tableEntry blob1 27
            = fieldAt blob2 g2 r2 f2 - tableEntry blob2 27) := by
  have es := strsOf_eq_of_same t1 t2 hs
  have eb := binsOf_eq_of_same t1 t2 hp
  have hd : dataOf t1 = dataOf t2 := by unfold dataOf; rw [es, eb]
  refine ⟨blobOf t1, blobOf t2, strsOf t1, binsOf t1, make_compact_ruleset_eq t1 h1 abyBlob1,
    make_compact_ruleset_eq t2 h2 abyBlob2, makeDeDups_eq t1 h1 [] [], ?_, ?_, ?_, ?_, ?_⟩
  · rw [es, eb]; exact makeDeDups_eq t2 h2 [] []
  · rw [blobOf_drop_data, blobOf_drop_data, hd]
  · rw [blobOf_drop_data]; exact (dataBlobOf_eq (strsOf t1) (binsOf t1)).symm
  · intro e1 e2 f1 f2 he1 he2 hf hv
    refine ⟨relOffset t1 e1 f1, indexLookup_eq t1 e1 he1 f1, ?_⟩
    rw [es, eb, relOffset_eq_of_same t1 t2 es eb e1 e2 f1 f2 hf hv]
    exact indexLookup_eq t2 e2 he2 f2
  · intro hl1 hl2 g1 r1 e1 f1 g2 r2 e2 f2 hg1 he1 hf1 hg2 he2 hf2 hf hv
    have n1 := length_blobOf t1
    have n2 := length_blobOf t2
    have a1 : tableEntry (blobOf t1) 27 = 56 + 8 * (allRules t1).length :=
      tableEntry_exact t1 (by omega) 27 (by omega)
    have a2 : tableEntry (blobOf t2) 27 = 56 + 8 * (allRules t2).length :=
      tableEntry_exact t2 (by omega) 27 (by omega)
    rw [fieldAt_exact t1 hl1 g1 r1 f1 e1 hg1 he1 hf1, fieldAt_exact t2 hl2 g2 r2 f2 e2 hg2 he2 hf2,
      a1, a2, relOffset_eq_of_same t1 t2 es eb e1 e2 f1 f2 hf hv]
    omega

/-- Witness of C31: `smallTable` and `shuffledTable`. -/
theorem C31_data_region_of_value_sets_witness :
    WellFormed smallTable ∧ WellFormed shuffledTable ∧
    (∀ x, IsContextString smallTable x ↔ IsContextString shuffledTable x) ∧
    (∀ x, IsPhonemeSeq smallTable x ↔ IsPhonemeSeq shuffledTable x) ∧
    ∃ blob1 blob2 strs bins, make_compact_ruleset smallTable [] = some blob1 ∧
      make_compact_ruleset shuffledTable [] = some blob2 ∧
      makeDeDups smallTable [] [] = some (strs, bins) ∧
      makeDeDups shuffledTable [] [] = some (strs, bins) ∧
      blob1.drop (56 + 8 * (allRules smallTable).length)
        = blob2.drop (56 + 8 * (allRules shuffledTable).length) ∧
      blob1.drop (56 + 8 * (allRules smallTable).length)
        = (makePhonemeBlob (makeStringBlob [] strs []).1 bins []).1 ∧
      (∀ e1 e2 f1 f2, e1 ∈ allRules smallTable → e2 ∈ allRules shuffledTable →
        (f1 < 3 ∧ f2 < 3) ∨ (¬ f1 < 3 ∧ ¬ f2 < 3) → e1.value f1 = e2.value f2 →
        ∃ o, indexLookup strs bins e1 f1 = some o ∧ indexLookup strs bins e2 f2 = some o) ∧
      blob1.length ≤ 65535 ∧ blob2.length ≤ 65535 ∧
      ∀ g1 r1 e1 f1 g2 r2 e2 f2, g1 < 27 → (groupRules (smallTable g1))[r1]? = some e1 →
        f1 < 4 → g2 < 27 → (groupRules (shuffledTable g2))[r2]? = some e2 → f2 < 4 →
        (f1 < 3 ∧ f2 < 3) ∨ (¬ f1 < 3 ∧ ¬ f2 < 3) → e1.value f1 = e2.value f2 →
        tableEntry blob1 27 ≤ fieldAt blob1 g1 r1 f1 ∧
        tableEntry blob2 27 ≤ fieldAt blob2 g2 r2 f2 ∧
        fieldAt blob1 g1 r1 f1 - tableEntry blob1 27
          = fieldAt blob2 g2 r2 f2 - tableEntry blob2 27 := by
  have hs : ∀ x, IsContextString smallTable x ↔ IsContextString shuffledTable x := fun x =>
    (mem_strsOf smallTable x).symm.trans
      ((by rw [shuffledTable_sets.1] : x ∈ strsOf smallTable ↔ x ∈ strsOf shuffledTable).trans
        (mem_strsOf shuffledTable x))
  have hp : ∀ x, IsPhonemeSeq smallTable x ↔ IsPhonemeSeq shuffledTable x := fun x =>
    (mem_binsOf smallTable x).symm.trans
      ((by rw [shuffledTable_sets.2] : x ∈ binsOf smallTable ↔ x ∈ binsOf shuffledTable).trans
        (mem_binsOf shuffledTable x))
  refine ⟨by decide, by decide, hs, hp, ?_⟩
  obtain ⟨blob1, blob2, strs, bins, hb1, hb2, hd1, hd2, h3, h4, h5, h6⟩ :=
    C31_data_region_of_value_sets smallTable shuffledTable [] [] (by decide) (by decide) hs hp
  exact ⟨blob1, blob2, strs, bins, hb1, hb2, hd1, hd2, h3, h4, h5,
    smallTable_blob_length blob1 hb1, shuffledTable_blob_length blob2 hb2,
    h6 (smallTable_blob_length blob1 hb1) (shuffledTable_blob_length blob2 hb2)⟩

/-- Claim C32. Output buffer contents are irrelevant: for every table and
every initial content of the output vector the result of
`make_compact_ruleset` is the result for the empty vector; for a well-formed
table the call returns a blob, the same for every initial content, and a
second call on the vector holding that blob returns the same blob again. -/
theorem C32_output_buffer_irrelevant (_rules : Nat → List TTSRule) (abyBlob : VEC_BYTE) :
    make_compact_ruleset _rules abyBlob = make_compact_ruleset _rules [] ∧
    (WellFormed _rules → ∃ blob, make_compact_ruleset _rules [] = some blob ∧
      make_compact_ruleset _rules abyBlob = some blob ∧
      make_compact_ruleset _rules blob = some blob) := by
  refine ⟨?_, fun hwf => ⟨blobOf _rules, make_compact_ruleset_eq _rules hwf [],
    make_compact_ruleset_eq _rules hwf abyBlob, make_compact_ruleset_eq _rules hwf _⟩⟩
  by_cases hwf : WellFormed _rules
  · rw [make_compact_ruleset_eq _rules hwf abyBlob, make_compact_ruleset_eq _rules hwf []]
  · rw [make_compact_ruleset_ill _rules hwf abyBlob, make_compact_ruleset_ill _rules hwf []]

/-- Witness of C32 on `smallTable`, for a vector of three bytes and for a
vector of 90 bytes. -/
theorem C32_output_buffer_irrelevant_witness :
    WellFormed smallTable ∧
    (∃ blob, make_compact_ruleset smallTable [] = some blob ∧
      make_compact_ruleset smallTable [7, 8, 9] = some blob ∧
      make_compact_ruleset smallTable blob = some blob) ∧
    (∃ blob, make_compact_ruleset smallTable [] = some blob ∧
      make_compact_ruleset smallTable (List.replicate 90 255) = some blob ∧
      make_compact_ruleset smallTable blob = some blob) :=
  ⟨by decide, (C32_output_buffer_irrelevant smallTable [7, 8, 9]).2 (by decide),
    (C32_output_buffer_irrelevant smallTable (List.replicate 90 255)).2 (by decide)⟩

/-- Claim C33. Length prefix arithmetic: for values of any length,
`makeStringBlob` and `makePhonemeBlob` return the initial buffer followed, for
each value of the set in turn, by one byte holding the length of the value
modulo 256 and then the bytes of the value; so a value of `n` bytes takes
`1 + n` bytes, and its length byte is `n` exactly when `n ≤ 255`. -/
theorem C33_length_prefix (abyBlob : VEC_BYTE) (before : List (List Nat)) (v : List Nat)
    (after : List (List Nat)) (idx : List (List Nat × Nat)) :
    (makeStringBlob abyBlob (before ++ v :: after) idx).1
      = abyBlob ++ (before ++ v :: after).flatMap (fun u => (u.length % 256) :: u) ∧
    (makePhonemeBlob abyBlob (before ++ v :: after) idx).1
      = abyBlob ++ (before ++ v :: after).flatMap (fun u => (u.length % 256) :: u) ∧
    (makeStringBlob abyBlob (before ++ v :: after) idx).1
      = (makeStringBlob abyBlob before idx).1 ++ (v.length % 256) :: v
          ++ after.flatMap (fun u => (u.length % 256) :: u) ∧
    (makePhonemeBlob abyBlob (before ++ v :: after) idx).1
      = (makePhonemeBlob abyBlob before idx).1 ++ (v.length % 256) :: v
          ++ after.flatMap (fun u => (u.length % 256) :: u) ∧
    (makeStringBlob abyBlob (before ++ [v]) idx).1.length
      = (makeStringBlob abyBlob before idx).1.length + (1 + v.length) ∧
    (makePhonemeBlob abyBlob (before ++ [v]) idx).1.length
      = (makePhonemeBlob abyBlob before idx).1.length + (1 + v.length) ∧
    (makeStringBlob abyBlob (before ++ v :: after) idx).1.getD
        (makeStringBlob abyBlob before idx).1.length 0 = v.length % 256 ∧
    (makePhonemeBlob abyBlob (before ++ v :: after) idx).1.getD
        (makePhonemeBlob abyBlob before idx).1.length 0 = v.length % 256 ∧
    (v.length % 256 = v.length ↔ v.length ≤ 255) := by
  have hS : ∀ (l : List (List Nat)), (makeStringBlob abyBlob l idx).1
      = abyBlob ++ l.flatMap (fun u => (u.length % 256) :: u) :=
    fun l => makeStringBlob_fst abyBlob l idx
  have hP : ∀ (l : List (List Nat)), (makePhonemeBlob abyBlob l idx).1
      = abyBlob ++ l.flatMap (fun u => (u.length % 256) :: u) := by
    intro l
    rw [makePhonemeBlob_eq_makeStringBlob]; exact hS l
  have hsplit : abyBlob ++ (before ++ v :: after).flatMap (fun u => (u.length % 256) :: u)
      = (abyBlob ++ before.flatMap (fun u => (u.length % 256) :: u)) ++ (v.length % 256) :: v
          ++ after.flatMap (fun u => (u.length % 256) :: u) := by
    simp [List.flatMap_append, List.flatMap_cons, List.append_assoc]
  have hone : abyBlob ++ (before ++ [v]).flatMap (fun u => (u.length % 256) :: u)
      = (abyBlob ++ before.flatMap (fun u => (u.length % 256) :: u)) ++ (v.length % 256) :: v := by
    simp [List.flatMap_append, List.flatMap_cons, List.append_assoc]
  refine ⟨hS _, hP _, ?_, ?_, ?_, ?_, ?_, ?_, ?_⟩
  · rw [hS, hS, hsplit]
  · rw [hP, hP, hsplit]
  · rw [hS, hS, hone, List.length_append, List.length_cons]; omega
  · rw [hP, hP, hone, List.length_append, List.length_cons]; omega
  · rw [hS, hS, hsplit, List.append_assoc]
    exact getD_append_cons _ _ _
  · rw [hP, hP, hsplit, List.append_assoc]
    exact getD_append_cons _ _ _
  · constructor
    · intro h
      have := Nat.mod_lt v.length (by decide : 256 > 0)
      omega
    · intro h
      exact Nat.mod_eq_of_lt (by omega)

/-- Claim C34. Sentinel scan: for a group made of rules `pre`, an entry `s`
whose bracket pointer is null (whatever its other fields hold) and any entries
`post` behind it, the rules of the group are `pre`; the loop of `makeDeDups`
returns the sets after the rules `pre`, in their order, and the loop of
`makeRulesetBlob` returns the blob and the indices after the same rules in the
same order; `s` and `post` contribute nothing.  Two tables whose groups have
the same rules in front of the first null bracket give the same sets and the
same blob. -/
theorem C34_sentinel_scan (pre : List TTSRule) (s : TTSRule) (post : List TTSRule)
    (hpre : OnlyRules pre) (hs : s._bracket = none) :
    groupRules (pre ++ s :: post) = pre ∧
    (∀ acc, makeDeDups.scan (pre ++ s :: post) acc = some (pre.foldl dedupStep acc)) ∧
    (∀ st, makeRulesetBlob.scan (pre ++ s :: post) st = some (pre.foldl rulesetStep st)) ∧
    (∀ (s2 : TTSRule) (post2 : List TTSRule), s2._bracket = none →
      (∀ acc, makeDeDups.scan (pre ++ s2 :: post2) acc
        = makeDeDups.scan (pre ++ s :: post) acc) ∧
      (∀ st, makeRulesetBlob.scan (pre ++ s2 :: post2) st
        = makeRulesetBlob.scan (pre ++ s :: post) st)) ∧
    (∀ (t1 t2 : Nat → List TTSRule) (abyBlob : VEC_BYTE) (i : Nat), i < 27 →
      WellFormed t1 → t1 i = pre ++ s :: post →
      (∀ g, g < 27 → g ≠ i → t2 g = t1 g) →
      (∃ s2 post2, s2._bracket = none ∧ t2 i = pre ++ s2 :: post2) →
      ∃ strs bins blob, makeDeDups t1 [] [] = some (strs, bins) ∧
        makeDeDups t2 [] [] = some (strs, bins) ∧
        make_compact_ruleset t1 abyBlob = some blob ∧
        make_compact_ruleset t2 abyBlob = some blob) := by
  have hD : ∀ (s' : TTSRule) (post' : List TTSRule), s'._bracket = none →
      ∀ acc, makeDeDups.scan (pre ++ s' :: post') acc = some (pre.foldl dedupStep acc) := by
    intro s' post' hs' acc
    rw [scan_dedups_append pre _ hpre acc, scan_dedups_marker s' post' hs']
  have hR : ∀ (s' : TTSRule) (post' : List TTSRule), s'._bracket = none →
      ∀ st, makeRulesetBlob.scan (pre ++ s' :: post') st = some (pre.foldl rulesetStep st) := by
    intro s' post' hs' st
    rw [scan_ruleset_append pre _ hpre st, scan_ruleset_marker s' post' hs']
  have hb : ∀ e ∈ pre, e._bracket.isSome = true := fun e he => (hpre e he).1
  refine ⟨groupRules_marked pre s post hb hs, hD s post hs, hR s post hs, ?_, ?_⟩
  · intro s2 post2 hs2
    exact ⟨fun acc => by rw [hD s2 post2 hs2, hD s post hs],
      fun st => by rw [hR s2 post2 hs2, hR s post hs]⟩
  · rintro t1 t2 abyBlob i hi hwf1 ht1 hrest ⟨s2, post2, hs2, ht2⟩
    have hwf2 : WellFormed t2 := by
      intro g hg
      by_cases hgi : g = i
      · rw [hgi, ht2]; exact wellFormedGroup_marked pre s2 post2 hpre hs2
      · rw [hrest g hg hgi]; exact hwf1 g hg
    have hgr : ∀ g, g < 27 → groupRules (t1 g) = groupRules (t2 g) := by
      intro g hg
      by_cases hgi : g = i
      · rw [hgi, ht1, ht2, groupRules_marked pre s post hb hs,
          groupRules_marked pre s2 post2 hb hs2]
      · rw [hrest g hg hgi]
    have hall : allRules t1 = allRules t2 := rulesUpTo_congr t1 t2 27 hgr
    refine ⟨strsOf t1, binsOf t1, blobOf t1, makeDeDups_eq t1 hwf1 [] [], ?_,
      make_compact_ruleset_eq t1 hwf1 abyBlob, ?_⟩
    · have := makeDeDups_eq t2 hwf2 [] []
      rw [← hall] at this
      exact this
    · rw [blobOf_congr t1 t2 hgr]; exact make_compact_ruleset_eq t2 hwf2 abyBlob

/-- Witness of C34 on `markedGroup`: two rules, an end marker whose left,
right and phoneme fields are not null, and a rule and a sentinel behind it. -/
theorem C34_sentinel_scan_witness :
    OnlyRules [⟨some [36], some [97], some [36], ⟨[8, 21]⟩⟩,
      ⟨some [], some [97, 98], some [32], ⟨[]⟩⟩] ∧
    (⟨some [120], none, some [121], ⟨[9]⟩⟩ : TTSRule)._bracket = none ∧
    groupRules markedGroup
      = [⟨some [36], some [97], some [36], ⟨[8, 21]⟩⟩, ⟨some [], some [97, 98], some [32], ⟨[]⟩⟩] ∧
    (∀ acc, makeDeDups.scan markedGroup acc
      = some (([⟨some [36], some [97], some [36], ⟨[8, 21]⟩⟩,
          ⟨some [], some [97, 98], some [32], ⟨[]⟩⟩] : List TTSRule).foldl dedupStep acc)) ∧
    (∀ st, makeRulesetBlob.scan markedGroup st
      = some (([⟨some [36], some [97], some [36], ⟨[8, 21]⟩⟩,
          ⟨some [], some [97, 98], some [32], ⟨[]⟩⟩] : List TTSRule).foldl rulesetStep st)) ∧
    ∃ strs bins blob, makeDeDups markedTable [] [] = some (strs, bins) ∧
      makeDeDups smallTable [] [] = some (strs, bins) ∧
      make_compact_ruleset markedTable [] = some blob ∧
      make_compact_ruleset smallTable [] = some blob := by
  have h := C34_sentinel_scan
    [⟨some [36], some [97], some [36], ⟨[8, 21]⟩⟩, ⟨some [], some [97, 98], some [32], ⟨[]⟩⟩]
    ⟨some [120], none, some [121], ⟨[9]⟩⟩ [⟨some [122], some [122], some [122], ⟨[7]⟩⟩, sentinel]
    (by decide) rfl
  refine ⟨by decide, rfl, h.1, h.2.1, h.2.2.1, ?_⟩
  exact h.2.2.2.2 markedTable smallTable [] 3 (by decide) (by decide) rfl
    (fun g hg hne => by
      simp only [smallTable, markedTable, hne, if_false])
    ⟨sentinel, [], rfl, rfl⟩

end TTS
